import Mathlib

/-!
# matrixone: object writer, stats cache and filter cardinality estimator

A shallow embedding of `pkg/sql/plan/stats.go`, `pkg/vm/engine/disttae/stats.go`,
`pkg/objectio/writer.go`, `pkg/sql/plan/function/builtin/seq/nextval.go`,
`pkg/vm/engine/tae/compute/compute.go` and the load and partition loops of
`pkg/vm/engine/tae/tables/jobs/mergeblocks.go`, and the properties of the
specification that are checked against it.

Conventions of the embedding.

* Go `float64` is `F64`: NaN, the two infinities, and finite values kept as
  exact rationals.  Comparisons and the special cases of the arithmetic
  (division by zero, `0 * Inf`, `Inf - Inf`) follow IEEE-754; rounding,
  overflow of finite results and the sign of zero are not modelled.
* A Go panic (index out of range, nil dereference, explicit `panic`) is the
  result `none`.
* Fixed-width unsigned integers are `Nat` reduced with `% 2^w` where the
  source computes in that width; the integers of a sequence are `Int` reduced
  into the range of their type.
* Go `int` and `int64` counters are unbounded integers: slice lengths and row
  counts stay far below 2^62.
* A `*roaring.Bitmap` is the list of its `uint32` elements in ascending order,
  `none` when the pointer is nil.
* Functions the source calls but that live outside the embedded files are
  fields of a parameter record.
-/

/-! ## float64 -/

/-- Go `float64`, with finite values as exact rationals. -/
inductive F64 where
  | nan : F64
  | ninf : F64
  | fin (q : ℚ) : F64
  | pinf : F64
deriving DecidableEq

namespace F64

instance : Inhabited F64 := ⟨fin 0⟩
instance (n : Nat) : OfNat F64 n := ⟨fin n⟩
instance : OfScientific F64 := ⟨fun m s e => fin (OfScientific.ofScientific m s e)⟩

/-- Go `x < y` on float64: false as soon as an operand is NaN. -/
def lt : F64 → F64 → Bool
  | nan, _ => false
  | _, nan => false
  | ninf, ninf => false
  | ninf, _ => true
  | fin _, ninf => false
  | fin a, fin b => decide (a < b)
  | fin _, pinf => true
  | pinf, _ => false

/-- Go `x > y` on float64. -/
def gt (x y : F64) : Bool := lt y x

/-- Go `x <= y` on float64: false as soon as an operand is NaN. -/
def le : F64 → F64 → Bool
  | nan, _ => false
  | _, nan => false
  | ninf, _ => true
  | fin _, ninf => false
  | fin a, fin b => decide (a ≤ b)
  | fin _, pinf => true
  | pinf, pinf => true
  | pinf, _ => false

/-- Go `x == y` on float64: NaN is not equal to itself. -/
def eq : F64 → F64 → Bool
  | nan, _ => false
  | _, nan => false
  | x, y => decide (x = y)

/-- Unary minus. -/
def neg : F64 → F64
  | nan => nan
  | ninf => pinf
  | fin a => fin (-a)
  | pinf => ninf

/-- Go `x + y`. -/
def add : F64 → F64 → F64
  | nan, _ => nan
  | _, nan => nan
  | pinf, ninf => nan
  | ninf, pinf => nan
  | pinf, _ => pinf
  | _, pinf => pinf
  | ninf, _ => ninf
  | _, ninf => ninf
  | fin a, fin b => fin (a + b)

/-- Go `x - y`. -/
def sub (x y : F64) : F64 := add x (neg y)

/-- The infinity with the sign of `s * q` for an infinity of sign `s`; NaN when `q = 0`. -/
def infTimes (positive : Bool) (q : ℚ) : F64 :=
  if q = 0 then nan else if (decide (0 < q)) = positive then pinf else ninf

/-- Go `x * y`. -/
def mul : F64 → F64 → F64
  | nan, _ => nan
  | _, nan => nan
  | pinf, pinf => pinf
  | ninf, ninf => pinf
  | pinf, ninf => ninf
  | ninf, pinf => ninf
  | pinf, fin b => infTimes true b
  | ninf, fin b => infTimes false b
  | fin a, pinf => infTimes true a
  | fin a, ninf => infTimes false a
  | fin a, fin b => fin (a * b)

/-- Go `x / y`; a zero divisor is taken as `+0`. -/
def div : F64 → F64 → F64
  | nan, _ => nan
  | _, nan => nan
  | pinf, pinf => nan
  | pinf, ninf => nan
  | ninf, pinf => nan
  | ninf, ninf => nan
  | pinf, fin b => if b < 0 then ninf else pinf
  | ninf, fin b => if b < 0 then pinf else ninf
  | fin _, pinf => fin 0
  | fin _, ninf => fin 0
  | fin a, fin b =>
    if b = 0 then (if a = 0 then nan else if 0 < a then pinf else ninf) else fin (a / b)

instance : Add F64 := ⟨add⟩
instance : Sub F64 := ⟨sub⟩
instance : Mul F64 := ⟨mul⟩
instance : Div F64 := ⟨div⟩

/-- The Go library function `math.Max`: an infinite `+Inf` operand decides before a NaN
one, as in the library. -/
def max : F64 → F64 → F64
  | pinf, _ => pinf
  | _, pinf => pinf
  | nan, _ => nan
  | _, nan => nan
  | x, y => if lt y x then x else y

/-- The Go library function `math.Min`: an infinite `-Inf` operand decides before a NaN
one, as in the library. -/
def min : F64 → F64 → F64
  | ninf, _ => ninf
  | _, ninf => ninf
  | nan, _ => nan
  | _, nan => nan
  | x, y => if lt x y then x else y

/-- Go `float64(i)` for an integer `i`. -/
def ofInt (i : Int) : F64 := fin i

end F64

/-! ## `pkg/sql/plan/stats.go` -/

namespace plan

/-- A Go `map[string]V`: `none` at a key that is absent. -/
abbrev GoMap (V : Type) := String → Option V

/-- The assignment `m[k] = v`. -/
def GoMap.set {V : Type} (m : GoMap V) (k : String) (v : V) : GoMap V :=
  fun k' => if k' = k then some v else m k'

/-- The read `m[k]` of a float map: the zero value at an absent key. -/
def GoMap.getF (m : GoMap F64) (k : String) : F64 := (m k).getD 0

/-- The type tags `types.T` that the embedded files name. -/
inductive T where
  | T_any | T_bool
  | T_int8 | T_int16 | T_int32 | T_int64
  | T_uint8 | T_uint16 | T_uint32 | T_uint64
  | T_float32 | T_float64
  | T_decimal64 | T_decimal128
  | T_date | T_time | T_datetime | T_timestamp
  | T_char | T_varchar | T_json | T_uuid | T_blob | T_text
  | T_other (oid : Nat)
deriving DecidableEq

/-- The record `StatsInfoMap`; its maps are the ones allocated by `NewStatsInfoMap`. -/
structure StatsInfoMap where
  NdvMap : GoMap F64
  MinValMap : GoMap F64
  MaxValMap : GoMap F64
  DataTypeMap : GoMap T
  BlockNumber : Int
  TableCnt : F64
  tableName : String

/-- `NewStatsInfoMap`. -/
def NewStatsInfoMap : StatsInfoMap :=
  { NdvMap := fun _ => none, MinValMap := fun _ => none, MaxValMap := fun _ => none,
    DataTypeMap := fun _ => none, BlockNumber := 0, TableCnt := 0, tableName := "" }

/-- `StatsInfoMap.NeedUpdate`. -/
def StatsInfoMap.NeedUpdate (sc : StatsInfoMap) (currentBlockNum : Int) : Bool :=
  if sc.BlockNumber = 0 ∨ sc.BlockNumber ≠ currentBlockNum then true else false

/-- A zone map: its raw bytes. -/
abbrev ZoneMap := List Nat

/-- `types.Type`, of which the tag and the scale are read. -/
structure Type_ where
  Oid : T
  Scale : Int := 0

/-- `InfoFromZoneMap`. -/
structure InfoFromZoneMap where
  ColumnZMs : List ZoneMap
  DataTypes : List Type_
  ColumnNDVs : List F64

/-- A column definition of a table: its name, its seqnum and the id of its type. -/
structure ColDef where
  Name : String
  Seqnum : Nat := 0
  TypId : Int := 0

/-- `plan.ClusterByDef`, of which the name is read. -/
structure ClusterByDef where
  Name : String

/-- `plan.TableDef`, with the fields the embedded functions read; `ClusterBy` is `none`
when the pointer is nil. -/
structure TableDef where
  Name : String
  Cols : List ColDef
  ClusterBy : Option ClusterByDef := none
  TblId : Nat := 0

/-- The zone-map accessors and the fixed-width decoders of package `types`,
which are outside the embedded files. -/
structure ZMCodec where
  GetMinBuf : ZoneMap → List Nat
  GetMaxBuf : ZoneMap → List Nat
  DecodeInt8 : List Nat → Int
  DecodeInt16 : List Nat → Int
  DecodeInt32 : List Nat → Int
  DecodeInt64 : List Nat → Int
  DecodeUint8 : List Nat → Int
  DecodeUint16 : List Nat → Int
  DecodeUint32 : List Nat → Int
  DecodeUint64 : List Nat → Int
  DecodeDate : List Nat → Int

/-- The decoder that the type switch of `UpdateStatsInfoMap` selects, if any. -/
def ZMCodec.decoderFor (cd : ZMCodec) : T → Option (List Nat → Int)
  | .T_int8 => some cd.DecodeInt8
  | .T_int16 => some cd.DecodeInt16
  | .T_int32 => some cd.DecodeInt32
  | .T_int64 => some cd.DecodeInt64
  | .T_uint8 => some cd.DecodeUint8
  | .T_uint16 => some cd.DecodeUint16
  | .T_uint32 => some cd.DecodeUint32
  | .T_uint64 => some cd.DecodeUint64
  | .T_date => some cd.DecodeDate
  | _ => none

/-- One iteration of the column loop of `UpdateStatsInfoMap`, for column `i`. -/
def updateColumn (cd : ZMCodec) (info : InfoFromZoneMap) (i : Nat) (coldef : ColDef)
    (s : StatsInfoMap) : Option StatsInfoMap := do
  let colName := coldef.Name
  let ndv ← info.ColumnNDVs[i]?
  let s := { s with NdvMap := s.NdvMap.set colName ndv }
  let ty ← info.DataTypes[i]?
  let s := { s with DataTypeMap := s.DataTypeMap.set colName ty.Oid }
  match cd.decoderFor ty.Oid with
  | some dec =>
    let zm ← info.ColumnZMs[i]?
    let s := { s with MinValMap := s.MinValMap.set colName (F64.ofInt (dec (cd.GetMinBuf zm))) }
    let zm ← info.ColumnZMs[i]?
    pure { s with MaxValMap := s.MaxValMap.set colName (F64.ofInt (dec (cd.GetMaxBuf zm))) }
  | none => pure s

/-- The column loop of `UpdateStatsInfoMap` over `cols`, the first of which has index `i`. -/
def updateColumns (cd : ZMCodec) (info : InfoFromZoneMap) :
    Nat → List ColDef → StatsInfoMap → Option StatsInfoMap
  | _, [], s => some s
  | i, coldef :: rest, s => do
    let s ← updateColumn cd info i coldef s
    updateColumns cd info (i + 1) rest s

/-- `UpdateStatsInfoMap`; `none` when the slice `Cols[:len-1]` or an index panics. -/
def UpdateStatsInfoMap (cd : ZMCodec) (info : InfoFromZoneMap) (blockNumTotal : Int)
    (tableCnt : F64) (tableDef : TableDef) (s : StatsInfoMap) : Option StatsInfoMap :=
  let s := { s with BlockNumber := blockNumTotal }
  let s := { s with TableCnt := tableCnt }
  let s := { s with tableName := tableDef.Name }
  if tableDef.Cols.length = 0 then none
  else updateColumns cd info 0 (tableDef.Cols.take (tableDef.Cols.length - 1)) s

/-- A literal value `plan.Const_*` inside a constant expression. -/
inductive ConstValue where
  | I64Val (v : Int)
  | U64Val (v : Nat)
  | Dateval (v : Int)
  | OtherVal
deriving DecidableEq

/-- `plan.Const`. -/
structure Const where
  Isnull : Bool
  Value : ConstValue
deriving DecidableEq

/-- `plan.ColRef`. -/
structure ColRef where
  RelPos : Int
  ColPos : Int
  Name : String
deriving DecidableEq

/-- A value of type `*plan.Expr`: the nil pointer, or an expression with its type id
and one of the alternatives `Expr_C`, `Expr_Col`, `Expr_F`, or any other. -/
inductive Expr where
  | null : Expr
  | C (typ : Int) (c : Const) : Expr
  | Col (typ : Int) (col : ColRef) : Expr
  | F (typ : Int) (ObjName : String) (Args : List Expr) : Expr
  | Other (typ : Int) : Expr

/-- `plan.Node_NodeType`: the node types that the embedded functions name, and any other. -/
inductive NodeType where
  | JOIN | AGG | UNION | UNION_ALL | INTERSECT | INTERSECT_ALL | MINUS | MINUS_ALL
  | VALUE_SCAN | SINK_SCAN | EXTERNAL_SCAN | TABLE_SCAN | FILTER | FUNCTION_SCAN
  | other (k : Nat)
deriving DecidableEq

/-- `plan.Node_JoinType`. -/
inductive JoinType where
  | INNER | LEFT | RIGHT | OUTER | SEMI | ANTI | SINGLE | MARK
deriving DecidableEq

/-- `plan.Stats`. -/
structure Stats where
  BlockNum : Int := 0
  Cost : F64 := 0
  Outcnt : F64 := 0
  HashmapSize : F64 := 0
  Selectivity : F64 := 0
  TableCnt : F64 := 0
deriving DecidableEq

/-- `plan.RowsetData`: for each column of `Cols` the number of its data items,
`len(col.Data)`. -/
structure RowsetData where
  Cols : List Nat

/-- `plan.Node`, with the fields the embedded functions read or write; `Stats`,
`RowsetData`, `ObjRef` and `TableDef` are `none` when the pointer is nil. An object
reference is represented by a number. -/
structure Node where
  NodeType : NodeType := .other 0
  NodeId : Int := 0
  Children : List Int := []
  JoinType : JoinType := .INNER
  OnList : List Expr := []
  BuildOnLeft : Bool := false
  Stats : Option Stats := none
  GroupBy : List Expr := []
  RowsetData : Option RowsetData := none
  SourceStep : Int := 0
  ObjRef : Option Nat := none
  FilterList : List Expr := []
  TableDef : Option TableDef := none

/-- `plan.Query`, of which the node table is read: `Nodes[id]` is the node `id`. -/
structure Query where
  Nodes : List Node := []

/-- The read `qry.Nodes[nodeID]`; `none` when the index is out of range. -/
def Query.node (qry : Query) (nodeID : Int) : Option Node :=
  if nodeID < 0 then none else qry.Nodes[nodeID.toNat]?

/-- A binding of a bind context: a table id and its column names. -/
structure Binding where
  tableID : Nat
  cols : List String

/-- What `getColNdv` reads of a `QueryBuilder`: the stats cache of the compile
context (`none` when it is nil) and the bindings by node and tag. -/
structure QueryBuilder where
  statsCache : Option (Nat → StatsInfoMap)
  ctxByNode : Int → Option (Int → Option Binding)
  qry : Query := {}

/-- The effect of a write through the pointer `builder.qry.Nodes[nodeID]`. -/
def QueryBuilder.setNode (builder : QueryBuilder) (nodeID : Int) (node : Node) : QueryBuilder :=
  { builder with qry := { builder.qry with Nodes := builder.qry.Nodes.set nodeID.toNat node } }

/-- Functions of the planner and of the Go library that the estimator calls and
that are outside the embedded files. A returned pointer is `none` when nil. -/
structure Helpers where
  Pow : F64 → F64 → F64
  CheckFilter : Expr → Bool × Option ColRef
  CheckStrictFilter : Expr → Bool × Option ColRef × Option Const
  GetClusterByColumnOrder : String → String → Int
  canMergeToBetweenAnd : Expr → Expr → Bool

/-- `estimateOutCntBySortOrder`. -/
def estimateOutCntBySortOrder (h : Helpers) (tableCnt cost : F64) (sortOrder : Int) : F64 :=
  if sortOrder = -1 then cost
  else
    let coefficient := h.Pow 0.1 (cost / tableCnt)
    let outCnt := cost * coefficient
    if sortOrder = 0 then outCnt * 0.9
    else if sortOrder = 1 then outCnt * 0.7
    else outCnt * 0.5

/-- `getColNdv`; the builder is `none` when nil. -/
def getColNdv (col : ColRef) (nodeID : Int) (builder : Option QueryBuilder) : Option F64 := do
  let b ← builder
  match b.statsCache with
  | none => pure (F64.fin (-1))
  | some sc =>
    match b.ctxByNode nodeID with
    | none => pure (F64.fin (-1))
    | some ctx =>
      match ctx col.RelPos with
      | some binding =>
        let s := sc binding.tableID
        if col.ColPos < 0 then none
        else do
          let name ← binding.cols[col.ColPos.toNat]?
          pure (s.NdvMap.getF name)
      | none => pure (F64.fin (-1))

/-- `getExprNdv`; `ndvMap` is `none` when the map is nil. -/
def getExprNdv (ndvMap : Option (GoMap F64)) (nodeID : Int) (builder : Option QueryBuilder) :
    Expr → Option F64
  | .null => none
  | .F _ funcName args =>
    if funcName = "=" ∨ funcName = ">" ∨ funcName = ">=" ∨ funcName = "<=" ∨ funcName = "<" then
      match args with
      | a :: _ => getExprNdv ndvMap nodeID builder a
      | [] => none
    else if funcName = "year" then
      match args with
      | a :: _ => (getExprNdv ndvMap nodeID builder a).map (fun x => x / 365)
      | [] => none
    else some (F64.fin (-1))
  | .Col _ col =>
    match ndvMap with
    | some m => some (m.getF col.Name)
    | none => getColNdv col nodeID builder
  | _ => some (F64.fin (-1))

/-- `estimateOutCntForEquality`. -/
def estimateOutCntForEquality (h : Helpers) (expr : Expr) (sortKeyName : String)
    (tableCnt cost : F64) (ndvMap : Option (GoMap F64)) : Option F64 :=
  match h.CheckFilter expr with
  | (false, _) => some (cost / 100)
  | (true, col?) => do
    let col ← col?
    let sortOrder := h.GetClusterByColumnOrder sortKeyName col.Name
    if sortOrder ≠ -1 then
      pure (estimateOutCntBySortOrder h tableCnt cost sortOrder)
    else
      let ndv ← getExprNdv ndvMap 0 none expr
      if ndv.gt 0 then pure (tableCnt / ndv)
      else pure (cost / 100)

/-- `calcOutCntByMinMax`. -/
def calcOutCntByMinMax (funcName : String) (tableCnt min max val : F64) : F64 :=
  if funcName = ">" ∨ funcName = ">=" then (max - val) / (max - min) * tableCnt
  else if funcName = "<" ∨ funcName = "<=" then (val - min) / (max - min) * tableCnt
  else F64.fin (-1)

/-- The inner type switch of `estimateOutCntForNonEquality`: the interpolated
estimate when the constant's kind matches the column's type class. A tag absent
from the map is its zero value, taken to be none of the tags of the switch. -/
def strictEstimate (funcName : String) (tableCnt : F64) (s : StatsInfoMap) (col : ColRef)
    (constExpr : Const) : Option F64 :=
  let byMinMax (val : F64) : F64 :=
    calcOutCntByMinMax funcName tableCnt (s.MinValMap.getF col.Name) (s.MaxValMap.getF col.Name) val
  match s.DataTypeMap col.Name, constExpr.Value with
  | some .T_int8, .I64Val v => some (byMinMax (F64.ofInt v))
  | some .T_int16, .I64Val v => some (byMinMax (F64.ofInt v))
  | some .T_int32, .I64Val v => some (byMinMax (F64.ofInt v))
  | some .T_int64, .I64Val v => some (byMinMax (F64.ofInt v))
  | some .T_uint8, .U64Val v => some (byMinMax (F64.ofInt v))
  | some .T_uint16, .U64Val v => some (byMinMax (F64.ofInt v))
  | some .T_uint32, .U64Val v => some (byMinMax (F64.ofInt v))
  | some .T_uint64, .U64Val v => some (byMinMax (F64.ofInt v))
  | some .T_date, .Dateval v => some (byMinMax (F64.ofInt v))
  | _, _ => none

/-- `estimateOutCntForNonEquality`. -/
def estimateOutCntForNonEquality (h : Helpers) (expr : Expr) (funcName sortKeyName : String)
    (tableCnt cost : F64) (s : StatsInfoMap) : Option F64 :=
  match h.CheckFilter expr with
  | (false, _) => some (cost / 10)
  | (true, col?) => do
    let col ← col?
    let sortOrder := h.GetClusterByColumnOrder sortKeyName col.Name
    if sortOrder ≠ -1 then
      pure (estimateOutCntBySortOrder h tableCnt cost sortOrder)
    else
      match h.CheckStrictFilter expr with
      | (true, col?, constExpr?) => do
        let col ← col?
        let constExpr ← constExpr?
        match strictEstimate funcName tableCnt s col constExpr with
        | some r => pure r
        | none => pure (cost / 2)
      | (false, _, _) => pure (cost / 2)

/-- `andSelectivity`. -/
def andSelectivity (h : Helpers) (s1 s2 : F64) : F64 :=
  if s1.gt 0.15 ∨ s2.gt 0.15 ∨ (s1 * s2).gt 0.1 then s1 * s2
  else F64.min s1 s2 * F64.max (h.Pow s1 (h.Pow s2 2)) (h.Pow s2 (h.Pow s1 2))

/-- `EstimateOutCnt`. -/
def EstimateOutCnt (h : Helpers) (sortKeyName : String) (tableCnt cost : F64)
    (s : StatsInfoMap) : Expr → Option F64
  | .null => some cost
  | .F typ funcName args =>
    let outcnt? : Option F64 :=
      if funcName = "=" then
        estimateOutCntForEquality h (.F typ funcName args) sortKeyName tableCnt cost (some s.NdvMap)
      else if funcName = ">" ∨ funcName = "<" ∨ funcName = ">=" ∨ funcName = "<=" then
        estimateOutCntForNonEquality h (.F typ funcName args) funcName sortKeyName tableCnt cost s
      else if funcName = "and" then
        match args with
        | a :: b :: _ => do
          let out1 ← EstimateOutCnt h sortKeyName tableCnt cost s a
          let out2 ← EstimateOutCnt h sortKeyName tableCnt cost s b
          if h.canMergeToBetweenAnd a b ∧ (out1 + out2).gt tableCnt then
            pure ((out1 + out2) - tableCnt)
          else
            pure (andSelectivity h (out1 / tableCnt) (out2 / tableCnt) * tableCnt)
        | _ => none
      else if funcName = "or" then
        match args with
        | a :: b :: _ => do
          let out1 ← EstimateOutCnt h sortKeyName tableCnt cost s a
          let out2 ← EstimateOutCnt h sortKeyName tableCnt cost s b
          if out1.eq out2 then pure (out1 + out2)
          else pure (F64.max out1 out2 * 1.5)
        | _ => none
      else some (cost * 0.15)
    outcnt?.map fun outcnt =>
      if outcnt.gt cost then cost else if outcnt.lt 1 then 1 else outcnt
  | .C _ _ =>
    let outcnt := cost
    some (if outcnt.gt cost then cost else if outcnt.lt 1 then 1 else outcnt)
  | _ =>
    let outcnt : F64 := 0
    some (if outcnt.gt cost then cost else if outcnt.lt 1 then 1 else outcnt)

/-- `StatsCache`: the pool of entries by table id. -/
structure StatsCache where
  cachePool : Nat → Option StatsInfoMap

/-- The table ids `catalog.MO_DATABASE_ID`, `catalog.MO_TABLES_ID` and
`catalog.MO_COLUMNS_ID`, constants of a package outside the embedded files. -/
structure Catalog where
  MO_DATABASE_ID : Nat
  MO_TABLES_ID : Nat
  MO_COLUMNS_ID : Nat

/-- `StatsCache.GetStatsInfoMap`: the returned entry and the cache after the call; the
receiver is `none` when it is nil. -/
def GetStatsInfoMap (cat : Catalog) (sc : Option StatsCache) (tableID : Nat) :
    StatsInfoMap × Option StatsCache :=
  match sc with
  | none => (NewStatsInfoMap, none)
  | some sc =>
    if tableID = cat.MO_DATABASE_ID ∨ tableID = cat.MO_TABLES_ID ∨ tableID = cat.MO_COLUMNS_ID then
      (NewStatsInfoMap, some sc)
    else
      match sc.cachePool tableID with
      | some s => (s, some sc)
      | none =>
        let s := NewStatsInfoMap
        (s, some { sc with cachePool := fun k => if k = tableID then some s else sc.cachePool k })

/-- `DefaultStats`. -/
def DefaultStats : Stats :=
  { TableCnt := 1000, Cost := 1000, Outcnt := 1000, Selectivity := 1, BlockNum := 1 }

/-- `QueryBuilder.applySwapRuleByStats`. `IsEquiJoin` is outside the embedded files.
The recursion into the children is bounded by a fuel; the result is `none` on a panic
(a node id or child position out of range, nil `Stats`) and when the fuel runs out.
The loop over the children reads the child list once, before the first recursive call;
the node itself is read again after the loop, as the source works on a pointer. -/
def applySwapRuleByStats (IsEquiJoin : List Expr → Bool) :
    Nat → QueryBuilder → Int → Bool → Option QueryBuilder
  | 0, _, _, _ => none
  | fuel + 1, builder, nodeID, recursive => do
    let node ← builder.qry.node nodeID
    let builder ←
      if recursive ∧ node.Children.length > 0 then
        node.Children.foldlM
          (fun b child => applySwapRuleByStats IsEquiJoin fuel b child recursive) builder
      else some builder
    let node ← builder.qry.node nodeID
    if node.NodeType ≠ .JOIN then pure builder
    else do
      let c0 ← node.Children[0]?
      let leftChild ← builder.qry.node c0
      let c1 ← node.Children[1]?
      let rightChild ← builder.qry.node c1
      if rightChild.NodeType = .FUNCTION_SCAN then pure builder
      else
        match node.JoinType with
        | .INNER | .OUTER => do
          let l ← leftChild.Stats
          let r ← rightChild.Stats
          if l.Outcnt.lt r.Outcnt then
            pure (builder.setNode nodeID
              { node with Children := (node.Children.set 0 c1).set 1 c0 })
          else pure builder
        | .LEFT | .SEMI | .ANTI =>
          if IsEquiJoin node.OnList then do
            let l ← leftChild.Stats
            let r ← rightChild.Stats
            if l.Outcnt.lt r.Outcnt then
              pure (builder.setNode nodeID { node with BuildOnLeft := true })
            else pure builder
          else pure builder
        | _ => pure builder

end plan

/-! ## `pkg/objectio/writer.go` -/

namespace objectio

/-- A byte string. -/
abbrev Bytes := List Nat

/-- The error codes of package `moerr` that the writer distinguishes. -/
inductive MoErrCode where
  | ErrFileAlreadyExists
  | Other (code : Nat)
deriving DecidableEq

/-- A non-nil Go `error`: an error of package `moerr` with its code, or any other error. -/
inductive GoError where
  | moErr (code : MoErrCode) (msg : String)
  | plain (msg : String)
deriving DecidableEq

/-- Modelled from the spec: `moerr.IsMoErrCode`, the test that makes the
`FileAlreadyExists` condition distinguishable; false on nil and on foreign errors. -/
def IsMoErrCode (err : Option GoError) (code : MoErrCode) : Bool :=
  match err with
  | some (.moErr c _) => decide (c = code)
  | _ => false

/-- The outcome of a Go call that returns `(value, error)` and may panic. -/
inductive Res (α : Type) where
  | ok (a : α)
  | error (e : GoError)
  | panic

/-- Sequencing of outcomes: the first error or panic ends the computation. -/
def Res.bind {α β : Type} (r : Res α) (f : α → Res β) : Res β :=
  match r with
  | .ok a => f a
  | .error e => .error e
  | .panic => .panic

instance : Monad Res where
  pure := Res.ok
  bind := Res.bind

/-- An optional value whose absence is a panic. -/
def Res.ofOption {α : Type} : Option α → Res α
  | some a => .ok a
  | none => .panic

/-- `Extent`: `{alg: u8, offset: u32, length: u32, origin: u32}`. -/
structure Extent where
  alg : Nat
  offset : Nat
  length : Nat
  originSize : Nat
deriving DecidableEq

/-- `NewExtent`. -/
def NewExtent (alg offset length originSize : Nat) : Extent :=
  { alg := alg, offset := offset, length := length, originSize := originSize }

/-- The zero extent of a freshly built record. -/
def Extent.zero : Extent := NewExtent 0 0 0 0

/-- `ColumnMeta`: location, zone map, null count and data-type tag of one column. -/
structure ColumnMeta where
  location : Extent
  zoneMap : Bytes
  nullCnt : Nat
  dataType : Nat
deriving DecidableEq

/-- A block id: segment id, object number and block sequence. -/
structure Blockid where
  segment : Nat
  num : Nat
  seq : Nat
deriving DecidableEq

/-- `BlockHeader`, the header of a block meta or of the object meta. -/
structure BlockHeader where
  blockID : Blockid
  sequence : Nat
  rows : Nat
  columnCount : Nat
  metaColumnCount : Nat
  maxSeqnum : Nat
  metaLocation : Extent
  bfExtent : Extent
  zoneMapArea : Extent
deriving DecidableEq

/-- `BlockObject` (and `ObjectMeta`, which has the same shape): a header and a
column-meta table indexed by seqnum. -/
structure BlockObject where
  header : BlockHeader
  cols : List ColumnMeta
deriving DecidableEq

/-- `BlockObject.ColumnMeta(seqnum)`; `none` when the seqnum is outside the table. -/
def BlockObject.ColumnMeta (bm : BlockObject) (seqnum : Nat) : Option ColumnMeta :=
  bm.cols[seqnum]?

/-- The in-place update of the column meta at `seqnum`. -/
def BlockObject.setColumnMeta (bm : BlockObject) (seqnum : Nat) (cm : objectio.ColumnMeta) :
    BlockObject :=
  { bm with cols := bm.cols.set seqnum cm }

/-- `Seqnums`: the seqnum of every logical column, and the largest one. -/
structure Seqnums where
  Seqs : List Nat
  MaxSeq : Nat
deriving DecidableEq

/-- Modelled from the spec: `NewSeqnums`, which keeps an explicit seqnum list with its
maximum, and is empty for a nil list. -/
def NewSeqnums (seqs : List Nat) : Seqnums :=
  { Seqs := seqs, MaxSeq := seqs.foldl Nat.max 0 }

/-- Modelled from the spec: `Seqnums.InitWithColCnt`, "a dense 0..N-1 mapping is assigned". -/
def Seqnums.InitWithColCnt (s : Seqnums) (colcnt : Nat) : Seqnums :=
  { Seqs := s.Seqs ++ List.range colcnt, MaxSeq := colcnt - 1 }

/-- A freshly built column meta. -/
def BuildColumnMeta : ColumnMeta :=
  { location := Extent.zero, zoneMap := [], nullCnt := 0, dataType := 0 }

/-- A freshly built block header. -/
def BuildBlockHeader : BlockHeader :=
  { blockID := { segment := 0, num := 0, seq := 0 }, sequence := 0, rows := 0, columnCount := 0,
    metaColumnCount := 0, maxSeqnum := 0, metaLocation := Extent.zero, bfExtent := Extent.zero,
    zoneMapArea := Extent.zero }

/-- Modelled from the spec: `NewBlock`, a block meta with one column per seqnum of the
mapping and a column-meta table over the seqnums `0..MaxSeq`. -/
def NewBlock (seqnums : Seqnums) : BlockObject :=
  { header := { BuildBlockHeader with
      columnCount := seqnums.Seqs.length % 2 ^ 16
      metaColumnCount := (seqnums.MaxSeq + 1) % 2 ^ 16
      maxSeqnum := seqnums.MaxSeq }
    cols := List.replicate ((seqnums.MaxSeq + 1) % 2 ^ 16) BuildColumnMeta }

/-- Modelled from the spec: `BuildObjectMeta`, "block header + column-meta table sized
to `MetaColumnCount`". -/
def BuildObjectMeta (metaColCnt : Nat) : BlockObject :=
  { header := BuildBlockHeader, cols := List.replicate metaColCnt BuildColumnMeta }

/-- The `*Seqnums` pointer held by a block: the writer's own `Seqnums` object, which
`Write` shares with every block it adds, or a private object. -/
inductive SeqnumsRef where
  | writer
  | own (s : Seqnums)
deriving DecidableEq

/-- `blockData`. -/
structure blockData where
  meta : BlockObject
  seqnums : SeqnumsRef
  data : List Bytes
  bloomFilter : Bytes
deriving DecidableEq

/-- Modelled from the spec: the block-index table, "a length-prefixed run of
{offset: u32, length: u32} pairs, one per block". -/
structure BlockIndex where
  blockCount : Nat
  entries : List (Nat × Nat)
deriving DecidableEq

/-- Modelled from the spec: "`BuildBlockIndex(n)` returns a table of exactly `n` entries". -/
def BuildBlockIndex (count : Nat) : BlockIndex :=
  { blockCount := 0, entries := List.replicate count (0, 0) }

/-- `BlockIndex.SetBlockCount`. -/
def BlockIndex.SetBlockCount (bi : BlockIndex) (count : Nat) : BlockIndex :=
  { bi with blockCount := count }

/-- `BlockIndex.SetBlockMetaPos`; a panic when there is no entry `i`. -/
def BlockIndex.SetBlockMetaPos (bi : BlockIndex) (i offset length : Nat) : Option BlockIndex :=
  if i < bi.entries.length then some { bi with entries := bi.entries.set i (offset, length) }
  else none

/-- `BlockIndex.Length`: a u32 count and two u32 per entry. -/
def BlockIndex.Length (bi : BlockIndex) : Nat := (4 + 8 * bi.entries.length) % 2 ^ 32

/-- The four bytes of a u32, little-endian. -/
def u32le (n : Nat) : Bytes := [n % 256, n / 256 % 256, n / 65536 % 256, n / 16777216 % 256]

/-- The bytes of a block-index table. -/
def BlockIndex.bytes (bi : BlockIndex) : Bytes :=
  u32le bi.blockCount ++ (bi.entries.map fun e => u32le e.1 ++ u32le e.2).flatten

/-- The kinds of IO entry. -/
inductive IOET where
  | IOET_ColData | IOET_ObjMeta | IOET_BF | IOET_ZM
deriving DecidableEq

/-- The object header: schema version and the object-meta extent. -/
structure ObjectHeader where
  schemaVersion : Nat
  extent : Extent
deriving DecidableEq

/-- `Footer`. -/
structure Footer where
  metaExtent : Extent
  version : Nat
  magic : Nat
deriving DecidableEq

/-- A column vector of a batch, as far as the writer looks at it. -/
structure Vector where
  length : Nat
  oid : Nat
  nullCount : Nat
  payload : Bytes
deriving DecidableEq

/-- `batch.Batch`. -/
structure Batch where
  Vecs : List Vector
  Attrs : List String
deriving DecidableEq

/-- Constants and functions of packages `objectio`, `compress`, `types` and of the
vector library that the writer uses and that are outside `writer.go`. -/
structure Params where
  HeaderSize : Nat
  ZoneMapSize : Nat
  Version : Nat
  Magic : Nat
  algNone : Nat
  algLz4 : Nat
  T_any : Nat
  compress : Bytes → Except GoError Bytes
  MarshalBinary : Vector → Except GoError Bytes
  EncodeIOEntryHeader : IOET → Bytes
  headerBytes : ObjectHeader → Bytes
  metaBytes : BlockObject → Bytes
  footerMarshal : Footer → Bytes
  headerBytes_length : ∀ h, (headerBytes h).length = HeaderSize

/-- Modelled from the spec: the object buffer, which collects the written bytes under
the file name and hands them to the file service. -/
structure ObjectBuffer where
  name : String
  data : Bytes
  options : List Nat
deriving DecidableEq

/-- `NewObjectBuffer`. -/
def NewObjectBuffer (name : String) : ObjectBuffer := { name := name, data := [], options := [] }

/-- `ObjectBuffer.Write`. -/
def ObjectBuffer.Write (b : ObjectBuffer) (bytes : Bytes) : ObjectBuffer :=
  { b with data := b.data ++ bytes }

/-- `ObjectBuffer.SetDataOptions`. -/
def ObjectBuffer.SetDataOptions (b : ObjectBuffer) (items : List Nat) : ObjectBuffer :=
  { b with options := items }

/-- The IO vector handed to the file service. -/
structure IOVector where
  FilePath : String
  data : Bytes
  options : List Nat
deriving DecidableEq

/-- `ObjectBuffer.GetData`. -/
def ObjectBuffer.GetData (b : ObjectBuffer) : IOVector :=
  { FilePath := b.name, data := b.data, options := b.options }

/-- The file service, an external collaborator: a state and the outcome of `Write`
and `Delete` in a state. -/
structure FileService (σ : Type) where
  Write : σ → IOVector → Option GoError × σ
  Delete : σ → String → Option GoError × σ

/-- A call issued to the file service. -/
inductive FsCall where
  | Write (v : IOVector)
  | Delete (name : String)
deriving DecidableEq

/-- `ObjectName`, as far as the writer reads it. -/
structure ObjectName where
  segmentId : Nat
  num : Nat
deriving DecidableEq

/-- `objectWriterV1`; the buffer is `none` once it has been released. -/
structure objectWriterV1 where
  schemaVer : Nat
  seqnums : Seqnums
  blocks : List blockData
  totalRow : Nat
  colmeta : List ColumnMeta
  buffer : Option ObjectBuffer
  fileName : String
  lastId : Nat
  name : ObjectName
deriving DecidableEq

/-- The `Seqnums` object a block's pointer refers to. -/
def SeqnumsRef.deref (r : SeqnumsRef) (w : objectWriterV1) : Seqnums :=
  match r with
  | .writer => w.seqnums
  | .own s => s

/-- `newObjectWriterV1`. -/
def newObjectWriterV1 (name : ObjectName) (fileName : String) (schemaVersion : Nat)
    (seqnums : List Nat) : objectWriterV1 :=
  { schemaVer := schemaVersion, seqnums := NewSeqnums seqnums, fileName := fileName, name := name,
    buffer := some (NewObjectBuffer fileName), blocks := [], lastId := 0, totalRow := 0,
    colmeta := [] }

/-- `objectWriterV1.UpdateBlockZM`. -/
def UpdateBlockZM (w : objectWriterV1) (blkIdx seqnum : Nat) (zm : Bytes) :
    Option objectWriterV1 := do
  let block ← w.blocks[blkIdx]?
  let cm ← block.meta.ColumnMeta seqnum
  let block := { block with meta := block.meta.setColumnMeta seqnum { cm with zoneMap := zm } }
  pure { w with blocks := w.blocks.set blkIdx block }

/-- `objectWriterV1.WriteBF`. -/
def WriteBF (w : objectWriterV1) (blkIdx : Nat) (buf : Bytes) : Option objectWriterV1 := do
  let block ← w.blocks[blkIdx]?
  pure { w with blocks := w.blocks.set blkIdx { block with bloomFilter := buf } }

/-- `objectWriterV1.WriteObjectMeta`. -/
def WriteObjectMeta (w : objectWriterV1) (totalrow : Nat) (metas : List ColumnMeta) :
    objectWriterV1 :=
  { w with totalRow := totalrow, colmeta := metas }

/-- `objectWriterV1.WriteWithCompress`; the scratch buffer is not modelled. -/
def WriteWithCompress (p : Params) (offset : Nat) (buf : Bytes) : Res (Bytes × Extent) :=
  match p.compress buf with
  | .error e => .error e
  | .ok tmpData =>
    let length := tmpData.length % 2 ^ 32
    let data := tmpData.take length
    .ok (data, NewExtent p.algLz4 offset length (buf.length % 2 ^ 32))

/-- The loop `for i, block := range w.blocks { n := …; index.SetBlockMetaPos(i, start, n);
start += n }` of `prepareObjectMeta`, `prepareBloomFilter` and `prepareZoneMapArea`, from
block number `i` on, with `n` given by `size`. -/
def fillBlockIndex (size : blockData → Nat) :
    List blockData → Nat → Nat → BlockIndex → Option (BlockIndex × Nat)
  | [], _, start, index => some (index, start)
  | block :: rest, i, start, index => do
    let n := size block
    let index ← index.SetBlockMetaPos (i % 2 ^ 32) start n
    fillBlockIndex size rest (i + 1) ((start + n) % 2 ^ 32) index

/-- The loop `for i, colMeta := range w.colmeta { objectMeta.AddColumnMeta(seqnums.Seqs[i],
colMeta) }` of `prepareObjectMeta`, from column `i` on; `seqnums` is `none` when nil. -/
def addColumnMetas (seqnums : Option Seqnums) :
    List ColumnMeta → Nat → BlockObject → Option BlockObject
  | [], _, objectMeta => some objectMeta
  | colMeta :: rest, i, objectMeta => do
    let sq ← seqnums
    let seq ← sq.Seqs[i]?
    if seq < objectMeta.cols.length then
      addColumnMetas seqnums rest (i + 1) (objectMeta.setColumnMeta seq colMeta)
    else none

/-- `objectWriterV1.prepareObjectMeta`. -/
def prepareObjectMeta (p : Params) (w : objectWriterV1) (objectMeta : BlockObject)
    (offset : Nat) (seqnums : Option Seqnums) : Res (Bytes × Extent) := do
  let length := 0
  let blockCount := w.blocks.length % 2 ^ 32
  let objectMeta := { objectMeta with header := { objectMeta.header with
    sequence := blockCount % 2 ^ 16 } }
  let blockId : Blockid :=
    { segment := w.name.segmentId, num := w.name.num, seq := blockCount % 2 ^ 16 }
  let objectMeta := { objectMeta with header := { objectMeta.header with blockID := blockId } }
  let objectMeta := { objectMeta with header := { objectMeta.header with rows := w.totalRow } }
  let objectMeta ← Res.ofOption (addColumnMetas seqnums w.colmeta 0 objectMeta)
  let length := (length + (p.metaBytes objectMeta).length) % 2 ^ 32
  let blockIndex := BuildBlockIndex blockCount
  let blockIndex := blockIndex.SetBlockCount blockCount
  let length := (length + blockIndex.Length) % 2 ^ 32
  let (blockIndex, length) ← Res.ofOption
    (fillBlockIndex (fun block => (p.metaBytes block.meta).length % 2 ^ 32) w.blocks 0 length
      blockIndex)
  let extent := NewExtent p.algNone offset 0 length
  let objectMeta := { objectMeta with header := { objectMeta.header with
    metaLocation := extent } }
  let buf := p.EncodeIOEntryHeader .IOET_ObjMeta ++ p.metaBytes objectMeta ++ blockIndex.bytes ++
    (w.blocks.map fun block => p.metaBytes block.meta).flatten
  WriteWithCompress p offset buf

/-- The running values of the inner loop of `prepareBlockMeta`. -/
structure ColumnAcc where
  offset : Nat
  size : Nat
  oSize : Nat
  alg : Nat
deriving DecidableEq

/-- The inner loop of `prepareBlockMeta` for column index `idx`: every block that has the
column gets the current offset patched into the column's location. -/
def prepareColumn (w : objectWriterV1) (idx : Nat) :
    List blockData → ColumnAcc → Option (List blockData × ColumnAcc)
  | [], acc => some ([], acc)
  | blk :: rest, acc =>
    if blk.meta.header.columnCount ≤ idx then do
      let (rest, acc) ← prepareColumn w idx rest acc
      pure (blk :: rest, acc)
    else do
      let seq ← (blk.seqnums.deref w).Seqs[idx]?
      let cm ← blk.meta.ColumnMeta seq
      let location := { cm.location with offset := acc.offset }
      let blk := { blk with meta := blk.meta.setColumnMeta seq { cm with location := location } }
      let acc := { offset := (acc.offset + location.length) % 2 ^ 32
                   size := (acc.size + location.length) % 2 ^ 32
                   oSize := (acc.oSize + location.originSize) % 2 ^ 32
                   alg := location.alg }
      let (rest, acc) ← prepareColumn w idx rest acc
      pure (blk :: rest, acc)

/-- The outer loop of `prepareBlockMeta`: `n` more column indexes, starting with `idx`. -/
def prepareColumns (w : objectWriterV1) :
    Nat → Nat → List blockData → List ColumnMeta → Nat →
      Option (List blockData × List ColumnMeta × Nat)
  | 0, _, blocks, colmeta, offset => some (blocks, colmeta, offset)
  | n + 1, idx, blocks, colmeta, offset => do
    let off := offset
    let (blocks, acc) ← prepareColumn w idx blocks { offset := offset, size := 0, oSize := 0, alg := 0 }
    let colmeta :=
      if colmeta.length % 2 ^ 16 ≤ idx then colmeta
      else colmeta.modify (fun cm => { cm with location :=
        { alg := acc.alg, offset := off, length := acc.size, originSize := acc.oSize } }) idx
    prepareColumns w n (idx + 1) blocks colmeta acc.offset

/-- `objectWriterV1.getMaxIndex`. -/
def getMaxIndex (w : objectWriterV1) : Nat :=
  match w.blocks with
  | [] => 0
  | block0 :: _ =>
    (w.blocks.foldl (fun maxIndex block =>
      if block.data.length > maxIndex then block.data.length else maxIndex)
      block0.data.length) % 2 ^ 16

/-- `objectWriterV1.prepareBlockMeta`: the writer with the patched locations, and the
offset after the last payload. -/
def prepareBlockMeta (w : objectWriterV1) (offset : Nat) : Option (objectWriterV1 × Nat) := do
  let maxIndex := getMaxIndex w
  let (blocks, colmeta, offset) ← prepareColumns w maxIndex 0 w.blocks w.colmeta offset
  pure ({ w with blocks := blocks, colmeta := colmeta }, offset)

/-- The size `n` that `prepareBloomFilter` records for a block. -/
def bloomFilterSize (block : blockData) : Nat := block.bloomFilter.length % 2 ^ 32

/-- The block index that `prepareBloomFilter` builds. -/
def bloomFilterIndex (w : objectWriterV1) (blockCount : Nat) : Option (BlockIndex × Nat) :=
  let bloomFilterStart := 0
  let bloomFilterIndex := BuildBlockIndex blockCount
  let bloomFilterIndex := bloomFilterIndex.SetBlockCount blockCount
  let bloomFilterStart := (bloomFilterStart + bloomFilterIndex.Length) % 2 ^ 32
  fillBlockIndex bloomFilterSize w.blocks 0 bloomFilterStart bloomFilterIndex

/-- `objectWriterV1.prepareBloomFilter`. -/
def prepareBloomFilter (p : Params) (w : objectWriterV1) (blockCount offset : Nat) :
    Res (Bytes × Extent) := do
  let (bloomFilterIndex, _) ← Res.ofOption (bloomFilterIndex w blockCount)
  let buf := p.EncodeIOEntryHeader .IOET_BF ++ bloomFilterIndex.bytes ++
    (w.blocks.map fun block => block.bloomFilter).flatten
  WriteWithCompress p offset buf

/-- The size `n := uint32(block.meta.GetMetaColumnCount() * ZoneMapSize)` that
`prepareZoneMapArea` records for a block. `GetMetaColumnCount()` is a `uint16` (the
source compares it with a `uint16` loop variable) and `ZoneMapSize` is a constant,
so the product is formed in `uint16` and only then widened. -/
def zoneMapAreaSize (p : Params) (block : blockData) : Nat :=
  (block.meta.header.metaColumnCount * p.ZoneMapSize) % 2 ^ 16 % 2 ^ 32

/-- The block index that `prepareZoneMapArea` builds. -/
def zoneMapAreaIndex (p : Params) (w : objectWriterV1) (blockCount : Nat) :
    Option (BlockIndex × Nat) :=
  let zoneMapAreaStart := 0
  let zoneMapAreaIndex := BuildBlockIndex blockCount
  let zoneMapAreaIndex := zoneMapAreaIndex.SetBlockCount blockCount
  let zoneMapAreaStart := (zoneMapAreaStart + zoneMapAreaIndex.Length) % 2 ^ 32
  fillBlockIndex (zoneMapAreaSize p) w.blocks 0 zoneMapAreaStart zoneMapAreaIndex

/-- Modelled from the spec: `ColumnMeta.ZoneMap`, the zone map of a column meta, a
"fixed-width binary summary" whose "width is a constant, same for every type"; a
shorter value that was stored is padded with zeros, a longer one is cut. -/
def ColumnMeta.ZoneMap (p : Params) (cm : ColumnMeta) : Bytes :=
  (cm.zoneMap ++ List.replicate p.ZoneMapSize 0).take p.ZoneMapSize

/-- The zone maps `block.meta.ColumnMeta(seqnum).ZoneMap()` of the first `n` seqnums of a
block, concatenated; a panic when the block meta has no such column meta. -/
def zoneMapsUpTo (p : Params) (meta : BlockObject) : Nat → Option Bytes
  | 0 => some []
  | n + 1 => do
    let zms ← zoneMapsUpTo p meta n
    let cm ← meta.ColumnMeta n
    pure (zms ++ cm.ZoneMap p)

/-- The zone maps of a block for the seqnums `0 .. MetaColumnCount-1`, concatenated. -/
def blockZoneMaps (p : Params) (block : blockData) : Option Bytes :=
  zoneMapsUpTo p block.meta block.meta.header.metaColumnCount

/-- The zone maps of all blocks, in block order, as the second loop of
`prepareZoneMapArea` writes them. -/
def blocksZoneMaps (p : Params) : List blockData → Option (List Bytes)
  | [] => some []
  | block :: rest => do
    let zms ← blockZoneMaps p block
    let others ← blocksZoneMaps p rest
    pure (zms :: others)

/-- `objectWriterV1.prepareZoneMapArea`. -/
def prepareZoneMapArea (p : Params) (w : objectWriterV1) (blockCount offset : Nat) :
    Res (Bytes × Extent) := do
  let (zoneMapAreaIndex, _) ← Res.ofOption (zoneMapAreaIndex p w blockCount)
  let zoneMaps ← Res.ofOption (blocksZoneMaps p w.blocks)
  let buf := p.EncodeIOEntryHeader .IOET_ZM ++ zoneMapAreaIndex.bytes ++ zoneMaps.flatten
  WriteWithCompress p offset buf

/-- The inner loop of `writerBlocks` for column index `idx`. -/
def writeColumn (idx : Nat) : List blockData → ObjectBuffer → Option ObjectBuffer
  | [], buffer => some buffer
  | block :: rest, buffer =>
    if block.meta.header.columnCount ≤ idx then writeColumn idx rest buffer
    else do
      let d ← block.data[idx]?
      writeColumn idx rest (buffer.Write d)

/-- The outer loop of `writerBlocks`: `n` more column indexes, starting with `idx`. -/
def writeColumns (blocks : List blockData) : Nat → Nat → ObjectBuffer → Option ObjectBuffer
  | 0, _, buffer => some buffer
  | n + 1, idx, buffer => do
    let buffer ← writeColumn idx blocks buffer
    writeColumns blocks n (idx + 1) buffer

/-- `objectWriterV1.writerBlocks`. -/
def writerBlocks (w : objectWriterV1) : Option objectWriterV1 := do
  let maxIndex := getMaxIndex w
  let buffer ← w.buffer
  let buffer ← writeColumns w.blocks maxIndex 0 buffer
  pure { w with buffer := some buffer }

/-- `objectWriterV1.Sync`: the returned error, the writer, the state of the file service
and the calls issued to it, in order. -/
def Sync {σ : Type} (fs : FileService σ) (w : objectWriterV1) (items : List Nat) (st : σ) :
    Option (Option GoError × objectWriterV1 × σ × List FsCall) := do
  let buffer ← w.buffer
  let buffer := buffer.SetDataOptions items
  let w := { w with buffer := some buffer }
  let (err, st1) := fs.Write st buffer.GetData
  if IsMoErrCode err .ErrFileAlreadyExists then
    let (err, st2) := fs.Delete st1 w.fileName
    if err ≠ none then
      pure (err, w, st2, [.Write buffer.GetData, .Delete w.fileName])
    else
      let (err, st3) := fs.Write st2 buffer.GetData
      pure (err, w, st3, [.Write buffer.GetData, .Delete w.fileName, .Write buffer.GetData])
  else
    pure (err, w, st1, [.Write buffer.GetData])

/-- The column loop of `AddBlock`, from column `i` on: `none` on a panic, otherwise the
error returned from inside the loop (if any), the block so far and the row count. -/
def addColumns (p : Params) (seqnums : Seqnums) :
    List Vector → Nat → blockData → Nat → Option (Option GoError × blockData × Nat)
  | [], _, block, rows => some (none, block, rows)
  | vec :: rest, i, block, rows =>
    let rows := if i = 0 then vec.length else rows
    match p.MarshalBinary vec with
    | .error err => some (some err, block, rows)
    | .ok marshalled =>
      let buf := p.EncodeIOEntryHeader .IOET_ColData ++ marshalled
      match WriteWithCompress p 0 buf with
      | .panic => none
      | .error err => some (some err, block, rows)
      | .ok (data, ext) => do
        let block := { block with data := block.data ++ [data] }
        let seq ← seqnums.Seqs[i]?
        let cm ← block.meta.ColumnMeta seq
        let cm := { cm with location := ext }
        let cm := { cm with dataType := vec.oid % 2 ^ 8 }
        let block := { block with meta := block.meta.setColumnMeta seq cm }
        if vec.oid = p.T_any then none
        else
          let cm := { cm with nullCnt := vec.nullCount % 2 ^ 32 }
          let block := { block with meta := block.meta.setColumnMeta seq cm }
          addColumns p seqnums rest (i + 1) block rows

/-- `objectWriterV1.AddBlock`: `none` on a panic, otherwise the returned error, the block
meta behind the handle `blockMeta` after the call, and the writer. -/
def AddBlock (p : Params) (w : objectWriterV1) (blockMeta : BlockObject) (bat : Batch)
    (seqnums : SeqnumsRef) : Option (Option GoError × BlockObject × objectWriterV1) :=
  let blockMeta := { blockMeta with header := { blockMeta.header with
    sequence := w.lastId % 2 ^ 16 } }
  let block : blockData := { meta := blockMeta, seqnums := seqnums, data := [], bloomFilter := [] }
  match addColumns p (seqnums.deref w) bat.Vecs 0 block 0 with
  | none => none
  | some (some err, block, _) => some (some err, block.meta, w)
  | some (none, block, rows) =>
    let block := { block with meta := { block.meta with header := { block.meta.header with
      rows := rows % 2 ^ 32 } } }
    some (none, block.meta,
      { w with blocks := w.blocks ++ [block], lastId := (w.lastId + 1) % 2 ^ 32 })

/-- `objectWriterV1.Write`: `none` on a panic, otherwise the returned handle, the
returned error and the writer. -/
def Write (p : Params) (w : objectWriterV1) (batch : Batch) :
    Option (BlockObject × Option GoError × objectWriterV1) := do
  let col := w.seqnums.Seqs.length
  let w ←
    if col = 0 then some { w with seqnums := w.seqnums.InitWithColCnt batch.Vecs.length }
    else if col ≠ batch.Vecs.length then none
    else some w
  let block := NewBlock w.seqnums
  let (_, block, w) ← AddBlock p w block batch .writer
  pure (block, none, w)

/-- `objectWriterV1.WriteWithoutSeqnum`. -/
def WriteWithoutSeqnum (p : Params) (w : objectWriterV1) (batch : Batch) :
    Option (BlockObject × Option GoError × objectWriterV1) := do
  let denseSeqnums := NewSeqnums []
  let denseSeqnums := denseSeqnums.InitWithColCnt batch.Vecs.length
  let block := NewBlock denseSeqnums
  let (_, block, w) ← AddBlock p w block batch (.own denseSeqnums)
  pure (block, none, w)

/-- The values that `WriteEnd` has computed when it has written the footer. -/
structure Layout where
  objectHeader : ObjectHeader
  payloadEnd : Nat
  bloomFilterData : Bytes
  bloomFilterExtent : Extent
  zoneMapAreaData : Bytes
  zoneMapAreaExtent : Extent
  meta : Bytes
  metaExtent : Extent
  footer : Footer
  err : Option GoError
deriving DecidableEq

/-- `WriteEnd` up to and including the write of the footer: `none` on a panic;
otherwise the writer, and either the error of an early return or the computed values. -/
def serialize (p : Params) (w : objectWriterV1) :
    Option (objectWriterV1 × Except GoError Layout) := do
  let first := w.blocks.head?
  let columnCount := (first.map fun b => b.meta.header.columnCount).getD 0
  let metaColCnt := (first.map fun b => b.meta.header.metaColumnCount).getD 0
  let maxSeqnum := (first.map fun b => b.meta.header.maxSeqnum).getD 0
  let seqnums := first.map fun b => b.seqnums.deref w
  let objectHeader : ObjectHeader := { schemaVersion := 0, extent := Extent.zero }
  let objectHeader := { objectHeader with schemaVersion := w.schemaVer }
  let blockCount := w.blocks.length % 2 ^ 32
  let objectMeta := BuildObjectMeta metaColCnt
  let objectMeta := { objectMeta with header := { objectMeta.header with
    columnCount := columnCount, metaColumnCount := metaColCnt, maxSeqnum := maxSeqnum } }
  let (w, offset) ← prepareBlockMeta w p.HeaderSize
  let payloadEnd := offset
  match prepareBloomFilter p w blockCount offset with
  | .panic => none
  | .error err => pure (w, .error err)
  | .ok (bloomFilterData, bloomFilterExtent) =>
    let objectMeta := { objectMeta with header := { objectMeta.header with
      bfExtent := bloomFilterExtent } }
    let offset := (offset + bloomFilterExtent.length) % 2 ^ 32
    match prepareZoneMapArea p w blockCount offset with
    | .panic => none
    | .error err => pure (w, .error err)
    | .ok (zoneMapAreaData, zoneMapAreaExtent) =>
      let objectMeta := { objectMeta with header := { objectMeta.header with
        zoneMapArea := zoneMapAreaExtent } }
      let offset := (offset + zoneMapAreaExtent.length) % 2 ^ 32
      let (meta, metaExtent, err) ←
        match prepareObjectMeta p w objectMeta offset seqnums with
        | .panic => none
        | .error err => some ([], Extent.zero, some err)
        | .ok (meta, metaExtent) => some (meta, metaExtent, none)
      let objectHeader := { objectHeader with extent := metaExtent }
      let buffer ← w.buffer
      let w := { w with buffer := some (buffer.Write (p.headerBytes objectHeader)) }
      let w ← writerBlocks w
      let buffer ← w.buffer
      let buffer := buffer.Write bloomFilterData
      let buffer := buffer.Write zoneMapAreaData
      let buffer := buffer.Write meta
      let footer : Footer := { metaExtent := metaExtent, version := p.Version, magic := p.Magic }
      let buffer := buffer.Write (p.footerMarshal footer)
      let w := { w with buffer := some buffer }
      pure (w, .ok
        { objectHeader := objectHeader, payloadEnd := payloadEnd
          bloomFilterData := bloomFilterData, bloomFilterExtent := bloomFilterExtent
          zoneMapAreaData := zoneMapAreaData, zoneMapAreaExtent := zoneMapAreaExtent
          meta := meta, metaExtent := metaExtent, footer := footer, err := err })

/-- The loop of `WriteEnd` that stamps the meta location on every block and collects
the block handles. -/
def stampBlocks (metaLocation : Extent) (blocks : List blockData) : List blockData :=
  blocks.map fun block =>
    { block with meta := { block.meta with header := { block.meta.header with
      metaLocation := metaLocation } } }

/-- The outcome of `WriteEnd`: the returned handles or error, the writer, the state of
the file service and the calls issued to it. -/
structure WriteEndResult (σ : Type) where
  result : Except GoError (List BlockObject)
  writer : objectWriterV1
  fsState : σ
  calls : List FsCall

/-- `objectWriterV1.WriteEnd`; `none` on a panic. -/
def WriteEnd {σ : Type} (p : Params) (fs : FileService σ) (w : objectWriterV1)
    (items : List Nat) (st : σ) : Option (WriteEndResult σ) := do
  let (w, r) ← serialize p w
  match r with
  | .error err => pure { result := .error err, writer := w, fsState := st, calls := [] }
  | .ok layout =>
    match layout.err with
    | some err => pure { result := .error err, writer := w, fsState := st, calls := [] }
    | none =>
      let w := { w with blocks := stampBlocks layout.objectHeader.extent w.blocks }
      let blockObjects := w.blocks.map fun block => block.meta
      let (err, w, st, calls) ← Sync fs w items st
      match err with
      | some err => pure { result := .error err, writer := w, fsState := st, calls := calls }
      | none =>
        let w := { w with buffer := none }
        pure { result := .ok blockObjects, writer := w, fsState := st, calls := calls }

end objectio

/-! ## `pkg/vm/engine/disttae/stats.go` -/

namespace disttae

open plan

/-- `objectio.Location`, the meta location of a block: the name of its object, the
number of the block in the object and its row count. -/
structure Location where
  Name : String
  ID : Nat
  Rows : Nat
deriving DecidableEq

/-- `catalog.BlockInfo`, of which the meta location is read. -/
structure BlockInfo where
  MetaLocation : Location
deriving DecidableEq

/-- The column map returned by `GetColumnsByExpr`; `none` is the nil map. -/
abbrev ColumnMap := Option (List (Int × Int))

/-- `objectio.ColumnMeta` as `getInfoFromZoneMap` reads it: the zone map and the NDV
of a column of an object. -/
structure ColumnMeta where
  ZoneMap : plan.ZoneMap
  Ndv : Nat

/-- Functions that `disttae/stats.go` calls and that are outside the embedded files.
`Meta` is the type of the values that carry zone maps: an object meta, or the block
meta that `GetBlockMeta` takes out of it. The file service is taken in one fixed
state, so that a load is a function of the location. `toFloat t scale buf` is the
`float64` that `calcNdvUsingZonemap` forms from a zone-map buffer for the type tag
`t`: `float64(types.DecodeFixed[τ](buf))`, or `DecimalNToFloat64(…, scale)`. -/
structure Env (Meta : Type) where
  CheckExprIsMonotonic : Expr → Bool
  GetColumnsByExpr : Expr → TableDef → ColumnMap
  FastLoadObjectMeta : Location → Except objectio.GoError Meta
  IsSameObjectLocVsMeta : Location → Option Meta → Bool
  GetBlockMeta : Meta → Nat → Meta
  evalFilterExprWithZonemap : Meta → Expr → ColumnMap → Bool
  ObjectColumnMeta : Meta → Nat → ColumnMeta
  IsInited : plan.ZoneMap → Bool
  UpdateZM : plan.ZoneMap → List Nat → plan.ZoneMap
  ToType : Int → Type_
  toFloat : T → Int → List Nat → F64
  codec : ZMCodec
  helpers : Helpers

/-- The loop of `groupBlocksToObjectsForStats` over the blocks of all partitions, with
the names seen so far: the first block of every object. -/
def groupBlocks : List BlockInfo → List String → List BlockInfo
  | [], _ => []
  | block :: rest, seen =>
    let objName := block.MetaLocation.Name
    if objName ∈ seen then groupBlocks rest seen
    else block :: groupBlocks rest (objName :: seen)

/-- `groupBlocksToObjectsForStats`. -/
def groupBlocksToObjectsForStats (blocks : List (List BlockInfo)) : List BlockInfo :=
  groupBlocks blocks.flatten []

/-- `calcNdvUsingZonemap`. -/
def calcNdvUsingZonemap {Meta : Type} (env : Env Meta) (zm : plan.ZoneMap) (t : Type_) : F64 :=
  let span : F64 :=
    env.toFloat t.Oid t.Scale (env.codec.GetMaxBuf zm) -
      env.toFloat t.Oid t.Scale (env.codec.GetMinBuf zm) + 1
  match t.Oid with
  | .T_bool => 2
  | .T_int8 | .T_int16 | .T_int32 | .T_int64 => span
  | .T_uint8 | .T_uint16 | .T_uint32 | .T_uint64 => span
  | .T_decimal64 | .T_decimal128 => span
  | .T_float32 | .T_float64 => span
  | .T_timestamp | .T_date | .T_time | .T_datetime => span
  | _ => F64.fin (-1)

/-- `NewInfoFromZoneMap`, for a length that is not negative. -/
def NewInfoFromZoneMap (lenCols : Nat) : InfoFromZoneMap :=
  { ColumnZMs := List.replicate lenCols [], DataTypes := List.replicate lenCols { Oid := .T_any }
    ColumnNDVs := List.replicate lenCols 0 }

/-- The column loop of `getInfoFromZoneMap` for the first object, from column `idx` on. -/
def initColumns {Meta : Type} (env : Env Meta) (objectMeta : Meta) :
    List ColDef → Nat → InfoFromZoneMap → InfoFromZoneMap
  | [], _, info => info
  | col :: rest, idx, info =>
    let objColMeta := env.ObjectColumnMeta objectMeta (col.Seqnum % 2 ^ 16)
    let info := { info with ColumnZMs := info.ColumnZMs.set idx objColMeta.ZoneMap }
    let info := { info with DataTypes := info.DataTypes.set idx (env.ToType col.TypId) }
    let info := { info with ColumnNDVs := info.ColumnNDVs.set idx (F64.ofInt objColMeta.Ndv) }
    initColumns env objectMeta rest (idx + 1) info

/-- The column loop of `getInfoFromZoneMap` for a later object, from column `idx` on;
`none` when an index panics. -/
def mergeColumns {Meta : Type} (env : Env Meta) (objectMeta : Meta) :
    List ColDef → Nat → InfoFromZoneMap → Option InfoFromZoneMap
  | [], _, info => some info
  | col :: rest, idx, info =>
    let objColMeta := env.ObjectColumnMeta objectMeta (col.Seqnum % 2 ^ 16)
    let zm := objColMeta.ZoneMap
    if !env.IsInited zm then mergeColumns env objectMeta rest (idx + 1) info
    else do
      let z ← info.ColumnZMs[idx]?
      let z := env.UpdateZM z (env.codec.GetMaxBuf zm)
      let z := env.UpdateZM z (env.codec.GetMinBuf zm)
      let info := { info with ColumnZMs := info.ColumnZMs.set idx z }
      let ndv ← info.ColumnNDVs[idx]?
      let info := { info with
        ColumnNDVs := info.ColumnNDVs.set idx (ndv + F64.ofInt objColMeta.Ndv) }
      mergeColumns env objectMeta rest (idx + 1) info

/-- The loop of `getInfoFromZoneMap` over the objects; `init` says whether the first
object has been seen. -/
def loadObjects {Meta : Type} (env : Env Meta) (cols : List ColDef) :
    List BlockInfo → Bool → InfoFromZoneMap → Option (Except objectio.GoError InfoFromZoneMap)
  | [], _, info => some (.ok info)
  | obj :: rest, init, info =>
    let location := obj.MetaLocation
    match env.FastLoadObjectMeta location with
    | .error err => some (.error err)
    | .ok objectMeta =>
      if !init then loadObjects env cols rest true (initColumns env objectMeta cols 0 info)
      else
        match mergeColumns env objectMeta cols 0 info with
        | none => none
        | some info => loadObjects env cols rest true info

/-- The loop "adjust ndv" of `getInfoFromZoneMap`, from column `idx` on, over `n` columns. -/
def adjustNdv {Meta : Type} (env : Env Meta) (lenobjs tableCnt : F64) :
    Nat → Nat → InfoFromZoneMap → Option InfoFromZoneMap
  | 0, _, info => some info
  | n + 1, idx, info => do
    let ndv ← info.ColumnNDVs[idx]?
    let rate := ndv / tableCnt
    let rate := if rate.gt 1 then 1 else rate
    let ndv := if rate.lt 0.1 then ndv / env.helpers.Pow lenobjs (1 - rate) else ndv
    let zm ← info.ColumnZMs[idx]?
    let ty ← info.DataTypes[idx]?
    let ndvUsingZonemap := calcNdvUsingZonemap env zm ty
    let ndv := if !(ndvUsingZonemap.eq (F64.fin (-1))) ∧ ndv.gt ndvUsingZonemap
      then ndvUsingZonemap else ndv
    let ndv := if ndv.gt tableCnt then tableCnt else ndv
    adjustNdv env lenobjs tableCnt n (idx + 1)
      { info with ColumnNDVs := info.ColumnNDVs.set idx ndv }

/-- `getInfoFromZoneMap`; `none` on a panic (an empty column list makes the length of
the new slices negative). -/
def getInfoFromZoneMap {Meta : Type} (env : Env Meta) (blocks : List (List BlockInfo))
    (tableCnt : F64) (tableDef : TableDef) :
    Option (Except objectio.GoError InfoFromZoneMap) :=
  if tableDef.Cols.length = 0 then none
  else
    let lenCols := tableDef.Cols.length - 1
    let info := NewInfoFromZoneMap lenCols
    let objs := groupBlocksToObjectsForStats blocks
    match loadObjects env (tableDef.Cols.take lenCols) objs false info with
    | none => none
    | some (.error err) => some (.error err)
    | some (.ok info) =>
      let lenobjs := F64.ofInt objs.length
      if lenobjs.gt 1 then
        (adjustNdv env lenobjs tableCnt lenCols 0 info).map .ok
      else some (.ok info)

/-- The variables of `CalcStats` that the walk over the blocks updates. The counters
are unbounded integers: the `int64` and `int` sums of `uint32` row counts cannot
overflow on fewer than 2^31 blocks. -/
structure Walk (Meta : Type) where
  blockNumNeed : Int := 0
  tableCnt : Int := 0
  cost : Int := 0
  meta : Option Meta := none
  skipThisObject : Bool := false

/-- The body of the inner loop of `CalcStats` for one block: `none` on a panic (the
block meta is asked of a nil object meta), an error when the load of the object meta
fails, otherwise the variables after the iteration. -/
def walkBlock {Meta : Type} (env : Env Meta) (isMonoExpr : Bool) (expr : Expr)
    (columnMap : ColumnMap) (w : Walk Meta) (blk : BlockInfo) :
    Option (Except objectio.GoError (Walk Meta)) :=
  let location := blk.MetaLocation
  let w := { w with tableCnt := w.tableCnt + location.Rows }
  let count (w : Walk Meta) (needed : Bool) : Walk Meta :=
    if needed then { w with cost := w.cost + location.Rows, blockNumNeed := w.blockNumNeed + 1 }
    else w
  if isMonoExpr then
    if !env.IsSameObjectLocVsMeta location w.meta then
      match env.FastLoadObjectMeta location with
      | .error err => some (.error err)
      | .ok meta =>
        let w := { w with meta := some meta }
        let w := { w with
          skipThisObject := !env.evalFilterExprWithZonemap meta expr columnMap }
        if w.skipThisObject then some (.ok w)
        else
          some (.ok (count w (env.evalFilterExprWithZonemap
            (env.GetBlockMeta meta (location.ID % 2 ^ 32)) expr columnMap)))
    else
      match w.meta with
      | none => none
      | some meta =>
        some (.ok (count w (env.evalFilterExprWithZonemap
          (env.GetBlockMeta meta (location.ID % 2 ^ 32)) expr columnMap)))
  else some (.ok (count w true))

/-- The inner loop of `CalcStats`, over the blocks of one partition. -/
def walkBlocks {Meta : Type} (env : Env Meta) (isMonoExpr : Bool) (expr : Expr)
    (columnMap : ColumnMap) :
    List BlockInfo → Walk Meta → Option (Except objectio.GoError (Walk Meta))
  | [], w => some (.ok w)
  | blk :: rest, w =>
    match walkBlock env isMonoExpr expr columnMap w blk with
    | none => none
    | some (.error err) => some (.error err)
    | some (.ok w) => walkBlocks env isMonoExpr expr columnMap rest w

/-- The outer loop of `CalcStats`, over the partitions, with `blockNumTotal`. -/
def walk {Meta : Type} (env : Env Meta) (isMonoExpr : Bool) (expr : Expr)
    (columnMap : ColumnMap) :
    List (List BlockInfo) → Int → Walk Meta → Option (Except objectio.GoError (Int × Walk Meta))
  | [], blockNumTotal, w => some (.ok (blockNumTotal, w))
  | part :: rest, blockNumTotal, w =>
    let blockNumTotal := blockNumTotal + part.length
    match walkBlocks env isMonoExpr expr columnMap part w with
    | none => none
    | some (.error err) => some (.error err)
    | some (.ok w) => walk env isMonoExpr expr columnMap rest blockNumTotal w

/-- What `CalcStats` returns, and the stats entry `s` after the call; `stats` and `err`
are `none` when nil. -/
structure CalcStatsResult where
  stats : Option Stats
  err : Option objectio.GoError
  s : StatsInfoMap

/-- The end of `CalcStats`, from `if expr != nil` on: `Outcnt` and `Selectivity` are
stored in the record, which is returned with the entry `s`. -/
def finishStats (h : Helpers) (expr : Expr) (sortKeyName : String) (stats : Stats)
    (s : StatsInfoMap) : Option CalcStatsResult := do
  let outcnt ←
    match expr with
    | .null => some stats.TableCnt
    | e => EstimateOutCnt h sortKeyName stats.TableCnt stats.Cost s e
  let stats := { stats with Outcnt := outcnt }
  let stats := { stats with Selectivity := stats.Outcnt / stats.TableCnt }
  pure { stats := some stats, err := none, s := s }

/-- `CalcStats`; `none` on a panic. The conversion `int32(blockNumNeed)` is the
identity on fewer than 2^31 blocks. -/
def CalcStats {Meta : Type} (env : Env Meta) (blocks : List (List BlockInfo)) (expr : Expr)
    (tableDef : TableDef) (sortKeyName : String) (s : StatsInfoMap) : Option CalcStatsResult :=
  let isMonoExpr := env.CheckExprIsMonotonic expr
  let columnMap : ColumnMap := if isMonoExpr then env.GetColumnsByExpr expr tableDef else none
  match walk env isMonoExpr expr columnMap blocks 0 {} with
  | none => none
  | some (.error err) => some { stats := none, err := some err, s := s }
  | some (.ok (blockNumTotal, w)) =>
    let stats : Stats := {}
    let stats := { stats with BlockNum := w.blockNumNeed }
    let stats := { stats with TableCnt := F64.ofInt w.tableCnt }
    let stats := { stats with Cost := F64.ofInt w.cost }
    if s.NeedUpdate blockNumTotal then
      match getInfoFromZoneMap env blocks (F64.ofInt w.tableCnt) tableDef with
      | none => none
      | some (.error _) => some { stats := some DefaultStats, err := none, s := s }
      | some (.ok info) =>
        match UpdateStatsInfoMap env.codec info blockNumTotal stats.TableCnt tableDef s with
        | none => none
        | some s => finishStats env.helpers expr sortKeyName stats s
    else finishStats env.helpers expr sortKeyName stats s

end disttae

/-! ## Examples and definitions of the specification side -/

namespace plan

/-- A constant expression, for the examples. -/
def constExpr : Expr := .C 0 { Isnull := false, Value := .I64Val 1 }

/-- The disjunction of two constants, for the examples. -/
def orExpr : Expr := .F 0 "or" [constExpr, constExpr]

/-- An equality `a = 1`, for the examples. -/
def eqExpr : Expr := .F 0 "=" [.Col 0 { RelPos := 0, ColPos := 0, Name := "a" }, constExpr]

/-- A codec that decodes every buffer to its length, for the examples. -/
def lenCodec : ZMCodec :=
  { GetMinBuf := fun zm => zm.take 1, GetMaxBuf := fun zm => zm.drop 1
    DecodeInt8 := fun b => b.length, DecodeInt16 := fun b => b.length
    DecodeInt32 := fun b => b.length, DecodeInt64 := fun b => b.length
    DecodeUint8 := fun b => b.length, DecodeUint16 := fun b => b.length
    DecodeUint32 := fun b => b.length, DecodeUint64 := fun b => b.length
    DecodeDate := fun b => b.length }

/-- A table with one column `a` and the row-id column, for the examples. -/
def oneColTable : TableDef := { Name := "t", Cols := [{ Name := "a" }, { Name := "__mo_rowid" }] }

/-- Zone-map information for one int64 column, for the examples. -/
def oneColInfo : InfoFromZoneMap :=
  { ColumnZMs := [[1, 9]], DataTypes := [{ Oid := .T_int64 }], ColumnNDVs := [3] }

/-- Helpers that recognise no filter shape, for the examples. -/
def noHelpers : Helpers :=
  { Pow := fun _ _ => 1
    CheckFilter := fun _ => (false, none)
    CheckStrictFilter := fun _ => (false, none, none)
    GetClusterByColumnOrder := fun _ _ => -1
    canMergeToBetweenAnd := fun _ _ => false }

end plan

namespace objectio

/-- The bytes of the payload of column index `idx` that `writerBlocks` writes for a
block: none when the block has no such column. -/
def payloadBytes (idx : Nat) (blk : blockData) : Bytes :=
  if blk.meta.header.columnCount ≤ idx then [] else (blk.data[idx]?).getD []

/-- The payloads of column index `idx` of all blocks, in block order. -/
def columnBytes (idx : Nat) (blocks : List blockData) : Bytes :=
  (blocks.map (payloadBytes idx)).flatten

/-- The payloads of the column indexes `idx, …, idx + n - 1`, column-major. -/
def payloadArea (blocks : List blockData) : Nat → Nat → Bytes
  | 0, _ => []
  | n + 1, idx => columnBytes idx blocks ++ payloadArea blocks n (idx + 1)

/-- The offset the specification assigns to the payload of column index `c` of block
number `b` in an object whose payloads start at `start`: after all payloads of smaller
column index, and after the column-`c` payloads of the blocks before `b`. -/
def expectedOffset (start : Nat) (blocks : List blockData) (c b : Nat) : Nat :=
  start + (payloadArea blocks c 0).length + (columnBytes c (blocks.take b)).length

/-- The location recorded for column index `c` of a block: that of the column meta at
the column's seqnum. -/
def recordedLocation (w : objectWriterV1) (blk : blockData) (c : Nat) : Option Extent := do
  let seq ← (blk.seqnums.deref w).Seqs[c]?
  let cm ← blk.meta.ColumnMeta seq
  pure cm.location

/-- The column meta of column index `idx` records the length of the column's payload. -/
def blockData.payloadOk (w : objectWriterV1) (blk : blockData) (idx : Nat) : Bool :=
  match recordedLocation w blk idx, blk.data[idx]? with
  | some location, some d => location.length == d.length
  | _, _ => false

/-- A block as `AddBlock` leaves it: one payload per column of the header, a `uint16`
column count, distinct seqnums, and in every column meta the length of its payload. -/
def blockData.wellFormed (w : objectWriterV1) (blk : blockData) : Prop :=
  blk.data.length = blk.meta.header.columnCount ∧
  blk.meta.header.columnCount < 2 ^ 16 ∧
  (blk.seqnums.deref w).Seqs.Nodup ∧
  ∀ idx, idx < blk.data.length → blk.payloadOk w idx = true

instance (w : objectWriterV1) (blk : blockData) : Decidable (blk.wellFormed w) := by
  unfold blockData.wellFormed
  infer_instance

/-- The patch that the inner loop of `prepareBlockMeta` applies to one block for column
index `idx` at offset `off`. -/
def patchBlock (w : objectWriterV1) (idx off : Nat) (blk : blockData) : blockData :=
  if blk.meta.header.columnCount ≤ idx then blk
  else
    match (blk.seqnums.deref w).Seqs[idx]? with
    | none => blk
    | some seq =>
      match blk.meta.ColumnMeta seq with
      | none => blk
      | some cm =>
        let location := { cm.location with offset := off }
        { blk with meta := blk.meta.setColumnMeta seq { cm with location := location } }

/-- The patch of a list of blocks for column index `idx`, the first payload at `off`. -/
def patchColumn (w : objectWriterV1) (idx : Nat) : Nat → List blockData → List blockData
  | _, [] => []
  | off, blk :: rest =>
    patchBlock w idx off blk :: patchColumn w idx (off + (payloadBytes idx blk).length) rest

/-- The patches of the column indexes `idx, …, idx + n - 1`, the first payload at `off`. -/
def patchColumns (w : objectWriterV1) : Nat → Nat → Nat → List blockData → List blockData
  | 0, _, _, blocks => blocks
  | n + 1, idx, off, blocks =>
    patchColumns w n (idx + 1) (off + (columnBytes idx blocks).length) (patchColumn w idx off blocks)

/-- Parameters for the examples: compression that stores its input, vectors that
marshal to their payload, a 64-byte header. -/
def demoParams : Params :=
  { HeaderSize := 64, ZoneMapSize := 64, Version := 1, Magic := 4294967295
    algNone := 0, algLz4 := 1, T_any := 0
    compress := fun b => .ok b
    MarshalBinary := fun v => .ok v.payload
    EncodeIOEntryHeader := fun k =>
      match k with
      | .IOET_ColData => [1, 1]
      | .IOET_ObjMeta => [2, 1]
      | .IOET_BF => [3, 1]
      | .IOET_ZM => [4, 1]
    headerBytes := fun h =>
      u32le h.schemaVersion ++ [h.extent.alg] ++ u32le h.extent.offset ++ u32le h.extent.length ++
        u32le h.extent.originSize ++ List.replicate 47 0
    metaBytes := fun bm => u32le bm.header.sequence ++ u32le bm.header.rows ++
      (bm.cols.map fun cm => u32le cm.location.offset ++ u32le cm.location.length).flatten
    footerMarshal := fun f =>
      [f.metaExtent.alg] ++ u32le f.metaExtent.offset ++ u32le f.metaExtent.length ++
        u32le f.metaExtent.originSize ++ u32le f.version ++ u32le f.magic
    headerBytes_length := by intro h; simp [u32le] }

/-- A vector of int64 type (any type tag other than `T_any`) with the given payload. -/
def demoVector (payload : Bytes) : Vector :=
  { length := payload.length, oid := 23, nullCount := 0, payload := payload }

/-- A batch of two columns. -/
def demoBatch1 : Batch :=
  { Vecs := [demoVector [1, 2, 3], demoVector [4, 5]], Attrs := ["a", "b"] }

/-- Another batch of two columns. -/
def demoBatch2 : Batch :=
  { Vecs := [demoVector [6], demoVector [7, 8, 9, 10]], Attrs := ["a", "b"] }

/-- A writer created without an explicit seqnum list. -/
def freshWriter : objectWriterV1 :=
  newObjectWriterV1 { segmentId := 7, num := 0 } "obj" 1 []

/-- The writer after `Write(demoBatch1)` and `Write(demoBatch2)`. -/
def demoWriter : objectWriterV1 :=
  (((Write demoParams freshWriter demoBatch1).bind fun r => Write demoParams r.2.2 demoBatch2).map
    fun r => r.2.2).getD freshWriter

/-- A column meta that records a payload of `2^30` bytes. -/
def gibColumnMeta : ColumnMeta :=
  { location := NewExtent 1 0 (2 ^ 30) (2 ^ 30), zoneMap := [], nullCnt := 0, dataType := 23 }

/-- A writer holding one block of four columns whose payloads have `2^30` bytes each. -/
def gibWriter : objectWriterV1 :=
  { freshWriter with
    seqnums := { Seqs := [0, 1, 2, 3], MaxSeq := 3 }
    lastId := 1
    blocks := [{ meta := { header := { BuildBlockHeader with columnCount := 4, metaColumnCount := 4,
                                                               maxSeqnum := 3 }
                           cols := List.replicate 4 gibColumnMeta }
                 seqnums := .writer
                 data := List.replicate 4 (List.replicate (2 ^ 30) 0)
                 bloomFilter := [] }] }

/-- The same writer with the 64 bytes of the object header already in its buffer. -/
def gibWriterWithHeader : objectWriterV1 :=
  { gibWriter with buffer := some ((NewObjectBuffer "obj").Write (List.replicate 64 0)) }

/-- A block meta without the placement that `WriteEnd` adds to it: the offsets of the
column locations and the meta location. -/
def BlockObject.unplaced (bm : BlockObject) : BlockObject :=
  { header := { bm.header with metaLocation := Extent.zero }
    cols := bm.cols.map fun cm => { cm with location := { cm.location with offset := 0 } } }

/-- A block without the placement that `WriteEnd` adds to its meta. -/
def blockData.unplaced (blk : blockData) : blockData :=
  { blk with meta := blk.meta.unplaced }

/-- A file service for the examples: its state is the list of the names of the files
it holds; `Write` refuses a name that exists, `Delete` removes it. -/
def demoFs : FileService (List String) :=
  { Write := fun st v =>
      if v.FilePath ∈ st then (some (.moErr .ErrFileAlreadyExists v.FilePath), st)
      else (none, v.FilePath :: st)
    Delete := fun st name => (none, st.erase name) }

/-- The writer left by two `Write` calls, with a bloom filter attached to each block. -/
def demoWriterBF : objectWriterV1 :=
  ((WriteBF demoWriter 0 [9, 9, 9]).bind fun w => WriteBF w 1 [8, 8]).getD demoWriter

/-- A block whose bloom filter has `2^31` bytes. -/
def gibBloomBlock : blockData :=
  { meta := NewBlock { Seqs := [], MaxSeq := 0 }, seqnums := .writer, data := []
    bloomFilter := List.replicate (2 ^ 31) 0 }

/-- A writer holding three blocks whose bloom filters have `2^31` bytes each. -/
def gibBloomWriter : objectWriterV1 :=
  { freshWriter with blocks := [gibBloomBlock, gibBloomBlock, gibBloomBlock], lastId := 3 }

/-- A sequence of `Write` calls, one per batch: the handles returned, in order, and the
writer after the last call; `none` when a call panics. -/
def writeAll (p : Params) :
    objectWriterV1 → List Batch → Option (List BlockObject × objectWriterV1)
  | w, [] => some ([], w)
  | w, batch :: rest =>
    match Write p w batch with
    | none => none
    | some (block, _, w1) =>
      match writeAll p w1 rest with
      | none => none
      | some (blocks, w2) => some (block :: blocks, w2)

/-- A batch without columns. -/
def emptyBatch : Batch := { Vecs := [], Attrs := [] }

/-- Parameters for the examples under which no vector marshals. -/
def failParams : Params :=
  { demoParams with MarshalBinary := fun _ => .error (.plain "marshal") }

/-- The handles returned by `Write(demoBatch1)` and `Write(demoBatch2)`. -/
def demoHandles : List BlockObject :=
  ((writeAll demoParams freshWriter [demoBatch1, demoBatch2]).map Prod.fst).getD []

end objectio

namespace plan

/-- The `Outcnt` of the node `id` of a builder, when the node and its stats exist. -/
def QueryBuilder.outcnt (builder : QueryBuilder) (id : Int) : Option F64 := do
  let node ← builder.qry.node id
  let stats ← node.Stats
  pure stats.Outcnt

/-- A join node with the children 1 and 2, for the examples. -/
def joinNode (jt : JoinType) : Node :=
  { NodeType := .JOIN, NodeId := 0, Children := [1, 2], JoinType := jt }

/-- A node without children with the given `Outcnt`, for the examples. -/
def leafNode (id : Int) (ty : NodeType) (outcnt : F64) : Node :=
  { NodeType := ty, NodeId := id, Stats := some { Outcnt := outcnt } }

/-- A join of the nodes 1 and 2 at node 0, with the given type, `Outcnt`s and kind of
the right child. -/
def joinBuilder (jt : JoinType) (left right : F64) (rightType : NodeType) : QueryBuilder :=
  { statsCache := none, ctxByNode := fun _ => none
    qry := { Nodes := [joinNode jt, leafNode 1 .TABLE_SCAN left, leafNode 2 rightType right] } }

end plan

namespace plan

/-- A cache without entries, for the examples. -/
def emptyCache : StatsCache := { cachePool := fun _ => none }

/-- Table ids of the three catalog tables, for the examples. -/
def demoCatalog : Catalog := { MO_DATABASE_ID := 1, MO_TABLES_ID := 2, MO_COLUMNS_ID := 3 }

/-- A stats entry that holds an NDV for a column `old`, for the examples. -/
def staleEntry : StatsInfoMap :=
  { NewStatsInfoMap with NdvMap := NewStatsInfoMap.NdvMap.set "old" 7 }

end plan

namespace plan

/-- Helpers for the examples: a filter is accepted when its first argument is a column,
and as a strict filter when it compares a column with a constant; the column named by
the sort key has sort order 0, every other column -1. `Pow` stands in for `math.Pow`
at the exponent 1, where `math.Pow(x, 1) = x`. -/
def sortHelpers : Helpers :=
  { Pow := fun x y => if y = 1 then x else 1
    CheckFilter := fun e =>
      match e with
      | .F _ _ (.Col _ col :: _) => (true, some col)
      | _ => (false, none)
    CheckStrictFilter := fun e =>
      match e with
      | .F _ _ [.Col _ col, .C _ c] => (true, some col, some c)
      | _ => (false, none, none)
    GetClusterByColumnOrder := fun sortKeyName name => if sortKeyName = name then 0 else -1
    canMergeToBetweenAnd := fun _ _ => false }

/-- A stats entry for one column `a` with the given NDV, type and bounds, for the
examples. -/
def columnStats (ndv : F64) (ty : T) (min max : F64) : StatsInfoMap :=
  { NewStatsInfoMap with
    NdvMap := NewStatsInfoMap.NdvMap.set "a" ndv
    DataTypeMap := NewStatsInfoMap.DataTypeMap.set "a" ty
    MinValMap := NewStatsInfoMap.MinValMap.set "a" min
    MaxValMap := NewStatsInfoMap.MaxValMap.set "a" max }

/-- The comparison of the column `a` with a constant, for the examples. -/
def cmpExpr (funcName : String) (v : ConstValue) : Expr :=
  .F 0 funcName
    [.Col 0 { RelPos := 0, ColPos := 0, Name := "a" }, .C 0 { Isnull := false, Value := v }]

/-- The kind of a constant matches the type class of a column, and `v` is its value:
an `I64Val` for a signed integer column, a `U64Val` for an unsigned one, a `Dateval`
for a date column. -/
def kindMatches (ty : T) (value : ConstValue) (v : Int) : Prop :=
  (ty ∈ [T.T_int8, T.T_int16, T.T_int32, T.T_int64] ∧ value = .I64Val v) ∨
  (ty ∈ [T.T_uint8, T.T_uint16, T.T_uint32, T.T_uint64] ∧ ∃ u : Nat, value = .U64Val u ∧ v = u) ∨
  (ty = T.T_date ∧ value = .Dateval v)

end plan

namespace disttae

open plan

/-- An environment for the examples. A meta value is the name of an object, with the
number of a block when it is a block meta; the filter excludes every object at the
object level and passes block 1 at the block level; a load succeeds or fails as
`loadOk` says. -/
def demoEnv (loadOk : Bool) : Env (String × Option Nat) :=
  { CheckExprIsMonotonic := fun e =>
      match e with
      | .null => false
      | _ => true
    GetColumnsByExpr := fun _ _ => some []
    FastLoadObjectMeta := fun loc =>
      if loadOk then .ok (loc.Name, none) else .error (.plain "load")
    IsSameObjectLocVsMeta := fun loc meta =>
      match meta with
      | some m => m.1 == loc.Name
      | none => false
    GetBlockMeta := fun meta id => (meta.1, some id)
    evalFilterExprWithZonemap := fun meta _ _ =>
      match meta.2 with
      | some id => id == 1
      | none => false
    ObjectColumnMeta := fun _ _ => { ZoneMap := [1, 9], Ndv := 3 }
    IsInited := fun _ => true
    UpdateZM := fun zm _ => zm
    ToType := fun _ => { Oid := .T_int64 }
    toFloat := fun _ _ buf => F64.ofInt buf.length
    codec := lenCodec
    helpers := noHelpers }

/-- Two blocks of one object, with 10 and 20 rows, for the examples. -/
def demoBlocks : List (List BlockInfo) :=
  [[{ MetaLocation := { Name := "o", ID := 0, Rows := 10 } },
    { MetaLocation := { Name := "o", ID := 1, Rows := 20 } }]]

/-- A stats entry that was refreshed at two blocks, for the examples. -/
def freshEntry : StatsInfoMap := { NewStatsInfoMap with BlockNumber := 2 }

end disttae

namespace plan

/-- Helpers for the examples that accept every filter whose first argument is a column,
accept no filter as strict, and take every pair of comparisons for a range. -/
def rangeHelpers : Helpers :=
  { sortHelpers with
    CheckStrictFilter := fun _ => (false, none, none)
    canMergeToBetweenAnd := fun _ _ => true }

end plan

namespace plan

/-- The conjunction of `a > 50` with itself, for the examples. -/
def rangeExpr : Expr :=
  .F 0 "and" [cmpExpr ">" (.I64Val 50), cmpExpr ">" (.I64Val 50)]

end plan

/-! ## `pkg/vm/engine/tae/tables/jobs/mergeblocks.go` -/

namespace jobs

/-- The partition loop of `mergeBlocksTask.Execute` (`for totalRows > 0`), entered with
the rows left `totalRows` (an `int`) and the list `to` built so far (here `to_`); `maxrow` is
`schema.BlockMaxRows`, a `uint32`. Each unit of fuel pays for one test of the loop
condition; the result is `none` when the fuel runs out. The subtraction
`totalRows -= int(maxrow)` takes a non-negative number from a larger one and cannot
overflow. -/
def partitionRows (maxrow : Nat) : Nat → Int → List Nat → Option (List Nat)
  | 0, _, _ => none
  | fuel + 1, totalRows, to_ =>
    if totalRows > 0 then
      if totalRows > (maxrow : Int) then
        partitionRows maxrow fuel (totalRows - (maxrow : Int)) (to_ ++ [maxrow])
      else some (to_ ++ [(totalRows % 2 ^ 32).toNat])
    else some to_

end jobs

/-! ## `pkg/sql/plan/function/builtin/seq/nextval.go` -/

namespace seq

/-- The integer types of the type switch of `nextval`. -/
inductive IntType where
  | int16 | int32 | int64 | uint16 | uint32 | uint64
deriving DecidableEq

/-- The width of an integer type in bits. -/
def IntType.bits : IntType → Nat
  | .int16 | .uint16 => 16
  | .int32 | .uint32 => 32
  | .int64 | .uint64 => 64

/-- Whether an integer type is signed. -/
def IntType.signed : IntType → Bool
  | .int16 | .int32 | .int64 => true
  | _ => false

/-- The Go conversion `T(v)` between integer types, and the result in `T` of an
arithmetic operation whose exact value is `v`: `v` modulo `2^w`, in the range of `T`. -/
def IntType.conv (t : IntType) (v : Int) : Int :=
  if t.signed then (v + 2 ^ (t.bits - 1)) % 2 ^ t.bits - 2 ^ (t.bits - 1)
  else v % 2 ^ t.bits

/-- The constant `math.MaxInt16`. -/
def MaxInt16 : Int := 32767

/-- The constant `math.MinInt16`. -/
def MinInt16 : Int := -32768

/-- The constant `math.MaxInt64`. -/
def MaxInt64 : Int := 9223372036854775807

/-- The constant `math.MinInt64`. -/
def MinInt64 : Int := -9223372036854775808

/-- The constant `math.MaxUint16`. -/
def MaxUint16 : Int := 65535

/-- The constant `math.MaxUint32`. -/
def MaxUint32 : Int := 4294967295

/-- A value of the row that the query on the sequence table returns (an `interface{}`):
an integer of one of the types of the switch, a `bool`, or a value of any other type. -/
inductive Value where
  | int (t : IntType) (v : Int)
  | bool (b : Bool)
  | other
deriving DecidableEq

/-- A non-nil Go `error`: an internal error of package `moerr` with its message, or an
error that a called component returns. -/
inductive Error where
  | internal (msg : String)
  | foreign (code : Nat)
deriving DecidableEq

/-- The engine, the session and the SQL helper as `nextval` uses them, all outside the
embedded file. A relation is represented by its table id. `TableDefs` gives the value
of `td[len(td)-1].(*engine.PropertiesDef).Properties[0].Value`, `none` where that
expression panics; `ExecSql` gives the rows of a statement, `none` when they are nil. -/
structure Env where
  Database : String
  openDatabase : String → Option Error
  Relation : String → String → Except Error Nat
  TableDefs : Nat → Except Error (Option String)
  SystemSequenceRel : String
  ExecSql : String → Except Error (Option (List Value))

/-- What a call changes: the map `proc.SessionInfo.SeqAddValues` by table id, and the
statements passed to `ExecSql`, in order. -/
structure Session where
  SeqAddValues : Nat → Option String := fun _ => none
  executed : List String := []

/-- A returned pair `(string, error)` with the session after the call. -/
abbrev Returned := (String × Option Error) × Session

/-- The package variable `setEdge`. -/
def setEdge : Bool := true

/-- `makePosIncr[T]`; the negation is one of `int64`. -/
def makePosIncr (t : IntType) (incr : Int) : Int :=
  if incr < 0 then t.conv (IntType.int64.conv (-incr))
  else t.conv incr

/-- `setSeq[T]`. -/
def setSeq (env : Env) (sess : Session) (setv : Int) (rel : Nat) (db tbl : String) : Returned :=
  let stmt := "update `" ++ db ++ "`.`" ++ tbl ++ "` set last_seq_num = " ++ toString setv
  let sess := { sess with executed := sess.executed ++ [stmt] }
  match env.ExecSql stmt with
  | .error err => (("", some err), sess)
  | .ok _ =>
    let tblId := rel
    let ress := toString setv
    ((ress, none),
      { sess with SeqAddValues := fun k => if k = tblId then some ress else sess.SeqAddValues k })

/-- `setIsCalled[T]`. -/
def setIsCalled (env : Env) (sess : Session) (rel : Nat) (lsn : Int) (db tbl : String) :
    Returned :=
  let stmt := "update `" ++ db ++ "`.`" ++ tbl ++ "` set is_called = true"
  let sess := { sess with executed := sess.executed ++ [stmt] }
  match env.ExecSql stmt with
  | .error err => (("", some err), sess)
  | .ok _ =>
    let tblId := rel
    let ress := toString lsn
    ((ress, none),
      { sess with SeqAddValues := fun k => if k = tblId then some ress else sess.SeqAddValues k })

/-- The error `moerr.NewInternalError(ctx, "Reached maximum value of sequence %s", tblname)`. -/
def reachedMaximum (tblname : String) : Error :=
  .internal ("Reached maximum value of sequence " ++ tblname)

/-- `advanceSeq[T]`, with the arithmetic of `T`. -/
def advanceSeq (env : Env) (sess : Session) (t : IntType) (lsn minv maxv incrv : Int)
    (cycle minus setEdge : Bool) (rel : Nat) (db tblname : String) : Returned :=
  if setEdge then
    if minus then setSeq env sess maxv rel db tblname
    else setSeq env sess minv rel db tblname
  else
    let adseq := if minus then t.conv (lsn - incrv) else t.conv (lsn + incrv)
    if minus ∧ (adseq < minv ∨ adseq > lsn) then
      if ¬ cycle then (("", some (reachedMaximum tblname)), sess)
      else setSeq env sess maxv rel db tblname
    else if ¬ minus ∧ (adseq > maxv ∨ adseq < lsn) then
      if ¬ cycle then (("", some (reachedMaximum tblname)), sess)
      else setSeq env sess minv rel db tblname
    else setSeq env sess adseq rel db tblname

/-- The type assertion `v.(T)` for an integer type; `none` when it panics. -/
def Value.asInt (t : IntType) : Option Value → Option Int
  | some (.int t1 v) => if t1 = t then some v else none
  | _ => none

/-- The type assertion `v.(bool)`; `none` when it panics. -/
def Value.asBool : Option Value → Option Bool
  | some (.bool b) => some b
  | _ => none

/-- The assertions `values[1].(T), values[2].(T), values[3].(T), values[4].(int64),
values[5].(bool), values[6].(bool)` of an arm of the switch of `nextval`: `minv`,
`maxv`, `incrv`, `cycle` and `isCalled`; `none` when an index or an assertion panics. -/
def readRow (t : IntType) (values : List Value) : Option (Int × Int × Int × Bool × Bool) := do
  let minv ← Value.asInt t values[1]?
  let maxv ← Value.asInt t values[2]?
  let _ ← Value.asInt t values[3]?
  let incrv ← Value.asInt .int64 values[4]?
  let cycle ← Value.asBool values[5]?
  let isCalled ← Value.asBool values[6]?
  pure (minv, maxv, incrv, cycle, isCalled)

/-- The switch `switch values[0].(type)` of `nextval`; `none` on a panic. -/
def nextvalSwitch (env : Env) (sess : Session) (values : List Value) (rel : Nat)
    (db tblname : String) : Option Returned :=
  match (values[0]? : Option Value) with
  | none => none
  | some (.int .int16 lsn) =>
    match readRow .int16 values with
    | none => none
    | some (minv, maxv, incrv, cycle, isCalled) =>
      if ¬ isCalled then some (setIsCalled env sess rel lsn db tblname)
      else if incrv > MaxInt16 ∨ incrv < MinInt16 then
        if cycle then
          some (advanceSeq env sess .int16 lsn minv maxv (IntType.int16.conv incrv) cycle
            (decide (incrv < 0)) setEdge rel db tblname)
        else some (("", some (reachedMaximum tblname)), sess)
      else
        some (advanceSeq env sess .int16 lsn minv maxv (makePosIncr .int16 incrv) cycle
          (decide (incrv < 0)) (!setEdge) rel db tblname)
  | some (.int .int32 lsn) =>
    match readRow .int32 values with
    | none => none
    | some (minv, maxv, incrv, cycle, isCalled) =>
      if ¬ isCalled then some (setIsCalled env sess rel lsn db tblname)
      else if incrv > MaxInt64 ∨ incrv < MinInt64 then
        if cycle then
          some (advanceSeq env sess .int32 lsn minv maxv (IntType.int32.conv incrv) cycle
            (decide (incrv < 0)) setEdge rel db tblname)
        else some (("", some (reachedMaximum tblname)), sess)
      else
        some (advanceSeq env sess .int32 lsn minv maxv (makePosIncr .int32 incrv) cycle
          (decide (incrv < 0)) (!setEdge) rel db tblname)
  | some (.int .int64 lsn) =>
    match readRow .int64 values with
    | none => none
    | some (minv, maxv, incrv, cycle, isCalled) =>
      if ¬ isCalled then some (setIsCalled env sess rel lsn db tblname)
      else
        some (advanceSeq env sess .int64 lsn minv maxv (makePosIncr .int64 incrv) cycle
          (decide (incrv < 0)) (!setEdge) rel db tblname)
  | some (.int .uint16 lsn) =>
    match readRow .uint16 values with
    | none => none
    | some (minv, maxv, incrv, cycle, isCalled) =>
      if ¬ isCalled then some (setIsCalled env sess rel lsn db tblname)
      else if incrv > MaxUint16 ∨ IntType.int64.conv (-incrv) > MaxUint16 then
        if cycle then
          some (advanceSeq env sess .uint16 lsn minv maxv (IntType.uint16.conv incrv) cycle
            (decide (incrv < 0)) setEdge rel db tblname)
        else some (("", some (reachedMaximum tblname)), sess)
      else
        some (advanceSeq env sess .uint16 lsn minv maxv (makePosIncr .uint16 incrv) cycle
          (decide (incrv < 0)) (!setEdge) rel db tblname)
  | some (.int .uint32 lsn) =>
    match readRow .uint32 values with
    | none => none
    | some (minv, maxv, incrv, cycle, isCalled) =>
      if ¬ isCalled then some (setIsCalled env sess rel lsn db tblname)
      else if incrv > MaxUint32 ∨ IntType.int64.conv (-incrv) > MaxUint32 then
        if cycle then
          some (advanceSeq env sess .uint32 lsn minv maxv (IntType.uint32.conv incrv) cycle
            (decide (incrv < 0)) setEdge rel db tblname)
        else some (("", some (reachedMaximum tblname)), sess)
      else
        some (advanceSeq env sess .uint32 lsn minv maxv (makePosIncr .uint32 incrv) cycle
          (decide (incrv < 0)) (!setEdge) rel db tblname)
  | some (.int .uint64 lsn) =>
    match readRow .uint64 values with
    | none => none
    | some (minv, maxv, incrv, cycle, isCalled) =>
      if ¬ isCalled then some (setIsCalled env sess rel lsn db tblname)
      else
        some (advanceSeq env sess .uint64 lsn minv maxv (makePosIncr .uint64 incrv) cycle
          (decide (incrv < 0)) (!setEdge) rel db tblname)
  | some _ =>
    some (("", some (.internal
      "Wrong types of sequence number or failed to read the sequence table")), sess)

/-- The statement `fmt.Sprintf("select * from %s.%s", db, tblname)` of `nextval`, with
the names quoted as in the source. -/
def selectStmt (db tblname : String) : String :=
  "select * from `" ++ db ++ "`.`" ++ tblname ++ "`"

/-- `nextval`; `none` on a panic. -/
def nextval (env : Env) (sess : Session) (tblname : String) : Option Returned :=
  let db := env.Database
  match env.openDatabase db with
  | some err => some (("", some err), sess)
  | none =>
    match env.Relation db tblname with
    | .error err => some (("", some err), sess)
    | .ok rel =>
      match env.TableDefs rel with
      | .error err => some (("", some err), sess)
      | .ok none => none
      | .ok (some v) =>
        if v ≠ env.SystemSequenceRel then
          some (("", some (.internal "Table input is not a sequence")), sess)
        else
          let sess := { sess with executed := sess.executed ++ [selectStmt db tblname] }
          match env.ExecSql (selectStmt db tblname) with
          | .error err => some (("", some err), sess)
          | .ok none => some (("", some (.internal "Failed to get sequence meta data.")), sess)
          | .ok (some values) => nextvalSwitch env sess values rel db tblname

/-- An `int32` sequence for the examples: last value 1, range 1..100, the given
increment, called before; every statement succeeds. -/
def demoEnv (incrv : Int) (cycle : Bool) : Env :=
  { Database := "db"
    openDatabase := fun _ => none
    Relation := fun _ _ => .ok 7
    TableDefs := fun _ => .ok (some "S")
    SystemSequenceRel := "S"
    ExecSql := fun _ =>
      .ok (some [.int .int32 1, .int .int32 1, .int .int32 100, .int .int32 1,
        .int .int64 incrv, .bool cycle, .bool true]) }

end seq

/-! ## `pkg/sql/plan/stats.go`: `ReCalcNodeStats` -/

namespace plan

/-- The compile context and the planner functions that `ReCalcNodeStats` calls and that
are outside the embedded files: `builder.compCtx.Stats`, `HandleFiltersForZM` (the
process argument left out; a nil expression is `Expr.null`), `getExternalStats`, and
the conversion `int32(x)` of a `float64`. A returned `*Stats` is `none` when nil. -/
structure CompilerContext where
  Stats : Nat → Expr → Option Stats
  HandleFiltersForZM : List Expr → Expr × Expr
  getExternalStats : Node → QueryBuilder → Option plan.Stats
  toInt32 : F64 → Int

mutual
/-- `fixColumnName`: the expression after the call, as the source renames in place;
`none` when a nil expression is inspected or a column position is out of range. -/
def fixColumnName (tableDef : TableDef) : Expr → Option Expr
  | .null => none
  | .F typ name args => (fixColumnNames tableDef args).map (Expr.F typ name)
  | .Col typ col =>
    if col.ColPos < 0 then none
    else (tableDef.Cols[col.ColPos.toNat]?).map fun cd => Expr.Col typ { col with Name := cd.Name }
  | .C typ c => some (.C typ c)
  | .Other typ => some (.Other typ)
/-- The loop of `fixColumnName` over the arguments of a function expression. -/
def fixColumnNames (tableDef : TableDef) : List Expr → Option (List Expr)
  | [] => some []
  | a :: rest =>
    match fixColumnName tableDef a with
    | none => none
    | some a => (fixColumnNames tableDef rest).map (a :: ·)
end

/-- The read `childStats = builder.qry.Nodes[node.Children[0]].Stats` of
`ReCalcNodeStats` for a node with one child, nil otherwise; the outer `none` is a
panic. -/
def readChildStats (builder : QueryBuilder) (node : Node) : Option (Option Stats) :=
  if node.Children.length = 1 then
    match node.Children[0]? with
    | none => none
    | some c => (builder.qry.node c).map fun n => n.Stats
  else some none

/-- The reads of `leftStats` and `rightStats` of `ReCalcNodeStats` for a node with two
children, nil otherwise; the outer `none` is a panic. -/
def readSideStats (builder : QueryBuilder) (node : Node) : Option (Option Stats × Option Stats) :=
  if node.Children.length = 1 then some (none, none)
  else if node.Children.length = 2 then
    match node.Children[0]?, node.Children[1]? with
    | some c0, some c1 =>
      match builder.qry.node c0, builder.qry.node c1 with
      | some l, some r => some (l.Stats, r.Stats)
      | _, _ => none
    | _, _ => none
  else some (none, none)

/-- The case `plan.Node_JOIN` of the switch of `ReCalcNodeStats`: the stats assigned
to a join of the given type. -/
def joinStats (h : Helpers) (jt : JoinType) (leftStats rightStats : Stats) : Stats :=
  let ndv := F64.min leftStats.Outcnt rightStats.Outcnt
  let ndv := if ndv.lt 1 then 1 else ndv
  let isCrossJoin := false
  let selectivity := h.Pow rightStats.Selectivity (h.Pow leftStats.Selectivity 0.5)
  let selectivity_out :=
    F64.min (h.Pow leftStats.Selectivity (h.Pow rightStats.Selectivity 0.5)) selectivity
  match jt with
  | .INNER =>
    let outcnt := leftStats.Outcnt * rightStats.Outcnt / ndv
    let outcnt := if ¬ isCrossJoin then outcnt * selectivity else outcnt
    { Outcnt := outcnt, Cost := leftStats.Cost + rightStats.Cost
      HashmapSize := rightStats.Outcnt, Selectivity := selectivity_out }
  | .LEFT =>
    let outcnt := leftStats.Outcnt * rightStats.Outcnt / ndv
    let outcnt := if ¬ isCrossJoin then outcnt * selectivity + leftStats.Outcnt else outcnt
    { Outcnt := outcnt, Cost := leftStats.Cost + rightStats.Cost
      HashmapSize := rightStats.Outcnt, Selectivity := selectivity_out }
  | .RIGHT =>
    let outcnt := leftStats.Outcnt * rightStats.Outcnt / ndv
    let outcnt := if ¬ isCrossJoin then outcnt * selectivity + rightStats.Outcnt else outcnt
    { Outcnt := outcnt, Cost := leftStats.Cost + rightStats.Cost
      HashmapSize := rightStats.Outcnt, Selectivity := selectivity_out }
  | .OUTER =>
    let outcnt := leftStats.Outcnt * rightStats.Outcnt / ndv
    let outcnt :=
      if ¬ isCrossJoin then outcnt * selectivity + (leftStats.Outcnt + rightStats.Outcnt)
      else outcnt
    { Outcnt := outcnt, Cost := leftStats.Cost + rightStats.Cost
      HashmapSize := rightStats.Outcnt, Selectivity := selectivity_out }
  | .SEMI | .ANTI =>
    { Outcnt := leftStats.Outcnt * selectivity, Cost := leftStats.Cost + rightStats.Cost
      HashmapSize := rightStats.Outcnt, Selectivity := selectivity_out }
  | .SINGLE | .MARK =>
    { Outcnt := leftStats.Outcnt, Cost := leftStats.Cost + rightStats.Cost
      HashmapSize := rightStats.Outcnt, Selectivity := selectivity_out }

/-- The case `plan.Node_TABLE_SCAN` of the switch of `ReCalcNodeStats`. The stats cache
of the compile context is read through `builder.statsCache`, the entry of a table as
`GetStatsInfoMap` returns it. -/
def tableScanStats (h : Helpers) (cc : CompilerContext) (builder : QueryBuilder) (node : Node)
    (leafNode : Bool) : Option (Option Stats) :=
  match node.ObjRef with
  | none => some node.Stats
  | some objRef =>
    if leafNode then
      let exprs := cc.HandleFiltersForZM node.FilterList
      let stats := cc.Stats objRef exprs.1
      match exprs.2 with
      | .null => some stats
      | nonMonoExpr =>
        match builder.statsCache with
        | none => some stats
        | some sc =>
          match node.TableDef, stats with
          | some tableDef, some st =>
            let sortkeyName :=
              match tableDef.ClusterBy with
              | some cb => cb.Name
              | none => ""
            match fixColumnName tableDef nonMonoExpr with
            | none => none
            | some nonMonoExpr =>
              match EstimateOutCnt h sortkeyName st.TableCnt st.Cost (sc tableDef.TblId)
                  nonMonoExpr with
              | none => none
              | some outcnt =>
                let st := { st with Selectivity := st.Selectivity * (outcnt / st.TableCnt) }
                let st := { st with Outcnt := st.TableCnt * st.Selectivity }
                let st := { st with Cost := st.Outcnt }
                let st := { st with BlockNum := cc.toInt32 (st.Outcnt / 8192 + 1) }
                some (some st)
          | _, _ => none
    else some node.Stats

/-- The switch on `node.NodeType` of `ReCalcNodeStats`: the value of `node.Stats` after
it, which is the old one where the source assigns nothing; the outer `none` is a panic
(a nil `*Stats` dereferenced, an index out of range). -/
def switchStats (h : Helpers) (cc : CompilerContext) (builder : QueryBuilder) (node : Node)
    (leafNode : Bool) (leftStats rightStats childStats : Option Stats) : Option (Option Stats) :=
  match node.NodeType with
  | .JOIN =>
    match leftStats, rightStats with
    | some l, some r => some (some (joinStats h node.JoinType l r))
    | _, _ => none
  | .AGG =>
    match childStats with
    | none => none
    | some c =>
      if node.GroupBy.length > 0 then
        let input := c.Outcnt
        match node.GroupBy.foldlM
            (fun output groupby =>
              (getExprNdv none node.NodeId (some builder) groupby).map fun ndv => output * ndv)
            (1 : F64) with
        | none => none
        | some output =>
          let output := if output.gt input then input else output
          some (some { Outcnt := output, Cost := input + output, HashmapSize := output
                       Selectivity := 1 })
      else some (some { Outcnt := 1, Cost := c.Cost, Selectivity := 1 })
  | .UNION =>
    match leftStats, rightStats with
    | some l, some r =>
      some (some { Outcnt := (l.Outcnt + r.Outcnt) * 0.7, Cost := l.Outcnt + r.Outcnt
                   HashmapSize := r.Outcnt, Selectivity := 1 })
    | _, _ => none
  | .UNION_ALL =>
    match leftStats, rightStats with
    | some l, some r =>
      some (some { Outcnt := l.Outcnt + r.Outcnt, Cost := l.Outcnt + r.Outcnt, Selectivity := 1 })
    | _, _ => none
  | .INTERSECT =>
    match leftStats, rightStats with
    | some l, some r =>
      some (some { Outcnt := F64.min l.Outcnt r.Outcnt * 0.5, Cost := l.Outcnt + r.Outcnt
                   HashmapSize := r.Outcnt, Selectivity := 1 })
    | _, _ => none
  | .INTERSECT_ALL =>
    match leftStats, rightStats with
    | some l, some r =>
      some (some { Outcnt := F64.min l.Outcnt r.Outcnt * 0.7, Cost := l.Outcnt + r.Outcnt
                   HashmapSize := r.Outcnt, Selectivity := 1 })
    | _, _ => none
  | .MINUS =>
    match leftStats, rightStats with
    | some l, some r =>
      let minus := F64.max l.Outcnt r.Outcnt - F64.min l.Outcnt r.Outcnt
      some (some { Outcnt := minus * 0.5, Cost := l.Outcnt + r.Outcnt
                   HashmapSize := r.Outcnt, Selectivity := 1 })
    | _, _ => none
  | .MINUS_ALL =>
    match leftStats, rightStats with
    | some l, some r =>
      let minus := F64.max l.Outcnt r.Outcnt - F64.min l.Outcnt r.Outcnt
      some (some { Outcnt := minus * 0.7, Cost := l.Outcnt + r.Outcnt
                   HashmapSize := r.Outcnt, Selectivity := 1 })
    | _, _ => none
  | .VALUE_SCAN =>
    match node.RowsetData with
    | none => some (some DefaultStats)
    | some rowsetData =>
      let colsData := rowsetData.Cols
      match (colsData[0]? : Option Nat) with
      | none => none
      | some len =>
        let rowCount := F64.ofInt len
        let blockNumber := rowCount / 8192 + 1
        some (some { TableCnt := rowCount, BlockNum := cc.toInt32 blockNumber, Outcnt := rowCount
                     Cost := rowCount, Selectivity := 1 })
  | .SINK_SCAN => (builder.qry.node node.SourceStep).map fun src => src.Stats
  | .EXTERNAL_SCAN =>
    match node.Stats with
    | none => some (cc.getExternalStats node builder)
    | some st =>
      if st.TableCnt.eq 0 then some (cc.getExternalStats node builder) else some node.Stats
  | .TABLE_SCAN => tableScanStats h cc builder node leafNode
  | .FILTER =>
    match childStats with
    | none => none
    | some c => some (some { Outcnt := c.Outcnt * 0.05, Cost := c.Cost, Selectivity := 0.05 })
  | _ =>
    match childStats with
    | some c =>
      if node.Children.length > 0 then
        some (some { Outcnt := c.Outcnt, Cost := c.Outcnt, Selectivity := c.Selectivity })
      else if node.Stats = none then some (some DefaultStats) else some node.Stats
    | none => if node.Stats = none then some (some DefaultStats) else some node.Stats

/-- The part of `ReCalcNodeStats` after the loop over the children: the reads of the
children's stats and the switch, with the assignment to `node.Stats`. -/
def recalcNode (h : Helpers) (cc : CompilerContext) (builder : QueryBuilder) (nodeID : Int)
    (leafNode : Bool) : Option QueryBuilder :=
  match builder.qry.node nodeID with
  | none => none
  | some node =>
    match readChildStats builder node, readSideStats builder node with
    | some childStats, some (leftStats, rightStats) =>
      (switchStats h cc builder node leafNode leftStats rightStats childStats).map fun stats =>
        builder.setNode nodeID { node with Stats := stats }
    | _, _ => none

/-- `ReCalcNodeStats`. The recursion into the children is bounded by a fuel; the result
is `none` on a panic and when the fuel runs out. The node is read again after the loop,
as the source works on a pointer. -/
def ReCalcNodeStats (h : Helpers) (cc : CompilerContext) :
    Nat → QueryBuilder → Int → Bool → Bool → Option QueryBuilder
  | 0, _, _, _, _ => none
  | fuel + 1, builder, nodeID, recursive, leafNode =>
    match builder.qry.node nodeID with
    | none => none
    | some node =>
      match (if recursive then
          if node.Children.length > 0 then
            node.Children.foldlM
              (fun b child => ReCalcNodeStats h cc fuel b child recursive leafNode) builder
          else some builder
        else some builder) with
      | none => none
      | some builder => recalcNode h cc builder nodeID leafNode

/-- A compile context for the examples: no filter is split off, every object has the
default stats. -/
def demoContext : CompilerContext :=
  { Stats := fun _ _ => some DefaultStats
    HandleFiltersForZM := fun _ => (.null, .null)
    getExternalStats := fun _ _ => some DefaultStats
    toInt32 := fun _ => 0 }

/-- A join of the nodes 1 and 2 at node 0, with the given type and the `Outcnt` of the
children, both of selectivity 1. -/
def statsJoin (jt : JoinType) (left right : F64) : QueryBuilder :=
  { statsCache := none, ctxByNode := fun _ => none
    qry := { Nodes :=
      [joinNode jt,
       { NodeType := .TABLE_SCAN, NodeId := 1, Stats := some { Outcnt := left, Selectivity := 1 } },
       { NodeType := .TABLE_SCAN, NodeId := 2, Stats := some { Outcnt := right, Selectivity := 1 } }] } }

end plan

namespace plan

/-- The estimate of an inner join: `L.Outcnt * R.Outcnt / ndv * sel` with
`ndv = max(1, min(L.Outcnt, R.Outcnt))` and `sel = R.Selectivity ^ (L.Selectivity ^ 0.5)`. -/
def innerEstimate (h : Helpers) (L R : Stats) : F64 :=
  L.Outcnt * R.Outcnt / F64.max 1 (F64.min L.Outcnt R.Outcnt) *
    h.Pow R.Selectivity (h.Pow L.Selectivity 0.5)

end plan

/-! ## `pkg/sql/plan/stats.go`: `SortFilterListByStats` -/

namespace plan

/-- The type ids `int32(types.T_decimal64)` and so on that `estimateFilterWeight` names,
constants of a package outside the embedded files. -/
structure TypeIds where
  T_decimal64 : Int
  T_decimal128 : Int
  T_char : Int
  T_varchar : Int
  T_text : Int
  T_json : Int

/-- The switch on `expr.Typ.Id` of `estimateFilterWeight`. -/
def typeWeight (ids : TypeIds) (id : Int) (w : F64) : F64 :=
  if id = ids.T_decimal64 then w + 64
  else if id = ids.T_decimal128 then w + 128
  else if id = ids.T_char ∨ id = ids.T_varchar ∨ id = ids.T_text ∨ id = ids.T_json then w + 4
  else w

/-- The switch on the function name of `estimateFilterWeight`. -/
def funcWeight (name : String) (w : F64) : F64 :=
  if name = "like" then w + 10
  else if name = "in" then w + 5
  else if name = "<" ∨ name = "<=" then w + 1.1
  else w + 1

mutual
/-- `estimateFilterWeight`; `CheckExprIsMonotonic` is outside the embedded files. The
result is `none` when a nil expression is inspected. -/
def estimateFilterWeight (ids : TypeIds) (CheckExprIsMonotonic : Expr → Bool) :
    Expr → F64 → Option F64
  | .null, _ => none
  | .F typ name args, w =>
    match estimateFilterWeights ids CheckExprIsMonotonic args
        (funcWeight name (typeWeight ids typ w)) with
    | none => none
    | some w => some (if CheckExprIsMonotonic (.F typ name args) then w * 0.1 else w)
  | .C typ c, w =>
    let w := typeWeight ids typ w
    some (if CheckExprIsMonotonic (.C typ c) then w * 0.1 else w)
  | .Col typ col, w =>
    let w := typeWeight ids typ w
    some (if CheckExprIsMonotonic (.Col typ col) then w * 0.1 else w)
  | .Other typ, w =>
    let w := typeWeight ids typ w
    some (if CheckExprIsMonotonic (.Other typ) then w * 0.1 else w)
/-- The loop of `estimateFilterWeight` over the arguments of a function expression. -/
def estimateFilterWeights (ids : TypeIds) (CheckExprIsMonotonic : Expr → Bool) :
    List Expr → F64 → Option F64
  | [], w => some w
  | child :: rest, w =>
    match estimateFilterWeight ids CheckExprIsMonotonic child 0 with
    | none => none
    | some c => estimateFilterWeights ids CheckExprIsMonotonic rest (w + c)
end

/-- What `SortFilterListByStats` calls outside the embedded files: the type ids,
`CheckExprIsMonotonic`, `DeepCopyExpr`, `ConstantFold` on the one-row batch (the
returned expression, `Expr.null` when nil; the error is dropped by the source), and
the library function `sort.Slice`, given the slice and `less` on its elements. -/
structure SortEnv where
  ids : TypeIds
  CheckExprIsMonotonic : Expr → Bool
  DeepCopyExpr : Expr → Expr
  ConstantFold : Expr → Expr
  sortSlice : List Expr → (Expr → Expr → Bool) → List Expr

/-- The function `less` that `SortFilterListByStats` passes to `sort.Slice`, on the
elements at the two indexes; a weight that panics compares as false here, and the
sort is not reached with such a filter. -/
def lessWeight (env : SortEnv) (a b : Expr) : Bool :=
  match estimateFilterWeight env.ids env.CheckExprIsMonotonic a 0,
      estimateFilterWeight env.ids env.CheckExprIsMonotonic b 0 with
  | some x, some y => x.le y
  | _, _ => false

/-- The inner loop of the insertion sort of the Go library (`insertionSort_func`): the
element `x` moves left as long as `less` holds of it and its left neighbour. The sorted
part is given, and returned, in reverse order. -/
def sinkLeft {α : Type} (less : α → α → Bool) (x : α) : List α → List α
  | [] => [x]
  | y :: ys => if less x y then y :: sinkLeft less x ys else x :: y :: ys

/-- The insertion sort of the Go library (`insertionSort_func`), which `sort.Slice` runs
on a slice of at most 12 elements. -/
def insertionSortFunc {α : Type} (xs : List α) (less : α → α → Bool) : List α :=
  (xs.foldl (fun sorted x => sinkLeft less x sorted) []).reverse

/-- An environment for the examples: the type ids 1 to 6, functions named `like`
not monotonic and every other expression monotonic, no constant folded, and the
library insertion sort. -/
def demoSortEnv : SortEnv :=
  { ids := { T_decimal64 := 1, T_decimal128 := 2, T_char := 3, T_varchar := 4, T_text := 5
             T_json := 6 }
    CheckExprIsMonotonic := fun e =>
      match e with
      | .F _ name _ => decide (name ≠ "like")
      | _ => true
    DeepCopyExpr := fun e => e
    ConstantFold := fun _ => .null
    sortSlice := insertionSortFunc }

/-- Another equality `b = 1`, for the examples. -/
def eqExprB : Expr := .F 0 "=" [.Col 0 { RelPos := 0, ColPos := 1, Name := "b" }, constExpr]

end plan

namespace disttae

open plan

end disttae

/-! ## `pkg/vectorize/compare` -/

namespace compare

/-- Modelled from the spec: the comparison `a >= b` of the integer types, on the values. -/
def geInt (a b : Int) : Bool := decide (a ≥ b)

/-- Modelled from the spec: the comparison `a >= b` of `float32` and `float64`, false
as soon as an operand is NaN. -/
def geFloat (a b : F64) : Bool := F64.le b a

/-- Modelled from the spec: the comparison of `bool` values, `a || !b`. -/
def geBool (a b : Bool) : Bool := a || !b

/-- Modelled from the spec: `NumericGreatEqual[T]`, which is not among the embedded
files (only its test is). The vectors are without nulls and given by their values; `ge`
is the comparison of `T`. The result is the returned error, `none` when nil, and the
values of `cv` after the call: the entry `i` is `av[i] >= bv[i]` where `av` and `bv`
have an entry `i`, and is left as it was otherwise. -/
def NumericGreatEqual {T : Type} (ge : T → T → Bool) (av bv : List T) (cv : List Bool) :
    Option String × List Bool :=
  (none, (List.range cv.length).map fun i =>
    match av[i]?, bv[i]? with
    | some x, some y => ge x y
    | _, _ => (cv[i]?).getD false)

/-- Modelled from the spec: `Decimal64VecGe`, which is not among the embedded files
(only its test is). A decimal is given by its signed unscaled value; both vectors have
one scale, so that the decimal comparison is that of the values. -/
def Decimal64VecGe (av bv : List Int) (cv : List Bool) : Option String × List Bool :=
  NumericGreatEqual geInt av bv cv

/-- Modelled from the spec: `Decimal128VecGe`, which is not among the embedded files
(only its test is); as `Decimal64VecGe`. -/
def Decimal128VecGe (av bv : List Int) (cv : List Bool) : Option String × List Bool :=
  NumericGreatEqual geInt av bv cv

/-- The vector `as` of `TestI32Ge`: ten times 4. -/
def testI32As : List Int := List.replicate 10 4

/-- The vector `bs` of `TestI32Ge`: `i - 3` for `i` from 0 to 9. -/
def testI32Bs : List Int := (List.range 10).map fun i => (i : Int) - 3

/-- The vector `as` of `TestBoolGe`. -/
def testBoolAs : List Bool := [true, true]

/-- The vector `bs` of `TestBoolGe`. -/
def testBoolBs : List Bool := [false, false]

/-- The vector `as` of `TestDec64Ge`: `i + 5` for `i` from 0 to 9. -/
def testDec64As : List Int := (List.range 10).map fun i => (i : Int) + 5

/-- The vector `bs` of `TestDec64Ge`: `3 * i` for `i` from 0 to 9. -/
def testDec64Bs : List Int := (List.range 10).map fun i => 3 * (i : Int)

/-- The vector `as` of `TestDec128Ge`: `i` for `i` from 0 to 9. -/
def testDec128As : List Int := (List.range 10).map fun i => (i : Int)

end compare

/-! ## Definitions of the specification side for the later properties -/

namespace disttae

open plan

end disttae

namespace plan

end plan

namespace seq

/-- The smallest value of an integer type. -/
def IntType.minVal (t : IntType) : Int := if t.signed then -(2 ^ (t.bits - 1)) else 0

/-- The largest value of an integer type. -/
def IntType.maxVal (t : IntType) : Int :=
  if t.signed then 2 ^ (t.bits - 1) - 1 else 2 ^ t.bits - 1

/-- The statement that `setSeq` passes to `ExecSql`. -/
def updateStmt (db tbl : String) (setv : Int) : String :=
  "update `" ++ db ++ "`.`" ++ tbl ++ "` set last_seq_num = " ++ toString setv

end seq

/-! ## `pkg/vm/engine/tae/compute/compute.go` -/

namespace compute

/-- `GetOrderedMinAndMax[T]`; `lt` is the comparison `<` of `T`, and `v > maxv` is
`maxv < v`. The result is `none` when `vs[0]` panics. -/
def GetOrderedMinAndMax {T : Type} (lt : T → T → Bool) (vs : List T) : Option (T × T) :=
  match vs with
  | [] => none
  | v0 :: rest =>
    some (rest.foldl
      (fun (mm : T × T) v =>
        let minv := if lt v mm.1 then v else mm.1
        let maxv := if lt mm.2 v then v else mm.2
        (minv, maxv))
      (v0, v0))

/-- `GetDecimal64MinAndMax`; `types.CompareDecimal64` is outside the embedded files.
The result is `none` when `vs[0]` panics. -/
def GetDecimal64MinAndMax {D : Type} (CompareDecimal64 : D → D → Int) (vs : List D) :
    Option (D × D) :=
  match vs with
  | [] => none
  | v0 :: rest =>
    some (rest.foldl
      (fun (mm : D × D) v =>
        let minv := if CompareDecimal64 v mm.1 < 0 then v else mm.1
        let maxv := if CompareDecimal64 v mm.2 > 0 then v else mm.2
        (minv, maxv))
      (v0, v0))

/-- `GetDecimal128MinAndMax`; `types.CompareDecimal128` is outside the embedded files.
The result is `none` when `vs[0]` panics. -/
def GetDecimal128MinAndMax {D : Type} (CompareDecimal128 : D → D → Int) (vs : List D) :
    Option (D × D) :=
  match vs with
  | [] => none
  | v0 :: rest =>
    some (rest.foldl
      (fun (mm : D × D) v =>
        let minv := if CompareDecimal128 v mm.1 < 0 then v else mm.1
        let maxv := if CompareDecimal128 v mm.2 > 0 then v else mm.2
        (minv, maxv))
      (v0, v0))

/-- The comparison `<` of a type that it orders totally. -/
def ltOf {T : Type} [LinearOrder T] (a b : T) : Bool := decide (a < b)

/-- A three-way comparison that agrees with a total order. -/
def Agrees {T : Type} [LinearOrder T] (compare : T → T → Int) : Prop :=
  ∀ a b : T, (compare a b < 0 ↔ a < b) ∧ (compare a b > 0 ↔ b < a)

/-- The three-way comparison of a total order: -1, 0 or 1. -/
def compareOf {T : Type} [LinearOrder T] (a b : T) : Int :=
  if a < b then -1 else if b < a then 1 else 0

end compute

namespace compute

/-- A `roaring.Bitmap`, a set of `uint32` of the external library: the list of its
elements in the order in which its iterator yields them, which is ascending. -/
structure Bitmap where
  elems : List Nat
deriving DecidableEq

/-- `IsEmpty` of a bitmap. -/
def Bitmap.IsEmpty (b : Bitmap) : Bool := b.elems.isEmpty

/-- `Contains` of a bitmap. -/
def Bitmap.Contains (b : Bitmap) (x : Nat) : Bool := decide (x ∈ b.elems)

/-- A bitmap of the library holds `uint32` values, each once, in ascending order. -/
def Bitmap.valid (b : Bitmap) : Prop :=
  b.elems.Sorted (· < ·) ∧ ∀ x ∈ b.elems, x < 2 ^ 32

/-- The test `skipmask != nil && skipmask.Contains(uint32(mid))`. -/
def masked (skipmask : Option Bitmap) (mid : Int) : Bool :=
  match skipmask with
  | none => false
  | some m => m.Contains (mid.toNat % 2 ^ 32)

/-- The loop of `GetOffsetWithFunc`, from the values of `start` and `end`. Each unit of
fuel pays for one test of the loop condition; the result is `none` on an index out of
range and when the fuel runs out. The named results are `(0, false)` until they are
set. Go `int` is 64 bits wide and a slice is far shorter, so `start + end` is computed
without a wrap; `/` truncates. -/
def offsetLoop {T : Type} (vals : List T) (val : T) (compare : T → T → Int)
    (skipmask : Option Bitmap) : Nat → Int → Int → Option (Int × Bool)
  | 0, _, _ => none
  | fuel + 1, start, end_ =>
    if start ≤ end_ then
      let mid := (start + end_).tdiv 2
      if mid < 0 then none
      else
        match vals[mid.toNat]? with
        | none => none
        | some x =>
          let res := compare x val
          if res > 0 then offsetLoop vals val compare skipmask fuel start (mid - 1)
          else if res < 0 then offsetLoop vals val compare skipmask fuel (mid + 1) end_
          else if masked skipmask mid then some (0, false)
          else some (mid, true)
    else some (0, false)

/-- `GetOffsetWithFunc`. -/
def GetOffsetWithFunc {T : Type} (vals : List T) (val : T) (compare : T → T → Int)
    (skipmask : Option Bitmap) (fuel : Nat) : Option (Int × Bool) :=
  offsetLoop vals val compare skipmask fuel 0 ((vals.length : Int) - 1)

/-- The loop of `GetOffsetOfOrdered2`, as `offsetLoop`, with the tests
`column[mid] > val` and `column[mid] < val` of the element type, given by its `<`. -/
def orderedLoop {T : Type} (lt : T → T → Bool) (column : List T) (val : T)
    (skipmask : Option Bitmap) : Nat → Int → Int → Option (Int × Bool)
  | 0, _, _ => none
  | fuel + 1, start, end_ =>
    if start ≤ end_ then
      let mid := (start + end_).tdiv 2
      if mid < 0 then none
      else
        match column[mid.toNat]? with
        | none => none
        | some x =>
          if lt val x then orderedLoop lt column val skipmask fuel start (mid - 1)
          else if lt x val then orderedLoop lt column val skipmask fuel (mid + 1) end_
          else if masked skipmask mid then some (0, false)
          else some (mid, true)
    else some (0, false)

/-- `GetOffsetOfOrdered2`. -/
def GetOffsetOfOrdered2 {T : Type} (lt : T → T → Bool) (column : List T) (val : T)
    (skipmask : Option Bitmap) (fuel : Nat) : Option (Int × Bool) :=
  orderedLoop lt column val skipmask fuel 0 ((column.length : Int) - 1)

/-- The three-way comparison that the two tests of `GetOffsetOfOrdered2` amount to. -/
def compareLt {T : Type} (lt : T → T → Bool) (a b : T) : Int :=
  if lt b a then 1 else if lt a b then -1 else 0

/-- What the specification states of a search: the result `(i, exist)` of a search for
`val` in `column` under the mask `skipmask`. -/
def SearchSpec {T : Type} (column : List T) (val : T) (skipmask : Option Bitmap)
    (r : Int × Bool) : Prop :=
  (r.2 = true → 0 ≤ r.1 ∧ column[r.1.toNat]? = some val ∧
    ∀ m, skipmask = some m → r.1.toNat ∉ m.elems) ∧
  (val ∉ column → r = (0, false)) ∧
  (val ∈ column → (skipmask = none ∨ ∃ m, skipmask = some m ∧ m.IsEmpty = true) →
    r.2 = true)

end compute

namespace compute

/-- The loop over the iterator of `GetOffsetMapBeforeApplyDeletes`, from the elements
the iterator still holds and the values of `prev` and `mapping`. The inner loop counts
`i` from `uint32(prev + 1)` up to `delete`, excluded, and appends each `i`; `i` stays
below `delete`, a `uint32`, so `i++` does not wrap. -/
def offsetMapLoop : List Nat → Int → List Nat → Int × List Nat
  | [], prev, mapping => (prev, mapping)
  | delete :: it, prev, mapping =>
    let start := ((prev + 1) % 2 ^ 32).toNat
    offsetMapLoop it (delete : Int) (mapping ++ List.range' start (delete - start))

/-- `GetOffsetMapBeforeApplyDeletes`. The nil slice is the empty list. -/
def GetOffsetMapBeforeApplyDeletes (deletes : Option Bitmap) : List Nat :=
  match deletes with
  | none => []
  | some d =>
    if d.IsEmpty then []
    else
      let r := offsetMapLoop d.elems (-1) []
      r.2 ++ [((r.1 % 2 ^ 32).toNat + 1) % 2 ^ 32]

/-- The value of `prev` after the loop: the last element of the iterator, or the value
at the start when the iterator is empty. -/
def lastOr : List Nat → Int → Int
  | [], prev => prev
  | d :: ds, _ => lastOr ds (d : Int)

end compute

namespace compute

/-- `Add` of a bitmap: the set with `x` as well. -/
def Bitmap.Add (b : Bitmap) (x : Nat) : Bitmap :=
  if x ∈ b.elems then b else Bitmap.mk (b.elems.orderedInsert (· ≤ ·) x)

/-- The `uint32` subtraction `row - deleteCnt`. -/
def subUint32 (row deleteCnt : Nat) : Nat := (row + 2 ^ 32 - deleteCnt) % 2 ^ 32

/-- The inner loop of `ShuffleByDeletes` for the delete `del`, from the rows that the
iterator `delIt` still holds; it returns the iterator and the bitmap it leaves. -/
def shuffleInner (del deleteCnt : Nat) : List Nat → Bitmap → List Nat × Bitmap
  | [], destDelets => ([], destDelets)
  | row :: delIt, destDelets =>
    if row < del then
      shuffleInner del deleteCnt delIt (destDelets.Add (subUint32 row deleteCnt))
    else if row = del then shuffleInner del deleteCnt delIt destDelets
    else (row :: delIt, destDelets)

/-- The outer loop of `ShuffleByDeletes` over the iterator `deleteIt`; `deleteCnt++` is
a `uint32` increment. -/
def shuffleOuter : List Nat → Nat → List Nat → Bitmap → Nat × List Nat × Bitmap
  | [], deleteCnt, delIt, destDelets => (deleteCnt, delIt, destDelets)
  | del :: deleteIt, deleteCnt, delIt, destDelets =>
    let r := shuffleInner del deleteCnt delIt destDelets
    shuffleOuter deleteIt ((deleteCnt + 1) % 2 ^ 32) r.1 r.2

/-- The last loop of `ShuffleByDeletes`, over the rows left in `delIt`. -/
def shuffleRest (deleteCnt : Nat) : List Nat → Bitmap → Bitmap
  | [], destDelets => destDelets
  | row :: delIt, destDelets =>
    shuffleRest deleteCnt delIt (destDelets.Add (subUint32 row deleteCnt))

/-- `ShuffleByDeletes`. A `*roaring.Bitmap` is an `Option Bitmap`, nil being `none`. -/
def ShuffleByDeletes (deleteMask deletes : Option Bitmap) : Option Bitmap :=
  match deletes with
  | none => deleteMask
  | some ds =>
    if ds.IsEmpty then deleteMask
    else
      match deleteMask with
      | none => none
      | some mask =>
        if !mask.IsEmpty then
          let r := shuffleOuter ds.elems 0 mask.elems (Bitmap.mk [])
          some (shuffleRest r.1 r.2.1 r.2.2)
        else none

end compute

/-! ## `pkg/vm/engine/tae/tables/jobs/mergeblocks.go`: the load loop -/

namespace jobs

/-- What the load loop reads of a `model.ColumnView` of the sort column: the delete
mask, and `Length`, the `vec.Length()` of the vector that `view.Orphan()` hands over
after `view.ApplyDeletes()`, which is the number of the rows that survive. -/
structure ColumnView where
  DeleteMask : Option compute.Bitmap
  Length : Nat

/-- An input block of the merge task: the result of `GetColumnDataById` on the sort
column, a view or an error, and the fingerprint of the block. -/
structure Block where
  GetColumnDataById : Except String ColumnView
  Fingerprint : Nat

/-- The variables of `Execute` that the load loop writes. -/
structure LoadState where
  sortVecs : List ColumnView
  rows : List Nat
  skipBlks : List Nat
  length : Nat
  fromAddr : List Nat
  ids : List Nat
  deletes : List (Option compute.Bitmap)

/-- The load loop of `Execute`, `for i, block := range task.compacted`, from the blocks
left, the index `i` and the variables. An error of `GetColumnDataById` ends `Execute`
with that error. `rows` and `fromAddr` hold `uint32` values, `length` is an `int`. -/
def loadLoop : List Block → Nat → LoadState → Except String LoadState
  | [], _, s => .ok s
  | block :: rest, i, s =>
    match block.GetColumnDataById with
    | .error err => .error err
    | .ok view =>
      let deletes := s.deletes.set i view.DeleteMask
      if view.Length = 0 then
        loadLoop rest (i + 1) { s with deletes := deletes, skipBlks := s.skipBlks ++ [i] }
      else
        loadLoop rest (i + 1)
          { sortVecs := s.sortVecs ++ [view]
            rows := s.rows ++ [view.Length % 2 ^ 32]
            skipBlks := s.skipBlks
            length := s.length + view.Length
            fromAddr := s.fromAddr ++ [s.length % 2 ^ 32]
            ids := s.ids ++ [block.Fingerprint]
            deletes := deletes }

/-- The load loop of `Execute` from the variables as they are made before it. -/
def loadSortColumn (compacted : List Block) : Except String LoadState :=
  loadLoop compacted 0
    { sortVecs := []
      rows := []
      skipBlks := []
      length := 0
      fromAddr := []
      ids := []
      deletes := List.replicate compacted.length none }

/-- The number of the surviving rows of a block, 0 for a block that does not load. -/
def Block.rowsLeft (b : Block) : Nat :=
  match b.GetColumnDataById with
  | .ok view => view.Length
  | .error _ => 0

/-- The exclusive prefix sums of a list: the entry `i` is the sum of the entries
before `i`. -/
def prefixSums (rows : List Nat) : List Nat :=
  (List.range rows.length).map (fun i => (rows.take i).sum)

/-- A block for the examples: it loads, without delete mask, with `n` surviving rows
and the fingerprint `id`. -/
def demoBlock (n id : Nat) : Block :=
  { GetColumnDataById := .ok { DeleteMask := none, Length := n }, Fingerprint := id }

end jobs

/-! ## Definitions of the specification side: `CalcStats` and `AddBlock` -/

namespace disttae

open plan

/-- The sum of the row counts of a list of blocks. -/
def rowsOf (blocks : List BlockInfo) : Int :=
  (blocks.map (fun b => (b.MetaLocation.Rows : Int))).sum

end disttae

namespace objectio

/-- Of the specification: what a call of `AddBlock` that returned the error `e1` has
done to the writer `w`, with the handle `h` and the writer `w2` after the call. On an
error the block list and `lastId` are as before. Without an error the block behind the
handle is appended, its sequence number is the `uint16` of the previous `lastId`, and
`lastId` is again the number of blocks while that fits a `uint32`. -/
def AddBlockOutcome (e1 : Option GoError) (w : objectWriterV1) (h : BlockObject)
    (w2 : objectWriterV1) : Prop :=
  (e1 ≠ none → w2.blocks = w.blocks ∧ w2.lastId = w.lastId) ∧
  (e1 = none → ∃ blk, w2.blocks = w.blocks ++ [blk] ∧ blk.meta = h ∧
    h.header.sequence = w.lastId % 2 ^ 16 ∧
    (w.lastId < 2 ^ 16 → h.header.sequence = w.lastId) ∧
    (w.lastId = w.blocks.length → w.blocks.length + 1 < 2 ^ 32 →
      w2.lastId = w2.blocks.length))

/-- The writer that `Write` hands to `AddBlock`: the seqnum mapping is initialised when
there is none. -/
def writerForWrite (w : objectWriterV1) (batch : Batch) : objectWriterV1 :=
  { w with seqnums := if w.seqnums.Seqs.length = 0
      then w.seqnums.InitWithColCnt batch.Vecs.length else w.seqnums }

end objectio

/-! ## Properties -/

namespace F64

theorem one_eq : (1 : F64) = fin 1 := rfl

theorem zero_eq : (0 : F64) = fin 0 := rfl

theorem ofNat_eq (n : Nat) : (@OfNat.ofNat F64 n _) = fin (n : ℚ) := rfl

theorem ofScientific_eq (m : Nat) (s : Bool) (e : Nat) :
    (OfScientific.ofScientific m s e : F64) = fin (OfScientific.ofScientific m s e) := rfl

theorem fin_add (a b : ℚ) : fin a + fin b = fin (a + b) := rfl

theorem fin_sub (a b : ℚ) : fin a - fin b = fin (a - b) := by
  show add (fin a) (neg (fin b)) = fin (a - b)
  simp only [neg, add, sub_eq_add_neg]

theorem fin_mul (a b : ℚ) : fin a * fin b = fin (a * b) := rfl

theorem fin_div (a b : ℚ) (hb : b ≠ 0) : fin a / fin b = fin (a / b) := by
  show div (fin a) (fin b) = fin (a / b)
  simp only [div, if_neg hb]

theorem lt_fin (a b : ℚ) : lt (fin a) (fin b) = decide (a < b) := rfl

theorem gt_fin (a b : ℚ) : gt (fin a) (fin b) = decide (b < a) := rfl

theorem le_fin (a b : ℚ) : le (fin a) (fin b) = decide (a ≤ b) := rfl

theorem eq_fin (a b : ℚ) : eq (fin a) (fin b) = decide (a = b) := by
  simp [eq]

end F64

namespace plan

/-- The final clamp of `EstimateOutCnt`, as a function of the estimate before it. -/
theorem clamp_bounds (outcnt cost : F64) (hc : F64.le 1 cost = true)
    (hr : (if outcnt.gt cost then cost else if outcnt.lt 1 then 1 else outcnt) ≠ F64.nan) :
    F64.le 1 (if outcnt.gt cost then cost else if outcnt.lt 1 then 1 else outcnt) = true ∧
    F64.le (if outcnt.gt cost then cost else if outcnt.lt 1 then 1 else outcnt) cost = true := by
  rw [F64.one_eq] at *
  cases outcnt <;> cases cost <;>
    simp only [F64.gt, F64.lt, F64.le, decide_eq_true_eq, Bool.false_eq_true, if_false, if_true,
      ne_eq, not_true_eq_false, reduceCtorEq, not_false_eq_true, and_self, and_true, true_and,
      le_refl, decide_True] at hc hr ⊢
  all_goals first
    | exact hc
    | (split_ifs <;> simp only [F64.le, decide_eq_true_eq, and_true, true_and, and_self] <;>
        first | exact hc | (constructor <;> linarith) | linarith)

/-- Every result of `EstimateOutCnt` on a non-nil expression is the clamp of some estimate. -/
theorem EstimateOutCnt_eq_clamp (h : Helpers) (sortKeyName : String) (tableCnt cost : F64)
    (s : StatsInfoMap) (e : Expr) (r : F64) (hne : e ≠ Expr.null)
    (hres : EstimateOutCnt h sortKeyName tableCnt cost s e = some r) :
    ∃ outcnt : F64, r = if outcnt.gt cost then cost else if outcnt.lt 1 then 1 else outcnt := by
  cases e with
  | null => exact absurd rfl hne
  | C typ c =>
    simp only [EstimateOutCnt, Option.some.injEq] at hres
    exact ⟨cost, hres.symm⟩
  | Col typ col =>
    simp only [EstimateOutCnt, Option.some.injEq] at hres
    exact ⟨0, hres.symm⟩
  | Other typ =>
    simp only [EstimateOutCnt, Option.some.injEq] at hres
    exact ⟨0, hres.symm⟩
  | F typ fn args =>
    unfold EstimateOutCnt at hres
    simp only [Option.map_eq_some'] at hres
    obtain ⟨outcnt, -, ho⟩ := hres
    exact ⟨outcnt, ho.symm⟩

/-- C2 (amended): for every filter expression (nil included), sort key, tableCnt and
stats map, and every cost with `1 ≤ cost`, a result of `EstimateOutCnt` that is a
number (not NaN) lies in the closed interval `[1, cost]`. -/
theorem EstimateOutCnt_in_range (h : Helpers) (sortKeyName : String) (tableCnt cost : F64)
    (s : StatsInfoMap) (e : Expr) (r : F64) (hc : F64.le 1 cost = true)
    (hres : EstimateOutCnt h sortKeyName tableCnt cost s e = some r) (hr : r ≠ F64.nan) :
    F64.le 1 r = true ∧ F64.le r cost = true := by
  by_cases hne : e = Expr.null
  · subst hne
    simp only [EstimateOutCnt, Option.some.injEq] at hres
    subst hres
    refine ⟨hc, ?_⟩
    cases cost <;> simp_all [F64.le]
  · obtain ⟨outcnt, ho⟩ := EstimateOutCnt_eq_clamp h sortKeyName tableCnt cost s e r hne hres
    subst ho
    exact clamp_bounds outcnt cost hc hr

/-- C2, witness: the disjunction of two constants with `tableCnt = cost = 1000` is
estimated at 1000, inside `[1, 1000]`. -/
theorem EstimateOutCnt_in_range_witness :
    F64.le 1 1000 = true ∧
    EstimateOutCnt noHelpers "k" 1000 1000 NewStatsInfoMap orExpr = some (F64.fin 1000) ∧
    F64.le 1 (F64.fin 1000) = true ∧ F64.le (F64.fin 1000) 1000 = true :=
  have h1 : F64.le 1 1000 = true := by decide
  have h2 : EstimateOutCnt noHelpers "k" 1000 1000 NewStatsInfoMap orExpr = some (F64.fin 1000) := by
    simp [EstimateOutCnt, orExpr, constExpr, F64.ofNat_eq, F64.one_eq, F64.gt_fin, F64.lt_fin,
      F64.eq_fin, F64.fin_add]
  ⟨h1, h2, EstimateOutCnt_in_range noHelpers "k" 1000 1000 NewStatsInfoMap orExpr (F64.fin 1000)
    h1 h2 (by simp)⟩

/-- C2, counterexample: with every block pruned (`cost = 0`) the disjunction of two
constants is estimated at 0 rows, below 1: each side is raised to 1 by the lower
clamp, their sum 2 exceeds `cost`, and the upper clamp returns `cost`. -/
theorem EstimateOutCnt_below_one :
    EstimateOutCnt noHelpers "k" 10 0 NewStatsInfoMap orExpr = some 0 ∧
    F64.lt 0 1 = true := by
  constructor
  · simp [EstimateOutCnt, orExpr, constExpr, F64.zero_eq, F64.one_eq, F64.gt_fin, F64.lt_fin,
      F64.eq_fin, F64.fin_add]
  · decide

/-- C9: `s.NeedUpdate(currentBlockNum)` is true if and only if the stored
`BlockNumber` is zero or differs from `currentBlockNum`. -/
theorem NeedUpdate_iff (s : StatsInfoMap) (currentBlockNum : Int) :
    s.NeedUpdate currentBlockNum = true ↔ (s.BlockNumber = 0 ∨ s.BlockNumber ≠ currentBlockNum) := by
  unfold StatsInfoMap.NeedUpdate
  split_ifs with hcond
  · exact ⟨fun _ => hcond, fun _ => rfl⟩
  · exact ⟨fun hf => absurd hf (by decide), fun hc => absurd hc hcond⟩

/-- The column loop of `UpdateStatsInfoMap` leaves `BlockNumber` as it is. -/
theorem updateColumns_BlockNumber (cd : ZMCodec) (info : InfoFromZoneMap) (cols : List ColDef) :
    ∀ (i : Nat) (s s' : StatsInfoMap), updateColumns cd info i cols s = some s' →
      s'.BlockNumber = s.BlockNumber := by
  induction cols with
  | nil =>
    intro i s s' hs
    simp only [updateColumns, Option.some.injEq] at hs
    rw [← hs]
  | cons coldef rest ih =>
    intro i s s' hs
    simp only [updateColumns, Option.bind_eq_bind, Option.bind_eq_some] at hs
    obtain ⟨s1, h1, h2⟩ := hs
    rw [ih (i + 1) s1 s' h2]
    simp only [updateColumn, Option.bind_eq_bind, Option.bind_eq_some, Option.pure_def] at h1
    obtain ⟨ndv, -, ty, -, h1⟩ := h1
    split at h1
    · simp only [Option.bind_eq_some, Option.some.injEq] at h1
      obtain ⟨zm, -, zm2, -, h1⟩ := h1
      rw [← h1]
    · simp only [Option.some.injEq] at h1
      rw [← h1]

/-- `UpdateStatsInfoMap` stores the observed block total in `BlockNumber`. -/
theorem UpdateStatsInfoMap_BlockNumber (cd : ZMCodec) (info : InfoFromZoneMap) (n : Int)
    (tableCnt : F64) (tableDef : TableDef) (s s' : StatsInfoMap)
    (h : UpdateStatsInfoMap cd info n tableCnt tableDef s = some s') : s'.BlockNumber = n := by
  unfold UpdateStatsInfoMap at h
  split_ifs at h
  exact updateColumns_BlockNumber cd info _ 0 _ s' h

/-- C10 (amended): for every stats entry and every observed block total `n` other
than zero, once `UpdateStatsInfoMap(info, n, …, s)` has refreshed the entry,
`s.NeedUpdate(n)` is false and `s.NeedUpdate(m)` is true for every `m ≠ n`. -/
theorem NeedUpdate_after_UpdateStatsInfoMap (cd : ZMCodec) (info : InfoFromZoneMap) (n : Int)
    (tableCnt : F64) (tableDef : TableDef) (s s' : StatsInfoMap) (hn : n ≠ 0)
    (h : UpdateStatsInfoMap cd info n tableCnt tableDef s = some s') :
    s'.NeedUpdate n = false ∧ ∀ m : Int, m ≠ n → s'.NeedUpdate m = true := by
  have hb := UpdateStatsInfoMap_BlockNumber cd info n tableCnt tableDef s s' h
  constructor
  · simp [StatsInfoMap.NeedUpdate, hb, hn]
  · intro m hm
    simp [StatsInfoMap.NeedUpdate, hb, hn, Ne.symm hm]

/-- C10, witness: an entry refreshed at 5 blocks answers `NeedUpdate(5) = false`
and `NeedUpdate(6) = true`. -/
theorem NeedUpdate_after_UpdateStatsInfoMap_witness :
    ∃ s' : StatsInfoMap,
      UpdateStatsInfoMap lenCodec oneColInfo 5 100 oneColTable NewStatsInfoMap = some s' ∧
      s'.NeedUpdate 5 = false ∧ s'.NeedUpdate 6 = true := by
  obtain ⟨s', hs⟩ : ∃ s' : StatsInfoMap,
      UpdateStatsInfoMap lenCodec oneColInfo 5 100 oneColTable NewStatsInfoMap = some s' :=
    ⟨_, rfl⟩
  have hw := NeedUpdate_after_UpdateStatsInfoMap lenCodec oneColInfo 5 100 oneColTable
    NewStatsInfoMap s' (by decide) hs
  exact ⟨s', hs, hw.1, hw.2 6 (by decide)⟩

/-- C10, counterexample: an entry refreshed for an empty table (block total 0)
still answers `NeedUpdate(0) = true`. -/
theorem NeedUpdate_after_refresh_at_zero :
    (UpdateStatsInfoMap lenCodec oneColInfo 0 0 oneColTable NewStatsInfoMap).map
      (fun s' => s'.NeedUpdate 0) = some true := by
  rfl

end plan

namespace objectio

theorem columnBytes_nil (idx : Nat) : columnBytes idx [] = [] := rfl

theorem columnBytes_cons (idx : Nat) (blk : blockData) (rest : List blockData) :
    columnBytes idx (blk :: rest) = payloadBytes idx blk ++ columnBytes idx rest := by
  simp [columnBytes]

/-- In a well-formed block that has column `idx`, the recorded length is the payload's. -/
theorem wellFormed_lookup (w : objectWriterV1) (blk : blockData) (idx : Nat)
    (hwf : blk.wellFormed w) (hidx : ¬ blk.meta.header.columnCount ≤ idx) :
    ∃ seq cm, (blk.seqnums.deref w).Seqs[idx]? = some seq ∧ blk.meta.ColumnMeta seq = some cm ∧
      cm.location.length = (payloadBytes idx blk).length := by
  obtain ⟨hlen, -, -, hok⟩ := hwf
  have hi : idx < blk.data.length := by omega
  have h := hok idx hi
  unfold blockData.payloadOk recordedLocation at h
  cases hs : (blk.seqnums.deref w).Seqs[idx]? with
  | none => simp [hs] at h
  | some seq =>
    cases hc : blk.meta.ColumnMeta seq with
    | none => simp [hs, hc] at h
    | some cm =>
      refine ⟨seq, cm, rfl, hc, ?_⟩
      have hd : blk.data[idx]? = some blk.data[idx] := List.getElem?_eq_getElem hi
      simp [hs, hc, hd] at h
      simp [payloadBytes, hidx, hd, h]

/-- The inner loop of `prepareBlockMeta` on well-formed blocks, without overflow: it
patches the blocks and advances the offset by the length of the column's payloads. -/
theorem prepareColumn_spec (w : objectWriterV1) (idx : Nat) :
    ∀ (blocks : List blockData) (acc : ColumnAcc),
      (∀ blk ∈ blocks, blk.wellFormed w) →
      acc.offset + (columnBytes idx blocks).length < 2 ^ 32 →
      ∃ acc', prepareColumn w idx blocks acc = some (patchColumn w idx acc.offset blocks, acc') ∧
        acc'.offset = acc.offset + (columnBytes idx blocks).length := by
  intro blocks
  induction blocks with
  | nil =>
    intro acc _ _
    exact ⟨acc, rfl, by simp [columnBytes]⟩
  | cons blk rest ih =>
    intro acc hwf hlt
    rw [columnBytes_cons, List.length_append] at hlt
    have hwfb := hwf blk (List.mem_cons_self _ _)
    have hwfr : ∀ b ∈ rest, b.wellFormed w := fun b hb => hwf b (List.mem_cons_of_mem _ hb)
    by_cases hcc : blk.meta.header.columnCount ≤ idx
    · have hp : (payloadBytes idx blk).length = 0 := by simp [payloadBytes, hcc]
      obtain ⟨acc', h1, h2⟩ := ih acc hwfr (by omega)
      refine ⟨acc', ?_, ?_⟩
      · simp [prepareColumn, hcc, h1, patchColumn, patchBlock, hp]
      · rw [columnBytes_cons, List.length_append, hp, h2]; omega
    · obtain ⟨seq, cm, hs, hc, hl⟩ := wellFormed_lookup w blk idx hwfb hcc
      have hmod : (acc.offset + (payloadBytes idx blk).length) % 2 ^ 32 =
          acc.offset + (payloadBytes idx blk).length := by
        apply Nat.mod_eq_of_lt; omega
      obtain ⟨acc', h1, h2⟩ := ih
        { offset := (acc.offset + cm.location.length) % 2 ^ 32
          size := (acc.size + cm.location.length) % 2 ^ 32
          oSize := (acc.oSize + cm.location.originSize) % 2 ^ 32
          alg := cm.location.alg } hwfr (by simp only [hl, hmod]; omega)
      simp only [hl, hmod] at h1 h2
      refine ⟨acc', ?_, ?_⟩
      · simp only [prepareColumn, if_neg hcc, hs, hc, Option.bind_eq_bind, Option.some_bind,
          Option.pure_def, h1, patchColumn, patchBlock, hmod, hl]
      · rw [columnBytes_cons, List.length_append, h2]
        omega

theorem patchBlock_data (w : objectWriterV1) (idx off : Nat) (blk : blockData) :
    (patchBlock w idx off blk).data = blk.data := by
  unfold patchBlock
  split_ifs
  · rfl
  · split
    · rfl
    · split <;> rfl

theorem patchBlock_seqnums (w : objectWriterV1) (idx off : Nat) (blk : blockData) :
    (patchBlock w idx off blk).seqnums = blk.seqnums := by
  unfold patchBlock
  split_ifs
  · rfl
  · split
    · rfl
    · split <;> rfl

theorem patchBlock_header (w : objectWriterV1) (idx off : Nat) (blk : blockData) :
    (patchBlock w idx off blk).meta.header = blk.meta.header := by
  unfold patchBlock
  split_ifs
  · rfl
  · split
    · rfl
    · split <;> rfl

theorem patchBlock_payloadBytes (w : objectWriterV1) (idx off c : Nat) (blk : blockData) :
    payloadBytes c (patchBlock w idx off blk) = payloadBytes c blk := by
  unfold payloadBytes
  rw [patchBlock_header, patchBlock_data]

/-- The location recorded for a column after the patch of column index `idx`: the
patched column has the new offset, every other column keeps its location. -/
theorem patchBlock_recordedLocation (w : objectWriterV1) (idx off c : Nat) (blk : blockData)
    (hwf : blk.wellFormed w) (hc : c < blk.meta.header.columnCount) :
    ∃ loc, recordedLocation w blk c = some loc ∧
      recordedLocation w (patchBlock w idx off blk) c =
        some (if c = idx then { loc with offset := off } else loc) := by
  obtain ⟨seq, cm, hs, hcm, -⟩ := wellFormed_lookup w blk c hwf (by omega)
  have hloc : recordedLocation w blk c = some cm.location := by
    simp [recordedLocation, hs, hcm]
  refine ⟨cm.location, hloc, ?_⟩
  by_cases hcc : blk.meta.header.columnCount ≤ idx
  · have hne : c ≠ idx := by omega
    simp [patchBlock, hcc, hne, hloc]
  · obtain ⟨seq', cm', hs', hcm', -⟩ := wellFormed_lookup w blk idx hwf hcc
    have hlt : seq' < blk.meta.cols.length := by
      have := hcm'
      simp only [BlockObject.ColumnMeta] at this
      exact (List.getElem?_eq_some.mp this).1
    let cmNew : ColumnMeta := { cm' with location := { cm'.location with offset := off } }
    have hpatch : patchBlock w idx off blk =
        { blk with meta := blk.meta.setColumnMeta seq' cmNew } := by
      simp only [patchBlock, if_neg hcc, hs', hcm', cmNew]
    rw [hpatch]
    by_cases hci : c = idx
    · subst hci
      rw [hs] at hs'
      cases hs'
      rw [hcm] at hcm'
      cases hcm'
      simp only [recordedLocation, hs, BlockObject.ColumnMeta, BlockObject.setColumnMeta,
        Option.bind_eq_bind, Option.some_bind, Option.pure_def, if_true,
        List.getElem?_set_self hlt]
    · have hseq : seq' ≠ seq := by
        intro heq
        subst heq
        obtain ⟨hlen, -, hnd, -⟩ := hwf
        obtain ⟨hc1, e1⟩ := List.getElem?_eq_some.mp hs
        obtain ⟨hc2, e2⟩ := List.getElem?_eq_some.mp hs'
        exact hci ((List.Nodup.getElem_inj_iff hnd).mp (e1.trans e2.symm))
      simp only [BlockObject.ColumnMeta] at hcm
      simp only [recordedLocation, hs, BlockObject.ColumnMeta, BlockObject.setColumnMeta,
        Option.bind_eq_bind, Option.some_bind, Option.pure_def, if_neg hci,
        List.getElem?_set_ne hseq, hcm]

theorem patchBlock_wellFormed (w : objectWriterV1) (idx off : Nat) (blk : blockData)
    (hwf : blk.wellFormed w) : (patchBlock w idx off blk).wellFormed w := by
  have hwf' := hwf
  obtain ⟨hlen, hcc, hnd, hok⟩ := hwf'
  refine ⟨?_, ?_, ?_, ?_⟩
  · rw [patchBlock_data, patchBlock_header]; exact hlen
  · rw [patchBlock_header]; exact hcc
  · rw [patchBlock_seqnums]; exact hnd
  · intro i hi
    rw [patchBlock_data] at hi
    obtain ⟨loc, h1, h2⟩ := patchBlock_recordedLocation w idx off i blk hwf (by omega)
    have h := hok i hi
    unfold blockData.payloadOk at h ⊢
    rw [patchBlock_data, h2]
    rw [h1] at h
    cases hd : blk.data[i]? with
    | none => simp [hd] at h
    | some d =>
      simp only [hd] at h ⊢
      split_ifs <;> exact h

theorem patchColumn_length (w : objectWriterV1) (idx : Nat) :
    ∀ (blocks : List blockData) (off : Nat), (patchColumn w idx off blocks).length = blocks.length := by
  intro blocks
  induction blocks with
  | nil => intro off; rfl
  | cons blk rest ih => intro off; simp [patchColumn, ih]

theorem patchColumn_columnBytes (w : objectWriterV1) (idx c : Nat) :
    ∀ (blocks : List blockData) (off : Nat),
      columnBytes c (patchColumn w idx off blocks) = columnBytes c blocks := by
  intro blocks
  induction blocks with
  | nil => intro off; rfl
  | cons blk rest ih =>
    intro off
    simp only [patchColumn, columnBytes_cons, ih, patchBlock_payloadBytes]

theorem patchColumn_wellFormed (w : objectWriterV1) (idx : Nat) :
    ∀ (blocks : List blockData) (off : Nat), (∀ blk ∈ blocks, blk.wellFormed w) →
      ∀ blk ∈ patchColumn w idx off blocks, blk.wellFormed w := by
  intro blocks
  induction blocks with
  | nil => intro off _ blk hb; simp [patchColumn] at hb
  | cons b rest ih =>
    intro off hwf blk hb
    simp only [patchColumn, List.mem_cons] at hb
    rcases hb with rfl | hb
    · exact patchBlock_wellFormed w idx off b (hwf b (List.mem_cons_self _ _))
    · exact ih _ (fun x hx => hwf x (List.mem_cons_of_mem _ hx)) blk hb

/-- Block number `b` after the patch of column index `idx`. -/
theorem patchColumn_getElem? (w : objectWriterV1) (idx : Nat) :
    ∀ (blocks : List blockData) (off b : Nat),
      (patchColumn w idx off blocks)[b]? =
        (blocks[b]?).map (patchBlock w idx (off + (columnBytes idx (blocks.take b)).length)) := by
  intro blocks
  induction blocks with
  | nil => intro off b; simp [patchColumn]
  | cons blk rest ih =>
    intro off b
    cases b with
    | zero => simp [patchColumn, columnBytes]
    | succ b =>
      simp only [patchColumn, List.getElem?_cons_succ, ih, List.take_succ_cons, columnBytes_cons,
        List.length_append, Nat.add_assoc]

theorem payloadArea_congr (blocks blocks' : List blockData)
    (h : ∀ c, columnBytes c blocks' = columnBytes c blocks) :
    ∀ n idx, payloadArea blocks' n idx = payloadArea blocks n idx := by
  intro n
  induction n with
  | zero => intro idx; rfl
  | succ n ih => intro idx; simp only [payloadArea, h, ih]

theorem patchColumn_take (w : objectWriterV1) (idx : Nat) :
    ∀ (blocks : List blockData) (off b : Nat),
      (patchColumn w idx off blocks).take b = patchColumn w idx off (blocks.take b) := by
  intro blocks
  induction blocks with
  | nil => intro off b; simp [patchColumn]
  | cons blk rest ih =>
    intro off b
    cases b with
    | zero => simp [patchColumn]
    | succ b => simp only [patchColumn, List.take_succ_cons, ih]

/-- The outer loop of `prepareBlockMeta` on well-formed blocks, without overflow: it
patches the blocks column by column and advances the offset by the payload area. -/
theorem prepareColumns_spec (w : objectWriterV1) :
    ∀ (n idx : Nat) (blocks : List blockData) (colmeta : List ColumnMeta) (off : Nat),
      (∀ blk ∈ blocks, blk.wellFormed w) →
      off + (payloadArea blocks n idx).length < 2 ^ 32 →
      ∃ colmeta', prepareColumns w n idx blocks colmeta off =
        some (patchColumns w n idx off blocks, colmeta', off + (payloadArea blocks n idx).length) := by
  intro n
  induction n with
  | zero =>
    intro idx blocks colmeta off _ _
    exact ⟨colmeta, by simp [prepareColumns, patchColumns, payloadArea]⟩
  | succ n ih =>
    intro idx blocks colmeta off hwf hlt
    simp only [payloadArea, List.length_append] at hlt
    obtain ⟨acc', h1, h2⟩ := prepareColumn_spec w idx blocks
      { offset := off, size := 0, oSize := 0, alg := 0 } hwf (by simp only; omega)
    simp only at h1 h2
    have hcongr := payloadArea_congr blocks (patchColumn w idx off blocks)
      (fun c => patchColumn_columnBytes w idx c blocks off) n (idx + 1)
    obtain ⟨colmeta', h3⟩ := ih (idx + 1) (patchColumn w idx off blocks)
      (if colmeta.length % 2 ^ 16 ≤ idx then colmeta
       else colmeta.modify (fun cm => { cm with location :=
        { alg := acc'.alg, offset := off, length := acc'.size, originSize := acc'.oSize } }) idx)
      (off + (columnBytes idx blocks).length)
      (patchColumn_wellFormed w idx blocks off hwf) (by rw [hcongr]; omega)
    refine ⟨colmeta', ?_⟩
    simp only [prepareColumns, h1, Option.bind_eq_bind, Option.some_bind, h2, h3, patchColumns,
      payloadArea, List.length_append, hcongr, Nat.add_assoc]

theorem payloadArea_succ_length (blocks : List blockData) (n idx : Nat) :
    (payloadArea blocks (n + 1) idx).length =
      (columnBytes idx blocks).length + (payloadArea blocks n (idx + 1)).length := by
  simp only [payloadArea, List.length_append]

/-- Block number `b` after the patches of the column indexes `idx, …, idx + n - 1`: data,
seqnum pointer and header are kept; a column in that range has its offset set to the
start plus the payloads of the earlier columns of the range plus the payloads of the
same column in the blocks before `b`; every other location is kept. -/
theorem patchColumns_getElem? (w : objectWriterV1) :
    ∀ (n idx off : Nat) (blocks : List blockData), (∀ blk ∈ blocks, blk.wellFormed w) →
      ∀ (b : Nat) (blk : blockData), blocks[b]? = some blk →
        ∃ blk', (patchColumns w n idx off blocks)[b]? = some blk' ∧
          blk'.data = blk.data ∧ blk'.seqnums = blk.seqnums ∧ blk'.meta.header = blk.meta.header ∧
          ∀ c, c < blk.meta.header.columnCount →
            ∃ loc, recordedLocation w blk c = some loc ∧
              recordedLocation w blk' c = some
                (if idx ≤ c ∧ c < idx + n then
                  { loc with offset := off + (payloadArea blocks (c - idx) idx).length +
                      (columnBytes c (blocks.take b)).length }
                 else loc) := by
  intro n
  induction n with
  | zero =>
    intro idx off blocks hwf b blk hb
    refine ⟨blk, by simpa [patchColumns] using hb, rfl, rfl, rfl, ?_⟩
    intro c hc
    have hwfb := hwf blk (List.getElem?_mem hb)
    obtain ⟨seq, cm, hs, hcm, -⟩ := wellFormed_lookup w blk c hwfb (by omega)
    refine ⟨cm.location, by simp [recordedLocation, hs, hcm], ?_⟩
    have : ¬ (idx ≤ c ∧ c < idx + 0) := by omega
    simp only [recordedLocation, hs, hcm, if_neg this, Option.bind_eq_bind, Option.some_bind,
      Option.pure_def]
  | succ n ih =>
    intro idx off blocks hwf b blk hb
    have hwfb := hwf blk (List.getElem?_mem hb)
    have hb1 : (patchColumn w idx off blocks)[b]? =
        some (patchBlock w idx (off + (columnBytes idx (blocks.take b)).length) blk) := by
      rw [patchColumn_getElem?, hb]; rfl
    obtain ⟨blk', h1, h2, h3, h4, h5⟩ := ih (idx + 1) (off + (columnBytes idx blocks).length)
      (patchColumn w idx off blocks) (patchColumn_wellFormed w idx blocks off hwf) b _ hb1
    refine ⟨blk', by simpa [patchColumns] using h1, ?_, ?_, ?_, ?_⟩
    · rw [h2, patchBlock_data]
    · rw [h3, patchBlock_seqnums]
    · rw [h4, patchBlock_header]
    · intro c hc
      obtain ⟨loc, hl, hl1⟩ := patchBlock_recordedLocation w idx
        (off + (columnBytes idx (blocks.take b)).length) c blk hwfb hc
      obtain ⟨loc1, hl2, hl3⟩ := h5 c (by rw [patchBlock_header]; exact hc)
      rw [hl1] at hl2
      cases hl2
      refine ⟨loc, hl, ?_⟩
      rw [hl3]
      have hcongr := payloadArea_congr blocks (patchColumn w idx off blocks)
        (fun c => patchColumn_columnBytes w idx c blocks off)
      rw [patchColumn_take, patchColumn_columnBytes, hcongr]
      by_cases hci : c = idx
      · subst hci
        have h1 : ¬ (c + 1 ≤ c ∧ c < c + 1 + n) := by omega
        have h2 : c ≤ c ∧ c < c + (n + 1) := by omega
        simp only [if_neg h1, if_pos h2, if_true, Nat.sub_self, payloadArea, List.length_nil,
          Nat.add_zero]
      · by_cases hr : idx + 1 ≤ c ∧ c < idx + 1 + n
        · have h2 : idx ≤ c ∧ c < idx + (n + 1) := by omega
          have h3 : c - idx = (c - (idx + 1)) + 1 := by omega
          simp only [if_pos hr, if_pos h2, if_neg hci]
          rw [h3, payloadArea_succ_length]
          have h4 : c - idx - 1 = c - (idx + 1) := by omega
          simp only [Nat.add_sub_cancel, h4, Nat.add_assoc]
        · have h2 : ¬ (idx ≤ c ∧ c < idx + (n + 1)) := by omega
          simp only [if_neg hr, if_neg h2, if_neg hci]

theorem patchColumn_map_data (w : objectWriterV1) (idx : Nat) :
    ∀ (blocks : List blockData) (off : Nat),
      (patchColumn w idx off blocks).map (fun blk => blk.data) = blocks.map (fun blk => blk.data) := by
  intro blocks
  induction blocks with
  | nil => intro off; rfl
  | cons blk rest ih => intro off; simp only [patchColumn, List.map_cons, ih, patchBlock_data]

theorem patchColumns_map_data (w : objectWriterV1) :
    ∀ (n idx off : Nat) (blocks : List blockData),
      (patchColumns w n idx off blocks).map (fun blk => blk.data) =
        blocks.map (fun blk => blk.data) := by
  intro n
  induction n with
  | zero => intro idx off blocks; rfl
  | succ n ih => intro idx off blocks; simp only [patchColumns, ih, patchColumn_map_data]

theorem patchColumns_columnBytes (w : objectWriterV1) (c : Nat) :
    ∀ (n idx off : Nat) (blocks : List blockData),
      columnBytes c (patchColumns w n idx off blocks) = columnBytes c blocks := by
  intro n
  induction n with
  | zero => intro idx off blocks; rfl
  | succ n ih => intro idx off blocks; simp only [patchColumns, ih, patchColumn_columnBytes]

theorem patchColumns_wellFormed (w : objectWriterV1) :
    ∀ (n idx off : Nat) (blocks : List blockData), (∀ blk ∈ blocks, blk.wellFormed w) →
      ∀ blk ∈ patchColumns w n idx off blocks, blk.wellFormed w := by
  intro n
  induction n with
  | zero => intro idx off blocks hwf; exact hwf
  | succ n ih =>
    intro idx off blocks hwf
    exact ih _ _ _ (patchColumn_wellFormed w idx blocks off hwf)

/-- The fold of `getMaxIndex` over payload counts. -/
theorem foldl_maxIndex (blocks : List blockData) :
    ∀ m : Nat,
      m ≤ blocks.foldl (fun maxIndex block =>
        if block.data.length > maxIndex then block.data.length else maxIndex) m ∧
      (∀ blk ∈ blocks, blk.data.length ≤ blocks.foldl (fun maxIndex block =>
        if block.data.length > maxIndex then block.data.length else maxIndex) m) ∧
      (blocks.foldl (fun maxIndex block =>
        if block.data.length > maxIndex then block.data.length else maxIndex) m = m ∨
       ∃ blk ∈ blocks, blocks.foldl (fun maxIndex block =>
        if block.data.length > maxIndex then block.data.length else maxIndex) m = blk.data.length) := by
  induction blocks with
  | nil => intro m; simp
  | cons blk rest ih =>
    intro m
    simp only [List.foldl_cons, List.mem_cons, forall_eq_or_imp, exists_eq_or_imp]
    obtain ⟨h1, h2, h3⟩ := ih (if blk.data.length > m then blk.data.length else m)
    by_cases hgt : blk.data.length > m
    · simp only [if_pos hgt] at h1 h2 h3 ⊢
      refine ⟨by omega, ⟨h1, h2⟩, ?_⟩
      rcases h3 with h3 | ⟨x, hx, h3⟩
      · right; left; exact h3
      · right; right; exact ⟨x, hx, h3⟩
    · simp only [if_neg hgt] at h1 h2 h3 ⊢
      refine ⟨h1, ⟨by omega, h2⟩, ?_⟩
      rcases h3 with h3 | ⟨x, hx, h3⟩
      · left; exact h3
      · right; right; exact ⟨x, hx, h3⟩

/-- On well-formed blocks `getMaxIndex` is an upper bound of the payload counts. -/
theorem le_getMaxIndex (w : objectWriterV1) (hwf : ∀ blk ∈ w.blocks, blk.wellFormed w)
    (blk : blockData) (hb : blk ∈ w.blocks) : blk.data.length ≤ getMaxIndex w := by
  unfold getMaxIndex
  cases hbl : w.blocks with
  | nil => rw [hbl] at hb; simp at hb
  | cons block0 rest =>
    simp only
    rw [← hbl]
    obtain ⟨h1, h2, h3⟩ := foldl_maxIndex w.blocks block0.data.length
    have hlt : w.blocks.foldl (fun maxIndex block =>
        if block.data.length > maxIndex then block.data.length else maxIndex)
        block0.data.length < 2 ^ 16 := by
      have hb0 : block0 ∈ w.blocks := by rw [hbl]; exact List.mem_cons_self _ _
      rcases h3 with h3 | ⟨x, hx, h3⟩
      · rw [h3]
        obtain ⟨e, l, -, -⟩ := hwf block0 hb0
        omega
      · rw [h3]
        obtain ⟨e, l, -, -⟩ := hwf x hx
        omega
    rw [Nat.mod_eq_of_lt hlt]
    exact h2 blk hb

theorem getMaxIndex_congr (w w' : objectWriterV1)
    (h : w'.blocks.map (fun blk => blk.data) = w.blocks.map (fun blk => blk.data)) :
    getMaxIndex w' = getMaxIndex w := by
  have hfold : ∀ (l : List blockData) (m : Nat),
      l.foldl (fun maxIndex block =>
        if block.data.length > maxIndex then block.data.length else maxIndex) m =
      (l.map (fun blk => blk.data)).foldl (fun maxIndex d =>
        if d.length > maxIndex then d.length else maxIndex) m := by
    intro l
    induction l with
    | nil => intro m; rfl
    | cons x xs ih => intro m; simp only [List.foldl_cons, List.map_cons, ih]
  unfold getMaxIndex
  cases h1 : w'.blocks with
  | nil =>
    rw [h1] at h
    cases h2 : w.blocks with
    | nil => rfl
    | cons y ys => rw [h2] at h; simp at h
  | cons x xs =>
    rw [h1] at h
    cases h2 : w.blocks with
    | nil => rw [h2] at h; simp at h
    | cons y ys =>
      rw [h2] at h
      simp only
      rw [hfold, hfold, h]
      simp only [List.map_cons, List.cons.injEq] at h
      rw [h.1]

theorem ObjectBuffer.Write_nil (buffer : ObjectBuffer) : buffer.Write [] = buffer := by
  simp [ObjectBuffer.Write]

theorem ObjectBuffer.Write_append (buffer : ObjectBuffer) (x y : Bytes) :
    buffer.Write (x ++ y) = (buffer.Write x).Write y := by
  simp [ObjectBuffer.Write]

/-- The inner loop of `writerBlocks` appends the payloads of the column, in block order. -/
theorem writeColumn_spec (idx : Nat) :
    ∀ (blocks : List blockData) (buffer : ObjectBuffer),
      (∀ blk ∈ blocks, blk.data.length = blk.meta.header.columnCount) →
      writeColumn idx blocks buffer = some (buffer.Write (columnBytes idx blocks)) := by
  intro blocks
  induction blocks with
  | nil => intro buffer _; simp [writeColumn, columnBytes, ObjectBuffer.Write_nil]
  | cons blk rest ih =>
    intro buffer h
    have hr : ∀ b ∈ rest, b.data.length = b.meta.header.columnCount :=
      fun b hb => h b (List.mem_cons_of_mem _ hb)
    have hb := h blk (List.mem_cons_self _ _)
    rw [columnBytes_cons, ObjectBuffer.Write_append]
    by_cases hcc : blk.meta.header.columnCount ≤ idx
    · simp only [writeColumn, if_pos hcc, payloadBytes, ObjectBuffer.Write_nil, ih _ hr]
    · have hi : idx < blk.data.length := by omega
      have hd : blk.data[idx]? = some blk.data[idx] := List.getElem?_eq_getElem hi
      simp only [writeColumn, if_neg hcc, payloadBytes, hd, Option.bind_eq_bind,
        Option.some_bind, Option.getD_some, ih _ hr]

/-- The outer loop of `writerBlocks` appends the payload area, column-major. -/
theorem writeColumns_spec (blocks : List blockData)
    (h : ∀ blk ∈ blocks, blk.data.length = blk.meta.header.columnCount) :
    ∀ (n idx : Nat) (buffer : ObjectBuffer),
      writeColumns blocks n idx buffer = some (buffer.Write (payloadArea blocks n idx)) := by
  intro n
  induction n with
  | zero => intro idx buffer; simp [writeColumns, payloadArea, ObjectBuffer.Write_nil]
  | succ n ih =>
    intro idx buffer
    simp only [writeColumns, writeColumn_spec idx blocks buffer h, Option.bind_eq_bind,
      Option.some_bind, ih, payloadArea, ObjectBuffer.Write_append]

theorem payloadArea_split (blocks : List blockData) :
    ∀ (c m idx : Nat),
      payloadArea blocks (c + m) idx = payloadArea blocks c idx ++ payloadArea blocks m (idx + c) := by
  intro c
  induction c with
  | zero => intro m idx; simp [payloadArea]
  | succ c ih =>
    intro m idx
    have h : c + 1 + m = (c + m) + 1 := by omega
    rw [h]
    simp only [payloadArea, ih, List.append_assoc]
    have h2 : idx + 1 + c = idx + (c + 1) := by omega
    rw [h2]

theorem columnBytes_split (c : Nat) :
    ∀ (blocks : List blockData) (b : Nat) (blk : blockData), blocks[b]? = some blk →
      columnBytes c blocks =
        columnBytes c (blocks.take b) ++ payloadBytes c blk ++ columnBytes c (blocks.drop (b + 1)) := by
  intro blocks
  induction blocks with
  | nil => intro b blk h; simp at h
  | cons x xs ih =>
    intro b blk h
    cases b with
    | zero =>
      simp only [List.getElem?_cons_zero, Option.some.injEq] at h
      subst h
      simp [columnBytes]
    | succ b =>
      simp only [List.getElem?_cons_succ] at h
      simp only [List.take_succ_cons, List.drop_succ_cons, columnBytes_cons, ih b blk h,
        List.append_assoc]

theorem drop_take_mid (pre x post : Bytes) :
    ((pre ++ x ++ post).drop pre.length).take x.length = x := by
  simp

/-- On well-formed blocks `writerBlocks` places the payload of column `c` of block `b`
at the offset the specification expects, measured from the start of the payload area. -/
theorem payload_at_expectedOffset (blocks : List blockData) (n : Nat) (pre : Bytes)
    (b c : Nat) (blk : blockData) (hb : blocks[b]? = some blk) (hc : c < n) :
    ((pre ++ payloadArea blocks n 0).drop (expectedOffset pre.length blocks c b)).take
      (payloadBytes c blk).length = payloadBytes c blk := by
  have hn : n = c + ((n - c - 1) + 1) := by omega
  have hsplit : payloadArea blocks n 0 =
      payloadArea blocks c 0 ++ (columnBytes c blocks ++ payloadArea blocks (n - c - 1) (c + 1)) := by
    conv_lhs => rw [hn]
    rw [payloadArea_split, payloadArea, Nat.zero_add]
  rw [hsplit, columnBytes_split c blocks b blk hb]
  have hassoc : pre ++ (payloadArea blocks c 0 ++
      ((columnBytes c (blocks.take b) ++ payloadBytes c blk ++ columnBytes c (blocks.drop (b + 1))) ++
        payloadArea blocks (n - c - 1) (c + 1))) =
      (pre ++ payloadArea blocks c 0 ++ columnBytes c (blocks.take b)) ++ payloadBytes c blk ++
        (columnBytes c (blocks.drop (b + 1)) ++ payloadArea blocks (n - c - 1) (c + 1)) := by
    simp only [List.append_assoc]
  rw [hassoc]
  have hlen : expectedOffset pre.length blocks c b =
      (pre ++ payloadArea blocks c 0 ++ columnBytes c (blocks.take b)).length := by
    simp only [expectedOffset, List.length_append]
  rw [hlen]
  exact drop_take_mid _ _ _

theorem recordedLocation_congr (w w' : objectWriterV1) (h : w'.seqnums = w.seqnums)
    (blk : blockData) (c : Nat) : recordedLocation w' blk c = recordedLocation w blk c := by
  unfold recordedLocation SeqnumsRef.deref
  cases blk.seqnums <;> simp [h]

theorem payloadBytes_of_data (blk : blockData) (c : Nat) (d : Bytes)
    (hlen : blk.data.length = blk.meta.header.columnCount) (hd : blk.data[c]? = some d) :
    c < blk.meta.header.columnCount ∧ payloadBytes c blk = d := by
  have hc : c < blk.data.length := (List.getElem?_eq_some.mp hd).1
  have hcc : ¬ blk.meta.header.columnCount ≤ c := by omega
  exact ⟨by omega, by simp [payloadBytes, hcc, hd]⟩

/-- On well-formed blocks whose payloads end below 2^32, `prepareBlockMeta` returns the
offset at which the payloads end. -/
theorem prepareBlockMeta_offset (w : objectWriterV1) (start : Nat)
    (hwf : ∀ blk ∈ w.blocks, blk.wellFormed w)
    (hsize : start + (payloadArea w.blocks (getMaxIndex w) 0).length < 2 ^ 32) :
    ∃ w', prepareBlockMeta w start =
      some (w', start + (payloadArea w.blocks (getMaxIndex w) 0).length) := by
  obtain ⟨colmeta', hprep⟩ := prepareColumns_spec w (getMaxIndex w) 0 w.blocks w.colmeta start
    hwf hsize
  refine ⟨{ w with blocks := patchColumns w (getMaxIndex w) 0 start w.blocks,
                   colmeta := colmeta' }, ?_⟩
  simp only [prepareBlockMeta, hprep, Option.bind_eq_bind, Option.some_bind, Option.pure_def]

/-- C3 (amended): for every object writer whose blocks are as `AddBlock` leaves them
(one payload per column of the header, distinct seqnums, each column meta recording the
compressed length of its payload) and for which `start` (in `WriteEnd`, `HeaderSize`)
plus the total payload length is below 2^32, `prepareBlockMeta(start)` returns `start`
plus the total payload length and records for the payload of column index `c` of block
`b` the offset `start` + (length of all payloads of column index < `c`) + (length of the
column-`c` payloads of the blocks before `b`) together with the payload's length; and
`writerBlocks`, run on a buffer that holds `start` bytes, appends the payloads
column-major then in block order, so that each payload lies exactly at its recorded
offset. -/
theorem prepareBlockMeta_layout (w : objectWriterV1) (start : Nat)
    (hwf : ∀ blk ∈ w.blocks, blk.wellFormed w)
    (hsize : start + (payloadArea w.blocks (getMaxIndex w) 0).length < 2 ^ 32) :
    ∃ w', prepareBlockMeta w start =
        some (w', start + (payloadArea w.blocks (getMaxIndex w) 0).length) ∧
      (∀ b blk c d, w.blocks[b]? = some blk → blk.data[c]? = some d →
        ∃ blk' loc, w'.blocks[b]? = some blk' ∧ recordedLocation w' blk' c = some loc ∧
          loc.offset = expectedOffset start w.blocks c b ∧ loc.length = d.length) ∧
      (∀ buffer : ObjectBuffer, buffer.data.length = start →
        ∃ buffer', writerBlocks { w' with buffer := some buffer } =
            some { w' with buffer := some buffer' } ∧
          buffer'.data = buffer.data ++ payloadArea w.blocks (getMaxIndex w) 0 ∧
          ∀ b blk c d, w.blocks[b]? = some blk → blk.data[c]? = some d →
            (buffer'.data.drop (expectedOffset start w.blocks c b)).take d.length = d) := by
  obtain ⟨colmeta', hprep⟩ := prepareColumns_spec w (getMaxIndex w) 0 w.blocks w.colmeta start
    hwf hsize
  refine ⟨{ w with blocks := patchColumns w (getMaxIndex w) 0 start w.blocks,
                   colmeta := colmeta' }, ?_, ?_, ?_⟩
  · simp only [prepareBlockMeta, hprep, Option.bind_eq_bind, Option.some_bind, Option.pure_def]
  · intro b blk c d hb hd
    have hwfb := hwf blk (List.getElem?_mem hb)
    obtain ⟨hcc, hpb⟩ := payloadBytes_of_data blk c d hwfb.1 hd
    obtain ⟨blk', h1, -, -, -, h5⟩ :=
      patchColumns_getElem? w (getMaxIndex w) 0 start w.blocks hwf b blk hb
    obtain ⟨loc, hl, hl'⟩ := h5 c hcc
    have hmax : c < getMaxIndex w := by
      have := le_getMaxIndex w hwf blk (List.getElem?_mem hb)
      have := hwfb.1
      omega
    have hrange : 0 ≤ c ∧ c < 0 + getMaxIndex w := by omega
    rw [if_pos hrange] at hl'
    obtain ⟨seq, cm, hs, hcm, hlen⟩ := wellFormed_lookup w blk c hwfb (by omega)
    have hloc : loc = cm.location := by
      have : recordedLocation w blk c = some cm.location := by
        simp [recordedLocation, hs, hcm]
      rw [this] at hl
      exact (Option.some.inj hl).symm
    refine ⟨blk', { loc with offset := start + (payloadArea w.blocks (c - 0) 0).length +
      (columnBytes c (w.blocks.take b)).length }, h1, ?_, ?_, ?_⟩
    · exact (recordedLocation_congr w _ rfl blk' c).trans hl'
    · simp only [expectedOffset, Nat.sub_zero]
    · simp only [hloc, hlen, hpb]
  · intro buffer hbuf
    have hdata := patchColumns_map_data w (getMaxIndex w) 0 start w.blocks
    have hmax := getMaxIndex_congr w
      { w with blocks := patchColumns w (getMaxIndex w) 0 start w.blocks,
               colmeta := colmeta', buffer := some buffer } hdata
    have hwf' := patchColumns_wellFormed w (getMaxIndex w) 0 start w.blocks hwf
    have hcongr := payloadArea_congr w.blocks (patchColumns w (getMaxIndex w) 0 start w.blocks)
      (fun c => patchColumns_columnBytes w c (getMaxIndex w) 0 start w.blocks) (getMaxIndex w) 0
    have hwrite := writeColumns_spec (patchColumns w (getMaxIndex w) 0 start w.blocks)
      (fun blk hb => (hwf' blk hb).1) (getMaxIndex w) 0 buffer
    rw [hcongr] at hwrite
    refine ⟨buffer.Write (payloadArea w.blocks (getMaxIndex w) 0), ?_, rfl, ?_⟩
    · simp only [writerBlocks, hmax, hwrite, Option.bind_eq_bind, Option.some_bind,
        Option.pure_def]
    · intro b blk c d hb hd
      have hwfb := hwf blk (List.getElem?_mem hb)
      obtain ⟨hcc, hpb⟩ := payloadBytes_of_data blk c d hwfb.1 hd
      have hmaxc : c < getMaxIndex w := by
        have := le_getMaxIndex w hwf blk (List.getElem?_mem hb)
        have := hwfb.1
        omega
      have := payload_at_expectedOffset w.blocks (getMaxIndex w) buffer.data b c blk hb hmaxc
      rw [hpb, hbuf] at this
      exact this

/-- C3, witness: the writer left by two `Write` calls of two-column batches. -/
theorem prepareBlockMeta_layout_witness :
    (∀ blk ∈ demoWriter.blocks, blk.wellFormed demoWriter) ∧
    64 + (payloadArea demoWriter.blocks (getMaxIndex demoWriter) 0).length < 2 ^ 32 ∧
    ∃ w', prepareBlockMeta demoWriter 64 =
        some (w', 64 + (payloadArea demoWriter.blocks (getMaxIndex demoWriter) 0).length) ∧
      (∀ b blk c d, demoWriter.blocks[b]? = some blk → blk.data[c]? = some d →
        ∃ blk' loc, w'.blocks[b]? = some blk' ∧ recordedLocation w' blk' c = some loc ∧
          loc.offset = expectedOffset 64 demoWriter.blocks c b ∧ loc.length = d.length) ∧
      (∀ buffer : ObjectBuffer, buffer.data.length = 64 →
        ∃ buffer', writerBlocks { w' with buffer := some buffer } =
            some { w' with buffer := some buffer' } ∧
          buffer'.data = buffer.data ++ payloadArea demoWriter.blocks (getMaxIndex demoWriter) 0 ∧
          ∀ b blk c d, demoWriter.blocks[b]? = some blk → blk.data[c]? = some d →
            (buffer'.data.drop (expectedOffset 64 demoWriter.blocks c b)).take d.length = d) :=
  have h1 : ∀ blk ∈ demoWriter.blocks, blk.wellFormed demoWriter := by decide
  have h2 : 64 + (payloadArea demoWriter.blocks (getMaxIndex demoWriter) 0).length < 2 ^ 32 := by
    decide
  ⟨h1, h2, prepareBlockMeta_layout demoWriter 64 h1 h2⟩

/-- On blocks with one payload per column of the header, `writerBlocks` appends the
payload area to the buffer. -/
theorem writerBlocks_spec (w : objectWriterV1) (buffer : ObjectBuffer)
    (hbuf : w.buffer = some buffer)
    (h : ∀ blk ∈ w.blocks, blk.data.length = blk.meta.header.columnCount) :
    writerBlocks w =
      some { w with buffer := some (buffer.Write (payloadArea w.blocks (getMaxIndex w) 0)) } := by
  simp only [writerBlocks, hbuf, Option.bind_eq_bind, Option.some_bind,
    writeColumns_spec w.blocks h, Option.pure_def]

/-- The length of the buffer after `writerBlocks`. -/
theorem writerBlocks_length (w : objectWriterV1) (buffer : ObjectBuffer)
    (hbuf : w.buffer = some buffer)
    (h : ∀ blk ∈ w.blocks, blk.data.length = blk.meta.header.columnCount) :
    (writerBlocks w).map (fun w' => w'.buffer.map fun b => b.data.length) =
      some (some (buffer.data.length + (payloadArea w.blocks (getMaxIndex w) 0).length)) := by
  rw [writerBlocks_spec w buffer hbuf h]
  simp only [Option.map_some', ObjectBuffer.Write, List.length_append]

/-- The payloads of the four-column block of `2^30`-byte payloads have `2^32` bytes. -/
theorem gibWriter_payloadArea_length : (payloadArea gibWriter.blocks 4 0).length = 2 ^ 32 := by
  have hcol : ∀ c, c < 4 → (columnBytes c gibWriter.blocks).length = 2 ^ 30 := by
    intro c hc
    have hcc : ¬ (4 ≤ c) := by omega
    simp only [columnBytes, gibWriter, List.map_cons, List.map_nil, List.flatten_cons,
      List.flatten_nil, List.append_nil, payloadBytes, if_neg hcc, List.getElem?_replicate,
      if_pos hc, Option.getD_some, List.length_replicate]
  have harea : ∀ blocks : List blockData, (payloadArea blocks 4 0).length =
      (columnBytes 0 blocks).length + ((columnBytes 1 blocks).length +
        ((columnBytes 2 blocks).length + ((columnBytes 3 blocks).length + 0))) := by
    intro blocks
    simp only [payloadArea, List.length_append, List.length_nil]
  rw [harea, hcol 0 (by omega), hcol 1 (by omega), hcol 2 (by omega), hcol 3 (by omega)]
  norm_num

/-- C3, counterexample: one block of four columns whose payloads have 2^30 bytes each,
every column meta recording that length. `prepareBlockMeta(64)` returns 64 again, the
`uint32` offset having wrapped around, while the payloads that `writerBlocks` appends
after the 64 header bytes end at byte 64 + 2^32. -/
theorem prepareBlockMeta_offset_wraps :
    (∀ blk ∈ gibWriter.blocks, blk.data.length = blk.meta.header.columnCount) ∧
    (prepareBlockMeta gibWriter 64).map (fun r => r.2) = some 64 ∧
    (writerBlocks gibWriterWithHeader).map (fun w' => w'.buffer.map fun b => b.data.length) =
      some (some (64 + 2 ^ 32)) := by
  refine ⟨by decide, by decide, ?_⟩
  have hmax : getMaxIndex gibWriterWithHeader = 4 := by decide
  have hblocks : gibWriterWithHeader.blocks = gibWriter.blocks := rfl
  have hbuf : gibWriterWithHeader.buffer =
      some ((NewObjectBuffer "obj").Write (List.replicate 64 0)) := rfl
  have h64 : ((NewObjectBuffer "obj").Write (List.replicate 64 0)).data.length = 64 := by decide
  rw [writerBlocks_length gibWriterWithHeader _ hbuf (by decide), hmax, hblocks,
    gibWriter_payloadArea_length, h64]

/-- The extent returned by `WriteWithCompress` starts at the given offset and has
the length of the returned bytes. -/
theorem WriteWithCompress_ok (p : Params) (offset : Nat) (buf data : Bytes) (ext : Extent)
    (h : WriteWithCompress p offset buf = .ok (data, ext)) :
    ext.offset = offset ∧ ext.length = data.length := by
  unfold WriteWithCompress at h
  cases hc : p.compress buf with
  | error e => simp [hc] at h
  | ok tmpData =>
    simp only [hc, Res.ok.injEq, Prod.mk.injEq] at h
    obtain ⟨h1, h2⟩ := h
    subst h1 h2
    refine ⟨rfl, ?_⟩
    simp only [NewExtent, List.length_take]
    have := Nat.mod_le tmpData.length (2 ^ 32)
    omega

theorem Res.bind_eq_ok {α β : Type} (r : Res α) (f : α → Res β) (b : β)
    (h : r.bind f = .ok b) : ∃ a, r = .ok a ∧ f a = .ok b := by
  cases r with
  | ok a => exact ⟨a, rfl, h⟩
  | error e => simp [Res.bind] at h
  | panic => simp [Res.bind] at h

theorem prepareBloomFilter_ok (p : Params) (w : objectWriterV1) (blockCount offset : Nat)
    (data : Bytes) (ext : Extent) (h : prepareBloomFilter p w blockCount offset = .ok (data, ext)) :
    ext.offset = offset ∧ ext.length = data.length := by
  unfold prepareBloomFilter at h
  obtain ⟨a, -, h2⟩ := Res.bind_eq_ok _ _ _ h
  exact WriteWithCompress_ok p offset _ data ext h2

theorem prepareZoneMapArea_ok (p : Params) (w : objectWriterV1) (blockCount offset : Nat)
    (data : Bytes) (ext : Extent) (h : prepareZoneMapArea p w blockCount offset = .ok (data, ext)) :
    ext.offset = offset ∧ ext.length = data.length := by
  unfold prepareZoneMapArea at h
  obtain ⟨a, -, h2⟩ := Res.bind_eq_ok _ _ _ h
  obtain ⟨b, -, h3⟩ := Res.bind_eq_ok _ _ _ h2
  exact WriteWithCompress_ok p offset _ data ext h3

theorem prepareObjectMeta_ok (p : Params) (w : objectWriterV1) (objectMeta : BlockObject)
    (offset : Nat) (seqnums : Option Seqnums) (data : Bytes) (ext : Extent)
    (h : prepareObjectMeta p w objectMeta offset seqnums = .ok (data, ext)) :
    ext.offset = offset ∧ ext.length = data.length := by
  unfold prepareObjectMeta at h
  obtain ⟨a, -, h2⟩ := Res.bind_eq_ok _ _ _ h
  obtain ⟨b, -, h3⟩ := Res.bind_eq_ok _ _ _ h2
  exact WriteWithCompress_ok p offset _ data ext h3

theorem unplaced_setColumnMeta (bm : BlockObject) (seq off : Nat) (cm : ColumnMeta)
    (h : bm.ColumnMeta seq = some cm) :
    (bm.setColumnMeta seq { cm with location := { cm.location with offset := off } }).unplaced =
      bm.unplaced := by
  simp only [BlockObject.ColumnMeta] at h
  obtain ⟨hlt, hget⟩ := List.getElem?_eq_some.mp h
  simp only [BlockObject.unplaced, BlockObject.setColumnMeta, BlockObject.mk.injEq, true_and]
  apply List.ext_getElem?
  intro i
  by_cases hi : i = seq
  · subst hi
    simp only [List.map_set, List.getElem?_map, h, Option.map_some']
    rw [List.getElem?_set_self (by simpa using hlt)]
  · simp only [List.map_set, List.getElem?_set_ne (Ne.symm hi)]

/-- The inner loop of `prepareBlockMeta` changes nothing but the placement. -/
theorem prepareColumn_unplaced (w : objectWriterV1) (idx : Nat) :
    ∀ (blocks blocks' : List blockData) (acc acc' : ColumnAcc),
      prepareColumn w idx blocks acc = some (blocks', acc') →
      blocks'.map blockData.unplaced = blocks.map blockData.unplaced := by
  intro blocks
  induction blocks with
  | nil =>
    intro blocks' acc acc' h
    simp only [prepareColumn, Option.some.injEq, Prod.mk.injEq] at h
    rw [← h.1]
  | cons blk rest ih =>
    intro blocks' acc acc' h
    by_cases hcc : blk.meta.header.columnCount ≤ idx
    · simp only [prepareColumn, if_pos hcc, Option.bind_eq_bind, Option.bind_eq_some,
        Option.pure_def, Option.some.injEq, Prod.mk.injEq] at h
      obtain ⟨⟨r, a⟩, h1, h2, -⟩ := h
      rw [← h2, List.map_cons, List.map_cons, ih r acc a h1]
    · simp only [prepareColumn, if_neg hcc, Option.bind_eq_bind, Option.bind_eq_some,
        Option.pure_def, Option.some.injEq, Prod.mk.injEq] at h
      obtain ⟨seq, -, cm, hcm, ⟨r, a⟩, h1, h2, -⟩ := h
      rw [← h2, List.map_cons, List.map_cons, ih r _ a h1]
      simp only [blockData.unplaced, unplaced_setColumnMeta blk.meta seq acc.offset cm hcm]

/-- The outer loop of `prepareBlockMeta` changes nothing but the placement. -/
theorem prepareColumns_unplaced (w : objectWriterV1) :
    ∀ (n idx : Nat) (blocks blocks' : List blockData) (colmeta colmeta' : List ColumnMeta)
      (off off' : Nat),
      prepareColumns w n idx blocks colmeta off = some (blocks', colmeta', off') →
      blocks'.map blockData.unplaced = blocks.map blockData.unplaced := by
  intro n
  induction n with
  | zero =>
    intro idx blocks blocks' colmeta colmeta' off off' h
    simp only [prepareColumns, Option.some.injEq, Prod.mk.injEq] at h
    rw [← h.1]
  | succ n ih =>
    intro idx blocks blocks' colmeta colmeta' off off' h
    simp only [prepareColumns, Option.bind_eq_bind, Option.bind_eq_some] at h
    obtain ⟨⟨b1, acc⟩, h1, h2⟩ := h
    rw [ih _ _ _ _ _ _ _ h2, prepareColumn_unplaced w idx blocks b1 _ acc h1]

/-- `prepareBlockMeta` changes nothing but the placement of the blocks and `colmeta`. -/
theorem prepareBlockMeta_unplaced (w w' : objectWriterV1) (off off' : Nat)
    (h : prepareBlockMeta w off = some (w', off')) :
    w'.blocks.map blockData.unplaced = w.blocks.map blockData.unplaced ∧
      w'.buffer = w.buffer ∧ w'.seqnums = w.seqnums ∧ w'.fileName = w.fileName := by
  simp only [prepareBlockMeta, Option.bind_eq_bind, Option.bind_eq_some, Option.pure_def,
    Option.some.injEq, Prod.mk.injEq] at h
  obtain ⟨⟨b, c, o⟩, h1, h2, -⟩ := h
  subst h2
  exact ⟨prepareColumns_unplaced w _ _ _ _ _ _ _ _ h1, rfl, rfl, rfl⟩

theorem payloadBytes_unplaced (idx : Nat) (blk : blockData) :
    payloadBytes idx blk.unplaced = payloadBytes idx blk := rfl

theorem columnBytes_unplaced (idx : Nat) (blocks : List blockData) :
    columnBytes idx (blocks.map blockData.unplaced) = columnBytes idx blocks := by
  simp only [columnBytes, List.map_map]
  rfl

theorem columnBytes_congr_unplaced (blocks blocks' : List blockData)
    (h : blocks'.map blockData.unplaced = blocks.map blockData.unplaced) (idx : Nat) :
    columnBytes idx blocks' = columnBytes idx blocks := by
  rw [← columnBytes_unplaced idx blocks', h, columnBytes_unplaced]

theorem map_data_of_unplaced (blocks blocks' : List blockData)
    (h : blocks'.map blockData.unplaced = blocks.map blockData.unplaced) :
    blocks'.map (fun blk => blk.data) = blocks.map (fun blk => blk.data) := by
  have := congrArg (List.map fun blk : blockData => blk.data) h
  simpa [List.map_map, Function.comp_def, blockData.unplaced] using this

theorem map_header_of_unplaced (blocks blocks' : List blockData)
    (h : blocks'.map blockData.unplaced = blocks.map blockData.unplaced) :
    blocks'.map (fun blk => blk.meta.header.columnCount) =
      blocks.map (fun blk => blk.meta.header.columnCount) := by
  have := congrArg (List.map fun blk : blockData => blk.meta.header.columnCount) h
  simpa [List.map_map, Function.comp_def, blockData.unplaced, BlockObject.unplaced] using this

/-- The steps of a run of `WriteEnd` that reaches the write of the footer. -/
theorem serialize_ok (p : Params) (w w1 : objectWriterV1) (layout : Layout)
    (h : serialize p w = some (w1, .ok layout)) :
    ∃ w' buffer w2 buffer2,
      prepareBlockMeta w p.HeaderSize = some (w', layout.payloadEnd) ∧
      prepareBloomFilter p w' (w.blocks.length % 2 ^ 32) layout.payloadEnd =
        .ok (layout.bloomFilterData, layout.bloomFilterExtent) ∧
      prepareZoneMapArea p w' (w.blocks.length % 2 ^ 32)
          ((layout.payloadEnd + layout.bloomFilterExtent.length) % 2 ^ 32) =
        .ok (layout.zoneMapAreaData, layout.zoneMapAreaExtent) ∧
      (layout.err = none →
        layout.metaExtent.offset =
            ((layout.payloadEnd + layout.bloomFilterExtent.length) % 2 ^ 32 +
              layout.zoneMapAreaExtent.length) % 2 ^ 32 ∧
          layout.metaExtent.length = layout.meta.length) ∧
      layout.objectHeader = { schemaVersion := w.schemaVer, extent := layout.metaExtent } ∧
      layout.footer = { metaExtent := layout.metaExtent, version := p.Version, magic := p.Magic } ∧
      w'.buffer = some buffer ∧
      writerBlocks { w' with buffer := some (buffer.Write (p.headerBytes layout.objectHeader)) } =
        some w2 ∧
      w2.buffer = some buffer2 ∧
      w1 = { w2 with buffer := some ((((buffer2.Write layout.bloomFilterData).Write
        layout.zoneMapAreaData).Write layout.meta).Write (p.footerMarshal layout.footer)) } := by
  unfold serialize at h
  simp only [Option.bind_eq_bind, Option.bind_eq_some, Option.pure_def] at h
  obtain ⟨⟨w', off⟩, hprep, h⟩ := h
  simp only at h
  split at h
  · simp at h
  · simp at h
  · rename_i bfData bfExt hbf
    split at h
    · simp at h
    · simp at h
    · rename_i zmData zmExt hzm
      split at h
      · simp at h
      · rename_i err hpm
        simp only [Option.some_bind, Option.bind_eq_some, Option.some.injEq, Prod.mk.injEq,
          Except.ok.injEq] at h
        obtain ⟨buffer, hbuf, w2, hwb, buffer2, hbuf2, hw1, hl⟩ := h
        subst hl
        exact ⟨w', buffer, w2, buffer2, hprep, hbf, hzm, fun herr => by simp at herr, rfl, rfl,
          hbuf, hwb, hbuf2, hw1.symm⟩
      · rename_i meta metaExt hpm
        simp only [Option.some_bind, Option.bind_eq_some, Option.some.injEq, Prod.mk.injEq,
          Except.ok.injEq] at h
        obtain ⟨buffer, hbuf, w2, hwb, buffer2, hbuf2, hw1, hl⟩ := h
        subst hl
        exact ⟨w', buffer, w2, buffer2, hprep, hbf, hzm,
          fun _ => prepareObjectMeta_ok _ _ _ _ _ _ _ hpm, rfl, rfl, hbuf, hwb, hbuf2, hw1.symm⟩

theorem counts_of_unplaced (blocks blocks' : List blockData)
    (h : blocks'.map blockData.unplaced = blocks.map blockData.unplaced)
    (hc : ∀ blk ∈ blocks, blk.data.length = blk.meta.header.columnCount) :
    ∀ blk ∈ blocks', blk.data.length = blk.meta.header.columnCount := by
  intro blk' hb'
  have hm : blk'.unplaced ∈ blocks'.map blockData.unplaced := List.mem_map_of_mem _ hb'
  rw [h] at hm
  obtain ⟨blk, hb, he⟩ := List.mem_map.mp hm
  have h1 : blk'.data = blk.data := by
    have := congrArg (fun b : blockData => b.data) he
    simpa [blockData.unplaced] using this.symm
  have h2 : blk'.meta.header.columnCount = blk.meta.header.columnCount := by
    have := congrArg (fun b : blockData => b.meta.header.columnCount) he
    simpa [blockData.unplaced, BlockObject.unplaced] using this.symm
  rw [h1, h2]
  exact hc blk hb

/-- The calls of a `Sync` that returns: the first one writes the buffer's data. -/
theorem Sync_calls {σ : Type} (fs : FileService σ) (w w' : objectWriterV1) (items : List Nat)
    (st st' : σ) (err : Option GoError) (calls : List FsCall)
    (h : Sync fs w items st = some (err, w', st', calls)) :
    ∃ buffer rest, w.buffer = some buffer ∧
      calls = .Write (buffer.SetDataOptions items).GetData :: rest := by
  unfold Sync at h
  simp only [Option.bind_eq_bind, Option.bind_eq_some, Option.pure_def] at h
  obtain ⟨buffer, hbuf, h⟩ := h
  refine ⟨buffer, calls.tail, hbuf, ?_⟩
  split_ifs at h <;>
    · simp only [Option.some.injEq, Prod.mk.injEq] at h
      obtain ⟨-, -, -, hc⟩ := h
      rw [← hc]
      rfl

/-- The steps of a successful `WriteEnd`. -/
theorem WriteEnd_ok {σ : Type} (p : Params) (fs : FileService σ) (w : objectWriterV1)
    (items : List Nat) (st : σ) (res : WriteEndResult σ) (hs : List BlockObject)
    (hres : WriteEnd p fs w items st = some res) (hok : res.result = .ok hs) :
    ∃ w1 layout ws,
      serialize p w = some (w1, .ok layout) ∧ layout.err = none ∧
      hs = (stampBlocks layout.objectHeader.extent w1.blocks).map (fun block => block.meta) ∧
      Sync fs { w1 with blocks := stampBlocks layout.objectHeader.extent w1.blocks } items st =
        some (none, ws, res.fsState, res.calls) := by
  unfold WriteEnd at hres
  simp only [Option.bind_eq_bind, Option.bind_eq_some, Option.pure_def] at hres
  obtain ⟨⟨w1, r⟩, hser, hres⟩ := hres
  cases r with
  | error e =>
    simp only [Option.some.injEq] at hres
    rw [← hres] at hok
    simp at hok
  | ok layout =>
    simp only at hres
    cases herr : layout.err with
    | some e =>
      simp only [herr, Option.some.injEq] at hres
      rw [← hres] at hok
      simp at hok
    | none =>
      simp only [herr, Option.bind_eq_some] at hres
      obtain ⟨⟨err, ws, st', calls⟩, hsync, hres⟩ := hres
      cases err with
      | some e =>
        simp only [Option.some.injEq] at hres
        rw [← hres] at hok
        simp at hok
      | none =>
        simp only [Option.some.injEq] at hres
        subst hres
        simp only [Except.ok.injEq] at hok
        exact ⟨w1, layout, ws, hser, herr, hok.symm, hsync⟩

/-- The bytes in the buffer after a run of `WriteEnd` that reaches the write of the
footer, on a writer whose buffer was empty: header, payloads, bloom-filter area, zone-map
area, object meta, footer. -/
theorem serialize_buffer (p : Params) (w w1 : objectWriterV1) (layout : Layout)
    (buffer : ObjectBuffer) (hbuf : w.buffer = some buffer) (hempty : buffer.data = [])
    (hwf : ∀ blk ∈ w.blocks, blk.data.length = blk.meta.header.columnCount)
    (h : serialize p w = some (w1, .ok layout)) :
    ∃ buffer1, w1.buffer = some buffer1 ∧ buffer1.name = buffer.name ∧
      buffer1.data = p.headerBytes layout.objectHeader ++
        payloadArea w.blocks (getMaxIndex w) 0 ++ layout.bloomFilterData ++
        layout.zoneMapAreaData ++ layout.meta ++ p.footerMarshal layout.footer := by
  obtain ⟨w', buffer', w2, buffer2, hprep, -, -, -, -, -, hb', hwb, hb2, hw1⟩ :=
    serialize_ok p w w1 layout h
  obtain ⟨hun, hbw, -, -⟩ := prepareBlockMeta_unplaced w w' _ _ hprep
  rw [hbw, hbuf] at hb'
  cases hb'
  have hcounts := counts_of_unplaced w.blocks w'.blocks hun hwf
  obtain ⟨W, hW⟩ : ∃ W : objectWriterV1, W =
      { w' with buffer := some (buffer.Write (p.headerBytes layout.objectHeader)) } := ⟨_, rfl⟩
  rw [← hW] at hwb
  have hWblocks : W.blocks = w'.blocks := by rw [hW]
  have hWbuf : W.buffer = some (buffer.Write (p.headerBytes layout.objectHeader)) := by rw [hW]
  have hspec := writerBlocks_spec W _ hWbuf (by rw [hWblocks]; exact hcounts)
  rw [hspec] at hwb
  have hw2 := (Option.some.inj hwb).symm
  rw [hw2] at hb2
  simp only [Option.some.injEq] at hb2
  have hmax : getMaxIndex W = getMaxIndex w :=
    getMaxIndex_congr w W (by rw [hWblocks]; exact map_data_of_unplaced w.blocks w'.blocks hun)
  have harea := payloadArea_congr w.blocks w'.blocks
    (columnBytes_congr_unplaced w.blocks w'.blocks hun) (getMaxIndex w) 0
  rw [hWblocks, hmax, harea] at hb2
  subst hb2
  refine ⟨_, by rw [hw1], ?_, ?_⟩
  · simp only [ObjectBuffer.Write]
  · simp only [ObjectBuffer.Write, hempty, List.nil_append, List.append_assoc]

/-- C4 (amended): for every writer state whose buffer is still empty, whose blocks are
as `AddBlock` leaves them, and on which `WriteEnd` succeeds handing the file service a
file shorter than 2^32 bytes: the file is header, column payloads, bloom-filter area,
zone-map area, object meta and footer, in this order; the bloom-filter extent starts
where the column payloads end, the zone-map extent at `bloomFilter.offset +
bloomFilter.length`, the object-meta extent at `zoneMap.offset + zoneMap.length`, the
footer is the last thing written and begins at `meta.offset + meta.length`, the
footer's meta extent equals the meta extent stored in the object header, and the
footer's magic is `Magic`. -/
theorem WriteEnd_layout {σ : Type} (p : Params) (fs : FileService σ) (w : objectWriterV1)
    (items : List Nat) (st : σ) (res : WriteEndResult σ) (hs : List BlockObject)
    (buffer : ObjectBuffer) (hbuf : w.buffer = some buffer) (hempty : buffer.data = [])
    (hwf : ∀ blk ∈ w.blocks, blk.wellFormed w)
    (hres : WriteEnd p fs w items st = some res) (hok : res.result = .ok hs)
    (hsize : ∀ v, FsCall.Write v ∈ res.calls → v.data.length < 2 ^ 32) :
    ∃ w1 layout file rest,
      serialize p w = some (w1, .ok layout) ∧
      res.calls = .Write file :: rest ∧
      file.data = p.headerBytes layout.objectHeader ++
        payloadArea w.blocks (getMaxIndex w) 0 ++ layout.bloomFilterData ++
        layout.zoneMapAreaData ++ layout.meta ++ p.footerMarshal layout.footer ∧
      layout.bloomFilterExtent.offset =
        (p.headerBytes layout.objectHeader ++ payloadArea w.blocks (getMaxIndex w) 0).length ∧
      layout.bloomFilterExtent.length = layout.bloomFilterData.length ∧
      layout.zoneMapAreaExtent.offset =
        layout.bloomFilterExtent.offset + layout.bloomFilterExtent.length ∧
      layout.zoneMapAreaExtent.length = layout.zoneMapAreaData.length ∧
      layout.metaExtent.offset =
        layout.zoneMapAreaExtent.offset + layout.zoneMapAreaExtent.length ∧
      layout.metaExtent.length = layout.meta.length ∧
      (p.headerBytes layout.objectHeader ++ payloadArea w.blocks (getMaxIndex w) 0 ++
        layout.bloomFilterData ++ layout.zoneMapAreaData ++ layout.meta).length =
        layout.metaExtent.offset + layout.metaExtent.length ∧
      layout.footer.metaExtent = layout.objectHeader.extent ∧
      layout.footer.magic = p.Magic := by
  obtain ⟨w1, layout, ws, hser, herr, -, hsync⟩ := WriteEnd_ok p fs w items st res hs hres hok
  obtain ⟨buffer1, hb1, -, hdata⟩ :=
    serialize_buffer p w w1 layout buffer hbuf hempty (fun blk hb => (hwf blk hb).1) hser
  obtain ⟨b, rest, hb, hcalls⟩ := Sync_calls fs _ ws items st _ none res.calls hsync
  have hbb : b = buffer1 := by
    have : some b = some buffer1 := hb.symm.trans hb1
    exact Option.some.inj this
  subst hbb
  have hlen := hsize _ (by rw [hcalls]; exact List.mem_cons_self _ _)
  simp only [ObjectBuffer.GetData, ObjectBuffer.SetDataOptions, hdata, List.length_append,
    p.headerBytes_length] at hlen
  obtain ⟨w', buffer', w2, buffer2, hprep, hbf, hzm, hmeta, hhdr, hfooter, -, -, -, -⟩ :=
    serialize_ok p w w1 layout hser
  obtain ⟨w'', hprep'⟩ := prepareBlockMeta_offset w p.HeaderSize hwf (by omega)
  have hend : layout.payloadEnd = p.HeaderSize + (payloadArea w.blocks (getMaxIndex w) 0).length := by
    have := hprep.symm.trans hprep'
    simp only [Option.some.injEq, Prod.mk.injEq] at this
    exact this.2
  obtain ⟨hbfo, hbfl⟩ := prepareBloomFilter_ok _ _ _ _ _ _ hbf
  obtain ⟨hzmo, hzml⟩ := prepareZoneMapArea_ok _ _ _ _ _ _ hzm
  obtain ⟨hmo, hml⟩ := hmeta herr
  have hzmo' : layout.zoneMapAreaExtent.offset =
      layout.payloadEnd + layout.bloomFilterExtent.length := by
    rw [hzmo]; apply Nat.mod_eq_of_lt; omega
  have hmo' : layout.metaExtent.offset =
      layout.payloadEnd + layout.bloomFilterExtent.length + layout.zoneMapAreaExtent.length := by
    rw [hmo, ← hzmo, hzmo']; apply Nat.mod_eq_of_lt; omega
  refine ⟨w1, layout, _, rest, hser, hcalls, ?_, ?_, hbfl, ?_, hzml, ?_, hml, ?_, ?_, ?_⟩
  · simp only [ObjectBuffer.GetData, ObjectBuffer.SetDataOptions, hdata]
  · rw [hbfo, hend, List.length_append, p.headerBytes_length]
  · rw [hzmo', hbfo]
  · rw [hmo', hzmo']
  · simp only [List.length_append, p.headerBytes_length]
    omega
  · rw [hfooter, hhdr]
  · rw [hfooter]

set_option maxRecDepth 100000 in
/-- C4, witness: `WriteEnd` on the writer left by two `Write` calls. -/
theorem WriteEnd_layout_witness :
    ∃ (res : WriteEndResult (List String)) (hs : List BlockObject),
      WriteEnd demoParams demoFs demoWriter [] [] = some res ∧ res.result = .ok hs ∧
      ∃ w1 layout file rest,
        serialize demoParams demoWriter = some (w1, .ok layout) ∧
        res.calls = .Write file :: rest ∧
        file.data = demoParams.headerBytes layout.objectHeader ++
          payloadArea demoWriter.blocks (getMaxIndex demoWriter) 0 ++ layout.bloomFilterData ++
          layout.zoneMapAreaData ++ layout.meta ++ demoParams.footerMarshal layout.footer ∧
        layout.bloomFilterExtent.offset = (demoParams.headerBytes layout.objectHeader ++
          payloadArea demoWriter.blocks (getMaxIndex demoWriter) 0).length ∧
        layout.bloomFilterExtent.length = layout.bloomFilterData.length ∧
        layout.zoneMapAreaExtent.offset =
          layout.bloomFilterExtent.offset + layout.bloomFilterExtent.length ∧
        layout.zoneMapAreaExtent.length = layout.zoneMapAreaData.length ∧
        layout.metaExtent.offset =
          layout.zoneMapAreaExtent.offset + layout.zoneMapAreaExtent.length ∧
        layout.metaExtent.length = layout.meta.length ∧
        (demoParams.headerBytes layout.objectHeader ++
          payloadArea demoWriter.blocks (getMaxIndex demoWriter) 0 ++
          layout.bloomFilterData ++ layout.zoneMapAreaData ++ layout.meta).length =
          layout.metaExtent.offset + layout.metaExtent.length ∧
        layout.footer.metaExtent = layout.objectHeader.extent ∧
        layout.footer.magic = demoParams.Magic := by
  have hsome : (WriteEnd demoParams demoFs demoWriter [] []).isSome = true := by decide
  obtain ⟨res, hres⟩ := Option.isSome_iff_exists.mp hsome
  have hok : (WriteEnd demoParams demoFs demoWriter [] []).map
      (fun r => r.result.toOption.isSome) = some true := by decide
  have hsz : (WriteEnd demoParams demoFs demoWriter [] []).map
      (fun r => r.calls.all fun c =>
        match c with
        | .Write v => decide (v.data.length < 2 ^ 32)
        | .Delete _ => true) = some true := by decide
  rw [hres] at hok hsz
  simp only [Option.map_some', Option.some.injEq] at hok hsz
  cases hr : res.result with
  | error e => simp [hr, Except.toOption] at hok
  | ok hs =>
    refine ⟨res, hs, hres, hr, ?_⟩
    refine WriteEnd_layout demoParams demoFs demoWriter [] [] res hs (NewObjectBuffer "obj")
      (by decide) (by decide) (by decide) hres hr ?_
    intro v hv
    have := (List.all_eq_true.mp hsz) _ hv
    simpa using this

set_option maxRecDepth 100000 in
/-- C4, counterexample: `WriteEnd` succeeds on the writer that holds one block of four
2^30-byte payloads; the footer is written behind header, payloads, bloom-filter area,
zone-map area and object meta, that is at a byte position of at least 2^32, while
`meta.offset + meta.length` of the footer's meta extent is below 2^32, the `uint32`
offsets having wrapped around. -/
theorem WriteEnd_footer_offset_wraps :
    ∃ (res : WriteEndResult (List String)) (hs : List BlockObject) (w1 : objectWriterV1)
      (layout : Layout) (file : IOVector) (rest : List FsCall),
      WriteEnd demoParams demoFs gibWriter [] [] = some res ∧ res.result = .ok hs ∧
      serialize demoParams gibWriter = some (w1, .ok layout) ∧
      res.calls = .Write file :: rest ∧
      file.data = demoParams.headerBytes layout.objectHeader ++
        payloadArea gibWriter.blocks (getMaxIndex gibWriter) 0 ++ layout.bloomFilterData ++
        layout.zoneMapAreaData ++ layout.meta ++ demoParams.footerMarshal layout.footer ∧
      layout.footer.metaExtent.offset + layout.footer.metaExtent.length < 2 ^ 32 ∧
      2 ^ 32 ≤ (demoParams.headerBytes layout.objectHeader ++
        payloadArea gibWriter.blocks (getMaxIndex gibWriter) 0 ++ layout.bloomFilterData ++
        layout.zoneMapAreaData ++ layout.meta).length := by
  have hsome : (WriteEnd demoParams demoFs gibWriter [] []).isSome = true := by decide
  obtain ⟨res, hres⟩ := Option.isSome_iff_exists.mp hsome
  have hok : (WriteEnd demoParams demoFs gibWriter [] []).map
      (fun r => r.result.toOption.isSome) = some true := by decide
  rw [hres] at hok
  simp only [Option.map_some', Option.some.injEq] at hok
  cases hr : res.result with
  | error e => simp [hr, Except.toOption] at hok
  | ok hs =>
    obtain ⟨w1, layout, ws, hser, herr, -, hsync⟩ :=
      WriteEnd_ok demoParams demoFs gibWriter [] [] res hs hres hr
    obtain ⟨buffer1, hb1, -, hdata⟩ := serialize_buffer demoParams gibWriter w1 layout
      (NewObjectBuffer "obj") rfl rfl (by decide) hser
    obtain ⟨b, rest, hb, hcalls⟩ := Sync_calls demoFs _ ws [] [] _ none res.calls hsync
    have hbb : b = buffer1 := Option.some.inj (hb.symm.trans hb1)
    subst hbb
    have hmeta : (serialize demoParams gibWriter).map (fun r => r.2.toOption.map fun l =>
        decide (l.footer.metaExtent.offset + l.footer.metaExtent.length < 2 ^ 32)) =
        some (some true) := by decide
    rw [hser] at hmeta
    simp only [Option.map_some', Except.toOption, Option.some.injEq, decide_eq_true_eq] at hmeta
    have hmax : getMaxIndex gibWriter = 4 := by decide
    refine ⟨res, hs, w1, layout, _, rest, hres, hr, hser, hcalls, ?_, hmeta, ?_⟩
    · simp only [ObjectBuffer.GetData, ObjectBuffer.SetDataOptions, hdata]
    · simp only [List.length_append, hmax, gibWriter_payloadArea_length]
      omega

/-- The loop that fills a block index, when the index has an entry for every block
and the running offset does not overflow: entry `i0 + k` gets the offset `start` plus
the sizes of the first `k` blocks, and the size of block `k`; the entries before `i0`
are kept. -/
theorem fillBlockIndex_spec (size : blockData → Nat) :
    ∀ (blocks : List blockData) (i0 start : Nat) (index : BlockIndex),
      i0 + blocks.length ≤ index.entries.length → index.entries.length < 2 ^ 32 →
      start + (blocks.map size).sum < 2 ^ 32 →
      ∃ index', fillBlockIndex size blocks i0 start index =
          some (index', start + (blocks.map size).sum) ∧
        index'.blockCount = index.blockCount ∧
        index'.entries.length = index.entries.length ∧
        (∀ k, k < i0 → index'.entries[k]? = index.entries[k]?) ∧
        (∀ k blk, blocks[k]? = some blk →
          index'.entries[i0 + k]? = some (start + ((blocks.take k).map size).sum, size blk)) := by
  intro blocks
  induction blocks with
  | nil =>
    intro i0 start index _ _ _
    refine ⟨index, by simp [fillBlockIndex], rfl, rfl, fun _ _ => rfl, ?_⟩
    intro k blk h
    simp at h
  | cons b rest ih =>
    intro i0 start index hlen hlt hsum
    simp only [List.length_cons] at hlen
    simp only [List.map_cons, List.sum_cons] at hsum
    have hi0 : i0 < index.entries.length := by omega
    have hmod : i0 % 2 ^ 32 = i0 := Nat.mod_eq_of_lt (by omega)
    have hstart : (start + size b) % 2 ^ 32 = start + size b := Nat.mod_eq_of_lt (by omega)
    obtain ⟨index', h1, h2, h3, h4, h5⟩ := ih (i0 + 1) (start + size b)
      { index with entries := index.entries.set i0 (start, size b) }
      (by simp only [List.length_set]; omega) (by simp only [List.length_set]; omega) (by omega)
    refine ⟨index', ?_, h2, ?_, ?_, ?_⟩
    · simp only [fillBlockIndex, BlockIndex.SetBlockMetaPos, hmod, if_pos hi0,
        Option.bind_eq_bind, Option.some_bind, hstart, h1, List.map_cons, List.sum_cons,
        Nat.add_assoc]
    · rw [h3, List.length_set]
    · intro k hk
      rw [h4 k (by omega)]
      simp only [List.getElem?_set_ne (Nat.ne_of_gt hk)]
    · intro k blk hk
      cases k with
      | zero =>
        simp only [List.getElem?_cons_zero, Option.some.injEq] at hk
        subst hk
        rw [Nat.add_zero, h4 i0 (by omega)]
        simp only [List.getElem?_set_self hi0, List.take_zero, List.map_nil, List.sum_nil,
          Nat.add_zero]
      | succ k =>
        simp only [List.getElem?_cons_succ] at hk
        have := h5 k blk hk
        have hidx : i0 + (k + 1) = i0 + 1 + k := by omega
        rw [hidx, this]
        simp only [List.take_succ_cons, List.map_cons, List.sum_cons, Nat.add_assoc]

theorem u32le_length (n : Nat) : (u32le n).length = 4 := rfl

theorem BlockIndex.bytes_length (bi : BlockIndex) :
    bi.bytes.length = 4 + 8 * bi.entries.length := by
  unfold BlockIndex.bytes
  rw [List.length_append, u32le_length]
  congr 1
  induction bi.entries with
  | nil => rfl
  | cons e es ih =>
    simp only [List.map_cons, List.flatten_cons, List.length_append, u32le_length, ih,
      List.length_cons]
    omega

/-- In a run of byte strings written one after the other behind `pre`, string `i` lies
behind `pre` and the strings before it. -/
theorem flatten_drop_take (pre : Bytes) :
    ∀ (L : List Bytes) (i : Nat) (x : Bytes), L[i]? = some x →
      ((pre ++ L.flatten).drop (pre.length + ((L.take i).map List.length).sum)).take x.length =
        x := by
  intro L
  induction L generalizing pre with
  | nil => intro i x h; simp at h
  | cons y ys ih =>
    intro i x h
    cases i with
    | zero =>
      simp only [List.getElem?_cons_zero, Option.some.injEq] at h
      subst h
      simp
    | succ i =>
      simp only [List.getElem?_cons_succ] at h
      have := ih (pre ++ y) i x h
      simp only [List.flatten_cons, List.take_succ_cons, List.map_cons, List.sum_cons]
      rw [← List.append_assoc, ← Nat.add_assoc, ← List.length_append]
      exact this

theorem ColumnMeta.ZoneMap_length (p : Params) (cm : ColumnMeta) :
    (cm.ZoneMap p).length = p.ZoneMapSize := by
  simp [ColumnMeta.ZoneMap]

theorem zoneMapsUpTo_length (p : Params) (meta : BlockObject) :
    ∀ (n : Nat) (z : Bytes), zoneMapsUpTo p meta n = some z → z.length = n * p.ZoneMapSize := by
  intro n
  induction n with
  | zero =>
    intro z h
    simp only [zoneMapsUpTo, Option.some.injEq] at h
    subst h
    simp
  | succ n ih =>
    intro z h
    simp only [zoneMapsUpTo, Option.bind_eq_bind, Option.bind_eq_some, Option.pure_def,
      Option.some.injEq] at h
    obtain ⟨zms, h1, cm, -, h2⟩ := h
    subst h2
    rw [List.length_append, ih zms h1, ColumnMeta.ZoneMap_length, Nat.succ_mul]

/-- The zone maps that the second loop of `prepareZoneMapArea` writes: one string per
block, of `MetaColumnCount * ZoneMapSize` bytes. -/
theorem blocksZoneMaps_spec (p : Params) :
    ∀ (blocks : List blockData) (zs : List Bytes), blocksZoneMaps p blocks = some zs →
      zs.map List.length =
        blocks.map (fun blk => blk.meta.header.metaColumnCount * p.ZoneMapSize) ∧
      ∀ (i : Nat) (blk : blockData), blocks[i]? = some blk →
        ∃ z, zs[i]? = some z ∧ blockZoneMaps p blk = some z := by
  intro blocks
  induction blocks with
  | nil =>
    intro zs h
    simp only [blocksZoneMaps, Option.some.injEq] at h
    subst h
    exact ⟨rfl, fun i blk hb => by simp at hb⟩
  | cons b rest ih =>
    intro zs h
    simp only [blocksZoneMaps, Option.bind_eq_bind, Option.bind_eq_some, Option.pure_def,
      Option.some.injEq] at h
    obtain ⟨z, hz, others, ho, h⟩ := h
    subst h
    obtain ⟨h1, h2⟩ := ih others ho
    refine ⟨?_, ?_⟩
    · simp only [List.map_cons, h1, zoneMapsUpTo_length p b.meta _ z hz]
    · intro i blk hb
      cases i with
      | zero =>
        simp only [List.getElem?_cons_zero, Option.some.injEq] at hb
        subst hb
        exact ⟨z, List.getElem?_cons_zero, hz⟩
      | succ i =>
        simp only [List.getElem?_cons_succ] at hb ⊢
        exact h2 i blk hb

/-- The index that `prepareBloomFilter` and `prepareZoneMapArea` build for `n` blocks
of the given sizes, without overflow. -/
theorem blockIndex_spec (size : blockData → Nat) (blocks : List blockData)
    (hsum : 4 + 8 * blocks.length + (blocks.map size).sum < 2 ^ 32) :
    ∃ index fin,
      fillBlockIndex size blocks 0
        ((0 + ((BuildBlockIndex blocks.length).SetBlockCount blocks.length).Length) % 2 ^ 32)
        ((BuildBlockIndex blocks.length).SetBlockCount blocks.length) = some (index, fin) ∧
      index.blockCount = blocks.length ∧ index.entries.length = blocks.length ∧
      index.Length = index.bytes.length ∧
      ∀ i blk, blocks[i]? = some blk →
        index.entries[i]? = some (index.Length + ((blocks.take i).map size).sum, size blk) := by
  have hlen0 : ((BuildBlockIndex blocks.length).SetBlockCount blocks.length).entries.length =
      blocks.length := by
    simp [BuildBlockIndex, BlockIndex.SetBlockCount]
  have hL0 : ((BuildBlockIndex blocks.length).SetBlockCount blocks.length).Length =
      4 + 8 * blocks.length := by
    unfold BlockIndex.Length
    rw [hlen0]
    exact Nat.mod_eq_of_lt (by omega)
  have hstart : (0 + ((BuildBlockIndex blocks.length).SetBlockCount blocks.length).Length) %
      2 ^ 32 = 4 + 8 * blocks.length := by
    rw [hL0, Nat.zero_add]
    exact Nat.mod_eq_of_lt (by omega)
  obtain ⟨index, h1, h2, h3, -, h5⟩ := fillBlockIndex_spec size blocks 0 (4 + 8 * blocks.length)
    ((BuildBlockIndex blocks.length).SetBlockCount blocks.length)
    (by rw [hlen0]; omega) (by rw [hlen0]; omega) (by omega)
  have hL : index.Length = 4 + 8 * blocks.length := by
    unfold BlockIndex.Length
    rw [h3, hlen0]
    exact Nat.mod_eq_of_lt (by omega)
  refine ⟨index, _, by rw [hstart]; exact h1, ?_, by rw [h3, hlen0], ?_, ?_⟩
  · rw [h2]; rfl
  · rw [hL, BlockIndex.bytes_length, h3, hlen0]
  · intro i blk hb
    have := h5 i blk hb
    rw [Nat.zero_add] at this
    rw [this, hL]

theorem le_sum_map_of_mem {α : Type} (f : α → Nat) :
    ∀ (l : List α) (x : α), x ∈ l → f x ≤ (l.map f).sum := by
  intro l
  induction l with
  | nil => intro x hx; simp at hx
  | cons y ys ih =>
    intro x hx
    simp only [List.mem_cons] at hx
    simp only [List.map_cons, List.sum_cons]
    rcases hx with rfl | hx
    · omega
    · have := ih x hx
      omega

theorem sum_map_congr {α : Type} (f g : α → Nat) (l : List α) (h : ∀ x ∈ l, f x = g x) :
    (l.map f).sum = (l.map g).sum := by
  rw [List.map_congr_left h]

/-- C5 (amended): for every list of blocks whose sizes fit the fields of the index
(the index table and the bloom filters, respectively the zone-map areas, of all blocks
together take less than 2^32 bytes, and `MetaColumnCount * ZoneMapSize` is below 2^16
for every block), the block-index tables built by `prepareBloomFilter` and
`prepareZoneMapArea` have exactly `blockCount` entries; entry `i` has length equal to
the byte length of block `i`'s bloom filter (respectively `MetaColumnCount *
ZoneMapSize`) and offset equal to the index table's own length plus the sum of the
lengths of the entries `0..i-1`; measured from the start of the index table, entry `i`
locates exactly block `i`'s bytes. -/
theorem blockIndex_layout (p : Params) (w : objectWriterV1) (zoneMaps : List Bytes)
    (hbf : 4 + 8 * w.blocks.length +
      (w.blocks.map fun blk => blk.bloomFilter.length).sum < 2 ^ 32)
    (hzm16 : ∀ blk ∈ w.blocks, blk.meta.header.metaColumnCount * p.ZoneMapSize < 2 ^ 16)
    (hzm : 4 + 8 * w.blocks.length +
      (w.blocks.map fun blk => blk.meta.header.metaColumnCount * p.ZoneMapSize).sum < 2 ^ 32)
    (hzs : blocksZoneMaps p w.blocks = some zoneMaps) :
    (∃ index fin, bloomFilterIndex w w.blocks.length = some (index, fin) ∧
      index.blockCount = w.blocks.length ∧ index.entries.length = w.blocks.length ∧
      ∀ (i : Nat) (blk : blockData), w.blocks[i]? = some blk →
        index.entries[i]? = some
          (index.Length + ((w.blocks.take i).map fun b => b.bloomFilter.length).sum,
            blk.bloomFilter.length) ∧
        ((index.bytes ++ (w.blocks.map fun b => b.bloomFilter).flatten).drop
          (index.Length + ((w.blocks.take i).map fun b => b.bloomFilter.length).sum)).take
            blk.bloomFilter.length = blk.bloomFilter) ∧
    (∃ index fin, zoneMapAreaIndex p w w.blocks.length = some (index, fin) ∧
      index.blockCount = w.blocks.length ∧ index.entries.length = w.blocks.length ∧
      ∀ (i : Nat) (blk : blockData), w.blocks[i]? = some blk →
        ∃ z, blockZoneMaps p blk = some z ∧
          index.entries[i]? = some
            (index.Length + ((w.blocks.take i).map fun b =>
                b.meta.header.metaColumnCount * p.ZoneMapSize).sum,
              blk.meta.header.metaColumnCount * p.ZoneMapSize) ∧
          ((index.bytes ++ zoneMaps.flatten).drop
            (index.Length + ((w.blocks.take i).map fun b =>
                b.meta.header.metaColumnCount * p.ZoneMapSize).sum)).take
              (blk.meta.header.metaColumnCount * p.ZoneMapSize) = z) := by
  constructor
  · have hsize : ∀ blk ∈ w.blocks, bloomFilterSize blk = blk.bloomFilter.length := by
      intro blk hb
      have := le_sum_map_of_mem (fun b : blockData => b.bloomFilter.length) w.blocks blk hb
      exact Nat.mod_eq_of_lt (by simp only at this; omega)
    have hsum := sum_map_congr bloomFilterSize (fun b => b.bloomFilter.length) w.blocks hsize
    obtain ⟨index, fin, h1, h2, h3, h4, h5⟩ := blockIndex_spec bloomFilterSize w.blocks
      (by rw [hsum]; exact hbf)
    refine ⟨index, fin, h1, h2, h3, ?_⟩
    intro i blk hb
    have htake := sum_map_congr bloomFilterSize (fun b => b.bloomFilter.length) (w.blocks.take i)
      (fun x hx => hsize x (List.mem_of_mem_take hx))
    have he := h5 i blk hb
    rw [htake, hsize blk (List.getElem?_mem hb)] at he
    refine ⟨he, ?_⟩
    have hget : (w.blocks.map fun b => b.bloomFilter)[i]? = some blk.bloomFilter := by
      rw [List.getElem?_map, hb]; rfl
    have := flatten_drop_take index.bytes _ i _ hget
    rw [← List.map_take, List.map_map] at this
    rw [h4]
    exact this
  · have hsize : ∀ blk ∈ w.blocks,
        zoneMapAreaSize p blk = blk.meta.header.metaColumnCount * p.ZoneMapSize := by
      intro blk hb
      have := hzm16 blk hb
      unfold zoneMapAreaSize
      rw [Nat.mod_eq_of_lt this, Nat.mod_eq_of_lt (by omega)]
    have hsum := sum_map_congr (zoneMapAreaSize p)
      (fun b => b.meta.header.metaColumnCount * p.ZoneMapSize) w.blocks hsize
    obtain ⟨index, fin, h1, h2, h3, h4, h5⟩ := blockIndex_spec (zoneMapAreaSize p) w.blocks
      (by rw [hsum]; exact hzm)
    refine ⟨index, fin, h1, h2, h3, ?_⟩
    intro i blk hb
    obtain ⟨hlens, hz⟩ := blocksZoneMaps_spec p w.blocks zoneMaps hzs
    obtain ⟨z, hzi, hzb⟩ := hz i blk hb
    have htake := sum_map_congr (zoneMapAreaSize p)
      (fun b => b.meta.header.metaColumnCount * p.ZoneMapSize) (w.blocks.take i)
      (fun x hx => hsize x (List.mem_of_mem_take hx))
    have he := h5 i blk hb
    rw [htake, hsize blk (List.getElem?_mem hb)] at he
    refine ⟨z, hzb, he, ?_⟩
    have hzlen : z.length = blk.meta.header.metaColumnCount * p.ZoneMapSize :=
      zoneMapsUpTo_length p blk.meta _ z hzb
    have := flatten_drop_take index.bytes zoneMaps i z hzi
    rw [List.map_take, hlens, ← List.map_take, hzlen] at this
    rw [h4]
    exact this

/-- C5, witness: the writer left by two `Write` calls and two `WriteBF` calls. -/
theorem blockIndex_layout_witness :
    ∃ zoneMaps : List Bytes,
      blocksZoneMaps demoParams demoWriterBF.blocks = some zoneMaps ∧
      (∃ index fin, bloomFilterIndex demoWriterBF demoWriterBF.blocks.length = some (index, fin) ∧
        index.blockCount = demoWriterBF.blocks.length ∧
        index.entries.length = demoWriterBF.blocks.length ∧
        ∀ (i : Nat) (blk : blockData), demoWriterBF.blocks[i]? = some blk →
          index.entries[i]? = some
            (index.Length + ((demoWriterBF.blocks.take i).map fun b => b.bloomFilter.length).sum,
              blk.bloomFilter.length) ∧
          ((index.bytes ++ (demoWriterBF.blocks.map fun b => b.bloomFilter).flatten).drop
            (index.Length +
              ((demoWriterBF.blocks.take i).map fun b => b.bloomFilter.length).sum)).take
              blk.bloomFilter.length = blk.bloomFilter) ∧
      (∃ index fin, zoneMapAreaIndex demoParams demoWriterBF demoWriterBF.blocks.length =
          some (index, fin) ∧
        index.blockCount = demoWriterBF.blocks.length ∧
        index.entries.length = demoWriterBF.blocks.length ∧
        ∀ (i : Nat) (blk : blockData), demoWriterBF.blocks[i]? = some blk →
          ∃ z, blockZoneMaps demoParams blk = some z ∧
            index.entries[i]? = some
              (index.Length + ((demoWriterBF.blocks.take i).map fun b =>
                  b.meta.header.metaColumnCount * demoParams.ZoneMapSize).sum,
                blk.meta.header.metaColumnCount * demoParams.ZoneMapSize) ∧
            ((index.bytes ++ zoneMaps.flatten).drop
              (index.Length + ((demoWriterBF.blocks.take i).map fun b =>
                  b.meta.header.metaColumnCount * demoParams.ZoneMapSize).sum)).take
                (blk.meta.header.metaColumnCount * demoParams.ZoneMapSize) = z) := by
  have hsome : (blocksZoneMaps demoParams demoWriterBF.blocks).isSome = true := by decide
  obtain ⟨zoneMaps, hzs⟩ := Option.isSome_iff_exists.mp hsome
  exact ⟨zoneMaps, hzs, blockIndex_layout demoParams demoWriterBF zoneMaps (by decide) (by decide)
    (by decide) hzs⟩

theorem fillBlockIndex_congr (size size' : blockData → Nat) :
    ∀ (blocks : List blockData) (i start : Nat) (index : BlockIndex),
      (∀ blk ∈ blocks, size blk = size' blk) →
      fillBlockIndex size blocks i start index = fillBlockIndex size' blocks i start index := by
  intro blocks
  induction blocks with
  | nil => intro i start index _; rfl
  | cons b rest ih =>
    intro i start index h
    have hb := h b (List.mem_cons_self _ _)
    simp only [fillBlockIndex, hb]
    cases index.SetBlockMetaPos (i % 2 ^ 32) start (size' b) with
    | none => rfl
    | some index1 =>
      exact ih _ _ _ (fun x hx => h x (List.mem_cons_of_mem _ hx))

theorem bloomFilterSize_replicate (blk : blockData) (n : Nat)
    (h : blk.bloomFilter = List.replicate n 0) : bloomFilterSize blk = n % 2 ^ 32 := by
  unfold bloomFilterSize
  rw [h, List.length_replicate]

theorem gibBloomBlock_bloomFilter : gibBloomBlock.bloomFilter = List.replicate (2 ^ 31) 0 := rfl

theorem gibBloomWriter_blocks :
    gibBloomWriter.blocks = [gibBloomBlock, gibBloomBlock, gibBloomBlock] := rfl

/-- C5, counterexample: three blocks whose bloom filters have 2^31 bytes each. The
index table has 28 bytes; entry 2 gets the offset 28, the `uint32` running offset
having wrapped around, and not 28 + 2^31 + 2^31, the table's length plus the lengths of
the entries 0 and 1. -/
theorem bloomFilterIndex_offset_wraps :
    bloomFilterIndex gibBloomWriter 3 =
      some ({ blockCount := 3,
              entries := [(28, 2 ^ 31), (28 + 2 ^ 31, 2 ^ 31), (28, 2 ^ 31)] }, 28 + 2 ^ 31) ∧
    ({ blockCount := 3,
       entries := [(28, 2 ^ 31), (28 + 2 ^ 31, 2 ^ 31), (28, 2 ^ 31)] } : BlockIndex).Length = 28 ∧
    gibBloomWriter.blocks.map (fun blk => blk.bloomFilter.length) = [2 ^ 31, 2 ^ 31, 2 ^ 31] := by
  have hsize : ∀ blk ∈ gibBloomWriter.blocks, bloomFilterSize blk = (fun _ => 2 ^ 31) blk := by
    intro blk hb
    have hblk : blk = gibBloomBlock := by
      rw [gibBloomWriter_blocks] at hb
      simp only [List.mem_cons, List.mem_singleton, or_self, List.not_mem_nil, or_false] at hb
      exact hb
    rw [hblk, bloomFilterSize_replicate gibBloomBlock (2 ^ 31) gibBloomBlock_bloomFilter]
    norm_num
  refine ⟨?_, by decide, ?_⟩
  · unfold bloomFilterIndex
    rw [fillBlockIndex_congr bloomFilterSize (fun _ => 2 ^ 31) _ _ _ _ hsize]
    decide
  · rw [gibBloomWriter_blocks]
    simp only [List.map_cons, List.map_nil, gibBloomBlock_bloomFilter, List.length_replicate]

/-- The column loop of `AddBlock` changes neither the header of the block meta, nor the
size of its column-meta table, nor the seqnum mapping of the block. -/
theorem addColumns_meta (p : Params) (s : Seqnums) :
    ∀ (vecs : List Vector) (i : Nat) (block : blockData) (rows : Nat) (e : Option GoError)
      (block' : blockData) (rows' : Nat),
      addColumns p s vecs i block rows = some (e, block', rows') →
      block'.meta.header = block.meta.header ∧ block'.seqnums = block.seqnums ∧
        block'.meta.cols.length = block.meta.cols.length := by
  intro vecs
  induction vecs with
  | nil =>
    intro i block rows e block' rows' h
    simp only [addColumns, Option.some.injEq, Prod.mk.injEq] at h
    obtain ⟨-, hb, -⟩ := h
    subst hb
    exact ⟨rfl, rfl, rfl⟩
  | cons vec rest ih =>
    intro i block rows e block' rows' h
    unfold addColumns at h
    cases hm : p.MarshalBinary vec with
    | error err =>
      simp only [hm, Option.some.injEq, Prod.mk.injEq] at h
      obtain ⟨-, hb, -⟩ := h
      subst hb
      exact ⟨rfl, rfl, rfl⟩
    | ok marshalled =>
      simp only [hm] at h
      cases hc : WriteWithCompress p 0 (p.EncodeIOEntryHeader .IOET_ColData ++ marshalled) with
      | panic => simp [hc] at h
      | error err =>
        simp only [hc, Option.some.injEq, Prod.mk.injEq] at h
        obtain ⟨-, hb, -⟩ := h
        subst hb
        exact ⟨rfl, rfl, rfl⟩
      | ok r =>
        obtain ⟨data, ext⟩ := r
        simp only [hc, Option.bind_eq_bind, Option.bind_eq_some] at h
        obtain ⟨seq, -, cm, -, h⟩ := h
        split_ifs at h <;>
          · obtain ⟨h1, h2, h3⟩ := ih _ _ _ _ _ _ h
            refine ⟨h1, h2, ?_⟩
            rw [h3]
            simp only [BlockObject.setColumnMeta, List.length_set]

/-- What a `Write` that returns has done: it reports no error, the handle carries the
writer's `lastId` as its sequence number, the seqnum mapping is the established one (or
the dense one, when none was established), and either nothing was appended or exactly
the block behind the handle. -/
theorem Write_cases (p : Params) (w w' : objectWriterV1) (batch : Batch) (h : BlockObject)
    (e : Option GoError) (hw : Write p w batch = some (h, e, w')) :
    e = none ∧ h.header.sequence = w.lastId % 2 ^ 16 ∧
      w'.seqnums = (if w.seqnums.Seqs.length = 0 then
        w.seqnums.InitWithColCnt batch.Vecs.length else w.seqnums) ∧
      (w.seqnums.Seqs.length = 0 ∨ w.seqnums.Seqs.length = batch.Vecs.length) ∧
      ((w'.blocks = w.blocks ∧ w'.lastId = w.lastId) ∨
        (∃ blk, w'.blocks = w.blocks ++ [blk] ∧ blk.meta = h ∧ blk.seqnums = .writer ∧
          w'.lastId = (w.lastId + 1) % 2 ^ 32)) := by
  have hadd : ∃ e1, AddBlock p { w with seqnums := (if w.seqnums.Seqs.length = 0 then
        w.seqnums.InitWithColCnt batch.Vecs.length else w.seqnums) }
        (NewBlock (if w.seqnums.Seqs.length = 0 then
          w.seqnums.InitWithColCnt batch.Vecs.length else w.seqnums)) batch .writer =
        some (e1, h, w') ∧ e = none ∧
      (w.seqnums.Seqs.length = 0 ∨ w.seqnums.Seqs.length = batch.Vecs.length) := by
    unfold Write at hw
    by_cases h0 : w.seqnums.Seqs.length = 0
    · simp only [h0, if_true, Option.bind_eq_bind, Option.some_bind, Option.bind_eq_some,
        Option.pure_def, Option.some.injEq, Prod.mk.injEq] at hw
      obtain ⟨⟨e1, h1, w1⟩, hadd, rfl, rfl, rfl⟩ := hw
      exact ⟨e1, by simpa [h0] using hadd, rfl, Or.inl h0⟩
    · by_cases h1 : w.seqnums.Seqs.length = batch.Vecs.length
      · have hne : ¬ (w.seqnums.Seqs.length ≠ batch.Vecs.length) := not_not.mpr h1
        rw [if_neg h0, if_neg hne] at hw
        simp only [Option.bind_eq_bind, Option.some_bind, Option.bind_eq_some, Option.pure_def,
          Option.some.injEq, Prod.mk.injEq] at hw
        obtain ⟨⟨e1, h1', w1⟩, hadd, rfl, rfl, rfl⟩ := hw
        exact ⟨e1, by rw [if_neg h0]; exact hadd, rfl, Or.inr h1⟩
      · have hne : w.seqnums.Seqs.length ≠ batch.Vecs.length := h1
        rw [if_neg h0, if_pos hne] at hw
        simp at hw
  obtain ⟨e1, hadd, rfl, hcol⟩ := hadd
  generalize hw0 : ({ w with seqnums := (if w.seqnums.Seqs.length = 0 then
        w.seqnums.InitWithColCnt batch.Vecs.length else w.seqnums) } : objectWriterV1) = w0 at hadd
  subst hw0
  unfold AddBlock at hadd
  simp only at hadd
  split at hadd
  · simp at hadd
  · next err block rows hcols =>
    simp only [Option.some.injEq, Prod.mk.injEq] at hadd
    obtain ⟨-, rfl, rfl⟩ := hadd
    obtain ⟨hh, -, -⟩ := addColumns_meta _ _ _ _ _ _ _ _ _ hcols
    exact ⟨rfl, by rw [hh], rfl, hcol, Or.inl ⟨rfl, rfl⟩⟩
  · next block rows hcols =>
    simp only [Option.some.injEq, Prod.mk.injEq] at hadd
    obtain ⟨-, rfl, rfl⟩ := hadd
    obtain ⟨hh, hs, -⟩ := addColumns_meta _ _ _ _ _ _ _ _ _ hcols
    obtain ⟨blk, hblk⟩ : ∃ blk : blockData, blk = { block with meta := { block.meta with
          header := { block.meta.header with rows := rows % 2 ^ 32 } } } := ⟨_, rfl⟩
    exact ⟨rfl, by simp only [hh], rfl, hcol,
      Or.inr ⟨blk, by rw [hblk], by rw [hblk], by rw [hblk]; exact hs, rfl⟩⟩

/-- A sequence of `Write` calls appends at most one block per call. -/
theorem writeAll_length_le (p : Params) :
    ∀ (batches : List Batch) (w w' : objectWriterV1) (handles : List BlockObject),
      writeAll p w batches = some (handles, w') →
      w'.blocks.length ≤ w.blocks.length + batches.length := by
  intro batches
  induction batches with
  | nil =>
    intro w w' handles h
    simp only [writeAll, Option.some.injEq, Prod.mk.injEq] at h
    rw [← h.2]
    simp
  | cons batch rest ih =>
    intro w w' handles h
    unfold writeAll at h
    cases hw : Write p w batch with
    | none => simp [hw] at h
    | some r =>
      obtain ⟨b, e, w1⟩ := r
      simp only [hw] at h
      cases hr : writeAll p w1 rest with
      | none => simp [hr] at h
      | some r2 =>
        obtain ⟨bs, w2⟩ := r2
        simp only [hr, Option.some.injEq, Prod.mk.injEq] at h
        obtain ⟨-, rfl⟩ := h
        have h1 := ih w1 w2 bs hr
        obtain ⟨-, -, -, -, hc⟩ := Write_cases p w w1 batch b e hw
        rcases hc with ⟨hb, -⟩ | ⟨blk, hb, -⟩
        · rw [hb] at h1
          simp only [List.length_cons]
          omega
        · rw [hb] at h1
          simp only [List.length_append, List.length_singleton, List.length_cons,
            List.length_nil] at h1 ⊢
          omega

/-- A sequence of `Write` calls each of which appended its block: the writer's new
blocks are the blocks behind the returned handles, in order, and the handle of call `i`
carries the sequence number `lastId + i` (as a `uint16`). -/
theorem writeAll_spec (p : Params) :
    ∀ (batches : List Batch) (w w' : objectWriterV1) (handles : List BlockObject),
      writeAll p w batches = some (handles, w') →
      w'.blocks.length = w.blocks.length + batches.length →
      w.lastId + batches.length < 2 ^ 32 →
      ∃ news, w'.blocks = w.blocks ++ news ∧ news.map (fun blk => blk.meta) = handles ∧
        ∀ i h, handles[i]? = some h → h.header.sequence = (w.lastId + i) % 2 ^ 16 := by
  intro batches
  induction batches with
  | nil =>
    intro w w' handles h _ _
    simp only [writeAll, Option.some.injEq, Prod.mk.injEq] at h
    obtain ⟨rfl, rfl⟩ := h
    exact ⟨[], by simp, rfl, by simp⟩
  | cons batch rest ih =>
    intro w w' handles h hlen hid
    unfold writeAll at h
    cases hw : Write p w batch with
    | none => simp [hw] at h
    | some r =>
      obtain ⟨b, e, w1⟩ := r
      simp only [hw] at h
      cases hr : writeAll p w1 rest with
      | none => simp [hr] at h
      | some r2 =>
        obtain ⟨bs, w2⟩ := r2
        simp only [hr, Option.some.injEq, Prod.mk.injEq] at h
        obtain ⟨rfl, rfl⟩ := h
        have hle := writeAll_length_le p rest w1 w2 bs hr
        obtain ⟨-, hseq, -, -, hc⟩ := Write_cases p w w1 batch b e hw
        simp only [List.length_cons] at hlen hid
        rcases hc with ⟨hb, -⟩ | ⟨blk, hb, hmeta, -, hlast⟩
        · rw [hb] at hle
          omega
        · have hlen1 : w2.blocks.length = w1.blocks.length + rest.length := by
            rw [hb]
            simp only [List.length_append, List.length_singleton]
            omega
          have hlast' : w1.lastId = w.lastId + 1 := by
            rw [hlast]
            apply Nat.mod_eq_of_lt
            omega
          obtain ⟨news, hnews, hmap, hs⟩ := ih w1 w2 bs hr hlen1 (by omega)
          refine ⟨blk :: news, ?_, ?_, ?_⟩
          · rw [hnews, hb, List.append_assoc, List.singleton_append]
          · rw [List.map_cons, hmeta, hmap]
          · intro i h hi
            cases i with
            | zero =>
              simp only [List.getElem?_cons_zero, Option.some.injEq] at hi
              rw [← hi, hseq, Nat.add_zero]
            | succ j =>
              simp only [List.getElem?_cons_succ] at hi
              rw [hs j h hi, hlast']
              congr 1
              omega

theorem writerBlocks_blocks (w w' : objectWriterV1) (h : writerBlocks w = some w') :
    w'.blocks = w.blocks := by
  simp only [writerBlocks, Option.bind_eq_bind, Option.bind_eq_some, Option.pure_def,
    Option.some.injEq] at h
  obtain ⟨b, -, b', -, rfl⟩ := h
  rfl

/-- The block metas after a run of `WriteEnd` that reaches the write of the footer
are those before it, up to placement. -/
theorem serialize_unplaced (p : Params) (w w1 : objectWriterV1) (layout : Layout)
    (h : serialize p w = some (w1, .ok layout)) :
    w1.blocks.map blockData.unplaced = w.blocks.map blockData.unplaced := by
  obtain ⟨w', buffer', w2, buffer2, hprep, -, -, -, -, -, -, hwb, -, hw1⟩ :=
    serialize_ok p w w1 layout h
  obtain ⟨hun, -, -, -⟩ := prepareBlockMeta_unplaced w w' _ _ hprep
  have h2 := writerBlocks_blocks _ _ hwb
  rw [hw1]
  simp only
  rw [h2]
  exact hun

theorem stampBlocks_getElem? (ext : Extent) (blocks : List blockData) (i : Nat) :
    ((stampBlocks ext blocks).map fun blk => blk.meta)[i]? =
      (blocks[i]?).map fun blk =>
        { blk.meta with header := { blk.meta.header with metaLocation := ext } } := by
  simp only [stampBlocks, List.map_map, List.getElem?_map]
  cases blocks[i]? <;> rfl

theorem unplaced_meta_of_unplaced (blk blk' : blockData) (ext : Extent)
    (h : blk'.unplaced = blk.unplaced) :
    BlockObject.unplaced
        { blk'.meta with header := { blk'.meta.header with metaLocation := ext } } =
      blk.meta.unplaced ∧ blk'.meta.header.sequence = blk.meta.header.sequence := by
  have hm : blk'.meta.unplaced = blk.meta.unplaced := by
    have := congrArg (fun b : blockData => b.meta) h
    simpa [blockData.unplaced] using this
  refine ⟨hm, ?_⟩
  have := congrArg (fun b : BlockObject => b.header.sequence) hm
  simpa [BlockObject.unplaced] using this

/-- C6 (amended): for every sequence of `n < 2^32` calls of `Write` on a newly created
writer, each of which appended its block, followed by a successful `WriteEnd`:
`WriteEnd` returns exactly `n` block handles; the `i`-th (from 0) is the handle
returned by the `i`-th `Write` up to the placement added by `WriteEnd` (column offsets
and meta location), its block sequence number is `i mod 65536` (so `i` itself when
`n ≤ 65536`), and its meta location is the object-meta extent recorded in the object
header. -/
theorem WriteEnd_handles {σ : Type} (p : Params) (fs : FileService σ) (name : ObjectName)
    (fileName : String) (schemaVersion : Nat) (seqnums : List Nat) (batches : List Batch)
    (handles : List BlockObject) (w : objectWriterV1) (items : List Nat) (st : σ)
    (res : WriteEndResult σ) (hs : List BlockObject)
    (hwrites : writeAll p (newObjectWriterV1 name fileName schemaVersion seqnums) batches =
      some (handles, w))
    (happ : w.blocks.length = batches.length) (hn : batches.length < 2 ^ 32)
    (hres : WriteEnd p fs w items st = some res) (hok : res.result = .ok hs) :
    hs.length = batches.length ∧ handles.length = batches.length ∧
      ∃ w1 layout, serialize p w = some (w1, .ok layout) ∧
        ∀ i, i < batches.length → ∃ h h0, hs[i]? = some h ∧ handles[i]? = some h0 ∧
          h.unplaced = h0.unplaced ∧ h.header.sequence = i % 2 ^ 16 ∧
          h.header.metaLocation = layout.objectHeader.extent := by
  obtain ⟨news, hnews, hmap, hseq⟩ := writeAll_spec p batches _ w handles hwrites
    (by simpa [newObjectWriterV1] using happ)
    (by simp only [newObjectWriterV1]; omega)
  simp only [newObjectWriterV1, List.nil_append] at hnews
  obtain ⟨w1, layout, ws, hser, -, hhs, -⟩ := WriteEnd_ok p fs w items st res hs hres hok
  have hun := serialize_unplaced p w w1 layout hser
  have hlen1 : w1.blocks.length = w.blocks.length := by
    have := congrArg List.length hun
    simpa using this
  have hhandles : handles.length = batches.length := by
    rw [← hmap, List.length_map, ← hnews, happ]
  refine ⟨?_, hhandles, w1, layout, hser, ?_⟩
  · rw [hhs]
    simp only [stampBlocks, List.length_map]
    omega
  · intro i hi
    have hi1 : i < w1.blocks.length := by omega
    have hi0 : i < w.blocks.length := by omega
    have hb1 : w1.blocks[i]? = some w1.blocks[i] := List.getElem?_eq_getElem hi1
    have hb0 : w.blocks[i]? = some w.blocks[i] := List.getElem?_eq_getElem hi0
    have hu : (w1.blocks[i]).unplaced = (w.blocks[i]).unplaced := by
      have := congrArg (fun l : List blockData => l[i]?) hun
      simpa [List.getElem?_map, hb1, hb0] using this
    obtain ⟨hu1, hu2⟩ := unplaced_meta_of_unplaced _ _ layout.objectHeader.extent hu
    have hh0 : handles[i]? = some (w.blocks[i]).meta := by
      rw [← hmap, ← hnews, List.getElem?_map, hb0]
      rfl
    refine ⟨_, _, ?_, hh0, hu1, ?_, ?_⟩
    · rw [hhs, stampBlocks_getElem?, hb1]
      rfl
    · have := hseq i _ hh0
      simp only [newObjectWriterV1, Nat.zero_add] at this
      change (w1.blocks[i]).meta.header.sequence = i % 2 ^ 16
      rw [hu2, this]
    · rfl

set_option maxRecDepth 100000 in
/-- C6, witness: two `Write` calls on a fresh writer, then `WriteEnd`. -/
theorem WriteEnd_handles_witness :
    writeAll demoParams freshWriter [demoBatch1, demoBatch2] = some (demoHandles, demoWriter) ∧
    ∃ (res : WriteEndResult (List String)) (hs : List BlockObject),
      WriteEnd demoParams demoFs demoWriter [] [] = some res ∧ res.result = .ok hs ∧
      hs.length = 2 ∧ demoHandles.length = 2 ∧
      ∃ w1 layout, serialize demoParams demoWriter = some (w1, .ok layout) ∧
        ∀ i, i < 2 → ∃ h h0, hs[i]? = some h ∧ demoHandles[i]? = some h0 ∧
          h.unplaced = h0.unplaced ∧ h.header.sequence = i % 2 ^ 16 ∧
          h.header.metaLocation = layout.objectHeader.extent := by
  have hwrites : writeAll demoParams freshWriter [demoBatch1, demoBatch2] =
      some (demoHandles, demoWriter) := by decide
  have hsome : (WriteEnd demoParams demoFs demoWriter [] []).isSome = true := by decide
  obtain ⟨res, hres⟩ := Option.isSome_iff_exists.mp hsome
  have hok : (WriteEnd demoParams demoFs demoWriter [] []).map
      (fun r => r.result.toOption.isSome) = some true := by decide
  rw [hres] at hok
  simp only [Option.map_some', Option.some.injEq] at hok
  cases hr : res.result with
  | error e => simp [hr, Except.toOption] at hok
  | ok hs =>
    exact ⟨hwrites, res, hs, hres, hr,
      WriteEnd_handles demoParams demoFs { segmentId := 7, num := 0 } "obj" 1 []
        [demoBatch1, demoBatch2] demoHandles demoWriter [] [] res hs hwrites (by decide)
        (by decide) hres hr⟩

set_option maxRecDepth 100000 in
/-- C6, counterexample: under parameters with which no vector marshals, `Write` returns
a handle and no error although `AddBlock` has failed and appended nothing; the
`WriteEnd` that follows succeeds and returns no handle at all. -/
theorem WriteEnd_misses_unadded_block :
    ∃ h w, Write failParams freshWriter demoBatch1 = some (h, none, w) ∧
      (WriteEnd failParams demoFs w [] []).map (fun r => r.result.toOption) =
        some (some []) := by
  obtain ⟨r, hr⟩ : ∃ r, Write failParams freshWriter demoBatch1 = some r ∧ r.2.1 = none ∧
      (WriteEnd failParams demoFs r.2.2 [] []).map (fun r => r.result.toOption) =
        some (some []) := by
    refine ⟨((Write failParams freshWriter demoBatch1).getD (NewBlock (NewSeqnums []), none,
      freshWriter)), ?_⟩
    decide
  obtain ⟨h, e, w⟩ := r
  obtain ⟨h1, h2, h3⟩ := hr
  simp only at h2 h3
  subst h2
  exact ⟨h, w, h1, h3⟩

theorem Write_emptyBatch (p : Params) (w : objectWriterV1) (hs : w.seqnums.Seqs = []) :
    ∃ h w', Write p w emptyBatch = some (h, none, w') ∧ w'.seqnums.Seqs = [] ∧
      w'.blocks.length = w.blocks.length + 1 := by
  simp [Write, hs, emptyBatch, AddBlock, addColumns, Seqnums.InitWithColCnt]
  exact ⟨_, _, ⟨rfl, rfl⟩, rfl, by simp⟩

theorem writeAll_emptyBatch (p : Params) :
    ∀ (n : Nat) (w : objectWriterV1), w.seqnums.Seqs = [] →
      ∃ hs w', writeAll p w (List.replicate n emptyBatch) = some (hs, w') ∧
        w'.blocks.length = w.blocks.length + n := by
  intro n
  induction n with
  | zero => intro w _; exact ⟨[], w, rfl, rfl⟩
  | succ n ih =>
    intro w hw
    obtain ⟨h, w1, h1, hs1, hl1⟩ := Write_emptyBatch p w hw
    obtain ⟨hs, w2, h2, hl2⟩ := ih w1 hs1
    refine ⟨h :: hs, w2, ?_, by omega⟩
    simp only [List.replicate_succ, writeAll, h1, h2]

/-- The block sequence number is a `uint16`: of 65537 `Write` calls on a fresh writer,
each of which appends its block, the last one returns a handle with sequence number 0. -/
theorem Write_sequence_wraps :
    ∃ handles w h,
      writeAll demoParams freshWriter (List.replicate 65537 emptyBatch) = some (handles, w) ∧
      w.blocks.length = 65537 ∧ handles[65536]? = some h ∧ h.header.sequence = 0 := by
  obtain ⟨handles, w, hw, hlen⟩ := writeAll_emptyBatch demoParams 65537 freshWriter rfl
  have hlen' : w.blocks.length = 65537 := by
    rw [hlen]
    rfl
  obtain ⟨news, hnews, hmap, hseq⟩ := writeAll_spec demoParams _ freshWriter w handles hw
    (by rw [hlen, List.length_replicate])
    (by rw [List.length_replicate]; change 0 + 65537 < 2 ^ 32; norm_num)
  have hl : 65536 < handles.length := by
    have h1 : news.length = 65537 := by
      have := congrArg List.length hnews
      rw [hlen', List.length_append] at this
      change 65537 = 0 + news.length at this
      omega
    rw [← hmap, List.length_map, h1]
    norm_num
  refine ⟨handles, w, handles[65536], hw, hlen', List.getElem?_eq_getElem hl, ?_⟩
  rw [hseq 65536 _ (List.getElem?_eq_getElem hl)]
  change (0 + 65536) % 2 ^ 16 = 0
  norm_num

end objectio

namespace F64

theorem le_of_lt_false (x y : F64) (hx : x ≠ nan) (hy : y ≠ nan)
    (h : lt x y = false) : le y x = true := by
  cases x <;> cases y <;> simp_all [lt, le]

theorem le_of_lt_true (x y : F64) (h : lt x y = true) : le x y = true := by
  cases x <;> cases y <;> simp_all [lt, le]
  linarith

end F64

namespace plan

theorem Query.node_lt (qry : Query) (nodeID : Int) (node : Node)
    (h : qry.node nodeID = some node) : 0 ≤ nodeID ∧ nodeID.toNat < qry.Nodes.length := by
  unfold Query.node at h
  split_ifs at h with hneg
  exact ⟨by omega, (List.getElem?_eq_some.mp h).1⟩

/-- Reading the node table after a write to the node `nodeID`. -/
theorem node_setNode (builder : QueryBuilder) (nodeID : Int) (node node' : Node)
    (h : builder.qry.node nodeID = some node) (id : Int) :
    (builder.setNode nodeID node').qry.node id =
      if id = nodeID then some node' else builder.qry.node id := by
  obtain ⟨h0, hlt⟩ := Query.node_lt _ _ _ h
  unfold Query.node QueryBuilder.setNode
  by_cases hid : id = nodeID
  · subst hid
    simp only [if_true, if_neg (not_lt.mpr h0)]
    rw [List.getElem?_set_self hlt]
  · rw [if_neg hid]
    by_cases hneg : id < 0
    · simp only [if_pos hneg]
    · simp only [if_neg hneg]
      rw [List.getElem?_set_ne]
      intro heq
      apply hid
      omega

/-- A write to a node that keeps its stats keeps every `Outcnt` of the builder. -/
theorem outcnt_setNode (builder : QueryBuilder) (nodeID : Int) (node node' : Node)
    (h : builder.qry.node nodeID = some node) (hs : node'.Stats = node.Stats) (id : Int) :
    (builder.setNode nodeID node').outcnt id = builder.outcnt id := by
  unfold QueryBuilder.outcnt
  rw [node_setNode builder nodeID node node' h id]
  by_cases hid : id = nodeID
  · subst hid
    simp only [if_true, h, Option.bind_eq_bind, Option.some_bind, hs]
  · rw [if_neg hid]

/-- The non-recursive call on a node that is a join with two children. -/
theorem applySwapRuleByStats_join (IsEquiJoin : List Expr → Bool) (fuel : Nat)
    (builder : QueryBuilder) (nodeID : Int) (node leftChild rightChild : Node) (c0 c1 : Int)
    (rest : List Int) (hnode : builder.qry.node nodeID = some node)
    (hjoin : node.NodeType = .JOIN) (hch : node.Children = c0 :: c1 :: rest)
    (hl : builder.qry.node c0 = some leftChild) (hr : builder.qry.node c1 = some rightChild) :
    applySwapRuleByStats IsEquiJoin (fuel + 1) builder nodeID false =
      if rightChild.NodeType = .FUNCTION_SCAN then some builder
      else
        match node.JoinType with
        | .INNER | .OUTER =>
          leftChild.Stats.bind fun l => rightChild.Stats.bind fun r =>
            if l.Outcnt.lt r.Outcnt then
              some (builder.setNode nodeID { node with Children := c1 :: c0 :: rest })
            else some builder
        | .LEFT | .SEMI | .ANTI =>
          if IsEquiJoin node.OnList then
            leftChild.Stats.bind fun l => rightChild.Stats.bind fun r =>
              if l.Outcnt.lt r.Outcnt then
                some (builder.setNode nodeID { node with BuildOnLeft := true })
              else some builder
          else some builder
        | _ => some builder := by
  unfold applySwapRuleByStats
  simp only [hnode, Option.bind_eq_bind, Option.some_bind, Bool.false_eq_true, false_and,
    if_false, hjoin, ne_eq, not_true_eq_false, hch, List.getElem?_cons_zero,
    List.getElem?_cons_succ, hl, hr, Option.pure_def, List.set_cons_zero, List.set_cons_succ]

/-- C11 (amended): for every JOIN node of type INNER or OUTER whose right child is not
a function scan and whose children carry an `Outcnt` that is a number (not NaN), the
non-recursive `applySwapRuleByStats` returns; it exchanges the first two children
exactly when `L.Outcnt < R.Outcnt` and otherwise leaves them as they were; the
children afterwards are a permutation of the children before, child 0 has the larger
`Outcnt` (`child[0].Outcnt ≥ child[1].Outcnt`), and nothing else changes in the node
table. -/
theorem applySwapRuleByStats_inner_outer (IsEquiJoin : List Expr → Bool) (fuel : Nat)
    (builder : QueryBuilder) (nodeID : Int) (node leftChild rightChild : Node) (c0 c1 : Int)
    (rest : List Int) (l r : Stats) (hnode : builder.qry.node nodeID = some node)
    (hjoin : node.NodeType = .JOIN) (hjt : node.JoinType = .INNER ∨ node.JoinType = .OUTER)
    (hch : node.Children = c0 :: c1 :: rest)
    (hl : builder.qry.node c0 = some leftChild) (hr : builder.qry.node c1 = some rightChild)
    (hfs : rightChild.NodeType ≠ .FUNCTION_SCAN)
    (hls : leftChild.Stats = some l) (hrs : rightChild.Stats = some r)
    (hnl : l.Outcnt ≠ F64.nan) (hnr : r.Outcnt ≠ F64.nan) :
    ∃ builder' node',
      applySwapRuleByStats IsEquiJoin (fuel + 1) builder nodeID false = some builder' ∧
      builder'.qry.node nodeID = some node' ∧
      node' = { node with Children := node'.Children } ∧
      node'.Children = (if l.Outcnt.lt r.Outcnt then c1 :: c0 :: rest else c0 :: c1 :: rest) ∧
      node'.Children.Perm node.Children ∧
      (∃ a b tail o0 o1, node'.Children = a :: b :: tail ∧ builder'.outcnt a = some o0 ∧
        builder'.outcnt b = some o1 ∧ F64.le o1 o0 = true) ∧
      ∀ id, id ≠ nodeID → builder'.qry.node id = builder.qry.node id := by
  have hcall := applySwapRuleByStats_join IsEquiJoin fuel builder nodeID node leftChild
    rightChild c0 c1 rest hnode hjoin hch hl hr
  rw [if_neg hfs] at hcall
  have hcall' : applySwapRuleByStats IsEquiJoin (fuel + 1) builder nodeID false =
      if l.Outcnt.lt r.Outcnt then
        some (builder.setNode nodeID { node with Children := c1 :: c0 :: rest })
      else some builder := by
    rw [hcall]
    rcases hjt with h | h <;> simp only [h, hls, hrs, Option.some_bind]
  have ho0 : builder.outcnt c0 = some l.Outcnt := by
    simp only [QueryBuilder.outcnt, hl, hls, Option.bind_eq_bind, Option.some_bind,
      Option.pure_def]
  have ho1 : builder.outcnt c1 = some r.Outcnt := by
    simp only [QueryBuilder.outcnt, hr, hrs, Option.bind_eq_bind, Option.some_bind,
      Option.pure_def]
  by_cases hlt : l.Outcnt.lt r.Outcnt = true
  · rw [if_pos hlt] at hcall'
    obtain ⟨node', hn'⟩ : ∃ node' : Node, node' = { node with Children := c1 :: c0 :: rest } :=
      ⟨_, rfl⟩
    rw [← hn'] at hcall'
    have hc' : node'.Children = c1 :: c0 :: rest := by rw [hn']
    have hs' : node'.Stats = node.Stats := by rw [hn']
    refine ⟨builder.setNode nodeID node', node', hcall', ?_, ?_, ?_, ?_, ?_, ?_⟩
    · rw [node_setNode builder nodeID node node' hnode, if_pos rfl]
    · rw [hn']
    · rw [if_pos hlt, hc']
    · rw [hc', hch]
      exact List.Perm.swap c0 c1 rest
    · refine ⟨c1, c0, rest, r.Outcnt, l.Outcnt, hc', ?_, ?_, F64.le_of_lt_true _ _ hlt⟩
      · rw [outcnt_setNode builder nodeID node node' hnode hs', ho1]
      · rw [outcnt_setNode builder nodeID node node' hnode hs', ho0]
    · intro id hid
      rw [node_setNode builder nodeID node node' hnode, if_neg hid]
  · rw [if_neg hlt] at hcall'
    have hlt' : l.Outcnt.lt r.Outcnt = false := by simpa using hlt
    refine ⟨builder, node, hcall', hnode, rfl, ?_, List.Perm.refl _, ?_, fun _ _ => rfl⟩
    · rw [if_neg hlt, hch]
    · exact ⟨c0, c1, rest, l.Outcnt, r.Outcnt, hch, ho0, ho1,
        F64.le_of_lt_false _ _ hnl hnr hlt'⟩

/-- C11, witness: an INNER join with `L.Outcnt = 100` and `R.Outcnt = 10000`; the
right side is put at child 0. -/
theorem applySwapRuleByStats_inner_outer_witness :
    F64.lt 100 10000 = true ∧
    ∃ builder' node',
      applySwapRuleByStats (fun _ => true) 1 (joinBuilder .INNER 100 10000 .TABLE_SCAN) 0 false =
        some builder' ∧
      builder'.qry.node 0 = some node' ∧
      node' = { joinNode .INNER with Children := node'.Children } ∧
      node'.Children = (if F64.lt 100 10000 then [2, 1] else [1, 2]) ∧
      node'.Children.Perm [1, 2] ∧
      (∃ a b tail o0 o1, node'.Children = a :: b :: tail ∧ builder'.outcnt a = some o0 ∧
        builder'.outcnt b = some o1 ∧ F64.le o1 o0 = true) ∧
      ∀ id, id ≠ 0 → builder'.qry.node id =
        (joinBuilder .INNER 100 10000 .TABLE_SCAN).qry.node id :=
  ⟨(by simp [F64.ofNat_eq, F64.lt_fin]; norm_num),
    applySwapRuleByStats_inner_outer (fun _ => true) 0
      (joinBuilder .INNER 100 10000 .TABLE_SCAN) 0 (joinNode .INNER)
      (leafNode 1 .TABLE_SCAN 100) (leafNode 2 .TABLE_SCAN 10000) 1 2 []
      { Outcnt := 100 } { Outcnt := 10000 } rfl rfl (Or.inl rfl) rfl rfl rfl
      (by decide) rfl rfl (by simp [F64.ofNat_eq]) (by simp [F64.ofNat_eq])⟩

/-- C11, counterexample: an INNER join whose left child has `Outcnt = NaN` and whose
right child has `Outcnt = 10`. The comparison `NaN < 10` is false, the children stay
as they were, and `child[0].Outcnt ≥ child[1].Outcnt` (`10 ≤ NaN`) is false. -/
theorem applySwapRuleByStats_nan_outcnt :
    (applySwapRuleByStats (fun _ => true) 1 (joinBuilder .INNER F64.nan 10 .TABLE_SCAN) 0
        false).map (fun b => ((b.qry.node 0).map fun n => n.Children, b.outcnt 1, b.outcnt 2)) =
      some (some [1, 2], some F64.nan, some 10) ∧
    F64.le 10 F64.nan = false := by
  constructor
  · rw [applySwapRuleByStats_join (fun _ => true) 0 (joinBuilder .INNER F64.nan 10 .TABLE_SCAN) 0
      (joinNode .INNER) (leafNode 1 .TABLE_SCAN F64.nan) (leafNode 2 .TABLE_SCAN 10) 1 2 []
      rfl rfl rfl rfl rfl]
    rfl
  · rfl

/-- The non-recursive call on a node that is not a join. -/
theorem applySwapRuleByStats_not_join (IsEquiJoin : List Expr → Bool) (fuel : Nat)
    (builder : QueryBuilder) (nodeID : Int) (node : Node)
    (hnode : builder.qry.node nodeID = some node) (hjoin : node.NodeType ≠ .JOIN) :
    applySwapRuleByStats IsEquiJoin (fuel + 1) builder nodeID false = some builder := by
  unfold applySwapRuleByStats
  simp only [hnode, Option.bind_eq_bind, Option.some_bind, Bool.false_eq_true, false_and,
    if_false, ne_eq, hjoin, not_false_eq_true, if_true, Option.pure_def]

/-- C12: the non-recursive `applySwapRuleByStats` returns the builder unchanged on a
node that is not a JOIN and on a JOIN whose right child is a function scan. On a JOIN
of type LEFT, SEMI or ANTI whose right child is not a function scan it returns, never
changes the children of the node, changes no other node, and changes of the node at
most `BuildOnLeft`: that is set to true when the join is an equi-join and
`L.Outcnt < R.Outcnt`, and is left as it was otherwise. -/
theorem applySwapRuleByStats_build_side (IsEquiJoin : List Expr → Bool) (fuel : Nat)
    (builder : QueryBuilder) (nodeID : Int) (node : Node)
    (hnode : builder.qry.node nodeID = some node) :
    (node.NodeType ≠ .JOIN →
      applySwapRuleByStats IsEquiJoin (fuel + 1) builder nodeID false = some builder) ∧
    (node.NodeType = .JOIN → ∀ (c0 c1 : Int) (rest : List Int) (leftChild rightChild : Node),
      node.Children = c0 :: c1 :: rest → builder.qry.node c0 = some leftChild →
      builder.qry.node c1 = some rightChild →
      (rightChild.NodeType = .FUNCTION_SCAN →
        applySwapRuleByStats IsEquiJoin (fuel + 1) builder nodeID false = some builder) ∧
      (rightChild.NodeType ≠ .FUNCTION_SCAN →
        node.JoinType = .LEFT ∨ node.JoinType = .SEMI ∨ node.JoinType = .ANTI →
        (IsEquiJoin node.OnList = false →
          applySwapRuleByStats IsEquiJoin (fuel + 1) builder nodeID false = some builder) ∧
        ∀ l r : Stats, leftChild.Stats = some l → rightChild.Stats = some r →
          ∃ builder' node',
            applySwapRuleByStats IsEquiJoin (fuel + 1) builder nodeID false = some builder' ∧
            builder'.qry.node nodeID = some node' ∧
            node' = { node with BuildOnLeft :=
              if (IsEquiJoin node.OnList = true ∧ l.Outcnt.lt r.Outcnt = true) then true
              else node.BuildOnLeft } ∧
            node'.Children = node.Children ∧
            ∀ id, id ≠ nodeID → builder'.qry.node id = builder.qry.node id)) := by
  refine ⟨applySwapRuleByStats_not_join IsEquiJoin fuel builder nodeID node hnode, ?_⟩
  intro hjoin c0 c1 rest leftChild rightChild hch hl hr
  have hcall := applySwapRuleByStats_join IsEquiJoin fuel builder nodeID node leftChild
    rightChild c0 c1 rest hnode hjoin hch hl hr
  constructor
  · intro hfs
    rw [hcall, if_pos hfs]
  · intro hfs hjt
    rw [if_neg hfs] at hcall
    have hcall' : applySwapRuleByStats IsEquiJoin (fuel + 1) builder nodeID false =
        if IsEquiJoin node.OnList then
          leftChild.Stats.bind fun l => rightChild.Stats.bind fun r =>
            if l.Outcnt.lt r.Outcnt then
              some (builder.setNode nodeID { node with BuildOnLeft := true })
            else some builder
        else some builder := by
      rw [hcall]
      rcases hjt with h | h | h <;> simp only [h]
    constructor
    · intro he
      rw [hcall', he]
      rfl
    · intro l r hls hrs
      rw [hls, hrs] at hcall'
      simp only [Option.some_bind] at hcall'
      by_cases hc : IsEquiJoin node.OnList = true ∧ l.Outcnt.lt r.Outcnt = true
      · rw [if_pos hc.1, if_pos hc.2] at hcall'
        refine ⟨_, { node with BuildOnLeft := true }, hcall', ?_, ?_, rfl, ?_⟩
        · rw [node_setNode builder nodeID node _ hnode, if_pos rfl]
        · rw [if_pos hc]
        · intro id hid
          rw [node_setNode builder nodeID node _ hnode, if_neg hid]
      · have hb : applySwapRuleByStats IsEquiJoin (fuel + 1) builder nodeID false =
            some builder := by
          rw [hcall']
          by_cases he : IsEquiJoin node.OnList = true
          · have hlt : ¬ l.Outcnt.lt r.Outcnt = true := fun h => hc ⟨he, h⟩
            rw [if_pos he, if_neg hlt]
          · rw [if_neg he]
        refine ⟨builder, node, hb, hnode, ?_, rfl, fun _ _ => rfl⟩
        rw [if_neg hc]

/-- C12, witness: a LEFT equi-join with `L.Outcnt = 100` and `R.Outcnt = 10000`. -/
theorem applySwapRuleByStats_build_side_witness :
    (joinBuilder .LEFT 100 10000 .TABLE_SCAN).qry.node 0 = some (joinNode .LEFT) ∧
    ∃ builder' node',
      applySwapRuleByStats (fun _ => true) 1 (joinBuilder .LEFT 100 10000 .TABLE_SCAN) 0 false =
        some builder' ∧
      builder'.qry.node 0 = some node' ∧
      node' = { joinNode .LEFT with BuildOnLeft :=
        if ((fun _ => true) (joinNode .LEFT).OnList = true ∧ F64.lt 100 10000 = true) then true
        else (joinNode .LEFT).BuildOnLeft } ∧
      node'.Children = [1, 2] ∧
      ∀ id, id ≠ 0 → builder'.qry.node id =
        (joinBuilder .LEFT 100 10000 .TABLE_SCAN).qry.node id :=
  ⟨rfl, ((applySwapRuleByStats_build_side (fun _ => true) 0
    (joinBuilder .LEFT 100 10000 .TABLE_SCAN) 0 (joinNode .LEFT) rfl).2 rfl 1 2 []
    (leafNode 1 .TABLE_SCAN 100) (leafNode 2 .TABLE_SCAN 10000) rfl rfl rfl).2 (by decide)
    (Or.inl rfl) |>.2 { Outcnt := 100 } { Outcnt := 10000 } rfl rfl⟩

end plan

namespace plan

/-- C17: for a nil cache and any table id, and for every cache and each of the table
ids `MO_DATABASE_ID`, `MO_TABLES_ID` and `MO_COLUMNS_ID`, `GetStatsInfoMap` returns the
new empty entry (block number 0, table count 0, no column entries) and leaves the cache
as it was; and no call of `GetStatsInfoMap`, with whatever table id, changes what the
pool holds at one of these three ids. -/
theorem GetStatsInfoMap_system_tables (cat : Catalog) (sc : Option StatsCache) (tableID : Nat)
    (h : sc = none ∨ tableID = cat.MO_DATABASE_ID ∨ tableID = cat.MO_TABLES_ID ∨
      tableID = cat.MO_COLUMNS_ID) :
    GetStatsInfoMap cat sc tableID = (NewStatsInfoMap, sc) ∧
    NewStatsInfoMap.BlockNumber = 0 ∧ NewStatsInfoMap.TableCnt = 0 ∧
    (∀ k, NewStatsInfoMap.NdvMap k = none ∧ NewStatsInfoMap.MinValMap k = none ∧
      NewStatsInfoMap.MaxValMap k = none ∧ NewStatsInfoMap.DataTypeMap k = none) ∧
    ∀ (sc0 : StatsCache) (anyID k : Nat),
      k = cat.MO_DATABASE_ID ∨ k = cat.MO_TABLES_ID ∨ k = cat.MO_COLUMNS_ID →
      ∃ sc1, (GetStatsInfoMap cat (some sc0) anyID).2 = some sc1 ∧
        (sc1.cachePool k).isSome = (sc0.cachePool k).isSome := by
  refine ⟨?_, rfl, rfl, fun _ => ⟨rfl, rfl, rfl, rfl⟩, ?_⟩
  · cases sc with
    | none => rfl
    | some sc0 =>
      have h' : tableID = cat.MO_DATABASE_ID ∨ tableID = cat.MO_TABLES_ID ∨
          tableID = cat.MO_COLUMNS_ID := by
        rcases h with h | h
        · exact absurd h (by simp)
        · exact h
      simp only [GetStatsInfoMap, if_pos h']
  · intro sc0 anyID k hk
    unfold GetStatsInfoMap
    by_cases hs : anyID = cat.MO_DATABASE_ID ∨ anyID = cat.MO_TABLES_ID ∨
        anyID = cat.MO_COLUMNS_ID
    · simp only [if_pos hs]
      exact ⟨sc0, rfl, rfl⟩
    · simp only [if_neg hs]
      cases hp : sc0.cachePool anyID with
      | some s => exact ⟨sc0, rfl, rfl⟩
      | none =>
        refine ⟨_, rfl, ?_⟩
        have hne : k ≠ anyID := by
          intro he
          subst he
          exact hs hk
        simp only [if_neg hne]

/-- C17, witness: the table id `MO_TABLES_ID` on an empty cache. -/
theorem GetStatsInfoMap_system_tables_witness :
    (GetStatsInfoMap demoCatalog (some emptyCache) 2).1.BlockNumber = 0 ∧
    (GetStatsInfoMap demoCatalog (some emptyCache) 2).2.map
      (fun sc => (sc.cachePool 2).isSome) = some false := by
  have h := (GetStatsInfoMap_system_tables demoCatalog (some emptyCache) 2
    (Or.inr (Or.inr (Or.inl rfl)))).1
  rw [h]
  exact ⟨rfl, rfl⟩

/-- What one iteration of the column loop of `UpdateStatsInfoMap` does to the entry. -/
theorem updateColumn_spec (cd : ZMCodec) (info : InfoFromZoneMap) (i : Nat) (coldef : ColDef)
    (s s' : StatsInfoMap) (h : updateColumn cd info i coldef s = some s') :
    ∃ ndv ty, info.ColumnNDVs[i]? = some ndv ∧ info.DataTypes[i]? = some ty ∧
      s'.NdvMap = s.NdvMap.set coldef.Name ndv ∧
      s'.DataTypeMap = s.DataTypeMap.set coldef.Name ty.Oid ∧
      (∀ dec, cd.decoderFor ty.Oid = some dec → ∃ zm, info.ColumnZMs[i]? = some zm ∧
        s'.MinValMap = s.MinValMap.set coldef.Name (F64.ofInt (dec (cd.GetMinBuf zm))) ∧
        s'.MaxValMap = s.MaxValMap.set coldef.Name (F64.ofInt (dec (cd.GetMaxBuf zm)))) ∧
      (cd.decoderFor ty.Oid = none → s'.MinValMap = s.MinValMap ∧ s'.MaxValMap = s.MaxValMap) := by
  simp only [updateColumn, Option.bind_eq_bind, Option.bind_eq_some, Option.pure_def] at h
  obtain ⟨ndv, hndv, ty, hty, h⟩ := h
  refine ⟨ndv, ty, hndv, hty, ?_⟩
  cases hdec : cd.decoderFor ty.Oid with
  | some dec =>
    simp only [hdec, Option.bind_eq_some, Option.some.injEq] at h
    obtain ⟨zm, hzm, zm2, hzm2, h⟩ := h
    have : zm2 = zm := Option.some.inj (hzm2.symm.trans hzm)
    subst this
    subst h
    refine ⟨rfl, rfl, ?_, fun hn => by simp at hn⟩
    intro dec' hd'
    simp only [Option.some.injEq] at hd'
    subst hd'
    exact ⟨zm2, hzm, rfl, rfl⟩
  | none =>
    simp only [hdec, Option.some.injEq] at h
    subst h
    exact ⟨rfl, rfl, fun dec hd => by simp at hd, fun _ => ⟨rfl, rfl⟩⟩

theorem GoMap.set_ne {V : Type} (m : GoMap V) (k k' : String) (v : V) (h : k' ≠ k) :
    m.set k v k' = m k' := by
  simp only [GoMap.set, if_neg h]

theorem GoMap.set_self {V : Type} (m : GoMap V) (k : String) (v : V) :
    m.set k v k = some v := by
  simp only [GoMap.set, if_true]

/-- The column loop of `UpdateStatsInfoMap` leaves the maps as they are at every key
that is not the name of one of the columns. -/
theorem updateColumns_frame (cd : ZMCodec) (info : InfoFromZoneMap) (cols : List ColDef) :
    ∀ (i : Nat) (s s' : StatsInfoMap), updateColumns cd info i cols s = some s' →
      ∀ k, (∀ col ∈ cols, col.Name ≠ k) →
        s'.NdvMap k = s.NdvMap k ∧ s'.MinValMap k = s.MinValMap k ∧
        s'.MaxValMap k = s.MaxValMap k ∧ s'.DataTypeMap k = s.DataTypeMap k := by
  induction cols with
  | nil =>
    intro i s s' hs k _
    simp only [updateColumns, Option.some.injEq] at hs
    subst hs
    exact ⟨rfl, rfl, rfl, rfl⟩
  | cons coldef rest ih =>
    intro i s s' hs k hk
    simp only [updateColumns, Option.bind_eq_bind, Option.bind_eq_some] at hs
    obtain ⟨s1, h1, h2⟩ := hs
    obtain ⟨e1, e2, e3, e4⟩ := ih (i + 1) s1 s' h2 k
      (fun col hc => hk col (List.mem_cons_of_mem _ hc))
    have hne : k ≠ coldef.Name := fun h => hk coldef (List.mem_cons_self _ _) h.symm
    obtain ⟨ndv, ty, -, -, hn, hd, hsome, hnone⟩ := updateColumn_spec cd info i coldef s s1 h1
    rw [e1, e2, e3, e4, hn, hd, GoMap.set_ne _ _ _ _ hne, GoMap.set_ne _ _ _ _ hne]
    refine ⟨rfl, ?_, ?_, rfl⟩
    · cases hdec : cd.decoderFor ty.Oid with
      | some dec =>
        obtain ⟨zm, -, hmin, -⟩ := hsome dec hdec
        rw [hmin, GoMap.set_ne _ _ _ _ hne]
      | none => rw [(hnone hdec).1]
    · cases hdec : cd.decoderFor ty.Oid with
      | some dec =>
        obtain ⟨zm, -, -, hmax⟩ := hsome dec hdec
        rw [hmax, GoMap.set_ne _ _ _ _ hne]
      | none => rw [(hnone hdec).2]

/-- The column loop of `UpdateStatsInfoMap` over columns with distinct names: what the
entry holds afterwards at the name of column `j` of the list. -/
theorem updateColumns_entry (cd : ZMCodec) (info : InfoFromZoneMap) (cols : List ColDef) :
    ∀ (i : Nat) (s s' : StatsInfoMap), updateColumns cd info i cols s = some s' →
      (cols.map fun c => c.Name).Nodup →
      ∀ (j : Nat) (col : ColDef), cols[j]? = some col →
        ∃ ndv ty, info.ColumnNDVs[i + j]? = some ndv ∧ info.DataTypes[i + j]? = some ty ∧
          s'.NdvMap col.Name = some ndv ∧ s'.DataTypeMap col.Name = some ty.Oid ∧
          (∀ dec, cd.decoderFor ty.Oid = some dec → ∃ zm, info.ColumnZMs[i + j]? = some zm ∧
            s'.MinValMap col.Name = some (F64.ofInt (dec (cd.GetMinBuf zm))) ∧
            s'.MaxValMap col.Name = some (F64.ofInt (dec (cd.GetMaxBuf zm)))) ∧
          (cd.decoderFor ty.Oid = none → s'.MinValMap col.Name = s.MinValMap col.Name ∧
            s'.MaxValMap col.Name = s.MaxValMap col.Name) := by
  induction cols with
  | nil => intro i s s' _ _ j col hj; simp at hj
  | cons coldef rest ih =>
    intro i s s' hs hnd j col hj
    simp only [updateColumns, Option.bind_eq_bind, Option.bind_eq_some] at hs
    obtain ⟨s1, h1, h2⟩ := hs
    simp only [List.map_cons, List.nodup_cons, List.mem_map, not_exists, not_and] at hnd
    obtain ⟨hnotin, hnd'⟩ := hnd
    obtain ⟨ndv, ty, hndv, hty, hn, hd, hsome, hnone⟩ :=
      updateColumn_spec cd info i coldef s s1 h1
    cases j with
    | zero =>
      simp only [List.getElem?_cons_zero, Option.some.injEq] at hj
      subst hj
      obtain ⟨e1, e2, e3, e4⟩ := updateColumns_frame cd info rest (i + 1) s1 s' h2 coldef.Name
        (fun c hc => hnotin c hc)
      refine ⟨ndv, ty, hndv, hty, ?_, ?_, ?_, ?_⟩
      · rw [e1, hn, GoMap.set_self]
      · rw [e4, hd, GoMap.set_self]
      · intro dec hdec
        obtain ⟨zm, hzm, hmin, hmax⟩ := hsome dec hdec
        exact ⟨zm, hzm, by rw [e2, hmin, GoMap.set_self], by rw [e3, hmax, GoMap.set_self]⟩
      · intro hdec
        rw [e2, e3, (hnone hdec).1, (hnone hdec).2]
        exact ⟨rfl, rfl⟩
    | succ j =>
      simp only [List.getElem?_cons_succ] at hj
      obtain ⟨ndv', ty', hndv', hty', hn', hd', hsome', hnone'⟩ :=
        ih (i + 1) s1 s' h2 hnd' j col hj
      have hidx : i + 1 + j = i + (j + 1) := by omega
      rw [hidx] at hndv' hty' hsome'
      refine ⟨ndv', ty', hndv', hty', hn', hd', hsome', ?_⟩
      intro hdec
      have hne : col.Name ≠ coldef.Name := fun h => hnotin col (List.getElem?_mem hj) h
      obtain ⟨m1, m2⟩ := hnone' hdec
      rw [m1, m2]
      cases hdec0 : cd.decoderFor ty.Oid with
      | some dec =>
        obtain ⟨zm, -, hmin, hmax⟩ := hsome dec hdec0
        rw [hmin, hmax, GoMap.set_ne _ _ _ _ hne, GoMap.set_ne _ _ _ _ hne]
        exact ⟨rfl, rfl⟩
      | none =>
        rw [(hnone hdec0).1, (hnone hdec0).2]
        exact ⟨rfl, rfl⟩

/-- The column loop of `UpdateStatsInfoMap` returns when `info` has an NDV, a type and
a zone map for every column. -/
theorem updateColumns_ok (cd : ZMCodec) (info : InfoFromZoneMap) (cols : List ColDef) :
    ∀ (i : Nat) (s : StatsInfoMap), i + cols.length ≤ info.ColumnNDVs.length →
      i + cols.length ≤ info.DataTypes.length → i + cols.length ≤ info.ColumnZMs.length →
      ∃ s', updateColumns cd info i cols s = some s' := by
  induction cols with
  | nil => intro i s _ _ _; exact ⟨s, rfl⟩
  | cons coldef rest ih =>
    intro i s h1 h2 h3
    simp only [List.length_cons] at h1 h2 h3
    have e1 : info.ColumnNDVs[i]? = some info.ColumnNDVs[i] := List.getElem?_eq_getElem (by omega)
    have e2 : info.DataTypes[i]? = some info.DataTypes[i] := List.getElem?_eq_getElem (by omega)
    have e3 : info.ColumnZMs[i]? = some info.ColumnZMs[i] := List.getElem?_eq_getElem (by omega)
    have hcol : ∃ s1, updateColumn cd info i coldef s = some s1 := by
      simp only [updateColumn, e1, e2, e3, Option.bind_eq_bind, Option.some_bind, Option.pure_def]
      cases cd.decoderFor info.DataTypes[i].Oid <;> exact ⟨_, rfl⟩
    obtain ⟨s1, hs1⟩ := hcol
    obtain ⟨s', hs'⟩ := ih (i + 1) s1 (by omega) (by omega) (by omega)
    exact ⟨s', by simp only [updateColumns, hs1, Option.bind_eq_bind, Option.some_bind, hs']⟩

/-- The column loop of `UpdateStatsInfoMap` leaves the table count and the table name
as they are. -/
theorem updateColumns_scalars (cd : ZMCodec) (info : InfoFromZoneMap) (cols : List ColDef) :
    ∀ (i : Nat) (s s' : StatsInfoMap), updateColumns cd info i cols s = some s' →
      s'.TableCnt = s.TableCnt ∧ s'.tableName = s.tableName := by
  induction cols with
  | nil =>
    intro i s s' hs
    simp only [updateColumns, Option.some.injEq] at hs
    rw [← hs]
    exact ⟨rfl, rfl⟩
  | cons coldef rest ih =>
    intro i s s' hs
    simp only [updateColumns, Option.bind_eq_bind, Option.bind_eq_some] at hs
    obtain ⟨s1, h1, h2⟩ := hs
    obtain ⟨e1, e2⟩ := ih (i + 1) s1 s' h2
    rw [e1, e2]
    simp only [updateColumn, Option.bind_eq_bind, Option.bind_eq_some, Option.pure_def] at h1
    obtain ⟨ndv, -, ty, -, h1⟩ := h1
    split at h1
    · simp only [Option.bind_eq_some, Option.some.injEq] at h1
      obtain ⟨zm, -, zm2, -, h1⟩ := h1
      rw [← h1]
      exact ⟨rfl, rfl⟩
    · simp only [Option.some.injEq] at h1
      rw [← h1]
      exact ⟨rfl, rfl⟩

/-- C16 (amended): `UpdateStatsInfoMap(info, n, tableCnt, tableDef, s)`, on a table
with at least one column whose columns other than the last have distinct names and for
each of which `info` has an NDV, a type and a zone map, returns, and afterwards the
entry holds the block number `n`, the table count and the table name; at the name of
every column other than the last, `NdvMap` and `DataTypeMap` hold the values of `info`,
and `MinValMap` and `MaxValMap` hold the decoded bounds of the zone map when the type
is one that the switch decodes, and are as before the call otherwise; at every key
that is not the name of one of these columns, the four maps are as before the call. -/
theorem UpdateStatsInfoMap_overwrites (cd : ZMCodec) (info : InfoFromZoneMap) (n : Int)
    (tableCnt : F64) (tableDef : TableDef) (s : StatsInfoMap)
    (hcols : tableDef.Cols.length ≠ 0)
    (hnd : ((tableDef.Cols.take (tableDef.Cols.length - 1)).map fun c => c.Name).Nodup)
    (h1 : tableDef.Cols.length - 1 ≤ info.ColumnNDVs.length)
    (h2 : tableDef.Cols.length - 1 ≤ info.DataTypes.length)
    (h3 : tableDef.Cols.length - 1 ≤ info.ColumnZMs.length) :
    ∃ s', UpdateStatsInfoMap cd info n tableCnt tableDef s = some s' ∧
      s'.BlockNumber = n ∧ s'.TableCnt = tableCnt ∧ s'.tableName = tableDef.Name ∧
      (∀ (j : Nat) (col : ColDef),
        (tableDef.Cols.take (tableDef.Cols.length - 1))[j]? = some col →
        ∃ ndv ty, info.ColumnNDVs[j]? = some ndv ∧ info.DataTypes[j]? = some ty ∧
          s'.NdvMap col.Name = some ndv ∧ s'.DataTypeMap col.Name = some ty.Oid ∧
          (∀ dec, cd.decoderFor ty.Oid = some dec → ∃ zm, info.ColumnZMs[j]? = some zm ∧
            s'.MinValMap col.Name = some (F64.ofInt (dec (cd.GetMinBuf zm))) ∧
            s'.MaxValMap col.Name = some (F64.ofInt (dec (cd.GetMaxBuf zm)))) ∧
          (cd.decoderFor ty.Oid = none → s'.MinValMap col.Name = s.MinValMap col.Name ∧
            s'.MaxValMap col.Name = s.MaxValMap col.Name)) ∧
      ∀ k, (∀ col ∈ tableDef.Cols.take (tableDef.Cols.length - 1), col.Name ≠ k) →
        s'.NdvMap k = s.NdvMap k ∧ s'.MinValMap k = s.MinValMap k ∧
        s'.MaxValMap k = s.MaxValMap k ∧ s'.DataTypeMap k = s.DataTypeMap k := by
  have hlen : (tableDef.Cols.take (tableDef.Cols.length - 1)).length =
      tableDef.Cols.length - 1 := by
    rw [List.length_take]
    omega
  obtain ⟨s0, hs0⟩ : ∃ s0 : StatsInfoMap, s0 = { s with
      BlockNumber := n, TableCnt := tableCnt, tableName := tableDef.Name } := ⟨_, rfl⟩
  obtain ⟨s', hs'⟩ := updateColumns_ok cd info (tableDef.Cols.take (tableDef.Cols.length - 1)) 0
    s0 (by omega) (by omega) (by omega)
  have hcall : UpdateStatsInfoMap cd info n tableCnt tableDef s = some s' := by
    unfold UpdateStatsInfoMap
    simp only [if_neg hcols]
    rw [← hs']
    rw [hs0]
  have hb := updateColumns_BlockNumber cd info _ 0 s0 s' hs'
  obtain ⟨ht, hname⟩ := updateColumns_scalars cd info _ 0 s0 s' hs'
  refine ⟨s', hcall, by rw [hb, hs0], by rw [ht, hs0], by rw [hname, hs0], ?_, ?_⟩
  · intro j col hj
    have := updateColumns_entry cd info _ 0 s0 s' hs' hnd j col hj
    simp only [Nat.zero_add] at this
    rw [hs0] at this
    exact this
  · intro k hk
    have := updateColumns_frame cd info _ 0 s0 s' hs' k hk
    rw [hs0] at this
    exact this

/-- C16, witness: the refresh of an entry for a table with one column besides the
row id. -/
theorem UpdateStatsInfoMap_overwrites_witness :
    ∃ s', UpdateStatsInfoMap lenCodec oneColInfo 5 100 oneColTable staleEntry = some s' ∧
      s'.BlockNumber = 5 ∧ s'.NdvMap "a" = some 3 ∧ s'.NdvMap "old" = some 7 := by
  obtain ⟨s', h, hb, -, -, hcol, hframe⟩ := UpdateStatsInfoMap_overwrites lenCodec oneColInfo 5
    100 oneColTable staleEntry (by decide) (by decide) (by decide) (by decide) (by decide)
  obtain ⟨ndv, ty, hndv, -, hn, -⟩ := hcol 0 { Name := "a" } rfl
  have h3 : ndv = 3 := by
    have : (some ndv : Option F64) = some 3 := hndv.symm
    exact Option.some.inj this
  refine ⟨s', h, hb, by rw [hn, h3], ?_⟩
  rw [(hframe "old" (by decide)).1]
  rfl

/-- C16, counterexample: an entry that holds an NDV for a column `old` is refreshed
for a table whose columns are `a` and the row id; the NDV of `old` is still in the
entry afterwards. -/
theorem UpdateStatsInfoMap_keeps_old_key :
    (UpdateStatsInfoMap lenCodec oneColInfo 5 100 oneColTable staleEntry).map
      (fun s => (s.NdvMap "old", s.NdvMap "a")) = some (some 7, some 3) := by
  rfl

end plan

namespace plan

/-- C18: `estimateOutCntBySortOrder(tableCnt, cost, o)` is `cost` for `o = -1`, and for
every `o ≥ 0` it is `cost · 0.1^(cost/tableCnt) · k` with `k = 0.9` if `o = 0`, `0.7` if
`o = 1` and `0.5` otherwise; so, `math.Pow(0.1, 1)` being `0.1`, `EstimateOutCnt` of an
equality filter on the first column of the sort key with `tableCnt = cost = 1,000,000`
is 90,000. -/
theorem estimateOutCntBySortOrder_formula (h : Helpers) (tableCnt cost : F64) :
    estimateOutCntBySortOrder h tableCnt cost (-1) = cost ∧
    (∀ o : Int, 0 ≤ o → estimateOutCntBySortOrder h tableCnt cost o =
      cost * h.Pow 0.1 (cost / tableCnt) * (if o = 0 then 0.9 else if o = 1 then 0.7 else 0.5)) ∧
    (∀ (typ : Int) (args : List Expr) (col : ColRef) (sortKeyName : String) (s : StatsInfoMap),
      h.CheckFilter (.F typ "=" args) = (true, some col) →
      h.GetClusterByColumnOrder sortKeyName col.Name = 0 → h.Pow 0.1 1 = 0.1 →
      EstimateOutCnt h sortKeyName 1000000 1000000 s (.F typ "=" args) = some 90000) := by
  refine ⟨by simp [estimateOutCntBySortOrder], ?_, ?_⟩
  · intro o ho
    have hne : o ≠ -1 := by omega
    simp only [estimateOutCntBySortOrder, if_neg hne]
    split_ifs <;> rfl
  · intro typ args col sortKeyName s hcf hso hpow
    have hdiv : (1000000 : F64) / 1000000 = 1 := by
      simp [F64.ofNat_eq, F64.fin_div, F64.one_eq]
    unfold EstimateOutCnt
    simp only [if_true, estimateOutCntForEquality, hcf, Option.bind_eq_bind, Option.some_bind,
      hso, estimateOutCntBySortOrder, hdiv, hpow]
    simp [F64.ofNat_eq, F64.ofScientific_eq, F64.fin_mul, F64.gt_fin, F64.lt_fin]
    norm_num

/-- C18, witness: the filter `a = 1` with the sort key `a`. -/
theorem estimateOutCntBySortOrder_formula_witness :
    EstimateOutCnt sortHelpers "a" 1000000 1000000 NewStatsInfoMap eqExpr = some 90000 :=
  (estimateOutCntBySortOrder_formula sortHelpers 1000000 1000000).2.2 0 _
    { RelPos := 0, ColPos := 0, Name := "a" } "a" NewStatsInfoMap rfl rfl rfl

/-- C19: for every equality filter `col = const` that `CheckFilter` accepts and whose
column is not part of the sort key, `estimateOutCntForEquality` returns `tableCnt /
ndv(col)` when the stats map holds an NDV for the column that is greater than 0, and
`cost / 100` when it holds none (or one that is not greater than 0); and it returns
`cost / 100` for every filter that `CheckFilter` does not accept. -/
theorem estimateOutCntForEquality_off_sort_key (h : Helpers) (sortKeyName : String)
    (tableCnt cost : F64) (ndvMap : GoMap F64) :
    (∀ (expr : Expr) (m : Option (GoMap F64)), (h.CheckFilter expr).1 = false →
      estimateOutCntForEquality h expr sortKeyName tableCnt cost m = some (cost / 100)) ∧
    (∀ (typ t : Int) (col : ColRef) (rest : List Expr),
      h.CheckFilter (.F typ "=" (.Col t col :: rest)) = (true, some col) →
      h.GetClusterByColumnOrder sortKeyName col.Name = -1 →
      (∀ ndv, ndvMap col.Name = some ndv → ndv.gt 0 = true →
        estimateOutCntForEquality h (.F typ "=" (.Col t col :: rest)) sortKeyName tableCnt cost
          (some ndvMap) = some (tableCnt / ndv)) ∧
      (ndvMap col.Name = none →
        estimateOutCntForEquality h (.F typ "=" (.Col t col :: rest)) sortKeyName tableCnt cost
          (some ndvMap) = some (cost / 100)) ∧
      (∀ ndv, ndvMap col.Name = some ndv → ndv.gt 0 = false →
        estimateOutCntForEquality h (.F typ "=" (.Col t col :: rest)) sortKeyName tableCnt cost
          (some ndvMap) = some (cost / 100))) := by
  constructor
  · intro expr m hcf
    unfold estimateOutCntForEquality
    cases hc : h.CheckFilter expr with
    | mk ret col =>
      rw [hc] at hcf
      simp only at hcf
      subst hcf
      rfl
  · intro typ t col rest hcf hso
    have hcall : estimateOutCntForEquality h (.F typ "=" (.Col t col :: rest)) sortKeyName
        tableCnt cost (some ndvMap) =
        some (if (ndvMap.getF col.Name).gt 0 then tableCnt / ndvMap.getF col.Name
          else cost / 100) := by
      simp only [estimateOutCntForEquality, hcf, Option.bind_eq_bind, Option.some_bind, hso,
        ne_eq, not_true_eq_false, if_false, getExprNdv, true_or, if_true, Option.pure_def]
      split_ifs <;> rfl
    refine ⟨?_, ?_, ?_⟩
    · intro ndv hn hpos
      rw [hcall]
      simp only [GoMap.getF, hn, Option.getD_some, hpos, if_true]
    · intro hn
      rw [hcall]
      simp [GoMap.getF, hn, F64.zero_eq, F64.gt_fin]
    · intro ndv hn hpos
      rw [hcall]
      simp [GoMap.getF, hn, hpos]

/-- C19, witness: `a = 1` off the sort key, with NDV 50 recorded for `a` and
`tableCnt = 1000`: the estimate is `1000 / 50`. -/
theorem estimateOutCntForEquality_off_sort_key_witness :
    estimateOutCntForEquality sortHelpers eqExpr "k" 1000 1000
      (some (columnStats 50 .T_int64 0 100).NdvMap) = some (1000 / 50) :=
  ((estimateOutCntForEquality_off_sort_key sortHelpers "k" 1000 1000
    (columnStats 50 .T_int64 0 100).NdvMap).2 0 0 { RelPos := 0, ColPos := 0, Name := "a" } _
    rfl rfl).1 50 rfl (by simp [F64.ofNat_eq, F64.gt_fin])

theorem strictEstimate_of_kindMatches (funcName : String) (tableCnt : F64) (s : StatsInfoMap)
    (col : ColRef) (c : Const) (ty : T) (v : Int) (hty : s.DataTypeMap col.Name = some ty)
    (hk : kindMatches ty c.Value v) :
    strictEstimate funcName tableCnt s col c =
      some (calcOutCntByMinMax funcName tableCnt (s.MinValMap.getF col.Name)
        (s.MaxValMap.getF col.Name) (F64.ofInt v)) := by
  unfold strictEstimate
  rcases hk with ⟨hmem, hv⟩ | ⟨hmem, u, hv, hu⟩ | ⟨hmem, hv⟩
  · simp only [List.mem_cons, List.mem_singleton, List.not_mem_nil, or_false] at hmem
    rcases hmem with h | h | h | h <;> simp only [hty, h, hv]
  · simp only [List.mem_cons, List.mem_singleton, List.not_mem_nil, or_false] at hmem
    subst hu
    rcases hmem with h | h | h | h <;> simp only [hty, h, hv]
  · simp only [hty, hmem, hv]

/-- C20 (amended): for every comparison `col op const`, `op` one of `>`, `>=`, `<`,
`<=`, that `CheckFilter` and `CheckStrictFilter` accept, whose column is off the sort
key and of an integer, unsigned or date type, and whose constant is of the kind that
goes with the type (`I64Val`, `U64Val`, `Dateval`), `estimateOutCntForNonEquality`
returns the linear interpolation between the recorded bounds:
`(max − val)/(max − min)·tableCnt` for `>` and `>=`, `(val − min)/(max − min)·tableCnt`
for `<` and `<=`; and `EstimateOutCnt` of `col > 50` on an int64 column with `min = 0`,
`max = 100` and `tableCnt = cost = 1,000,000` is 500,000. -/
theorem estimateOutCntForNonEquality_interpolates (h : Helpers) (expr : Expr)
    (funcName sortKeyName : String) (tableCnt cost : F64) (s : StatsInfoMap) (col col' : ColRef)
    (c : Const) (ty : T) (v : Int)
    (hop : funcName = ">" ∨ funcName = ">=" ∨ funcName = "<" ∨ funcName = "<=")
    (hcf : h.CheckFilter expr = (true, some col))
    (hso : h.GetClusterByColumnOrder sortKeyName col.Name = -1)
    (hsf : h.CheckStrictFilter expr = (true, some col', some c))
    (hty : s.DataTypeMap col'.Name = some ty) (hk : kindMatches ty c.Value v) :
    estimateOutCntForNonEquality h expr funcName sortKeyName tableCnt cost s =
      some (if funcName = ">" ∨ funcName = ">=" then
        (s.MaxValMap.getF col'.Name - F64.ofInt v) /
          (s.MaxValMap.getF col'.Name - s.MinValMap.getF col'.Name) * tableCnt
      else
        (F64.ofInt v - s.MinValMap.getF col'.Name) /
          (s.MaxValMap.getF col'.Name - s.MinValMap.getF col'.Name) * tableCnt) ∧
    (∀ typ args, expr = .F typ ">" args → ty = .T_int64 → v = 50 →
      s.MinValMap col'.Name = some 0 → s.MaxValMap col'.Name = some 100 →
      EstimateOutCnt h sortKeyName 1000000 1000000 s expr = some 500000) := by
  have hcall : ∀ (fn : String) (tc co : F64),
      estimateOutCntForNonEquality h expr fn sortKeyName tc co s =
        some (calcOutCntByMinMax fn tc (s.MinValMap.getF col'.Name)
          (s.MaxValMap.getF col'.Name) (F64.ofInt v)) := by
    intro fn tc co
    simp only [estimateOutCntForNonEquality, hcf, Option.bind_eq_bind, Option.some_bind, hso,
      ne_eq, not_true_eq_false, if_false, hsf,
      strictEstimate_of_kindMatches fn tc s col' c ty v hty hk, Option.pure_def]
  constructor
  · rw [hcall]
    unfold calcOutCntByMinMax
    by_cases hgt : funcName = ">" ∨ funcName = ">="
    · rw [if_pos hgt, if_pos hgt]
    · rw [if_neg hgt, if_neg hgt]
      have hlt : funcName = "<" ∨ funcName = "<=" := by
        rcases hop with h1 | h1 | h1 | h1
        · exact absurd (Or.inl h1) hgt
        · exact absurd (Or.inr h1) hgt
        · exact Or.inl h1
        · exact Or.inr h1
      rw [if_pos hlt]
  · intro typ args he hty64 hv hmin hmax
    subst he
    subst hv
    unfold EstimateOutCnt
    simp only [hcall, calcOutCntByMinMax, GoMap.getF, hmin, hmax, Option.getD_some]
    simp [F64.ofInt, F64.ofNat_eq, F64.fin_sub, F64.fin_div, F64.fin_mul, F64.gt_fin, F64.lt_fin]
    norm_num

/-- C20, witness: `a > 50` on an int64 column with bounds 0 and 100. -/
theorem estimateOutCntForNonEquality_interpolates_witness :
    kindMatches .T_int64 (ConstValue.I64Val 50) 50 ∧
    EstimateOutCnt sortHelpers "k" 1000000 1000000 (columnStats 10 .T_int64 0 100)
      (cmpExpr ">" (.I64Val 50)) = some 500000 :=
  have hk : kindMatches .T_int64 (ConstValue.I64Val 50) 50 := Or.inl ⟨by decide, rfl⟩
  ⟨hk, (estimateOutCntForNonEquality_interpolates sortHelpers (cmpExpr ">" (.I64Val 50)) ">" "k"
    1000000 1000000 (columnStats 10 .T_int64 0 100) { RelPos := 0, ColPos := 0, Name := "a" }
    { RelPos := 0, ColPos := 0, Name := "a" } { Isnull := false, Value := .I64Val 50 } .T_int64 50
    (Or.inl rfl) rfl rfl rfl rfl hk).2 0 _ rfl rfl rfl rfl rfl⟩

/-- C20, counterexample: `a > 75` on an int32 column with bounds 0 and 100, the
constant being an unsigned literal. The comparison is a strict one off the sort key,
but the estimate is `cost / 2 = 500,000`, not the interpolation
`(100 − 75)/(100 − 0)·1,000,000 = 250,000`. -/
theorem estimateOutCntForNonEquality_kind_mismatch :
    sortHelpers.CheckStrictFilter (cmpExpr ">" (.U64Val 75)) =
      (true, some { RelPos := 0, ColPos := 0, Name := "a" },
        some { Isnull := false, Value := .U64Val 75 }) ∧
    estimateOutCntForNonEquality sortHelpers (cmpExpr ">" (.U64Val 75)) ">" "k" 1000000 1000000
      (columnStats 10 .T_int32 0 100) = some 500000 ∧
    EstimateOutCnt sortHelpers "k" 1000000 1000000 (columnStats 10 .T_int32 0 100)
      (cmpExpr ">" (.U64Val 75)) = some 500000 ∧
    calcOutCntByMinMax ">" 1000000 0 100 75 = 250000 := by
  refine ⟨rfl, ?_, ?_, ?_⟩
  · simp [estimateOutCntForNonEquality, sortHelpers, cmpExpr, strictEstimate, columnStats,
      GoMap.set, F64.ofNat_eq, F64.fin_div]
    norm_num
  · simp [EstimateOutCnt, estimateOutCntForNonEquality, sortHelpers, cmpExpr, strictEstimate,
      columnStats, GoMap.set, F64.ofNat_eq, F64.fin_div, F64.gt_fin, F64.lt_fin]
    norm_num
  · simp [calcOutCntByMinMax, F64.ofNat_eq, F64.fin_sub, F64.fin_div, F64.fin_mul]
    norm_num

end plan

namespace disttae

open plan

/-- C13, divergence: an object of two blocks that the filter excludes at the object
level, while the zone map of its second block passes the filter. `CalcStats` skips the
first block only: the second block is counted, `BlockNum = 1` and `Cost = 20`, where
the object's exclusion asks for 0 and 0; `TableCnt = 30` has the rows of both. -/
theorem CalcStats_counts_block_of_excluded_object :
    (demoEnv true).evalFilterExprWithZonemap ("o", none) eqExpr (some []) = false ∧
    (CalcStats (demoEnv true) demoBlocks eqExpr oneColTable "k" freshEntry).map
      (fun r => r.stats.map fun st => (st.BlockNum, st.Cost, st.TableCnt)) =
      some (some (1, 20, 30)) := by
  constructor
  · rfl
  · rfl

theorem walkBlocks_append {Meta : Type} (env : Env Meta) (isMonoExpr : Bool) (expr : Expr)
    (columnMap : ColumnMap) (pre : List BlockInfo) :
    ∀ (post : List BlockInfo) (w w1 : Walk Meta),
      walkBlocks env isMonoExpr expr columnMap pre w = some (.ok w1) →
      walkBlocks env isMonoExpr expr columnMap (pre ++ post) w =
        walkBlocks env isMonoExpr expr columnMap post w1 := by
  induction pre with
  | nil =>
    intro post w w1 h
    simp only [walkBlocks, Option.some.injEq, Except.ok.injEq] at h
    subst h
    rfl
  | cons blk rest ih =>
    intro post w w1 h
    simp only [List.cons_append, walkBlocks] at h ⊢
    cases hb : walkBlock env isMonoExpr expr columnMap w blk with
    | none => simp [hb] at h
    | some r =>
      cases r with
      | error e => simp [hb] at h
      | ok w2 =>
        simp only [hb] at h ⊢
        exact ih post w2 w1 h

/-- The walk over the partitions is the walk over all their blocks in order; the block
total is the number of blocks. -/
theorem walk_flatten {Meta : Type} (env : Env Meta) (isMonoExpr : Bool) (expr : Expr)
    (columnMap : ColumnMap) (blocks : List (List BlockInfo)) :
    ∀ (n : Int) (w : Walk Meta),
      walk env isMonoExpr expr columnMap blocks n w =
        match walkBlocks env isMonoExpr expr columnMap blocks.flatten w with
        | none => none
        | some (.error err) => some (.error err)
        | some (.ok w1) => some (.ok (n + blocks.flatten.length, w1)) := by
  induction blocks with
  | nil =>
    intro n w
    simp [walk, walkBlocks]
  | cons part rest ih =>
    intro n w
    simp only [walk, List.flatten_cons]
    cases hp : walkBlocks env isMonoExpr expr columnMap part w with
    | none =>
      have : walkBlocks env isMonoExpr expr columnMap (part ++ rest.flatten) w = none := by
        clear ih
        induction part generalizing w with
        | nil => simp [walkBlocks] at hp
        | cons blk tl ihp =>
          simp only [List.cons_append, walkBlocks] at hp ⊢
          cases hb : walkBlock env isMonoExpr expr columnMap w blk with
          | none => rfl
          | some r =>
            cases r with
            | error e => simp [hb] at hp
            | ok w2 =>
              simp only [hb] at hp ⊢
              exact ihp w2 hp
      simp only [this]
    | some r =>
      cases r with
      | error e =>
        have : walkBlocks env isMonoExpr expr columnMap (part ++ rest.flatten) w =
            some (.error e) := by
          clear ih
          induction part generalizing w with
          | nil => simp [walkBlocks] at hp
          | cons blk tl ihp =>
            simp only [List.cons_append, walkBlocks] at hp ⊢
            cases hb : walkBlock env isMonoExpr expr columnMap w blk with
            | none => simp [hb] at hp
            | some r =>
              cases r with
              | error e2 =>
                simp only [hb, Option.some.injEq, Except.error.injEq] at hp ⊢
                exact hp
              | ok w2 =>
                simp only [hb] at hp ⊢
                exact ihp w2 hp
        simp only [this]
      | ok w1 =>
        simp only [walkBlocks_append env isMonoExpr expr columnMap part rest.flatten w w1 hp, ih]
        cases walkBlocks env isMonoExpr expr columnMap rest.flatten w1 with
        | none => rfl
        | some r =>
          cases r with
          | error e => rfl
          | ok w2 =>
            simp only [List.length_append, Nat.cast_add, Option.some.injEq, Except.ok.injEq,
              Prod.mk.injEq, and_true]
            omega

/-- One block keeps `0 ≤ cost ≤ tableCnt`. -/
theorem walkBlock_cost_le {Meta : Type} (env : Env Meta) (isMonoExpr : Bool) (expr : Expr)
    (columnMap : ColumnMap) (w w1 : Walk Meta) (blk : BlockInfo)
    (h : walkBlock env isMonoExpr expr columnMap w blk = some (.ok w1))
    (hw : 0 ≤ w.cost ∧ w.cost ≤ w.tableCnt) : 0 ≤ w1.cost ∧ w1.cost ≤ w1.tableCnt := by
  unfold walkBlock at h
  simp only at h
  repeat' split at h
  all_goals first
    | (simp only [Option.some.injEq, Except.ok.injEq] at h
       subst h
       simp only
       omega)
    | simp at h

theorem walkBlocks_cost_le {Meta : Type} (env : Env Meta) (isMonoExpr : Bool) (expr : Expr)
    (columnMap : ColumnMap) (blocks : List BlockInfo) :
    ∀ (w w1 : Walk Meta), walkBlocks env isMonoExpr expr columnMap blocks w = some (.ok w1) →
      0 ≤ w.cost ∧ w.cost ≤ w.tableCnt → 0 ≤ w1.cost ∧ w1.cost ≤ w1.tableCnt := by
  induction blocks with
  | nil =>
    intro w w1 h hw
    simp only [walkBlocks, Option.some.injEq, Except.ok.injEq] at h
    subst h
    exact hw
  | cons blk rest ih =>
    intro w w1 h hw
    simp only [walkBlocks] at h
    cases hb : walkBlock env isMonoExpr expr columnMap w blk with
    | none => simp [hb] at h
    | some r =>
      cases r with
      | error e => simp [hb] at h
      | ok w2 =>
        simp only [hb] at h
        exact ih w2 w1 h (walkBlock_cost_le env isMonoExpr expr columnMap w w2 blk hb hw)

/-- After the walk, `0 ≤ cost ≤ tableCnt`. -/
theorem walk_cost_le {Meta : Type} (env : Env Meta) (isMonoExpr : Bool) (expr : Expr)
    (columnMap : ColumnMap) (blocks : List (List BlockInfo)) (n : Int) (w : Walk Meta)
    (h : walk env isMonoExpr expr columnMap blocks 0 {} = some (.ok (n, w))) :
    0 ≤ w.cost ∧ w.cost ≤ w.tableCnt := by
  rw [walk_flatten] at h
  cases hb : walkBlocks env isMonoExpr expr columnMap blocks.flatten {} with
  | none => simp [hb] at h
  | some r =>
    cases r with
    | error e => simp [hb] at h
    | ok w2 =>
      simp only [hb, Option.some.injEq, Except.ok.injEq, Prod.mk.injEq] at h
      obtain ⟨-, rfl⟩ := h
      exact walkBlocks_cost_le env isMonoExpr expr columnMap _ {} w2 hb
        ⟨le_refl _, le_refl _⟩

/-- The division of a number in `[1, c]` by a number `t ≥ c` lies in `(0, 1]`. -/
theorem div_in_unit (r : F64) (c t : Int) (h1 : F64.le 1 r = true)
    (h2 : F64.le r (F64.ofInt c) = true) (hct : c ≤ t) :
    F64.lt 0 (r / F64.ofInt t) = true ∧ F64.le (r / F64.ofInt t) 1 = true := by
  cases r with
  | nan => simp [F64.le, F64.one_eq] at h1
  | ninf => simp [F64.le, F64.one_eq] at h1
  | pinf => simp [F64.le, F64.ofInt] at h2
  | fin q =>
    simp only [F64.one_eq, F64.le_fin, F64.ofInt, decide_eq_true_eq] at h1 h2
    have hc : (c : ℚ) ≤ (t : ℚ) := by exact_mod_cast hct
    have ht : (0 : ℚ) < (t : ℚ) := by linarith
    rw [F64.ofInt, F64.fin_div q t (ne_of_gt ht), F64.zero_eq, F64.one_eq, F64.lt_fin,
      F64.le_fin]
    simp only [decide_eq_true_eq]
    constructor
    · exact div_pos (by linarith) ht
    · rw [div_le_one ht]
      linarith

/-- The record that the end of `CalcStats` returns. -/
theorem finishStats_spec (h : Helpers) (expr : Expr) (sortKeyName : String) (stats st : Stats)
    (s : StatsInfoMap) (r : CalcStatsResult)
    (hres : finishStats h expr sortKeyName stats s = some r) (hst : r.stats = some st) :
    st.TableCnt = stats.TableCnt ∧ st.Cost = stats.Cost ∧
    st.Selectivity = st.Outcnt / st.TableCnt ∧
    ((expr = Expr.null ∧ st.Outcnt = stats.TableCnt) ∨
      (expr ≠ Expr.null ∧
        EstimateOutCnt h sortKeyName stats.TableCnt stats.Cost s expr = some st.Outcnt)) := by
  unfold finishStats at hres
  cases expr with
  | null =>
    simp only [Option.bind_eq_bind, Option.some_bind, Option.pure_def, Option.some.injEq] at hres
    subst hres
    simp only [Option.some.injEq] at hst
    subst hst
    exact ⟨rfl, rfl, rfl, Or.inl ⟨rfl, rfl⟩⟩
  | C typ c =>
    simp only [Option.bind_eq_bind, Option.bind_eq_some, Option.pure_def,
      Option.some.injEq] at hres
    obtain ⟨outcnt, ho, hr⟩ := hres
    subst hr
    simp only [Option.some.injEq] at hst
    subst hst
    exact ⟨rfl, rfl, rfl, Or.inr ⟨by simp, ho⟩⟩
  | Col typ col =>
    simp only [Option.bind_eq_bind, Option.bind_eq_some, Option.pure_def,
      Option.some.injEq] at hres
    obtain ⟨outcnt, ho, hr⟩ := hres
    subst hr
    simp only [Option.some.injEq] at hst
    subst hst
    exact ⟨rfl, rfl, rfl, Or.inr ⟨by simp, ho⟩⟩
  | F typ f args =>
    simp only [Option.bind_eq_bind, Option.bind_eq_some, Option.pure_def,
      Option.some.injEq] at hres
    obtain ⟨outcnt, ho, hr⟩ := hres
    subst hr
    simp only [Option.some.injEq] at hst
    subst hst
    exact ⟨rfl, rfl, rfl, Or.inr ⟨by simp, ho⟩⟩
  | Other typ =>
    simp only [Option.bind_eq_bind, Option.bind_eq_some, Option.pure_def,
      Option.some.injEq] at hres
    obtain ⟨outcnt, ho, hr⟩ := hres
    subst hr
    simp only [Option.some.injEq] at hst
    subst hst
    exact ⟨rfl, rfl, rfl, Or.inr ⟨by simp, ho⟩⟩

/-- C15 (amended): every stats record that `CalcStats` returns without an error has
`Selectivity = Outcnt / TableCnt`; and when at least one row is counted (`Cost ≥ 1`)
and `Outcnt` is a number (not NaN), `Selectivity` lies in the interval `(0, 1]`. -/
theorem CalcStats_selectivity {Meta : Type} (env : Env Meta) (blocks : List (List BlockInfo))
    (expr : Expr) (tableDef : TableDef) (sortKeyName : String) (s : StatsInfoMap)
    (r : CalcStatsResult) (st : Stats)
    (hres : CalcStats env blocks expr tableDef sortKeyName s = some r)
    (hst : r.stats = some st) :
    st.Selectivity = st.Outcnt / st.TableCnt ∧
    (F64.le 1 st.Cost = true → st.Outcnt ≠ F64.nan →
      F64.lt 0 st.Selectivity = true ∧ F64.le st.Selectivity 1 = true) := by
  have hdefault : DefaultStats.Selectivity = DefaultStats.Outcnt / DefaultStats.TableCnt ∧
      (F64.lt 0 DefaultStats.Selectivity = true ∧ F64.le DefaultStats.Selectivity 1 = true) := by
    refine ⟨?_, ?_, ?_⟩
    · simp [DefaultStats, F64.ofNat_eq, F64.fin_div, F64.one_eq]
    · simp [DefaultStats, F64.one_eq, F64.zero_eq, F64.lt_fin]
    · simp [DefaultStats, F64.one_eq, F64.le_fin]
  unfold CalcStats at hres
  simp only at hres
  cases hw : walk env (env.CheckExprIsMonotonic expr) expr
      (if env.CheckExprIsMonotonic expr = true then env.GetColumnsByExpr expr tableDef else none)
      blocks 0 {} with
  | none => simp [hw] at hres
  | some res =>
    cases res with
    | error e =>
      simp only [hw, Option.some.injEq] at hres
      subst hres
      simp at hst
    | ok p =>
      obtain ⟨n, w⟩ := p
      obtain ⟨hc0, hct⟩ := walk_cost_le env _ expr _ blocks n w hw
      simp only [hw] at hres
      have hfinish : ∀ s1 : StatsInfoMap,
          finishStats env.helpers expr sortKeyName
            { BlockNum := w.blockNumNeed, TableCnt := F64.ofInt w.tableCnt,
              Cost := F64.ofInt w.cost } s1 = some r →
          st.Selectivity = st.Outcnt / st.TableCnt ∧
          (F64.le 1 st.Cost = true → st.Outcnt ≠ F64.nan →
            F64.lt 0 st.Selectivity = true ∧ F64.le st.Selectivity 1 = true) := by
        intro s1 h
        obtain ⟨ht, hc, hsel, hout⟩ := finishStats_spec _ _ _ _ st s1 r h hst
        simp only at ht hc hout
        refine ⟨hsel, ?_⟩
        intro hcost hnan
        rw [hsel, ht]
        rw [hc] at hcost
        have h1 : (1 : ℚ) ≤ (w.cost : ℚ) := by
          simpa [F64.one_eq, F64.ofInt, F64.le_fin] using hcost
        rcases hout with ⟨-, ho⟩ | ⟨hne, ho⟩
        · rw [ho]
          have h2 : (w.cost : ℚ) ≤ (w.tableCnt : ℚ) := by exact_mod_cast hct
          exact div_in_unit _ w.tableCnt w.tableCnt
            (by simp only [F64.one_eq, F64.ofInt, F64.le_fin, decide_eq_true_eq]; linarith)
            (by simp [F64.ofInt, F64.le_fin]) (le_refl _)
        · obtain ⟨oc, hoc⟩ := EstimateOutCnt_eq_clamp env.helpers sortKeyName _ _ s1 expr
            st.Outcnt hne ho
          have hb := clamp_bounds oc (F64.ofInt w.cost) hcost (by rw [← hoc]; exact hnan)
          rw [← hoc] at hb
          exact div_in_unit _ w.cost w.tableCnt hb.1 hb.2 hct
      split_ifs at hres with hneed
      · cases hg : getInfoFromZoneMap env blocks (F64.ofInt w.tableCnt) tableDef with
        | none => simp [hg] at hres
        | some gi =>
          cases gi with
          | error e =>
            simp only [hg, Option.some.injEq] at hres
            subst hres
            simp only [Option.some.injEq] at hst
            subst hst
            exact ⟨hdefault.1, fun _ _ => hdefault.2⟩
          | ok info =>
            simp only [hg] at hres
            cases hu : UpdateStatsInfoMap env.codec info n (F64.ofInt w.tableCnt) tableDef s with
            | none => simp [hu] at hres
            | some s1 =>
              simp only [hu] at hres
              exact hfinish s1 hres
      · exact hfinish s hres

/-- C15, witness: the two example blocks with a nil filter: both blocks are counted,
`Outcnt = TableCnt = 30`, and the selectivity is 1. -/
theorem CalcStats_selectivity_witness :
    ∃ r st, CalcStats (demoEnv true) demoBlocks .null oneColTable "k" freshEntry = some r ∧
      r.stats = some st ∧ st.Selectivity = st.Outcnt / st.TableCnt ∧
      (F64.le 1 st.Cost = true → st.Outcnt ≠ F64.nan →
        F64.lt 0 st.Selectivity = true ∧ F64.le st.Selectivity 1 = true) ∧
      st.Cost = 30 ∧ st.Outcnt = 30 := by
  obtain ⟨r, hr⟩ : ∃ r, CalcStats (demoEnv true) demoBlocks .null oneColTable "k" freshEntry =
      some r ∧ r.stats = some { BlockNum := 2, TableCnt := 30, Cost := 30, Outcnt := 30,
                                Selectivity := (30 : F64) / 30 } := ⟨_, rfl, rfl⟩
  obtain ⟨h1, h2⟩ := CalcStats_selectivity (demoEnv true) demoBlocks .null oneColTable "k"
    freshEntry r _ hr.1 hr.2
  exact ⟨r, _, hr.1, hr.2, h1, h2, rfl, rfl⟩

/-- C15, counterexample: an empty block list and a nil filter. `CalcStats` succeeds
with `Outcnt = 0` and `TableCnt = 0`, and `Selectivity = 0 / 0` is NaN, which is not in
`(0, 1]`. -/
theorem CalcStats_selectivity_nan :
    (CalcStats (demoEnv true) [] .null oneColTable "k" NewStatsInfoMap).map
      (fun r => (r.err, r.stats.map fun st => (st.Outcnt, st.TableCnt, st.Selectivity))) =
      some (none, some (0, 0, F64.nan)) ∧
    F64.lt 0 F64.nan = false := by
  constructor
  · rfl
  · rfl

end disttae

namespace plan

/-- C21 (amended): for every comparison filter that `CheckFilter` accepts, whose column
is off the sort key and that is not a strict filter usable for the interpolation
(`CheckStrictFilter` fails, or the constant's kind does not go with the column's type),
`estimateOutCntForNonEquality` returns `cost / 2`; it returns `cost / 10` for a filter
that `CheckFilter` does not accept. -/
theorem estimateOutCntForNonEquality_fallback (h : Helpers) (expr : Expr)
    (funcName sortKeyName : String) (tableCnt cost : F64) (s : StatsInfoMap) :
    ((h.CheckFilter expr).1 = false →
      estimateOutCntForNonEquality h expr funcName sortKeyName tableCnt cost s =
        some (cost / 10)) ∧
    (∀ col : ColRef, h.CheckFilter expr = (true, some col) →
      h.GetClusterByColumnOrder sortKeyName col.Name = -1 →
      ((h.CheckStrictFilter expr).1 = false →
        estimateOutCntForNonEquality h expr funcName sortKeyName tableCnt cost s =
          some (cost / 2)) ∧
      (∀ (col' : ColRef) (c : Const), h.CheckStrictFilter expr = (true, some col', some c) →
        strictEstimate funcName tableCnt s col' c = none →
        estimateOutCntForNonEquality h expr funcName sortKeyName tableCnt cost s =
          some (cost / 2))) := by
  constructor
  · intro hcf
    unfold estimateOutCntForNonEquality
    cases hc : h.CheckFilter expr with
    | mk ret col =>
      rw [hc] at hcf
      simp only at hcf
      subst hcf
      rfl
  · intro col hcf hso
    constructor
    · intro hsf
      cases hs : h.CheckStrictFilter expr with
      | mk ret rest =>
        rw [hs] at hsf
        simp only at hsf
        subst hsf
        simp only [estimateOutCntForNonEquality, hcf, Option.bind_eq_bind, Option.some_bind, hso,
          ne_eq, not_true_eq_false, if_false, hs, Option.pure_def]
    · intro col' c hsf hnone
      simp only [estimateOutCntForNonEquality, hcf, Option.bind_eq_bind, Option.some_bind, hso,
        ne_eq, not_true_eq_false, if_false, hsf, hnone, Option.pure_def]

/-- C21, witness: `a > 50` off the sort key, not accepted as a strict filter: the
estimate is `1000 / 2`. -/
theorem estimateOutCntForNonEquality_fallback_witness :
    estimateOutCntForNonEquality rangeHelpers (cmpExpr ">" (.I64Val 50)) ">" "k" 1000 1000
      NewStatsInfoMap = some (1000 / 2) :=
  ((estimateOutCntForNonEquality_fallback rangeHelpers (cmpExpr ">" (.I64Val 50)) ">" "k" 1000
    1000 NewStatsInfoMap).2 { RelPos := 0, ColPos := 0, Name := "a" } rfl rfl).1 rfl

/-- C21, counterexample: the comparison `a > 50` off the sort key, which is not accepted
as a strict filter, with `cost = 1000`: the estimate is `500 = cost / 2`, not
`100 = cost / 10`. -/
theorem estimateOutCntForNonEquality_not_tenth :
    rangeHelpers.CheckFilter (cmpExpr ">" (.I64Val 50)) =
      (true, some { RelPos := 0, ColPos := 0, Name := "a" }) ∧
    rangeHelpers.GetClusterByColumnOrder "k" "a" = -1 ∧
    (rangeHelpers.CheckStrictFilter (cmpExpr ">" (.I64Val 50))).1 = false ∧
    estimateOutCntForNonEquality rangeHelpers (cmpExpr ">" (.I64Val 50)) ">" "k" 1000 1000
      NewStatsInfoMap = some 500 ∧
    (1000 : F64) / 10 = 100 := by
  refine ⟨rfl, rfl, rfl, ?_, ?_⟩
  · simp [estimateOutCntForNonEquality, rangeHelpers, sortHelpers, cmpExpr, F64.ofNat_eq,
      F64.fin_div]
    norm_num
  · simp [F64.ofNat_eq, F64.fin_div]
    norm_num

end plan

namespace plan

/-- C22 (amended): for a conjunction `A and B` whose child estimates are `s1` and `s2`,
`EstimateOutCnt` returns the clamp of `(s1 + s2) - tableCnt` when `canMergeToBetweenAnd`
holds and in addition `s1 + s2 > tableCnt`, and the clamp of
`andSelectivity(s1/tableCnt, s2/tableCnt) * tableCnt` in every other case, also when
`canMergeToBetweenAnd` holds and `s1 + s2` does not exceed `tableCnt`. -/
theorem EstimateOutCnt_and (h : Helpers) (sortKeyName : String) (tableCnt cost : F64)
    (s : StatsInfoMap) (typ : Int) (a b : Expr) (rest : List Expr) (s1 s2 : F64)
    (h1 : EstimateOutCnt h sortKeyName tableCnt cost s a = some s1)
    (h2 : EstimateOutCnt h sortKeyName tableCnt cost s b = some s2) :
    ∃ outcnt : F64,
      EstimateOutCnt h sortKeyName tableCnt cost s (.F typ "and" (a :: b :: rest)) =
        some (if outcnt.gt cost then cost else if outcnt.lt 1 then 1 else outcnt) ∧
      (h.canMergeToBetweenAnd a b = true ∧ (s1 + s2).gt tableCnt = true →
        outcnt = (s1 + s2) - tableCnt) ∧
      (¬ (h.canMergeToBetweenAnd a b = true ∧ (s1 + s2).gt tableCnt = true) →
        outcnt = andSelectivity h (s1 / tableCnt) (s2 / tableCnt) * tableCnt) := by
  by_cases hg : h.canMergeToBetweenAnd a b = true ∧ (s1 + s2).gt tableCnt = true
  · refine ⟨(s1 + s2) - tableCnt, ?_, fun _ => rfl, fun hn => absurd hg hn⟩
    rw [EstimateOutCnt]
    simp [h1, h2, hg]
  · refine ⟨andSelectivity h (s1 / tableCnt) (s2 / tableCnt) * tableCnt, ?_,
      fun hp => absurd hp hg, fun _ => rfl⟩
    rw [EstimateOutCnt]
    simp [h1, h2, hg]

/-- C22, witness: the conjunction of two comparisons, each estimated at 500 of 1000
rows. -/
theorem EstimateOutCnt_and_witness :
    ∃ outcnt : F64,
      EstimateOutCnt rangeHelpers "k" 1000 1000 NewStatsInfoMap
          (.F 0 "and" (cmpExpr ">" (.I64Val 50) :: cmpExpr ">" (.I64Val 50) :: [])) =
        some (if outcnt.gt 1000 then 1000 else if outcnt.lt 1 then 1 else outcnt) ∧
      (rangeHelpers.canMergeToBetweenAnd (cmpExpr ">" (.I64Val 50)) (cmpExpr ">" (.I64Val 50))
          = true ∧ ((500 : F64) + 500).gt 1000 = true →
        outcnt = ((500 : F64) + 500) - 1000) ∧
      (¬ (rangeHelpers.canMergeToBetweenAnd (cmpExpr ">" (.I64Val 50))
          (cmpExpr ">" (.I64Val 50)) = true ∧ ((500 : F64) + 500).gt 1000 = true) →
        outcnt = andSelectivity rangeHelpers ((500 : F64) / 1000) ((500 : F64) / 1000) * 1000) :=
  EstimateOutCnt_and rangeHelpers "k" 1000 1000 NewStatsInfoMap 0 (cmpExpr ">" (.I64Val 50))
    (cmpExpr ">" (.I64Val 50)) [] 500 500
    (by
      simp [EstimateOutCnt, estimateOutCntForNonEquality, rangeHelpers, sortHelpers, cmpExpr,
        F64.ofNat_eq, F64.fin_div, F64.gt_fin, F64.lt_fin]
      norm_num)
    (by
      simp [EstimateOutCnt, estimateOutCntForNonEquality, rangeHelpers, sortHelpers, cmpExpr,
        F64.ofNat_eq, F64.fin_div, F64.gt_fin, F64.lt_fin]
      norm_num)

/-- C22, counterexample: `a > 50 and a > 50` over a table of 1000 rows, with
`canMergeToBetweenAnd` true and both child estimates 500: `s1 + s2 = 1000` does not
exceed `tableCnt`, and the estimate is `andSelectivity(0.5, 0.5) * 1000 = 250`, whereas
`(s1 + s2) - tableCnt = 0` would be clamped to 1. -/
theorem EstimateOutCnt_and_range_not_subtracted :
    rangeHelpers.canMergeToBetweenAnd (cmpExpr ">" (.I64Val 50)) (cmpExpr ">" (.I64Val 50))
      = true ∧
    EstimateOutCnt rangeHelpers "k" 1000 1000 NewStatsInfoMap (cmpExpr ">" (.I64Val 50))
      = some 500 ∧
    EstimateOutCnt rangeHelpers "k" 1000 1000 NewStatsInfoMap rangeExpr = some 250 ∧
    (let outcnt : F64 := ((500 : F64) + 500) - 1000
     (if outcnt.gt 1000 then (1000 : F64) else if outcnt.lt 1 then 1 else outcnt) = 1) := by
  have hc : EstimateOutCnt rangeHelpers "k" 1000 1000 NewStatsInfoMap (cmpExpr ">" (.I64Val 50))
      = some 500 := by
    simp [EstimateOutCnt, estimateOutCntForNonEquality, rangeHelpers, sortHelpers, cmpExpr,
      F64.ofNat_eq, F64.fin_div, F64.gt_fin, F64.lt_fin]
    norm_num
  refine ⟨rfl, hc, ?_, ?_⟩
  · rw [rangeExpr, EstimateOutCnt]
    simp only [hc]
    simp [rangeHelpers, andSelectivity, F64.ofNat_eq, F64.ofScientific_eq, F64.fin_div, F64.fin_add,
      F64.fin_mul, F64.gt_fin, F64.lt_fin]
    norm_num [F64.gt_fin, F64.lt_fin]
  · simp [F64.ofNat_eq, F64.fin_add, F64.fin_sub, F64.gt_fin, F64.lt_fin]
    norm_num

end plan

namespace jobs

/-- The list the partition loop adds for `n` rows left: blocks of `m` rows and the
remainder. -/
theorem partitionRows_acc (m : Nat) (hm : 0 < m) (hm32 : m < 2 ^ 32) :
    ∀ (fuel n : Nat) (acc : List Nat), n < fuel →
      partitionRows m fuel (n : Int) acc =
        some (acc ++ (List.replicate ((n + m - 1) / m - 1) m ++
          (if n = 0 then [] else [n - ((n + m - 1) / m - 1) * m]))) := by
  intro fuel
  induction fuel with
  | zero => intro n acc h; omega
  | succ fuel ih =>
    intro n acc hlt
    rw [partitionRows]
    by_cases hn : n = 0
    · subst hn
      have h0 : (m - 1) / m = 0 := Nat.div_eq_of_lt (by omega)
      simp [h0]
    · have hpos : ((n : Int) > 0) := by omega
      rw [if_pos hpos]
      by_cases hgt : (n : Int) > (m : Int)
      · rw [if_pos hgt]
        have hnm : m < n := by omega
        have hcast : (n : Int) - (m : Int) = ((n - m : Nat) : Int) := by omega
        rw [hcast, ih (n - m) (acc ++ [m]) (by omega)]
        have hq : (n + m - 1) / m = (n - m + m - 1) / m + 1 := by
          have : n + m - 1 = (n - m + m - 1) + m := by omega
          rw [this, Nat.add_div_right _ hm]
        have hq1 : 1 ≤ (n - m + m - 1) / m := by
          apply (Nat.one_le_div_iff hm).mpr
          omega
        have hne : n - m ≠ 0 := by omega
        obtain ⟨k, hk⟩ : ∃ k, (n - m + m - 1) / m = k + 1 := ⟨_, (Nat.sub_add_cancel hq1).symm⟩
        rw [hq, hk]
        simp only [Nat.add_sub_cancel, if_neg hn, if_neg hne, List.replicate_succ,
          List.append_assoc, List.singleton_append, List.cons_append, Nat.succ_mul, Nat.add_mul,
          Nat.one_mul]
        have hsub : n - m - k * m = n - (k * m + m) := by omega
        simp only [List.nil_append, hsub]
      · rw [if_neg hgt]
        have hle : n ≤ m := by omega
        have hq : (n + m - 1) / m = 1 := by
          have : n + m - 1 = (n - 1) + m := by omega
          rw [this, Nat.add_div_right _ hm, Nat.div_eq_of_lt (by omega)]
        have hmod : ((n : Int) % 4294967296).toNat = n := by omega
        simp [hq, hn, hmod]

/-- C26: for every total of surviving rows `n ≥ 0` and every `BlockMaxRows` `m > 0`
(a `uint32`), the partition loop of the merge task terminates, after at most `n + 1`
tests of its condition, with `to = [m, …, m, remainder]`: `to` has `ceil(n/m)` entries
(none when `n = 0`), every entry but the last is `m`, the last lies in `1..m`, and the
entries sum to `n`. -/
theorem partitionRows_spec (n m : Nat) (hm : 0 < m) (hm32 : m < 2 ^ 32) (fuel : Nat)
    (hfuel : n < fuel) :
    ∃ to_ : List Nat, partitionRows m fuel (n : Int) [] = some to_ ∧
      to_.length = (n + m - 1) / m ∧
      (n = 0 → to_ = []) ∧
      to_.dropLast = List.replicate (to_.length - 1) m ∧
      (∀ last ∈ to_.getLast?, 1 ≤ last ∧ last ≤ m) ∧
      to_.sum = n := by
  refine ⟨_, partitionRows_acc m hm hm32 fuel n [] hfuel, ?_⟩
  by_cases hn : n = 0
  · subst hn
    have h0 : (m - 1) / m = 0 := Nat.div_eq_of_lt (by omega)
    simp [h0]
  · have hq1 : 1 ≤ (n + m - 1) / m := by
      apply (Nat.one_le_div_iff hm).mpr
      omega
    obtain ⟨k, hk⟩ : ∃ k, (n + m - 1) / m = k + 1 := ⟨_, (Nat.sub_add_cancel hq1).symm⟩
    have hlo : (k + 1) * m ≤ n + m - 1 := by
      rw [← hk]
      exact Nat.div_mul_le_self _ _
    have hhi : n + m - 1 < (k + 1) * m + m := by
      have := Nat.lt_div_mul_add (a := n + m - 1) hm
      rw [hk] at this
      exact this
    rw [Nat.succ_mul] at hlo hhi
    simp only [hk, Nat.add_sub_cancel, if_neg hn, List.nil_append, List.length_append,
      List.length_replicate, List.length_singleton, true_and, hn, false_imp_iff,
      List.dropLast_concat, List.getLast?_concat, Option.mem_def, Option.some.injEq,
      List.sum_append, List.sum_replicate, List.sum_singleton, smul_eq_mul, if_false]
    refine ⟨?_, ?_⟩
    · intro last hl
      subst hl
      constructor <;> omega
    · omega

/-- C26, witness: 10 rows in blocks of at most 4 give `to = [4, 4, 2]`. -/
theorem partitionRows_spec_witness :
    ∃ to_ : List Nat, partitionRows 4 11 ((10 : Nat) : Int) [] = some to_ ∧
      to_.length = (10 + 4 - 1) / 4 ∧
      (10 = 0 → to_ = []) ∧
      to_.dropLast = List.replicate (to_.length - 1) 4 ∧
      (∀ last ∈ to_.getLast?, 1 ≤ last ∧ last ≤ 4) ∧
      to_.sum = 10 :=
  partitionRows_spec 10 4 (by decide) (by decide) 11 (by decide)

end jobs

namespace seq

/-- The int32 conversion of the negation in `int64` is that of the exact negation. -/
theorem conv_int32_neg (v : Int) :
    IntType.int32.conv (IntType.int64.conv (-v)) = IntType.int32.conv (-v) := by
  simp only [IntType.conv, IntType.signed, IntType.bits, if_true]
  omega

/-- C29: in the `int32` arm of `nextval` the guard on the increment is vacuous. For a
sequence row of `int32` values that was called before and every `int64` increment
`incrv`, the condition `incrv > MaxInt64 || incrv < MinInt64` is false, and `nextval`
returns what `advanceSeq` returns for the increment `makePosIncr[int32](incrv)`, with
`setEdge` false; that increment is `|incrv|` converted to `int32`, whatever the size
of `incrv`. -/
theorem nextval_int32_guard_vacuous (env : Env) (sess : Session) (tblname : String) (rel : Nat)
    (lsn minv maxv startv incrv : Int) (cycle : Bool) (rest : List Value)
    (hincr : -2 ^ 63 ≤ incrv ∧ incrv < 2 ^ 63)
    (hdb : env.openDatabase env.Database = none)
    (hrel : env.Relation env.Database tblname = .ok rel)
    (htd : env.TableDefs rel = .ok (some env.SystemSequenceRel))
    (hsel : env.ExecSql (selectStmt env.Database tblname) =
      .ok (some (.int .int32 lsn :: .int .int32 minv :: .int .int32 maxv :: .int .int32 startv ::
        .int .int64 incrv :: .bool cycle :: .bool true :: rest))) :
    ¬ (incrv > MaxInt64 ∨ incrv < MinInt64) ∧
    nextval env sess tblname =
      some (advanceSeq env
        { sess with executed := sess.executed ++ [selectStmt env.Database tblname] }
        .int32 lsn minv maxv (makePosIncr .int32 incrv) cycle (decide (incrv < 0)) false
        rel env.Database tblname) ∧
    makePosIncr .int32 incrv = IntType.int32.conv |incrv| := by
  have hg : ¬ (incrv > MaxInt64 ∨ incrv < MinInt64) := by
    simp only [MaxInt64, MinInt64]
    omega
  refine ⟨hg, ?_, ?_⟩
  · simp only [nextval, hdb, hrel, htd, ne_eq, not_true_eq_false, if_false, hsel, nextvalSwitch,
      List.getElem?_cons_zero, readRow, Value.asInt, Value.asBool, List.getElem?_cons_succ,
      if_true, Option.bind_eq_bind, Option.some_bind, Option.pure_def, hg, setEdge,
      Bool.not_true, Bool.true_eq_false, Bool.false_eq_true]
  · unfold makePosIncr
    split_ifs with hneg
    · rw [conv_int32_neg, abs_of_neg hneg]
    · rw [abs_of_nonneg (by omega)]

/-- C29, witness: with the increment `2^32 + 5` and no cycling the guard does not stop
the call; `advanceSeq` receives the increment 5 and sets the sequence to 6. -/
theorem nextval_int32_guard_vacuous_witness :
    (¬ ((4294967301 : Int) > MaxInt64 ∨ (4294967301 : Int) < MinInt64) ∧
      nextval (demoEnv 4294967301 false) {} "s" =
        some (advanceSeq (demoEnv 4294967301 false)
          { ({} : Session) with
            executed := ({} : Session).executed ++
              [selectStmt (demoEnv 4294967301 false).Database "s"] }
          .int32 1 1 100 (makePosIncr .int32 4294967301) false (decide ((4294967301 : Int) < 0))
          false 7 (demoEnv 4294967301 false).Database "s") ∧
      makePosIncr .int32 4294967301 = IntType.int32.conv |(4294967301 : Int)|) ∧
    makePosIncr .int32 4294967301 = 5 ∧
    (nextval (demoEnv 4294967301 false) {} "s").map (fun r => r.1) = some ("6", none) :=
  ⟨nextval_int32_guard_vacuous (demoEnv 4294967301 false) {} "s" 7 1 1 100 1 4294967301 false []
    (by decide) rfl rfl rfl rfl, by decide, by rfl⟩

end seq

namespace F64

theorem min_fin (a b : ℚ) : min (fin a) (fin b) = fin (Min.min a b) := by
  simp only [min, lt_fin]
  by_cases h : a < b
  · simp [h, le_of_lt h]
  · simp [h, not_lt.mp h]

theorem max_fin (a b : ℚ) : max (fin a) (fin b) = fin (Max.max a b) := by
  simp only [max, lt_fin]
  by_cases h : b < a
  · simp [h, le_of_lt h]
  · simp [h, not_lt.mp h]

/-- The lower bound `if ndv < 1 { ndv = 1 }` is `math.Max(1, ndv)`. -/
theorem max_one (x : F64) : (if x.lt 1 then 1 else x) = max 1 x := by
  cases x <;> simp [max, lt, one_eq]

end F64

namespace plan

/-- The result of `ReCalcNodeStats` on a join node whose two children have stats after
the loop over the children: the node receives the stats of the join case. -/
theorem ReCalcNodeStats_join (h : Helpers) (cc : CompilerContext) (fuel : Nat)
    (builder b1 : QueryBuilder) (nodeID : Int) (recursive leafNode : Bool)
    (node0 node left right : Node) (c0 c1 : Int) (L R : Stats)
    (hnode0 : builder.qry.node nodeID = some node0)
    (hloop : (if recursive then
        if node0.Children.length > 0 then
          node0.Children.foldlM
            (fun b child => ReCalcNodeStats h cc fuel b child recursive leafNode) builder
        else some builder
      else some builder) = some b1)
    (hnode : b1.qry.node nodeID = some node) (hty : node.NodeType = .JOIN)
    (hch : node.Children = [c0, c1])
    (hl : b1.qry.node c0 = some left) (hr : b1.qry.node c1 = some right)
    (hL : left.Stats = some L) (hR : right.Stats = some R) :
    ReCalcNodeStats h cc (fuel + 1) builder nodeID recursive leafNode =
      some (b1.setNode nodeID { node with Stats := some (joinStats h node.JoinType L R) }) := by
  rw [ReCalcNodeStats]
  simp only [hnode0, hloop]
  simp [recalcNode, hnode, readChildStats, readSideStats, hch, hl, hr, hL, hR, switchStats, hty]

end plan

namespace plan

/-- C24 (amended): on a LEFT, RIGHT or OUTER join node whose children have the stats `L`
and `R` when the loop over the children is done, `ReCalcNodeStats` returns and sets
`Outcnt` to the inner estimate `L.Outcnt * R.Outcnt / ndv * sel` plus the preserved
rows: `L.Outcnt` for LEFT, `R.Outcnt` for RIGHT, and `L.Outcnt + R.Outcnt`, the rows of
both sides, for OUTER. -/
theorem ReCalcNodeStats_preserved_rows (h : Helpers) (cc : CompilerContext) (fuel : Nat)
    (builder b1 : QueryBuilder) (nodeID : Int) (recursive leafNode : Bool)
    (node0 node left right : Node) (c0 c1 : Int) (L R : Stats)
    (hnode0 : builder.qry.node nodeID = some node0)
    (hloop : (if recursive then
        if node0.Children.length > 0 then
          node0.Children.foldlM
            (fun b child => ReCalcNodeStats h cc fuel b child recursive leafNode) builder
        else some builder
      else some builder) = some b1)
    (hnode : b1.qry.node nodeID = some node) (hty : node.NodeType = .JOIN)
    (hjt : node.JoinType = .LEFT ∨ node.JoinType = .RIGHT ∨ node.JoinType = .OUTER)
    (hch : node.Children = [c0, c1])
    (hl : b1.qry.node c0 = some left) (hr : b1.qry.node c1 = some right)
    (hL : left.Stats = some L) (hR : right.Stats = some R) :
    ∃ st : Stats,
      ReCalcNodeStats h cc (fuel + 1) builder nodeID recursive leafNode =
        some (b1.setNode nodeID { node with Stats := some st }) ∧
      st.Outcnt =
        L.Outcnt * R.Outcnt / F64.max 1 (F64.min L.Outcnt R.Outcnt) *
            h.Pow R.Selectivity (h.Pow L.Selectivity 0.5) +
          (match node.JoinType with
           | .LEFT => L.Outcnt
           | .RIGHT => R.Outcnt
           | _ => L.Outcnt + R.Outcnt) := by
  refine ⟨joinStats h node.JoinType L R,
    ReCalcNodeStats_join h cc fuel builder b1 nodeID recursive leafNode node0 node left right
      c0 c1 L R hnode0 hloop hnode hty hch hl hr hL hR, ?_⟩
  rcases hjt with hjt | hjt | hjt <;>
    simp only [hjt, joinStats, F64.max_one, Bool.false_eq_true, not_false_eq_true, if_true]

/-- C24, witness: the outer join of children with 10 and 20 rows. -/
theorem ReCalcNodeStats_preserved_rows_witness :
    ∃ st : Stats,
      ReCalcNodeStats noHelpers demoContext (0 + 1) (statsJoin .OUTER 10 20) 0 false false =
        some ((statsJoin .OUTER 10 20).setNode 0 { joinNode .OUTER with Stats := some st }) ∧
      st.Outcnt =
        (10 : F64) * 20 / F64.max 1 (F64.min 10 20) * noHelpers.Pow 1 (noHelpers.Pow 1 0.5) +
          (match (joinNode .OUTER).JoinType with
           | .LEFT => (10 : F64)
           | .RIGHT => (20 : F64)
           | _ => (10 : F64) + 20) :=
  ReCalcNodeStats_preserved_rows noHelpers demoContext 0 (statsJoin .OUTER 10 20)
    (statsJoin .OUTER 10 20) 0 false false (joinNode .OUTER) (joinNode .OUTER)
    { NodeType := .TABLE_SCAN, NodeId := 1, Stats := some { Outcnt := 10, Selectivity := 1 } }
    { NodeType := .TABLE_SCAN, NodeId := 2, Stats := some { Outcnt := 20, Selectivity := 1 } }
    1 2 { Outcnt := 10, Selectivity := 1 } { Outcnt := 20, Selectivity := 1 }
    rfl rfl rfl rfl (Or.inr (Or.inr rfl)) rfl rfl rfl rfl rfl

/-- C24, counterexample: the outer join of children with 10 and 20 rows, both of
selectivity 1. The inner estimate is 20 and the join receives `Outcnt = 50`, the inner
estimate plus the rows of both children; with the rows of one child it would be 30
or 40. -/
theorem ReCalcNodeStats_outer_adds_both :
    innerEstimate noHelpers { Outcnt := 10, Selectivity := 1 } { Outcnt := 20, Selectivity := 1 }
      = 20 ∧
    (ReCalcNodeStats noHelpers demoContext 1 (statsJoin .OUTER 10 20) 0 false false).bind
      (fun b => b.outcnt 0) = some 50 ∧
    (50 : F64) ≠ 20 + 10 ∧ (50 : F64) ≠ 20 + 20 := by
  have hi : innerEstimate noHelpers { Outcnt := 10, Selectivity := 1 }
      { Outcnt := 20, Selectivity := 1 } = 20 := by
    simp only [innerEstimate, noHelpers, F64.ofNat_eq, F64.one_eq, F64.min_fin, F64.max_fin,
      F64.fin_mul]
    rw [F64.fin_div _ _ (by norm_num), F64.fin_mul]
    norm_num
  refine ⟨hi, ?_, ?_, ?_⟩
  · rw [ReCalcNodeStats_join noHelpers demoContext 0 (statsJoin .OUTER 10 20)
      (statsJoin .OUTER 10 20) 0 false false (joinNode .OUTER) (joinNode .OUTER)
      { NodeType := .TABLE_SCAN, NodeId := 1, Stats := some { Outcnt := 10, Selectivity := 1 } }
      { NodeType := .TABLE_SCAN, NodeId := 2, Stats := some { Outcnt := 20, Selectivity := 1 } }
      1 2 { Outcnt := 10, Selectivity := 1 } { Outcnt := 20, Selectivity := 1 }
      rfl rfl rfl rfl rfl rfl rfl rfl rfl]
    have hj : (joinStats noHelpers (joinNode .OUTER).JoinType { Outcnt := 10, Selectivity := 1 }
        { Outcnt := 20, Selectivity := 1 }).Outcnt = 50 := by
      have hi2 := hi
      simp only [innerEstimate] at hi2
      simp only [joinNode, joinStats, F64.max_one, Bool.false_eq_true, not_false_eq_true,
        if_true, hi2]
      simp [F64.ofNat_eq, F64.fin_add]
      norm_num
    simp only [Option.some_bind, QueryBuilder.outcnt]
    rw [node_setNode (statsJoin .OUTER 10 20) 0 (joinNode .OUTER) _ rfl]
    simp only [if_true, Option.bind_eq_bind, Option.some_bind, hj]
    rfl
  · simp [F64.ofNat_eq, F64.fin_add]
    norm_num
  · simp [F64.ofNat_eq, F64.fin_add]
    norm_num

end plan

namespace plan

theorem typeWeight_fin (ids : TypeIds) (id : Int) :
    ∃ k : ℚ, 0 ≤ k ∧ k ≤ 128 ∧ ∀ q : ℚ, typeWeight ids id (F64.fin q) = F64.fin (q + k) := by
  unfold typeWeight
  split_ifs
  · exact ⟨64, by norm_num, by norm_num, fun q => by simp [F64.ofNat_eq, F64.fin_add]⟩
  · exact ⟨128, by norm_num, by norm_num, fun q => by simp [F64.ofNat_eq, F64.fin_add]⟩
  · exact ⟨4, by norm_num, by norm_num, fun q => by simp [F64.ofNat_eq, F64.fin_add]⟩
  · exact ⟨0, by norm_num, by norm_num, fun q => by simp⟩

theorem funcWeight_fin (name : String) :
    ∃ k : ℚ, 1 ≤ k ∧ (name = "like" → k = 10) ∧ (name = "=" → k = 1) ∧
      ∀ q : ℚ, funcWeight name (F64.fin q) = F64.fin (q + k) := by
  unfold funcWeight
  split_ifs with h1 h2 h3
  · exact ⟨10, by norm_num, fun _ => rfl, fun h => by rw [h1] at h; simp at h,
      fun q => by simp [F64.ofNat_eq, F64.fin_add]⟩
  · exact ⟨5, by norm_num, fun h => absurd h h1, fun h => by rw [h2] at h; simp at h,
      fun q => by simp [F64.ofNat_eq, F64.fin_add]⟩
  · refine ⟨11 / 10, by norm_num, fun h => absurd h h1, fun h => ?_,
      fun q => by simp [F64.ofScientific_eq, F64.fin_add]; norm_num⟩
    rcases h3 with h3 | h3 <;> rw [h3] at h <;> simp at h
  · exact ⟨1, by norm_num, fun h => absurd h h1, fun _ => rfl,
      fun q => by simp [F64.ofNat_eq, F64.fin_add]⟩

/-- The scaling of a monotonic filter's weight keeps a finite weight finite and at most
as large. -/
theorem monoScale_fin (b : Bool) (q : ℚ) (hq : 0 ≤ q) :
    ∃ q1 : ℚ, (if b = true then F64.fin q * 0.1 else F64.fin q) = F64.fin q1 ∧ 0 ≤ q1 ∧ q1 ≤ q ∧
      (b = false → q1 = q) ∧ (b = true → q1 = q / 10) := by
  cases b
  · exact ⟨q, by simp, hq, le_refl _, fun _ => rfl, fun h => by simp at h⟩
  · refine ⟨q / 10, ?_, by positivity, by linarith, fun h => by simp at h, fun _ => rfl⟩
    simp [F64.ofScientific_eq, F64.fin_mul]
    norm_num
    ring

mutual
/-- A weight computed from a finite non-negative start is finite and non-negative. -/
theorem estimateFilterWeight_fin (ids : TypeIds) (mono : Expr → Bool) :
    ∀ (e : Expr) (q : ℚ), 0 ≤ q → ∀ r : F64, estimateFilterWeight ids mono e (F64.fin q) = some r →
      ∃ q1 : ℚ, r = F64.fin q1 ∧ 0 ≤ q1
  | .null, q, _, r, h => by simp [estimateFilterWeight] at h
  | .F typ name args, q, hq, r, h => by
    obtain ⟨k1, hk1, -, ht⟩ := typeWeight_fin ids typ
    obtain ⟨k2, hk2, -, -, hf⟩ := funcWeight_fin name
    rw [estimateFilterWeight, ht, hf] at h
    cases hl : estimateFilterWeights ids mono args (F64.fin (q + k1 + k2)) with
    | none => rw [hl] at h; simp at h
    | some w =>
      rw [hl] at h
      obtain ⟨q2, hq2, hge⟩ :=
        estimateFilterWeights_fin ids mono args (q + k1 + k2) (by linarith) w hl
      subst hq2
      obtain ⟨q3, h3, h30, -, -, -⟩ := monoScale_fin (mono (.F typ name args)) q2 (by linarith)
      simp only [Option.some.injEq] at h
      exact ⟨q3, by rw [← h, h3], h30⟩
  | .C typ c, q, hq, r, h => by
    obtain ⟨k1, hk1, -, ht⟩ := typeWeight_fin ids typ
    simp only [estimateFilterWeight, ht, Option.some.injEq] at h
    obtain ⟨q3, h3, h30, -, -, -⟩ := monoScale_fin (mono (.C typ c)) (q + k1) (by linarith)
    exact ⟨q3, by rw [← h, h3], h30⟩
  | .Col typ col, q, hq, r, h => by
    obtain ⟨k1, hk1, -, ht⟩ := typeWeight_fin ids typ
    simp only [estimateFilterWeight, ht, Option.some.injEq] at h
    obtain ⟨q3, h3, h30, -, -, -⟩ := monoScale_fin (mono (.Col typ col)) (q + k1) (by linarith)
    exact ⟨q3, by rw [← h, h3], h30⟩
  | .Other typ, q, hq, r, h => by
    obtain ⟨k1, hk1, -, ht⟩ := typeWeight_fin ids typ
    simp only [estimateFilterWeight, ht, Option.some.injEq] at h
    obtain ⟨q3, h3, h30, -, -, -⟩ := monoScale_fin (mono (.Other typ)) (q + k1) (by linarith)
    exact ⟨q3, by rw [← h, h3], h30⟩
/-- The loop over the arguments adds finite non-negative weights to a finite start. -/
theorem estimateFilterWeights_fin (ids : TypeIds) (mono : Expr → Bool) :
    ∀ (args : List Expr) (q : ℚ), 0 ≤ q → ∀ r : F64,
      estimateFilterWeights ids mono args (F64.fin q) = some r → ∃ q1 : ℚ, r = F64.fin q1 ∧ q ≤ q1
  | [], q, _, r, h => by
    simp only [estimateFilterWeights, Option.some.injEq] at h
    exact ⟨q, h.symm, le_refl _⟩
  | child :: rest, q, hq, r, h => by
    rw [estimateFilterWeights] at h
    cases hc : estimateFilterWeight ids mono child 0 with
    | none => rw [hc] at h; simp at h
    | some c =>
      rw [hc] at h
      obtain ⟨qc, hqc, hc0⟩ := estimateFilterWeight_fin ids mono child 0 (le_refl _) c hc
      subst hqc
      simp only [F64.fin_add] at h
      obtain ⟨q1, hq1, hge⟩ :=
        estimateFilterWeights_fin ids mono rest (q + qc) (by linarith) r h
      exact ⟨q1, hq1, by linarith⟩
end

theorem weight_eqExpr :
    estimateFilterWeight demoSortEnv.ids demoSortEnv.CheckExprIsMonotonic eqExpr 0 =
      some (F64.fin (1 / 10)) := by
  simp [estimateFilterWeight, estimateFilterWeights, eqExpr, constExpr, demoSortEnv, typeWeight,
    funcWeight, F64.ofNat_eq, F64.ofScientific_eq, F64.fin_add, F64.fin_mul]
  norm_num

theorem weight_eqExprB :
    estimateFilterWeight demoSortEnv.ids demoSortEnv.CheckExprIsMonotonic eqExprB 0 =
      some (F64.fin (1 / 10)) := by
  simp [estimateFilterWeight, estimateFilterWeights, eqExprB, constExpr, demoSortEnv, typeWeight,
    funcWeight, F64.ofNat_eq, F64.ofScientific_eq, F64.fin_add, F64.fin_mul]
  norm_num

theorem less_eq_eqB : lessWeight demoSortEnv eqExpr eqExprB = true := by
  simp only [lessWeight, weight_eqExpr, weight_eqExprB, F64.le_fin]
  norm_num

end plan

namespace F64

end F64

namespace disttae

open plan

end disttae

namespace compare

theorem NumericGreatEqual_entry {T : Type} (ge : T → T → Bool) (av bv : List T) (cv : List Bool)
    (hab : av.length = bv.length) (hbc : bv.length = cv.length) :
    (NumericGreatEqual ge av bv cv).1 = none ∧
    (NumericGreatEqual ge av bv cv).2.length = cv.length ∧
    ∀ (i : Nat) (x y : T), av[i]? = some x → bv[i]? = some y →
      (NumericGreatEqual ge av bv cv).2[i]? = some (ge x y) := by
  refine ⟨rfl, by simp [NumericGreatEqual], ?_⟩
  intro i x y hx hy
  have hi : i < cv.length := by
    rcases List.getElem?_eq_some_iff.mp hx with ⟨h, -⟩
    omega
  simp only [NumericGreatEqual, List.getElem?_map, List.getElem?_range hi, Option.map_some', hx,
    hy]

/-- C30: for null-free vectors `a`, `b` and `cv` of equal length, `NumericGreatEqual[T]`
returns no error and sets `cv[i] = (a[i] >= b[i])` at every index, for the integer and
the float types; for `bool` it sets `cv[i] = a[i] || !b[i]`; `Decimal64VecGe` and
`Decimal128VecGe` return no error and set `cv[i] = (a[i] >= b[i])` under the decimal
comparison. -/
theorem NumericGreatEqual_pointwise (n : Nat) :
    (∀ (a b : List Int) (cv : List Bool), a.length = n → b.length = n → cv.length = n →
      (NumericGreatEqual geInt a b cv).1 = none ∧ (NumericGreatEqual geInt a b cv).2.length = n ∧
      ∀ (i : Nat) (x y : Int), a[i]? = some x → b[i]? = some y →
        (NumericGreatEqual geInt a b cv).2[i]? = some (decide (x ≥ y))) ∧
    (∀ (a b : List F64) (cv : List Bool), a.length = n → b.length = n → cv.length = n →
      (NumericGreatEqual geFloat a b cv).1 = none ∧
      (NumericGreatEqual geFloat a b cv).2.length = n ∧
      ∀ (i : Nat) (x y : F64), a[i]? = some x → b[i]? = some y →
        (NumericGreatEqual geFloat a b cv).2[i]? = some (F64.le y x)) ∧
    (∀ (a b : List Bool) (cv : List Bool), a.length = n → b.length = n → cv.length = n →
      (NumericGreatEqual geBool a b cv).1 = none ∧ (NumericGreatEqual geBool a b cv).2.length = n ∧
      ∀ (i : Nat) (x y : Bool), a[i]? = some x → b[i]? = some y →
        (NumericGreatEqual geBool a b cv).2[i]? = some (x || !y)) ∧
    (∀ (a b : List Int) (cv : List Bool), a.length = n → b.length = n → cv.length = n →
      (Decimal64VecGe a b cv).1 = none ∧ (Decimal128VecGe a b cv).1 = none ∧
      ∀ (i : Nat) (x y : Int), a[i]? = some x → b[i]? = some y →
        (Decimal64VecGe a b cv).2[i]? = some (decide (x ≥ y)) ∧
        (Decimal128VecGe a b cv).2[i]? = some (decide (x ≥ y))) := by
  refine ⟨?_, ?_, ?_, ?_⟩
  · intro a b cv ha hb hc
    obtain ⟨h1, h2, h3⟩ := NumericGreatEqual_entry geInt a b cv (by omega) (by omega)
    exact ⟨h1, by omega, h3⟩
  · intro a b cv ha hb hc
    obtain ⟨h1, h2, h3⟩ := NumericGreatEqual_entry geFloat a b cv (by omega) (by omega)
    exact ⟨h1, by omega, h3⟩
  · intro a b cv ha hb hc
    obtain ⟨h1, h2, h3⟩ := NumericGreatEqual_entry geBool a b cv (by omega) (by omega)
    exact ⟨h1, by omega, h3⟩
  · intro a b cv ha hb hc
    obtain ⟨h1, h2, h3⟩ := NumericGreatEqual_entry geInt a b cv (by omega) (by omega)
    exact ⟨h1, h1, fun i x y hx hy => ⟨h3 i x y hx hy, h3 i x y hx hy⟩⟩

/-- C30, witness: the vectors of `TestI32Ge`, and the results that `TestI32Ge`,
`TestBoolGe`, `TestDec64Ge` and `TestDec128Ge` expect. -/
theorem NumericGreatEqual_pointwise_witness :
    ((NumericGreatEqual geInt testI32As testI32Bs (List.replicate 10 false)).1 = none ∧
      (NumericGreatEqual geInt testI32As testI32Bs (List.replicate 10 false)).2.length = 10 ∧
      ∀ (i : Nat) (x y : Int), testI32As[i]? = some x → testI32Bs[i]? = some y →
        (NumericGreatEqual geInt testI32As testI32Bs (List.replicate 10 false)).2[i]? =
          some (decide (x ≥ y))) ∧
    (NumericGreatEqual geInt testI32As testI32Bs (List.replicate 10 false)).2 =
      (List.range 10).map (fun i => decide ((4 : Int) ≥ (i : Int) - 3)) ∧
    (NumericGreatEqual geBool testBoolAs testBoolBs [false, false]).2 = [true, true] ∧
    (Decimal64VecGe testDec64As testDec64Bs (List.replicate 10 false)).2 =
      (List.range 10).map (fun i => decide ((i : Int) + 5 ≥ 3 * (i : Int))) ∧
    (Decimal128VecGe testDec128As testDec64Bs (List.replicate 10 false)).2 =
      (List.range 10).map (fun i => decide ((i : Int) ≥ 3 * (i : Int))) :=
  ⟨(NumericGreatEqual_pointwise 10).1 testI32As testI32Bs (List.replicate 10 false) rfl rfl rfl,
    by rfl, by rfl, by rfl, by rfl⟩

end compare

namespace disttae

open plan

end disttae

namespace plan

/-- C31: for all selectivities `a` and `b` in `(0, 1]`, `andSelectivity(a, b)` lies
between the product `a * b` and `min(a, b)`, when `math.Pow` keeps a base in `(0, 1]`
to the power 2 within `[0, 1]` and to a power in `[0, 1]` between the base and 1. -/
theorem andSelectivity_bounds (h : Helpers) (a b : ℚ) (ha : 0 < a) (ha1 : a ≤ 1) (hb : 0 < b)
    (hb1 : b ≤ 1)
    (hsq : ∀ x : ℚ, 0 < x → x ≤ 1 → ∃ q : ℚ, h.Pow (F64.fin x) 2 = F64.fin q ∧ 0 ≤ q ∧ q ≤ 1)
    (hpow : ∀ x e : ℚ, 0 < x → x ≤ 1 → 0 ≤ e → e ≤ 1 →
      ∃ p : ℚ, h.Pow (F64.fin x) (F64.fin e) = F64.fin p ∧ x ≤ p ∧ p ≤ 1) :
    F64.le (F64.fin a * F64.fin b) (andSelectivity h (F64.fin a) (F64.fin b)) = true ∧
    F64.le (andSelectivity h (F64.fin a) (F64.fin b)) (F64.min (F64.fin a) (F64.fin b)) = true := by
  have hmin : a * b ≤ Min.min a b := by
    rcases le_total a b with hab | hab
    · rw [min_eq_left hab]; nlinarith
    · rw [min_eq_right hab]; nlinarith
  unfold andSelectivity
  split_ifs with hc
  · rw [F64.fin_mul, F64.min_fin]
    simp only [F64.le_fin, decide_eq_true_eq]
    exact ⟨le_refl _, hmin⟩
  · obtain ⟨qb, hqb, hqb0, hqb1⟩ := hsq b hb hb1
    obtain ⟨qa, hqa, hqa0, hqa1⟩ := hsq a ha ha1
    obtain ⟨p1, hp1, hp1a, hp11⟩ := hpow a qb ha ha1 hqb0 hqb1
    obtain ⟨p2, hp2, hp2b, hp21⟩ := hpow b qa hb hb1 hqa0 hqa1
    rw [hqb, hqa, hp1, hp2, F64.min_fin, F64.max_fin, F64.fin_mul, F64.fin_mul]
    simp only [F64.le_fin, decide_eq_true_eq]
    have hmpos : 0 < Min.min a b := lt_min ha hb
    have hmax1 : Max.max p1 p2 ≤ 1 := max_le hp11 hp21
    constructor
    · rcases le_total a b with hab | hab
      · rw [min_eq_left hab]
        have : b ≤ Max.max p1 p2 := le_trans hp2b (le_max_right _ _)
        nlinarith
      · rw [min_eq_right hab]
        have : a ≤ Max.max p1 p2 := le_trans hp1a (le_max_left _ _)
        nlinarith
    · nlinarith

/-- C31, witness: the selectivities 0.1 and 0.05, with `math.Pow` standing for itself at
the exponent 1 and taken as 1 elsewhere. -/
theorem andSelectivity_bounds_witness :
    F64.le (F64.fin (1 / 10) * F64.fin (1 / 20))
      (andSelectivity sortHelpers (F64.fin (1 / 10)) (F64.fin (1 / 20))) = true ∧
    F64.le (andSelectivity sortHelpers (F64.fin (1 / 10)) (F64.fin (1 / 20)))
      (F64.min (F64.fin (1 / 10)) (F64.fin (1 / 20))) = true :=
  andSelectivity_bounds sortHelpers (1 / 10) (1 / 20) (by norm_num) (by norm_num) (by norm_num)
    (by norm_num)
    (fun x _ _ => ⟨1, by simp [sortHelpers, F64.ofNat_eq], by norm_num, by norm_num⟩)
    (fun x e hx hx1 _ _ => by
      by_cases he : F64.fin e = 1
      · exact ⟨x, by simp [sortHelpers, he], le_refl _, hx1⟩
      · refine ⟨1, ?_, hx1, le_refl _⟩
        rw [F64.one_eq] at he
        simp only [sortHelpers, F64.one_eq, if_neg he])

end plan

namespace plan

end plan

namespace seq

/-- A conversion leaves a value of the type as it is, and brings a value at most one
range away back by adding or subtracting `2^w`. -/
theorem conv_cases (t : IntType) (v : Int) :
    (t.minVal ≤ v → v ≤ t.maxVal → t.conv v = v) ∧
    (v < t.minVal → t.minVal - (t.maxVal - t.minVal + 1) ≤ v →
      t.conv v = v + (t.maxVal - t.minVal + 1)) ∧
    (t.maxVal < v → v ≤ t.maxVal + (t.maxVal - t.minVal + 1) →
      t.conv v = v - (t.maxVal - t.minVal + 1)) := by
  cases t <;>
    simp only [IntType.conv, IntType.minVal, IntType.maxVal, IntType.signed, IntType.bits,
      if_true, Bool.false_eq_true, if_false] <;>
    norm_num <;>
    refine ⟨?_, ?_, ?_⟩ <;> intros <;> omega

/-- `setSeq` issues one update. -/
theorem setSeq_executed (env : Env) (sess : Session) (setv : Int) (rel : Nat) (db tbl : String) :
    (setSeq env sess setv rel db tbl).2.executed = sess.executed ++ [updateStmt db tbl setv] := by
  unfold setSeq updateStmt
  simp only
  cases env.ExecSql ("update `" ++ db ++ "`.`" ++ tbl ++ "` set last_seq_num = " ++ toString setv)
    <;> rfl

theorem range_facts (t : IntType) : t.minVal ≤ 0 ∧ 0 ≤ t.maxVal := by
  cases t <;>
    simp only [IntType.minVal, IntType.maxVal, IntType.signed, IntType.bits, if_true,
      Bool.false_eq_true, if_false] <;>
    norm_num

/-- The value that `advanceSeq` computes in `adseq`, and the test of the edge, in terms
of the exact sum or difference `e`. -/
theorem adseq_edge (t : IntType) (lsn minv maxv incrv : Int) (minus : Bool)
    (hlsn : t.minVal ≤ lsn ∧ lsn ≤ t.maxVal) (hmin : t.minVal ≤ minv) (hmax : maxv ≤ t.maxVal)
    (hincr : 0 ≤ incrv ∧ incrv ≤ t.maxVal) (h2 : lsn ≤ maxv) :
    (minus = true →
      ((t.conv (lsn - incrv) < minv ∨ t.conv (lsn - incrv) > lsn) ↔ lsn - incrv < minv) ∧
      (minv ≤ lsn - incrv → t.conv (lsn - incrv) = lsn - incrv)) ∧
    (minus = false →
      ((t.conv (lsn + incrv) > maxv ∨ t.conv (lsn + incrv) < lsn) ↔ maxv < lsn + incrv) ∧
      (lsn + incrv ≤ maxv → t.conv (lsn + incrv) = lsn + incrv)) := by
  obtain ⟨hr0, hr1⟩ := range_facts t
  obtain ⟨a1, a2, -⟩ := conv_cases t (lsn - incrv)
  obtain ⟨b1, -, b3⟩ := conv_cases t (lsn + incrv)
  refine ⟨fun _ => ⟨?_, fun h => a1 (by omega) (by omega)⟩,
    fun _ => ⟨?_, fun h => b1 (by omega) (by omega)⟩⟩
  · by_cases hin : t.minVal ≤ lsn - incrv
    · rw [a1 hin (by omega)]
      constructor
      · rintro (h | h) <;> omega
      · intro h; exact Or.inl h
    · rw [a2 (by omega) (by omega)]
      constructor
      · intro _; omega
      · intro _; right; omega
  · by_cases hin : lsn + incrv ≤ t.maxVal
    · rw [b1 (by omega) hin]
      constructor
      · rintro (h | h) <;> omega
      · intro h; exact Or.inl h
    · rw [b3 (by omega) (by omega)]
      constructor
      · intro _; omega
      · intro _; right; omega

/-- C35: for every integer type `T`, values `minv ≤ lsn ≤ maxv` of `T`, an increment
of `T` that is not negative and `setEdge` false, with `e` the exact `lsn + incrv` of an
ascending and `lsn - incrv` of a descending sequence: when `cycle` is false and `e` is
outside `[minv, maxv]` (which it is when it wraps), `advanceSeq` returns the error
"Reached maximum value of sequence" and issues no update; in every other case it returns
what `setSeq` returns for a value `v` in `[minv, maxv]`, issuing that one update, where
`v` is `e` when `e` is in `[minv, maxv]`, and otherwise `minv` for an ascending and
`maxv` for a descending sequence. -/
theorem advanceSeq_spec (env : Env) (sess : Session) (t : IntType) (lsn minv maxv incrv : Int)
    (cycle minus : Bool) (rel : Nat) (db tblname : String)
    (hlsn : t.minVal ≤ lsn ∧ lsn ≤ t.maxVal) (hmin : t.minVal ≤ minv) (hmax : maxv ≤ t.maxVal)
    (hincr : 0 ≤ incrv ∧ incrv ≤ t.maxVal) (h1 : minv ≤ lsn) (h2 : lsn ≤ maxv) :
    (cycle = false ∧ ¬ (minv ≤ (if minus then lsn - incrv else lsn + incrv) ∧
        (if minus then lsn - incrv else lsn + incrv) ≤ maxv) →
      advanceSeq env sess t lsn minv maxv incrv cycle minus false rel db tblname =
        (("", some (reachedMaximum tblname)), sess)) ∧
    (¬ (cycle = false ∧ ¬ (minv ≤ (if minus then lsn - incrv else lsn + incrv) ∧
        (if minus then lsn - incrv else lsn + incrv) ≤ maxv)) →
      ∃ v : Int, minv ≤ v ∧ v ≤ maxv ∧
        advanceSeq env sess t lsn minv maxv incrv cycle minus false rel db tblname =
          setSeq env sess v rel db tblname ∧
        (advanceSeq env sess t lsn minv maxv incrv cycle minus false rel db tblname).2.executed =
          sess.executed ++ [updateStmt db tblname v] ∧
        v = (if minv ≤ (if minus then lsn - incrv else lsn + incrv) ∧
              (if minus then lsn - incrv else lsn + incrv) ≤ maxv
            then (if minus then lsn - incrv else lsn + incrv)
            else if minus then maxv else minv)) := by
  obtain ⟨hd, ha⟩ := adseq_edge t lsn minv maxv incrv minus hlsn hmin hmax hincr h2
  cases minus
  · -- ascending
    obtain ⟨hedge, hval⟩ := ha rfl
    simp only [Bool.false_eq_true, if_false]
    by_cases hin : lsn + incrv ≤ maxv
    · have hne : ¬ (t.conv (lsn + incrv) > maxv ∨ t.conv (lsn + incrv) < lsn) := by
        rw [hedge]; omega
      have hadv : advanceSeq env sess t lsn minv maxv incrv cycle false false rel db tblname =
          setSeq env sess (lsn + incrv) rel db tblname := by
        have hv := hval hin
        rw [hv] at hne
        simp only [advanceSeq, Bool.false_eq_true, if_false, false_and, not_false_eq_true,
          true_and, hv, hne]
      refine ⟨fun h => absurd ⟨by omega, hin⟩ h.2, fun _ => ⟨lsn + incrv, by omega, hin, hadv, ?_, ?_⟩⟩
      · rw [hadv, setSeq_executed]
      · rw [if_pos ⟨by omega, hin⟩]
    · have he : (t.conv (lsn + incrv) > maxv ∨ t.conv (lsn + incrv) < lsn) := by
        rw [hedge]; omega
      constructor
      · rintro ⟨hc, -⟩
        subst hc
        simp only [advanceSeq, Bool.false_eq_true, if_false, false_and, not_false_eq_true,
          true_and, he, if_true]
      · intro hn
        have hc : cycle = true := by
          cases cycle
          · exact absurd ⟨rfl, fun h => hin h.2⟩ hn
          · rfl
        subst hc
        have hadv : advanceSeq env sess t lsn minv maxv incrv true false false rel db tblname =
            setSeq env sess minv rel db tblname := by
          simp only [advanceSeq, Bool.false_eq_true, if_false, false_and, not_false_eq_true,
            true_and, he, if_true, not_true_eq_false]
        refine ⟨minv, le_refl _, by omega, hadv, ?_, ?_⟩
        · rw [hadv, setSeq_executed]
        · rw [if_neg (fun h => hin h.2)]
  · -- descending
    obtain ⟨hedge, hval⟩ := hd rfl
    simp only [if_true]
    by_cases hin : minv ≤ lsn - incrv
    · have hne : ¬ (t.conv (lsn - incrv) < minv ∨ t.conv (lsn - incrv) > lsn) := by
        rw [hedge]; omega
      have hadv : advanceSeq env sess t lsn minv maxv incrv cycle true false rel db tblname =
          setSeq env sess (lsn - incrv) rel db tblname := by
        have hv := hval hin
        rw [hv] at hne
        simp only [advanceSeq, Bool.false_eq_true, if_false, if_true, true_and, hv, hne,
          not_true_eq_false, false_and]
      refine ⟨fun h => absurd ⟨hin, by omega⟩ h.2,
        fun _ => ⟨lsn - incrv, hin, by omega, hadv, ?_, ?_⟩⟩
      · rw [hadv, setSeq_executed]
      · rw [if_pos ⟨hin, by omega⟩]
    · have he : (t.conv (lsn - incrv) < minv ∨ t.conv (lsn - incrv) > lsn) := by
        rw [hedge]; omega
      constructor
      · rintro ⟨hc, -⟩
        subst hc
        simp only [advanceSeq, Bool.false_eq_true, if_false, if_true, true_and, he,
          not_false_eq_true]
      · intro hn
        have hc : cycle = true := by
          cases cycle
          · exact absurd ⟨rfl, fun h => hin h.1⟩ hn
          · rfl
        subst hc
        have hadv : advanceSeq env sess t lsn minv maxv incrv true true false rel db tblname =
            setSeq env sess maxv rel db tblname := by
          simp only [advanceSeq, Bool.false_eq_true, if_false, if_true, true_and, he,
            not_true_eq_false]
        refine ⟨maxv, by omega, le_refl _, hadv, ?_, ?_⟩
        · rw [hadv, setSeq_executed]
        · rw [if_neg (fun h => hin h.1)]

/-- C35, witness: a cycling ascending `uint16` sequence at 65530 with the range
1..65535 and the increment 10: the sum wraps, and the sequence is set to 1. -/
theorem advanceSeq_spec_witness :
    ((true = false ∧ ¬ ((1 : Int) ≤ (if false then (65530 : Int) - 10 else 65530 + 10) ∧
        (if false then (65530 : Int) - 10 else 65530 + 10) ≤ 65535) →
      advanceSeq (demoEnv 10 true) {} .uint16 65530 1 65535 10 true false false 7 "db" "s" =
        (("", some (reachedMaximum "s")), {})) ∧
    (¬ (true = false ∧ ¬ ((1 : Int) ≤ (if false then (65530 : Int) - 10 else 65530 + 10) ∧
        (if false then (65530 : Int) - 10 else 65530 + 10) ≤ 65535)) →
      ∃ v : Int, 1 ≤ v ∧ v ≤ 65535 ∧
        advanceSeq (demoEnv 10 true) {} .uint16 65530 1 65535 10 true false false 7 "db" "s" =
          setSeq (demoEnv 10 true) {} v 7 "db" "s" ∧
        (advanceSeq (demoEnv 10 true) {} .uint16 65530 1 65535 10 true false false 7 "db"
          "s").2.executed = ({} : Session).executed ++ [updateStmt "db" "s" v] ∧
        v = (if (1 : Int) ≤ (if false then (65530 : Int) - 10 else 65530 + 10) ∧
              (if false then (65530 : Int) - 10 else 65530 + 10) ≤ 65535
            then (if false then (65530 : Int) - 10 else 65530 + 10)
            else if false then 65535 else 1))) ∧
    (advanceSeq (demoEnv 10 true) {} .uint16 65530 1 65535 10 true false false 7 "db" "s").1 =
      ("1", none) :=
  ⟨advanceSeq_spec (demoEnv 10 true) {} .uint16 65530 1 65535 10 true false 7 "db" "s"
    (by decide) (by decide) (by decide) (by decide) (by decide) (by decide), by rfl⟩

end seq

namespace compute

theorem compareOf_agrees {T : Type} [LinearOrder T] : Agrees (compareOf : T → T → Int) := by
  intro a b
  unfold compareOf
  constructor
  · split_ifs with h1 h2
    · simp [h1]
    · simp [h1]
    · simp [h1]
  · split_ifs with h1 h2
    · simp [not_lt_of_lt h1]
    · simp [h2]
    · simp [h2]

/-- The loop of the minimum and maximum functions, for a three-way comparison that
agrees with a total order: the pair stays a pair of members that bound what was seen. -/
theorem minmax_fold {T : Type} [LinearOrder T] (cmp : T → T → Int) (hcmp : Agrees cmp) :
    ∀ (rest seen : List T) (mm : T × T),
      mm.1 ∈ seen → mm.2 ∈ seen → (∀ x ∈ seen, mm.1 ≤ x ∧ x ≤ mm.2) →
      let r := rest.foldl
        (fun (mm : T × T) v =>
          ((if cmp v mm.1 < 0 then v else mm.1), (if cmp v mm.2 > 0 then v else mm.2)))
        mm
      r.1 ∈ seen ++ rest ∧ r.2 ∈ seen ++ rest ∧ ∀ x ∈ seen ++ rest, r.1 ≤ x ∧ x ≤ r.2 := by
  intro rest
  induction rest with
  | nil =>
    intro seen mm h1 h2 h3
    simpa using ⟨h1, h2, h3⟩
  | cons v rest ih =>
    intro seen mm h1 h2 h3
    simp only [List.foldl_cons]
    have key := ih (seen ++ [v])
      ((if cmp v mm.1 < 0 then v else mm.1), (if cmp v mm.2 > 0 then v else mm.2))
      (by
        simp only
        split_ifs
        · simp
        · simp [h1])
      (by
        simp only
        split_ifs
        · simp
        · simp [h2])
      (by
        intro x hx
        simp only [List.mem_append, List.mem_singleton] at hx
        simp only
        have hb := h3 mm.1 h1
        constructor
        · split_ifs with h
          · have hlt := (hcmp v mm.1).1.mp h
            rcases hx with hx | rfl
            · exact le_trans (le_of_lt hlt) (h3 x hx).1
            · exact le_refl _
          · rcases hx with hx | rfl
            · exact (h3 x hx).1
            · by_contra hc
              exact h ((hcmp x mm.1).1.mpr (not_le.mp hc))
        · split_ifs with h
          · have hlt := (hcmp v mm.2).2.mp h
            rcases hx with hx | rfl
            · exact le_trans (h3 x hx).2 (le_of_lt hlt)
            · exact le_refl _
          · rcases hx with hx | rfl
            · exact (h3 x hx).2
            · by_contra hc
              exact h ((hcmp x mm.2).2.mpr (not_le.mp hc)))
    simpa using key

/-- The minimum and maximum functions, for a three-way comparison that agrees with a
total order: members of a non-empty list that bound it; no result on the empty list. -/
theorem decimalMinAndMax_spec {T : Type} [LinearOrder T] (cmp : T → T → Int) (hcmp : Agrees cmp)
    (vs : List T) :
    (vs = [] → GetDecimal64MinAndMax cmp vs = none) ∧
    (vs ≠ [] → ∃ minv maxv, GetDecimal64MinAndMax cmp vs = some (minv, maxv) ∧
      minv ∈ vs ∧ maxv ∈ vs ∧ (∀ x ∈ vs, minv ≤ x ∧ x ≤ maxv) ∧ minv ≤ maxv) := by
  cases vs with
  | nil => exact ⟨fun _ => rfl, fun h => absurd rfl h⟩
  | cons v0 rest =>
    refine ⟨fun h => by simp at h, fun _ => ?_⟩
    have key := minmax_fold cmp hcmp rest [v0] (v0, v0) (by simp) (by simp)
      (by intro x hx; simp only [List.mem_singleton] at hx; subst hx; exact ⟨le_refl _, le_refl _⟩)
    simp only [List.singleton_append] at key
    obtain ⟨k1, k2, k3⟩ := key
    exact ⟨_, _, rfl, k1, k2, k3, le_trans (k3 v0 (by simp)).1 (k3 v0 (by simp)).2⟩

theorem orderedMinAndMax_eq {T : Type} [LinearOrder T] (vs : List T) :
    GetOrderedMinAndMax ltOf vs = GetDecimal64MinAndMax compareOf vs := by
  cases vs with
  | nil => rfl
  | cons v0 rest =>
    simp only [GetOrderedMinAndMax, GetDecimal64MinAndMax]
    congr 2
    funext mm v
    have h1 : (ltOf v mm.1 = true) ↔ (compareOf v mm.1 < 0) := by
      rw [(compareOf_agrees v mm.1).1]
      simp [ltOf]
    have h2 : (ltOf mm.2 v = true) ↔ (compareOf v mm.2 > 0) := by
      rw [(compareOf_agrees v mm.2).2]
      simp [ltOf]
    simp only [h1, h2]

theorem decimal128_eq {D : Type} (cmp : D → D → Int) (vs : List D) :
    GetDecimal128MinAndMax cmp vs = GetDecimal64MinAndMax cmp vs := rfl

/-- C39 (amended): for every type that `<` orders totally (the integer and time types;
the floats without NaN) and every non-empty list `vs`, `GetOrderedMinAndMax` returns
`(minv, maxv)` where both are elements of `vs` and `minv ≤ x ≤ maxv` for every `x` in
`vs`, hence `minv ≤ maxv`; `GetDecimal64MinAndMax` and `GetDecimal128MinAndMax` satisfy
the same for a decimal comparison that agrees with a total order; on an empty list the
functions do not return a value. -/
theorem GetOrderedMinAndMax_spec {T : Type} [LinearOrder T] (cmp : T → T → Int)
    (hcmp : Agrees cmp) (vs : List T) :
    (vs = [] → GetOrderedMinAndMax ltOf vs = none ∧ GetDecimal64MinAndMax cmp vs = none ∧
      GetDecimal128MinAndMax cmp vs = none) ∧
    (vs ≠ [] →
      (∃ minv maxv, GetOrderedMinAndMax ltOf vs = some (minv, maxv) ∧
        minv ∈ vs ∧ maxv ∈ vs ∧ (∀ x ∈ vs, minv ≤ x ∧ x ≤ maxv) ∧ minv ≤ maxv) ∧
      (∃ minv maxv, GetDecimal64MinAndMax cmp vs = some (minv, maxv) ∧
        minv ∈ vs ∧ maxv ∈ vs ∧ (∀ x ∈ vs, minv ≤ x ∧ x ≤ maxv) ∧ minv ≤ maxv) ∧
      (∃ minv maxv, GetDecimal128MinAndMax cmp vs = some (minv, maxv) ∧
        minv ∈ vs ∧ maxv ∈ vs ∧ (∀ x ∈ vs, minv ≤ x ∧ x ≤ maxv) ∧ minv ≤ maxv)) := by
  obtain ⟨a1, a2⟩ := decimalMinAndMax_spec cmp hcmp vs
  obtain ⟨b1, b2⟩ := decimalMinAndMax_spec compareOf compareOf_agrees vs
  refine ⟨fun h => ⟨?_, a1 h, ?_⟩, fun h => ⟨?_, a2 h, ?_⟩⟩
  · rw [orderedMinAndMax_eq]; exact b1 h
  · rw [decimal128_eq]; exact a1 h
  · rw [orderedMinAndMax_eq]; exact b2 h
  · rw [decimal128_eq]; exact a2 h

/-- C39, witness: the list 3, 1, 2 of integers, with the three-way comparison of the
integers in place of the decimal comparison. -/
theorem GetOrderedMinAndMax_spec_witness :
    Agrees (compareOf : Int → Int → Int) ∧ ([3, 1, 2] : List Int) ≠ [] ∧
    ((∃ minv maxv, GetOrderedMinAndMax ltOf ([3, 1, 2] : List Int) = some (minv, maxv) ∧
        minv ∈ ([3, 1, 2] : List Int) ∧ maxv ∈ ([3, 1, 2] : List Int) ∧
        (∀ x ∈ ([3, 1, 2] : List Int), minv ≤ x ∧ x ≤ maxv) ∧ minv ≤ maxv) ∧
      (∃ minv maxv, GetDecimal64MinAndMax compareOf ([3, 1, 2] : List Int) = some (minv, maxv) ∧
        minv ∈ ([3, 1, 2] : List Int) ∧ maxv ∈ ([3, 1, 2] : List Int) ∧
        (∀ x ∈ ([3, 1, 2] : List Int), minv ≤ x ∧ x ≤ maxv) ∧ minv ≤ maxv) ∧
      (∃ minv maxv, GetDecimal128MinAndMax compareOf ([3, 1, 2] : List Int) = some (minv, maxv) ∧
        minv ∈ ([3, 1, 2] : List Int) ∧ maxv ∈ ([3, 1, 2] : List Int) ∧
        (∀ x ∈ ([3, 1, 2] : List Int), minv ≤ x ∧ x ≤ maxv) ∧ minv ≤ maxv)) :=
  ⟨compareOf_agrees, by decide,
    (GetOrderedMinAndMax_spec compareOf compareOf_agrees [3, 1, 2]).2 (by decide)⟩

/-- C39, counterexample: the `float64` list NaN, 1. Every comparison with NaN is false,
so `GetOrderedMinAndMax` returns NaN as the minimum and as the maximum, and NaN is not
at most the element 1. -/
theorem GetOrderedMinAndMax_nan :
    GetOrderedMinAndMax F64.lt [F64.nan, 1] = some (F64.nan, F64.nan) ∧
    F64.le F64.nan 1 = false := by
  refine ⟨by rfl, by rfl⟩

end compute

namespace compute

theorem orderedLoop_eq {T : Type} (lt : T → T → Bool) (column : List T) (val : T)
    (skipmask : Option Bitmap) :
    ∀ (fuel : Nat) (start end_ : Int),
      orderedLoop lt column val skipmask fuel start end_ =
        offsetLoop column val (compareLt lt) skipmask fuel start end_ := by
  intro fuel
  induction fuel with
  | zero => intro start end_; rfl
  | succ fuel ih =>
    intro start end_
    unfold orderedLoop offsetLoop
    by_cases h : start ≤ end_
    · simp only [h, if_true]
      by_cases hm : (start + end_).tdiv 2 < 0
      · simp only [hm, if_true]
      · simp only [hm, if_false]
        cases hx : column[((start + end_).tdiv 2).toNat]? with
        | none => rfl
        | some x =>
          simp only []
          by_cases h1 : lt val x = true
          · have : compareLt lt x val > 0 := by simp [compareLt, h1]
            simp only [h1, this, if_true, ih]
          · by_cases h2 : lt x val = true
            · have a : ¬ compareLt lt x val > 0 := by simp [compareLt, h1, h2]
              have b : compareLt lt x val < 0 := by simp [compareLt, h1, h2]
              simp only [h1, h2, a, b, if_true, if_false, ih, Bool.false_eq_true]
            · have a : ¬ compareLt lt x val > 0 := by simp [compareLt, h1, h2]
              have b : ¬ compareLt lt x val < 0 := by simp [compareLt, h1, h2]
              simp only [h1, h2, a, b, if_false, Bool.false_eq_true]
    · simp only [h, if_false]

theorem compareLt_agrees {T : Type} [LinearOrder T] :
    Agrees (compareLt (ltOf : T → T → Bool)) := by
  intro a b
  unfold compareLt ltOf
  constructor
  · by_cases h1 : b < a
    · simp [h1, not_lt_of_lt h1]
    · by_cases h2 : a < b
      · simp [h1, h2]
      · simp [h1, h2]
  · by_cases h1 : b < a
    · simp [h1]
    · by_cases h2 : a < b
      · simp [h1, h2]
      · simp [h1, h2]

theorem mid_bounds (start end_ : Int) (h0 : 0 ≤ start) (h : start ≤ end_) :
    (start + end_).tdiv 2 = (start + end_) / 2 ∧ start ≤ (start + end_) / 2 ∧
      (start + end_) / 2 ≤ end_ := by
  refine ⟨Int.tdiv_eq_ediv (by omega) (by omega), by omega, by omega⟩

/-- The loop returns when the fuel exceeds the width of the window, and it reads the
slice inside its bounds. -/
theorem offsetLoop_returns {T : Type} (vals : List T) (val : T) (compare : T → T → Int)
    (skipmask : Option Bitmap) :
    ∀ (fuel : Nat) (start end_ : Int), 0 ≤ start → end_ < (vals.length : Int) →
      0 < fuel → end_ - start + 1 < (fuel : Int) →
      ∃ r, offsetLoop vals val compare skipmask fuel start end_ = some r := by
  intro fuel
  induction fuel with
  | zero => intro start end_ h0 h1 hf h2; omega
  | succ fuel ih =>
    intro start end_ h0 h1 hf h2
    unfold offsetLoop
    by_cases h : start ≤ end_
    · obtain ⟨e1, e2, e3⟩ := mid_bounds start end_ h0 h
      simp only [h, if_true, e1]
      have hm : ¬ (start + end_) / 2 < 0 := by omega
      simp only [hm, if_false]
      have hlt : ((start + end_) / 2).toNat < vals.length := by omega
      rw [List.getElem?_eq_getElem hlt]
      simp only []
      split_ifs
      · exact ih _ _ h0 (by omega) (by push_cast at h2; omega) (by push_cast at h2 ⊢; omega)
      · exact ih _ _ (by omega) h1 (by push_cast at h2; omega) (by push_cast at h2 ⊢; omega)
      · exact ⟨_, rfl⟩
      · exact ⟨_, rfl⟩
    · simp only [h, if_false]
      exact ⟨_, rfl⟩

/-- A position that the loop reports holds an element that compares equal to the
value, and is not masked; without a position the offset is 0. -/
theorem offsetLoop_sound {T : Type} (vals : List T) (val : T) (compare : T → T → Int)
    (skipmask : Option Bitmap) :
    ∀ (fuel : Nat) (start end_ : Int) (r : Int × Bool), 0 ≤ start →
      offsetLoop vals val compare skipmask fuel start end_ = some r →
      (r.2 = false → r.1 = 0) ∧
      (r.2 = true → 0 ≤ r.1 ∧ masked skipmask r.1 = false ∧
        ∃ x, vals[r.1.toNat]? = some x ∧ ¬ compare x val > 0 ∧ ¬ compare x val < 0) := by
  intro fuel
  induction fuel with
  | zero => intro start end_ r h0 h; simp [offsetLoop] at h
  | succ fuel ih =>
    intro start end_ r h0 hr
    unfold offsetLoop at hr
    by_cases h : start ≤ end_
    · obtain ⟨e1, e2, e3⟩ := mid_bounds start end_ h0 h
      simp only [h, if_true, e1] at hr
      have hm : ¬ (start + end_) / 2 < 0 := by omega
      simp only [hm, if_false] at hr
      cases hx : vals[((start + end_) / 2).toNat]? with
      | none => rw [hx] at hr; simp at hr
      | some x =>
        rw [hx] at hr
        simp only [] at hr
        split_ifs at hr with c1 c2 c3
        · exact ih _ _ r h0 hr
        · exact ih _ _ r (by omega) hr
        · simp only [Option.some.injEq] at hr
          subst hr
          simp
        · simp only [Option.some.injEq] at hr
          subst hr
          refine ⟨by simp, fun _ => ⟨by omega, by simpa using c3, x, hx, c1, c2⟩⟩
    · simp only [h, if_false, Option.some.injEq] at hr
      subst hr
      simp

/-- In a sorted slice the loop keeps every occurrence of the value inside its window,
so it finds one when there is one and nothing is masked. -/
theorem offsetLoop_complete {T : Type} [LinearOrder T] (vals : List T) (val : T)
    (compare : T → T → Int) (hcmp : Agrees compare) (hsorted : vals.Sorted (· ≤ ·))
    (skipmask : Option Bitmap)
    (hmask : ∀ i, masked skipmask i = false) :
    ∀ (fuel : Nat) (start end_ : Int) (r : Int × Bool), 0 ≤ start →
      end_ < (vals.length : Int) →
      (∀ j : Nat, vals[j]? = some val → start ≤ (j : Int) ∧ (j : Int) ≤ end_) →
      val ∈ vals →
      offsetLoop vals val compare skipmask fuel start end_ = some r → r.2 = true := by
  intro fuel
  induction fuel with
  | zero => intro start end_ r h0 h1 hw hin h; simp [offsetLoop] at h
  | succ fuel ih =>
    intro start end_ r h0 h1 hw hin hr
    unfold offsetLoop at hr
    by_cases h : start ≤ end_
    · obtain ⟨e1, e2, e3⟩ := mid_bounds start end_ h0 h
      simp only [h, if_true, e1] at hr
      have hm : ¬ (start + end_) / 2 < 0 := by omega
      simp only [hm, if_false] at hr
      cases hx : vals[((start + end_) / 2).toNat]? with
      | none => rw [hx] at hr; simp at hr
      | some x =>
        rw [hx] at hr
        simp only [] at hr
        have hp := List.pairwise_iff_getElem.mp hsorted
        split_ifs at hr with c1 c2 c3
        · refine ih _ _ r h0 (by omega) ?_ hin hr
          intro j hj
          obtain ⟨a, b⟩ := hw j hj
          refine ⟨a, ?_⟩
          by_contra hcon
          have hjm : ((start + end_) / 2).toNat ≤ j := by omega
          have hjl : j < vals.length := (List.getElem?_eq_some_iff.mp hj).1
          have hml : ((start + end_) / 2).toNat < vals.length := by omega
          have hxe : vals[((start + end_) / 2).toNat] = x := by
            have := List.getElem?_eq_getElem hml
            rw [this] at hx
            exact Option.some.inj hx
          have hje : vals[j] = val := (List.getElem?_eq_some_iff.mp hj).2
          have hle : x ≤ val := by
            rcases Nat.eq_or_lt_of_le hjm with heq | hlt
            · subst heq
              rw [← hxe, ← hje]
            · have := hp _ _ hml hjl hlt
              rw [hxe, hje] at this
              exact this
          exact absurd ((hcmp x val).2.mp c1) (not_lt_of_le hle)
        · refine ih _ _ r (by omega) h1 ?_ hin hr
          intro j hj
          obtain ⟨a, b⟩ := hw j hj
          refine ⟨?_, b⟩
          by_contra hcon
          have hjm : j ≤ ((start + end_) / 2).toNat := by omega
          have hjl : j < vals.length := (List.getElem?_eq_some_iff.mp hj).1
          have hml : ((start + end_) / 2).toNat < vals.length := by omega
          have hxe : vals[((start + end_) / 2).toNat] = x := by
            have := List.getElem?_eq_getElem hml
            rw [this] at hx
            exact Option.some.inj hx
          have hje : vals[j] = val := (List.getElem?_eq_some_iff.mp hj).2
          have hle : val ≤ x := by
            rcases Nat.eq_or_lt_of_le hjm with heq | hlt
            · subst heq
              rw [← hxe, ← hje]
            · have := hp _ _ hjl hml hlt
              rw [hxe, hje] at this
              exact this
          exact absurd ((hcmp x val).1.mp c2) (not_lt_of_le hle)
        · rw [hmask] at c3
          exact absurd c3 (by simp)
        · simp only [Option.some.injEq] at hr
          subst hr
          rfl
    · exfalso
      obtain ⟨j, hj⟩ := List.getElem?_of_mem hin
      obtain ⟨a, b⟩ := hw j hj
      omega

theorem masked_mem (skipmask : Option Bitmap)
    (hvalid : ∀ m, skipmask = some m → m.valid) (i : Int)
    (h : masked skipmask i = false) : ∀ m, skipmask = some m → i.toNat ∉ m.elems := by
  intro m hm hin
  subst hm
  have hlt := (hvalid m rfl).2 _ hin
  simp only [masked, Bitmap.Contains, Nat.mod_eq_of_lt hlt, decide_eq_false_iff_not] at h
  exact h hin

theorem masked_empty (skipmask : Option Bitmap)
    (h : skipmask = none ∨ ∃ m, skipmask = some m ∧ m.IsEmpty = true) (i : Int) :
    masked skipmask i = false := by
  rcases h with h | ⟨m, h, he⟩
  · subst h; rfl
  · subst h
    have : m.elems = [] := by simpa [Bitmap.IsEmpty] using he
    simp [masked, Bitmap.Contains, this]

/-- The search of `GetOffsetWithFunc` in a slice sorted under the order that its
comparison agrees with. -/
theorem GetOffsetWithFunc_search {T : Type} [LinearOrder T] (vals : List T) (val : T)
    (compare : T → T → Int) (hcmp : Agrees compare) (hsorted : vals.Sorted (· ≤ ·))
    (skipmask : Option Bitmap) (hvalid : ∀ m, skipmask = some m → m.valid)
    (fuel : Nat) (hfuel : vals.length < fuel) :
    ∃ r, GetOffsetWithFunc vals val compare skipmask fuel = some r ∧
      SearchSpec vals val skipmask r := by
  obtain ⟨r, hr⟩ := offsetLoop_returns vals val compare skipmask fuel 0
    ((vals.length : Int) - 1) (le_refl _) (by omega) (by omega) (by omega)
  obtain ⟨s1, s2⟩ := offsetLoop_sound vals val compare skipmask fuel 0
    ((vals.length : Int) - 1) r (le_refl _) hr
  have found : r.2 = true → 0 ≤ r.1 ∧ vals[r.1.toNat]? = some val ∧
      ∀ m, skipmask = some m → r.1.toNat ∉ m.elems := by
    intro h
    obtain ⟨a, b, x, hx, c1, c2⟩ := s2 h
    have hxv : x = val :=
      le_antisymm (not_lt.mp (fun hlt => c1 ((hcmp x val).2.mpr hlt)))
        (not_lt.mp (fun hlt => c2 ((hcmp x val).1.mpr hlt)))
    subst hxv
    exact ⟨a, hx, masked_mem skipmask hvalid _ b⟩
  refine ⟨r, hr, found, ?_, ?_⟩
  · intro hnot
    cases h2 : r.2 with
    | true => exact absurd (List.getElem?_mem (found h2).2.1) hnot
    | false =>
      have := s1 h2
      exact Prod.ext this h2
  · intro hin hmask
    refine offsetLoop_complete vals val compare hcmp hsorted skipmask
      (masked_empty skipmask hmask) fuel 0 ((vals.length : Int) - 1) r (le_refl _)
      (by omega) ?_ hin hr
    intro j hj
    have := (List.getElem?_eq_some_iff.mp hj).1
    omega

/-- C36 (amended): for every element type that `<` orders totally (the integer and time
types; the floats without NaN), every column sorted in ascending order, every value `v`
and every skip mask, `GetOffsetOfOrdered2` terminates and never indexes outside the
column (enough fuel gives a result); if it returns `(i, true)` then `column[i] = v` and
`i` is not in the skip mask; if `v` does not occur in the column it returns
`(0, false)`; and if `v` occurs and the skip mask is nil or empty it returns
`exist = true`. `GetOffsetWithFunc` satisfies the same for a comparison that agrees
with the order under which the column is sorted. -/
theorem GetOffsetOfOrdered2_spec {T : Type} [LinearOrder T] (column : List T) (v : T)
    (compare : T → T → Int) (hcmp : Agrees compare)
    (hsorted : column.Sorted (· ≤ ·))
    (skipmask : Option Bitmap) (hvalid : ∀ m, skipmask = some m → m.valid)
    (fuel : Nat) (hfuel : column.length < fuel) :
    (∃ r, GetOffsetOfOrdered2 ltOf column v skipmask fuel = some r ∧
      SearchSpec column v skipmask r) ∧
    (∃ r, GetOffsetWithFunc column v compare skipmask fuel = some r ∧
      SearchSpec column v skipmask r) := by
  refine ⟨?_, GetOffsetWithFunc_search column v compare hcmp hsorted skipmask hvalid fuel
    hfuel⟩
  have := GetOffsetWithFunc_search column v (compareLt ltOf) compareLt_agrees hsorted
    skipmask hvalid fuel hfuel
  unfold GetOffsetOfOrdered2
  rw [orderedLoop_eq]
  exact this

/-- C36, witness: the search for 3 in the column 1, 3, 5 of integers under a mask that
holds the position 0 finds the position 1. -/
theorem GetOffsetOfOrdered2_spec_witness :
    Agrees (compareOf : Int → Int → Int) ∧ List.Sorted (· ≤ ·) ([1, 3, 5] : List Int) ∧
    (∀ m, some (Bitmap.mk [0]) = some m → m.valid) ∧ ([1, 3, 5] : List Int).length < 4 ∧
    ((∃ r, GetOffsetOfOrdered2 ltOf ([1, 3, 5] : List Int) 3 (some (Bitmap.mk [0])) 4 = some r ∧
      SearchSpec ([1, 3, 5] : List Int) 3 (some (Bitmap.mk [0])) r) ∧
    (∃ r, GetOffsetWithFunc ([1, 3, 5] : List Int) 3 compareOf (some (Bitmap.mk [0])) 4 = some r ∧
      SearchSpec ([1, 3, 5] : List Int) 3 (some (Bitmap.mk [0])) r)) ∧
    GetOffsetOfOrdered2 ltOf ([1, 3, 5] : List Int) 3 (some (Bitmap.mk [0])) 4 = some (1, true) :=
  have hv : ∀ m, some (Bitmap.mk [0]) = some m → m.valid := by
    intro m hm
    simp only [Option.some.injEq] at hm
    subst hm
    simp [Bitmap.valid]
  ⟨compareOf_agrees, by simp, hv, by decide,
    GetOffsetOfOrdered2_spec [1, 3, 5] 3 compareOf compareOf_agrees (by simp)
      (some (Bitmap.mk [0])) hv 4 (by decide), by decide⟩

/-- C36, counterexample: the search for NaN in the `float64` column that holds the one
element 1. Both comparisons with NaN are false, so the search reports the position 0,
although the element there is not NaN and NaN does not occur in the column. -/
theorem GetOffsetOfOrdered2_nan :
    GetOffsetOfOrdered2 F64.lt [(1 : F64)] F64.nan none 2 = some (0, true) ∧
    ([(1 : F64)])[0]? = some (1 : F64) ∧ (1 : F64) ≠ F64.nan ∧
    F64.nan ∉ [(1 : F64)] := by
  refine ⟨by rfl, by rfl, ?_, ?_⟩
  · intro h; cases h
  · intro h
    simp only [List.mem_singleton] at h
    cases h

end compute

namespace compute

theorem lastOr_ge : ∀ (ds : List Nat) (d : Nat), List.Sorted (· < ·) (d :: ds) →
    ∃ M : Nat, lastOr ds (d : Int) = (M : Int) ∧ d ≤ M ∧ M ∈ d :: ds ∧
      ∀ x ∈ d :: ds, x ≤ M := by
  intro ds
  induction ds with
  | nil => intro d _; exact ⟨d, rfl, le_refl _, by simp, by simp⟩
  | cons e es ih =>
    intro d hs
    have hs2 : List.Sorted (· < ·) (e :: es) := List.Sorted.of_cons hs
    have hde : d < e := List.rel_of_sorted_cons hs e (by simp)
    obtain ⟨M, h1, h2, h3, h4⟩ := ih e hs2
    refine ⟨M, h1, by omega, List.mem_cons_of_mem _ h3, ?_⟩
    intro x hx
    rcases List.mem_cons.mp hx with hx | hx
    · omega
    · exact h4 x hx

theorem range_split (p d M : Nat) (h1 : p ≤ d) (h2 : d ≤ M) :
    List.range' p (M + 1 - p) =
      List.range' p (d - p) ++ d :: List.range' (d + 1) (M + 1 - (d + 1)) := by
  have e1 : M + 1 - p = (M + 1 - d) + (d - p) := by omega
  rw [e1, ← List.range'_append_1]
  have e2 : p + (d - p) = d := by omega
  have e3 : M + 1 - d = (M + 1 - (d + 1)) + 1 := by omega
  rw [e2, e3, List.range'_succ]

theorem offsetMapLoop_spec : ∀ (ds : List Nat) (prev : Int) (p : Nat) (mapping : List Nat),
    prev + 1 = (p : Int) → List.Sorted (· < ·) ds → (∀ x ∈ ds, p ≤ x ∧ x < 2 ^ 32) →
    offsetMapLoop ds prev mapping =
      (lastOr ds prev,
        mapping ++ (List.range' p ((lastOr ds prev + 1).toNat - p)).filter (· ∉ ds)) := by
  intro ds
  induction ds with
  | nil =>
    intro prev p mapping hp _ _
    simp [offsetMapLoop, lastOr, hp]
  | cons d ds ih =>
    intro prev p mapping hp hs hb
    have hs2 : List.Sorted (· < ·) ds := List.Sorted.of_cons hs
    have hd := hb d (by simp)
    obtain ⟨M, hM, hdM, _, _⟩ := lastOr_ge ds d hs
    have hstart : ((prev + 1) % 2 ^ 32).toNat = p := by
      rw [hp]
      have : ((p : Int) % 2 ^ 32) = (p : Int) := Int.emod_eq_of_lt (by omega) (by omega)
      rw [this]; simp
    have hih := ih (d : Int) (d + 1) (mapping ++ List.range' p (d - p)) (by push_cast; ring) hs2
      (by
        intro x hx
        have := List.rel_of_sorted_cons hs x hx
        exact ⟨by omega, (hb x (List.mem_cons_of_mem _ hx)).2⟩)
    simp only [offsetMapLoop, hstart, lastOr]
    rw [hih, hM]
    have e : ((M : Int) + 1).toNat = M + 1 := by omega
    rw [e, range_split p d M hd.1 hdM]
    have A : (List.range' p (d - p)).filter (· ∉ d :: ds) = List.range' p (d - p) := by
      rw [List.filter_eq_self]
      intro x hx
      have hx2 := (List.mem_range'_1.mp hx).2
      simp only [decide_eq_true_eq]
      intro hmem
      rcases List.mem_cons.mp hmem with h | h
      · omega
      · have := List.rel_of_sorted_cons hs x h
        omega
    have B : (d :: List.range' (d + 1) (M + 1 - (d + 1))).filter (· ∉ d :: ds) =
        (List.range' (d + 1) (M + 1 - (d + 1))).filter (· ∉ ds) := by
      rw [List.filter_cons]
      simp only [List.mem_cons, true_or, not_true_eq_false, decide_False, Bool.false_eq_true,
        if_false]
      apply List.filter_congr
      intro x hx
      have hx2 := (List.mem_range'_1.mp hx).1
      have : x ≠ d := by omega
      simp [this]
    rw [List.filter_append, A, B, List.append_assoc]

/-- In a strictly ascending list the entry at the position `i` has exactly `i` entries
below it. -/
theorem sorted_filter_lt : ∀ (l : List Nat), List.Sorted (· < ·) l → ∀ (i e : Nat),
    l[i]? = some e → (l.filter (· < e)).length = i := by
  intro l
  induction l with
  | nil => intro _ i e h; simp at h
  | cons a t ih =>
    intro hs i e h
    have hs2 : List.Sorted (· < ·) t := List.Sorted.of_cons hs
    cases i with
    | zero =>
      simp only [List.getElem?_cons_zero, Option.some.injEq] at h
      subst h
      rw [List.length_eq_zero, List.filter_eq_nil_iff]
      intro x hx
      simp only [decide_eq_true_eq, not_lt]
      rcases List.mem_cons.mp hx with hx | hx
      · omega
      · exact le_of_lt (List.rel_of_sorted_cons hs x hx)
    | succ k =>
      simp only [List.getElem?_cons_succ] at h
      have hae : a < e := List.rel_of_sorted_cons hs e (List.getElem?_mem h)
      rw [List.filter_cons]
      simp only [hae, decide_True, if_true, List.length_cons]
      rw [ih hs2 k e h]

/-- Two duplicate-free lists with the same elements have the same length. -/
theorem length_eq_of_mem_iff {l1 l2 : List Nat} (h1 : l1.Nodup) (h2 : l2.Nodup)
    (h : ∀ x, x ∈ l1 ↔ x ∈ l2) : l1.length = l2.length :=
  List.Perm.length_eq ((List.perm_ext_iff_of_nodup h1 h2).mpr h)

/-- The number of the indices below `e` that are not deleted. -/
theorem kept_below (ds : List Nat) (hs : List.Sorted (· < ·) ds) (e : Nat) :
    ((List.range e).filter (· ∉ ds)).length + (ds.filter (· < e)).length = e := by
  have hnd : ds.Nodup := List.Sorted.nodup hs
  have h1 : ((List.range e).filter (· ∈ ds)).length = (ds.filter (· < e)).length := by
    apply length_eq_of_mem_iff ((List.nodup_range e).filter _) (hnd.filter _)
    intro x
    simp only [List.mem_filter, List.mem_range, decide_eq_true_eq]
    tauto
  have h2 := List.length_eq_length_filter_add (l := List.range e) (fun x => decide (x ∈ ds))
  simp only [List.length_range] at h2
  rw [← h1]
  have h3 : (List.range e).filter (fun x => !decide (x ∈ ds)) =
      (List.range e).filter (· ∉ ds) := by
    apply List.filter_congr
    intro x _
    simp
  rw [h3] at h2
  omega

/-- The list that `GetOffsetMapBeforeApplyDeletes` returns for a non-empty bitmap whose
largest element `M` is below `2^32 - 1`. -/
theorem GetOffsetMapBeforeApplyDeletes_eq (d : Bitmap) (hvalid : d.valid) (M : Nat)
    (hM : M ∈ d.elems) (hmax : ∀ x ∈ d.elems, x ≤ M) (hlt : M < 2 ^ 32 - 1) :
    GetOffsetMapBeforeApplyDeletes (some d) =
      (List.range (M + 1)).filter (· ∉ d.elems) ++ [M + 1] := by
  obtain ⟨hs, hb⟩ := hvalid
  cases hd : d.elems with
  | nil => rw [hd] at hM; simp at hM
  | cons a t =>
    rw [hd] at hs hb hM hmax
    obtain ⟨M2, h1, _, h3, h4⟩ := lastOr_ge t a hs
    have hMM : M2 = M := le_antisymm (hmax M2 h3) (h4 M hM)
    subst hMM
    have hl : lastOr (a :: t) (-1) = (M2 : Int) := h1
    have hspec := offsetMapLoop_spec (a :: t) (-1) 0 [] (by norm_num) hs
      (fun x hx => ⟨Nat.zero_le _, hb x hx⟩)
    have hemp : d.IsEmpty = false := by simp [Bitmap.IsEmpty, hd]
    simp only [GetOffsetMapBeforeApplyDeletes, hemp, hd, hspec, hl, Bool.false_eq_true,
      if_false, List.nil_append]
    have e1 : ((M2 : Int) + 1).toNat - 0 = M2 + 1 := by omega
    have e2 : (((M2 : Int) % 2 ^ 32).toNat + 1) % 2 ^ 32 = M2 + 1 := by
      have : ((M2 : Int) % 2 ^ 32) = (M2 : Int) := Int.emod_eq_of_lt (by omega) (by omega)
      rw [this, Int.toNat_ofNat]
      exact Nat.mod_eq_of_lt (by omega)
    rw [e1, e2, List.range_eq_range']

/-- C38: for every non-empty delete bitmap with largest element `M < 2^32 - 1`,
`GetOffsetMapBeforeApplyDeletes` returns the strictly increasing list of all row indices
in `[0, M]` that are not deleted, followed by `M + 1`; its length is
`M + 2 - |deletes|`, no entry is a deleted row, and the entry `e` at the position `i`
has `e - i` deleted rows below it. For a nil or empty bitmap it returns nil. -/
theorem GetOffsetMapBeforeApplyDeletes_spec (d : Bitmap) (hvalid : d.valid) (M : Nat)
    (hM : M ∈ d.elems) (hmax : ∀ x ∈ d.elems, x ≤ M) (hlt : M < 2 ^ 32 - 1) :
    GetOffsetMapBeforeApplyDeletes (some d) =
      (List.range (M + 1)).filter (· ∉ d.elems) ++ [M + 1] ∧
    List.Sorted (· < ·) (GetOffsetMapBeforeApplyDeletes (some d)) ∧
    (GetOffsetMapBeforeApplyDeletes (some d)).length = M + 2 - d.elems.length ∧
    (∀ e ∈ GetOffsetMapBeforeApplyDeletes (some d), e ∉ d.elems) ∧
    (∀ i e, (GetOffsetMapBeforeApplyDeletes (some d))[i]? = some e →
      i ≤ e ∧ e - i = (d.elems.filter (· < e)).length) ∧
    GetOffsetMapBeforeApplyDeletes none = [] ∧
    GetOffsetMapBeforeApplyDeletes (some (Bitmap.mk [])) = [] := by
  have heq := GetOffsetMapBeforeApplyDeletes_eq d hvalid M hM hmax hlt
  obtain ⟨hs, hb⟩ := hvalid
  have hsorted : List.Sorted (· < ·)
      ((List.range (M + 1)).filter (· ∉ d.elems) ++ [M + 1]) := by
    unfold List.Sorted
    rw [List.pairwise_append]
    refine ⟨List.Pairwise.filter _ (List.sorted_lt_range (M + 1)), List.pairwise_singleton _ _,
      ?_⟩
    intro a ha b hb2
    simp only [List.mem_singleton] at hb2
    have := (List.mem_filter.mp ha).1
    rw [List.mem_range] at this
    omega
  have hmem : ∀ e ∈ (List.range (M + 1)).filter (· ∉ d.elems) ++ [M + 1],
      e ∉ d.elems ∧ e ≤ M + 1 := by
    intro e he
    rcases List.mem_append.mp he with h | h
    · have h1 := List.mem_filter.mp h
      have := List.mem_range.mp h1.1
      exact ⟨by simpa using h1.2, by omega⟩
    · simp only [List.mem_singleton] at h
      subst h
      exact ⟨fun hin => by have := hmax _ hin; omega, le_refl _⟩
  have hall : d.elems.filter (· < M + 1) = d.elems := by
    rw [List.filter_eq_self]
    intro x hx
    have := hmax x hx
    simp only [decide_eq_true_eq]
    omega
  have hk := kept_below d.elems hs (M + 1)
  rw [hall] at hk
  rw [heq]
  refine ⟨rfl, hsorted, ?_, fun e he => (hmem e he).1, ?_, rfl, rfl⟩
  · rw [List.length_append, List.length_singleton]
    omega
  · intro i e hie
    have hcount := sorted_filter_lt _ hsorted i e hie
    have he := hmem e (List.getElem?_mem hie)
    have hsame : (((List.range (M + 1)).filter (· ∉ d.elems) ++ [M + 1]).filter
        (· < e)).length = ((List.range e).filter (· ∉ d.elems)).length := by
      apply length_eq_of_mem_iff ((List.Sorted.nodup hsorted).filter _)
        ((List.nodup_range e).filter _)
      intro x
      simp only [List.mem_filter, List.mem_append, List.mem_range, List.mem_singleton,
        decide_eq_true_eq]
      constructor
      · rintro ⟨h1 | h1, h2⟩
        · exact ⟨h2, h1.2⟩
        · subst h1; omega
      · rintro ⟨h1, h2⟩
        exact ⟨Or.inl ⟨by omega, h2⟩, h1⟩
    have hk2 := kept_below d.elems hs e
    omega

set_option maxRecDepth 100000 in
/-- C38, witness: the bitmap of the deleted rows 1 and 3 gives the list 0, 2, 4. -/
theorem GetOffsetMapBeforeApplyDeletes_spec_witness :
    (Bitmap.mk [1, 3]).valid ∧ 3 ∈ (Bitmap.mk [1, 3]).elems ∧
    (∀ x ∈ (Bitmap.mk [1, 3]).elems, x ≤ 3) ∧ 3 < 2 ^ 32 - 1 ∧
    GetOffsetMapBeforeApplyDeletes (some (Bitmap.mk [1, 3])) = [0, 2, 4] ∧
    (GetOffsetMapBeforeApplyDeletes (some (Bitmap.mk [1, 3]))).length =
      3 + 2 - (Bitmap.mk [1, 3]).elems.length :=
  have hv : (Bitmap.mk [1, 3]).valid := by simp [Bitmap.valid]
  have hm : ∀ x ∈ (Bitmap.mk [1, 3]).elems, x ≤ 3 := by simp
  have h := GetOffsetMapBeforeApplyDeletes_spec (Bitmap.mk [1, 3]) hv 3 (by simp) hm
    (by norm_num)
  ⟨hv, by simp, hm, by norm_num, by rw [h.1]; decide, h.2.2.1⟩

end compute

namespace compute

theorem mem_Add (b : Bitmap) (y x : Nat) : x ∈ (b.Add y).elems ↔ x = y ∨ x ∈ b.elems := by
  unfold Bitmap.Add
  split_ifs with h
  · constructor
    · exact Or.inr
    · rintro (h1 | h1)
      · subst h1; exact h
      · exact h1
  · simp only [List.mem_orderedInsert]

theorem subUint32_eq (row cnt : Nat) (h1 : cnt ≤ row) (h2 : row < 2 ^ 32) :
    subUint32 row cnt = row - cnt := by
  unfold subUint32
  have : row + 2 ^ 32 - cnt = (row - cnt) + 2 ^ 32 := by omega
  rw [this, Nat.add_mod_right]
  exact Nat.mod_eq_of_lt (by omega)

theorem shuffleRest_mem (cnt : Nat) : ∀ (rows : List Nat) (dest : Bitmap),
    (∀ r ∈ rows, cnt ≤ r ∧ r < 2 ^ 32) →
    ∀ x, x ∈ (shuffleRest cnt rows dest).elems ↔
      x ∈ dest.elems ∨ ∃ r ∈ rows, x = r - cnt := by
  intro rows
  induction rows with
  | nil => intro dest _ x; simp [shuffleRest]
  | cons row rows ih =>
    intro dest hb x
    have hrow := hb row (by simp)
    simp only [shuffleRest]
    rw [ih _ (fun r hr => hb r (List.mem_cons_of_mem _ hr)), mem_Add,
      subUint32_eq row cnt hrow.1 hrow.2]
    simp only [List.mem_cons, exists_eq_or_imp]
    tauto

theorem shuffleInner_spec (del cnt : Nat) : ∀ (rows : List Nat) (dest : Bitmap),
    List.Sorted (· < ·) rows → (∀ r ∈ rows, cnt ≤ r ∧ r < 2 ^ 32) →
    (shuffleInner del cnt rows dest).1 = rows.filter (del < ·) ∧
    ∀ x, x ∈ (shuffleInner del cnt rows dest).2.elems ↔
      x ∈ dest.elems ∨ ∃ r ∈ rows, r < del ∧ x = r - cnt := by
  intro rows
  induction rows with
  | nil => intro dest _ _; simp [shuffleInner]
  | cons row rows ih =>
    intro dest hs hb
    have hs2 : List.Sorted (· < ·) rows := List.Sorted.of_cons hs
    have hrow := hb row (by simp)
    have hb2 : ∀ r ∈ rows, cnt ≤ r ∧ r < 2 ^ 32 := fun r hr => hb r (List.mem_cons_of_mem _ hr)
    unfold shuffleInner
    by_cases h1 : row < del
    · obtain ⟨i1, i2⟩ := ih (dest.Add (subUint32 row cnt)) hs2 hb2
      simp only [h1, if_true]
      refine ⟨?_, ?_⟩
      · rw [i1, List.filter_cons]
        have : ¬ del < row := by omega
        simp [this]
      · intro x
        rw [i2, mem_Add, subUint32_eq row cnt hrow.1 hrow.2]
        simp only [List.mem_cons, exists_eq_or_imp]
        tauto
    · by_cases h2 : row = del
      · obtain ⟨i1, i2⟩ := ih dest hs2 hb2
        simp only [h1, h2, if_true, if_false, lt_self_iff_false]
        subst h2
        refine ⟨?_, ?_⟩
        · rw [i1, List.filter_cons]
          simp
        · intro x
          rw [i2]
          simp only [List.mem_cons, exists_eq_or_imp]
          constructor
          · rintro (h | h)
            · exact Or.inl h
            · exact Or.inr (Or.inr h)
          · rintro (h | h | h)
            · exact Or.inl h
            · omega
            · exact Or.inr h
      · simp only [h1, h2, if_false]
        have hgt : del < row := by omega
        refine ⟨?_, ?_⟩
        · symm
          rw [List.filter_eq_self]
          intro r hr
          simp only [decide_eq_true_eq]
          rcases List.mem_cons.mp hr with h | h
          · omega
          · have := List.rel_of_sorted_cons hs r h
            omega
        · intro x
          constructor
          · exact Or.inl
          · rintro (h | ⟨r, hr, hlt, _⟩)
            · exact h
            · exfalso
              rcases List.mem_cons.mp hr with h | h
              · omega
              · have := List.rel_of_sorted_cons hs r h
                omega

/-- The two loops of `ShuffleByDeletes` together: every row left that is not deleted is
added, less the deletes counted so far and those below it. -/
theorem shuffleOuter_mem : ∀ (dels : List Nat) (cnt : Nat) (rows : List Nat) (dest : Bitmap),
    List.Sorted (· < ·) dels → List.Sorted (· < ·) rows → (∀ r ∈ rows, r < 2 ^ 32) →
    (∀ r ∈ rows, cnt + (dels.filter (· < r)).length ≤ r) →
    ∀ x, x ∈ (shuffleRest (shuffleOuter dels cnt rows dest).1
        (shuffleOuter dels cnt rows dest).2.1 (shuffleOuter dels cnt rows dest).2.2).elems ↔
      x ∈ dest.elems ∨
        ∃ r ∈ rows, r ∉ dels ∧ x = r - (cnt + (dels.filter (· < r)).length) := by
  intro dels
  induction dels with
  | nil =>
    intro cnt rows dest _ _ hb hc x
    simp only [shuffleOuter]
    rw [shuffleRest_mem cnt rows dest (fun r hr => ⟨by simpa using hc r hr, hb r hr⟩)]
    simp
  | cons del ds ih =>
    intro cnt rows dest hsd hsr hb hc x
    have hsd2 : List.Sorted (· < ·) ds := List.Sorted.of_cons hsd
    have hcnt : ∀ r ∈ rows, cnt ≤ r ∧ r < 2 ^ 32 := fun r hr =>
      ⟨le_trans (Nat.le_add_right _ _) (hc r hr), hb r hr⟩
    obtain ⟨i1, i2⟩ := shuffleInner_spec del cnt rows dest hsr hcnt
    have hcount : ∀ r, del < r →
        ((del :: ds).filter (· < r)).length = (ds.filter (· < r)).length + 1 := by
      intro r hr
      rw [List.filter_cons]
      simp [hr]
    have hcount0 : ∀ r, r ≤ del → ((del :: ds).filter (· < r)).length = 0 := by
      intro r hr
      rw [List.length_eq_zero, List.filter_eq_nil_iff]
      intro y hy
      simp only [decide_eq_true_eq, not_lt]
      rcases List.mem_cons.mp hy with h | h
      · omega
      · have := List.rel_of_sorted_cons hsd y h
        omega
    have hmod : ∀ r ∈ rows.filter (del < ·), (cnt + 1) % 2 ^ 32 = cnt + 1 := by
      intro r hr
      have h1 := List.mem_filter.mp hr
      have h2 : del < r := by simpa using h1.2
      have h3 := hc r h1.1
      rw [hcount r h2] at h3
      have := hb r h1.1
      exact Nat.mod_eq_of_lt (by omega)
    simp only [shuffleOuter]
    rw [i1]
    rw [ih ((cnt + 1) % 2 ^ 32) (rows.filter (del < ·)) _ hsd2 (List.Pairwise.filter _ hsr)
      (fun r hr => hb r (List.mem_filter.mp hr).1) (by
        intro r hr
        rw [hmod r hr]
        have h1 := List.mem_filter.mp hr
        have h2 : del < r := by simpa using h1.2
        have h3 := hc r h1.1
        rw [hcount r h2] at h3
        omega)]
    rw [i2]
    constructor
    · rintro ((h | ⟨r, hr, hlt, hx⟩) | ⟨r, hr, hnot, hx⟩)
      · exact Or.inl h
      · refine Or.inr ⟨r, hr, ?_, ?_⟩
        · intro hmem
          rcases List.mem_cons.mp hmem with h | h
          · omega
          · have := List.rel_of_sorted_cons hsd r h
            omega
        · rw [hcount0 r (le_of_lt hlt)]
          exact hx
      · have h1 := List.mem_filter.mp hr
        have h2 : del < r := by simpa using h1.2
        refine Or.inr ⟨r, h1.1, ?_, ?_⟩
        · intro hmem
          rcases List.mem_cons.mp hmem with h | h
          · omega
          · exact hnot h
        · rw [hcount r h2, hx, hmod r hr]
          omega
    · rintro (h | ⟨r, hr, hnot, hx⟩)
      · exact Or.inl (Or.inl h)
      · have hne : r ≠ del := fun h => hnot (by simp [h])
        have hnds : r ∉ ds := fun h => hnot (List.mem_cons_of_mem _ h)
        rcases Nat.lt_or_ge r del with hlt | hge
        · refine Or.inl (Or.inr ⟨r, hr, hlt, ?_⟩)
          rw [hx, hcount0 r (le_of_lt hlt)]
          rfl
        · have hgt : del < r := by omega
          have hr2 : r ∈ rows.filter (del < ·) := List.mem_filter.mpr ⟨hr, by simpa using hgt⟩
          refine Or.inr ⟨r, hr2, hnds, ?_⟩
          rw [hx, hcount r hgt, hmod r hr2]
          omega

/-- The deletes below a row are fewer than the row number. -/
theorem deletes_below_le (ds : List Nat) (hs : List.Sorted (· < ·) ds) (r : Nat) :
    (ds.filter (· < r)).length ≤ r := by
  have := kept_below ds hs r
  omega

/-- C37: for all bitmaps `deleteMask` and `deletes`: if `deletes` is nil or empty,
`ShuffleByDeletes` returns `deleteMask` unchanged; if `deletes` is non-empty and
`deleteMask` is nil or empty it returns nil; otherwise it returns exactly the set of
the values `r - |{d ∈ deletes : d < r}|` for the rows `r` of `deleteMask` that are not
in `deletes`. -/
theorem ShuffleByDeletes_spec (deleteMask deletes : Option Bitmap)
    (hmask : ∀ m, deleteMask = some m → m.valid) (hdel : ∀ d, deletes = some d → d.valid) :
    ((deletes = none ∨ ∃ d, deletes = some d ∧ d.IsEmpty = true) →
      ShuffleByDeletes deleteMask deletes = deleteMask) ∧
    (∀ d, deletes = some d → d.IsEmpty = false →
      (deleteMask = none ∨ ∃ m, deleteMask = some m ∧ m.IsEmpty = true) →
      ShuffleByDeletes deleteMask deletes = none) ∧
    (∀ d m, deletes = some d → d.IsEmpty = false → deleteMask = some m →
      m.IsEmpty = false →
      ∃ res, ShuffleByDeletes deleteMask deletes = some res ∧
        ∀ x, x ∈ res.elems ↔
          ∃ r ∈ m.elems, r ∉ d.elems ∧ x = r - (d.elems.filter (· < r)).length) := by
  refine ⟨?_, ?_, ?_⟩
  · rintro (h | ⟨d, h, he⟩)
    · subst h; rfl
    · subst h
      simp only [ShuffleByDeletes, he, if_true]
  · rintro d h he (hm | ⟨m, hm, hme⟩)
    · subst h; subst hm
      simp only [ShuffleByDeletes, he, Bool.false_eq_true, if_false]
    · subst h; subst hm
      simp only [ShuffleByDeletes, he, hme, Bool.false_eq_true, if_false, Bool.not_true]
  · intro d m h he hm hme
    subst h; subst hm
    obtain ⟨hds, _⟩ := hdel d rfl
    obtain ⟨hms, hmb⟩ := hmask m rfl
    have hrun : ShuffleByDeletes (some m) (some d) =
        some (shuffleRest (shuffleOuter d.elems 0 m.elems (Bitmap.mk [])).1
          (shuffleOuter d.elems 0 m.elems (Bitmap.mk [])).2.1
          (shuffleOuter d.elems 0 m.elems (Bitmap.mk [])).2.2) := by
      simp only [ShuffleByDeletes, he, hme, Bool.false_eq_true, if_false, Bool.not_false,
        if_true]
    refine ⟨_, hrun, ?_⟩
    intro x
    rw [shuffleOuter_mem d.elems 0 m.elems (Bitmap.mk []) hds hms hmb
      (fun r _ => by rw [Nat.zero_add]; exact deletes_below_le d.elems hds r)]
    simp

set_option maxRecDepth 100000 in
/-- C37, witness: the mask of the rows 1, 3 and 5 under the deletes 0 and 3 becomes the
bitmap of the rows 0 and 3. -/
theorem ShuffleByDeletes_spec_witness :
    (∀ m, some (Bitmap.mk [1, 3, 5]) = some m → m.valid) ∧
    (∀ d, some (Bitmap.mk [0, 3]) = some d → d.valid) ∧
    (∃ res, ShuffleByDeletes (some (Bitmap.mk [1, 3, 5])) (some (Bitmap.mk [0, 3])) = some res ∧
      ∀ x, x ∈ res.elems ↔ ∃ r ∈ (Bitmap.mk [1, 3, 5]).elems, r ∉ (Bitmap.mk [0, 3]).elems ∧
        x = r - ((Bitmap.mk [0, 3]).elems.filter (· < r)).length) ∧
    ShuffleByDeletes (some (Bitmap.mk [1, 3, 5])) (some (Bitmap.mk [0, 3])) =
      some (Bitmap.mk [0, 3]) :=
  have hm : ∀ m, some (Bitmap.mk [1, 3, 5]) = some m → m.valid := by
    intro m h
    simp only [Option.some.injEq] at h
    subst h
    simp [Bitmap.valid]
  have hd : ∀ d, some (Bitmap.mk [0, 3]) = some d → d.valid := by
    intro d h
    simp only [Option.some.injEq] at h
    subst h
    simp [Bitmap.valid]
  ⟨hm, hd,
    (ShuffleByDeletes_spec (some (Bitmap.mk [1, 3, 5])) (some (Bitmap.mk [0, 3])) hm hd).2.2
      (Bitmap.mk [0, 3]) (Bitmap.mk [1, 3, 5]) rfl rfl rfl rfl,
    by decide⟩

end compute

namespace jobs

theorem prefixSums_append (rows : List Nat) (r : Nat) :
    prefixSums (rows ++ [r]) = prefixSums rows ++ [rows.sum] := by
  unfold prefixSums
  rw [List.length_append, List.length_singleton, List.range_succ, List.map_append]
  congr 1
  · apply List.map_congr_left
    intro i hi
    rw [List.take_append_of_le_length (le_of_lt (List.mem_range.mp hi))]
  · simp

theorem prefixSums_step (rows : List Nat) (i : Nat) (h : i + 1 < rows.length) :
    (prefixSums rows)[i + 1]? =
      some ((rows.take i).sum + rows[i]) := by
  unfold prefixSums
  rw [List.getElem?_map, List.getElem?_range h]
  simp only [Option.map_some']
  congr 1
  rw [List.take_succ, List.sum_append, List.getElem?_eq_getElem (by omega)]
  simp

/-- The state after the loop, from the state before it, when every block loads and the
rows counted stay below `2^32`. -/
theorem loadLoop_spec : ∀ (rest : List Block) (i : Nat) (s : LoadState),
    (∀ b ∈ rest, ∃ v, b.GetColumnDataById = .ok v) →
    s.length + (rest.map Block.rowsLeft).sum < 2 ^ 32 →
    s.length = s.rows.sum → s.fromAddr = prefixSums s.rows →
    ∃ s2, loadLoop rest i s = .ok s2 ∧
      s2.rows = s.rows ++ (rest.map Block.rowsLeft).filter (0 < ·) ∧
      s2.ids = s.ids ++ (rest.filter (0 < ·.rowsLeft)).map Block.Fingerprint ∧
      s2.length = s2.rows.sum ∧ s2.fromAddr = prefixSums s2.rows ∧
      s2.skipBlks.length + s2.rows.length = s.skipBlks.length + s.rows.length + rest.length ∧
      (∀ j, j ∈ s2.skipBlks ↔
        j ∈ s.skipBlks ∨ ∃ k b, j = i + k ∧ rest[k]? = some b ∧ b.rowsLeft = 0) ∧
      (List.Sorted (· < ·) s.skipBlks → (∀ j ∈ s.skipBlks, j < i) →
        List.Sorted (· < ·) s2.skipBlks) := by
  intro rest
  induction rest with
  | nil =>
    intro i s _ _ h1 h2
    refine ⟨s, rfl, by simp, by simp, h1, h2, by simp, ?_, fun h _ => h⟩
    intro j
    simp
  | cons block rest ih =>
    intro i s hload hsum h1 h2
    obtain ⟨view, hv⟩ := hload block (by simp)
    have hrl : block.rowsLeft = view.Length := by simp [Block.rowsLeft, hv]
    have hload2 : ∀ b ∈ rest, ∃ v, b.GetColumnDataById = .ok v :=
      fun b hb => hload b (List.mem_cons_of_mem _ hb)
    simp only [List.map_cons, List.sum_cons, hrl] at hsum
    unfold loadLoop
    simp only [hv]
    by_cases h0 : view.Length = 0
    · simp only [h0, if_true]
      obtain ⟨s2, e, a1, a2, a3, a4, a5, a6, a7⟩ := ih (i + 1)
        { s with deletes := s.deletes.set i view.DeleteMask, skipBlks := s.skipBlks ++ [i] }
        hload2 (by simpa [h0] using hsum) h1 h2
      refine ⟨s2, e, ?_, ?_, a3, a4, ?_, ?_, ?_⟩
      · rw [a1]; simp [hrl, h0]
      · rw [a2]; simp [hrl, h0]
      · simp only [List.length_append, List.length_singleton, List.length_cons, List.length_nil] at a5 ⊢; omega
      · intro j
        rw [a6]
        simp only [List.mem_append, List.mem_singleton]
        constructor
        · rintro ((h | h) | ⟨k, b, hj, hk, hb⟩)
          · exact Or.inl h
          · exact Or.inr ⟨0, block, by omega, by simp, by rw [hrl, h0]⟩
          · exact Or.inr ⟨k + 1, b, by omega, by simpa using hk, hb⟩
        · rintro (h | ⟨k, b, hj, hk, hb⟩)
          · exact Or.inl (Or.inl h)
          · cases k with
            | zero => exact Or.inl (Or.inr (by omega))
            | succ k => exact Or.inr ⟨k, b, by omega, by simpa using hk, hb⟩
      · intro hs hb
        apply a7
        · unfold List.Sorted
          rw [List.pairwise_append]
          refine ⟨hs, List.pairwise_singleton _ _, ?_⟩
          intro a ha b hb2
          simp only [List.mem_singleton] at hb2
          have := hb a ha
          omega
        · intro j hj
          simp only [List.mem_append, List.mem_singleton] at hj
          rcases hj with h | h
          · have := hb j h; omega
          · omega
    · simp only [h0, if_false]
      have hm1 : view.Length % 2 ^ 32 = view.Length := Nat.mod_eq_of_lt (by omega)
      have hm2 : s.length % 2 ^ 32 = s.length := Nat.mod_eq_of_lt (by omega)
      have hpos : 0 < view.Length := Nat.pos_of_ne_zero h0
      obtain ⟨s2, e, a1, a2, a3, a4, a5, a6, a7⟩ := ih (i + 1)
        (LoadState.mk (s.sortVecs ++ [view]) (s.rows ++ [view.Length % 2 ^ 32]) s.skipBlks (s.length + view.Length) (s.fromAddr ++ [s.length % 2 ^ 32]) (s.ids ++ [block.Fingerprint]) (s.deletes.set i view.DeleteMask))
        hload2 (by simp only []; omega)
        (by
          show s.length + view.Length = (s.rows ++ [view.Length % 2 ^ 32]).sum
          rw [hm1, List.sum_append, List.sum_singleton, h1])
        (by
          show s.fromAddr ++ [s.length % 2 ^ 32] = prefixSums (s.rows ++ [view.Length % 2 ^ 32])
          rw [hm1, hm2, prefixSums_append, h2, h1])
      refine ⟨s2, e, ?_, ?_, a3, a4, ?_, ?_, ?_⟩
      · rw [a1]; simp only [hm1]; simp [hrl, hpos]
      · rw [a2]; simp [hrl, hpos]
      · simp only [List.length_append, List.length_singleton, List.length_cons, List.length_nil] at a5 ⊢; omega
      · intro j
        rw [a6]
        constructor
        · rintro (h | ⟨k, b, hj, hk, hb⟩)
          · exact Or.inl h
          · exact Or.inr ⟨k + 1, b, by omega, by simpa using hk, hb⟩
        · rintro (h | ⟨k, b, hj, hk, hb⟩)
          · exact Or.inl h
          · cases k with
            | zero =>
              simp only [List.getElem?_cons_zero, Option.some.injEq] at hk
              subst hk
              omega
            | succ k => exact Or.inr ⟨k, b, by omega, by simpa using hk, hb⟩
      · intro hs hb
        exact a7 hs (fun j hj => by have := hb j hj; omega)

theorem prefixSums_get (rows : List Nat) (i a : Nat) (h : (prefixSums rows)[i]? = some a) :
    i < rows.length ∧ a = (rows.take i).sum := by
  unfold prefixSums at h
  rw [List.getElem?_map] at h
  by_cases hi : i < rows.length
  · rw [List.getElem?_range hi] at h
    simp only [Option.map_some', Option.some.injEq] at h
    exact ⟨hi, h.symm⟩
  · rw [List.getElem?_eq_none (by simpa using hi)] at h
    simp at h

/-- C34 (amended): after the sort-column load loop of the merge task over a list of
input blocks that all load and whose surviving rows number less than `2^32` in total,
`rows`, `fromAddr` and `ids` have the same length, the number of the input blocks with
at least one surviving row; `fromAddr` is the exclusive prefix sum of `rows`
(`fromAddr[0] = 0` and `fromAddr[i+1] = fromAddr[i] + rows[i]`); `length` is the sum of
`rows`; and `skipBlks` is the ascending list of the input positions whose block has no
surviving row, so `len(skipBlks) + len(rows)` is the number of input blocks. -/
theorem loadSortColumn_spec (compacted : List Block)
    (hload : ∀ b ∈ compacted, ∃ v, b.GetColumnDataById = .ok v)
    (htotal : (compacted.map Block.rowsLeft).sum < 2 ^ 32) :
    ∃ s, loadSortColumn compacted = .ok s ∧
      s.rows = (compacted.map Block.rowsLeft).filter (0 < ·) ∧
      s.ids = (compacted.filter (0 < ·.rowsLeft)).map Block.Fingerprint ∧
      s.rows.length = (compacted.filter (0 < ·.rowsLeft)).length ∧
      s.fromAddr.length = s.rows.length ∧ s.ids.length = s.rows.length ∧
      (∀ a, s.fromAddr[0]? = some a → a = 0) ∧
      (∀ i a b r, s.fromAddr[i]? = some a → s.fromAddr[i + 1]? = some b →
        s.rows[i]? = some r → b = a + r) ∧
      s.length = s.rows.sum ∧
      List.Sorted (· < ·) s.skipBlks ∧
      (∀ j, j ∈ s.skipBlks ↔ ∃ b, compacted[j]? = some b ∧ b.rowsLeft = 0) ∧
      s.skipBlks.length + s.rows.length = compacted.length := by
  obtain ⟨s, e, a1, a2, a3, a4, a5, a6, a7⟩ := loadLoop_spec compacted 0
    (LoadState.mk [] [] [] 0 [] [] (List.replicate compacted.length none)) hload
    (by simpa using htotal) rfl rfl
  simp only [List.nil_append, List.length_nil, Nat.zero_add, List.not_mem_nil, false_or] at a1 a2 a5 a6
  have hlen : s.rows.length = (compacted.filter (0 < ·.rowsLeft)).length := by
    rw [a1, List.filter_map, List.length_map]
    rfl
  refine ⟨s, e, a1, a2, hlen, ?_, ?_, ?_, ?_, a3, ?_, ?_, a5⟩
  · rw [a4]; simp [prefixSums]
  · rw [hlen, a2, List.length_map]
  · intro a ha
    rw [a4] at ha
    have := (prefixSums_get _ _ _ ha).2
    simpa using this
  · intro i a b r ha hb hr
    rw [a4] at ha hb
    obtain ⟨_, h1⟩ := prefixSums_get _ _ _ ha
    obtain ⟨hi, h2⟩ := prefixSums_get _ _ _ hb
    rw [h1, h2, List.take_succ, List.sum_append, hr]
    simp
  · exact a7 List.sorted_nil (fun j hj => by simp at hj)
  · intro j
    rw [a6]
    constructor
    · rintro ⟨k, b, hj, hk, hb⟩
      subst hj
      exact ⟨b, hk, hb⟩
    · rintro ⟨b, hk, hb⟩
      exact ⟨j, b, rfl, hk, hb⟩

/-- C34, witness: three blocks with 3, 0 and 2 surviving rows and the fingerprints 10,
11 and 12. -/
theorem loadSortColumn_spec_witness :
    (∀ b ∈ [demoBlock 3 10, demoBlock 0 11, demoBlock 2 12],
      ∃ v, b.GetColumnDataById = .ok v) ∧
    (([demoBlock 3 10, demoBlock 0 11, demoBlock 2 12]).map Block.rowsLeft).sum < 2 ^ 32 ∧
    (∃ s, loadSortColumn [demoBlock 3 10, demoBlock 0 11, demoBlock 2 12] = .ok s ∧
      s.rows = [3, 2] ∧ s.fromAddr = [0, 3] ∧ s.ids = [10, 12] ∧ s.skipBlks = [1] ∧
      s.length = 5) ∧
    (∃ s, loadSortColumn [demoBlock 3 10, demoBlock 0 11, demoBlock 2 12] = .ok s ∧
      s.skipBlks.length + s.rows.length = 3) :=
  have hl : ∀ b ∈ [demoBlock 3 10, demoBlock 0 11, demoBlock 2 12],
      ∃ v, b.GetColumnDataById = .ok v := by
    intro b hb
    simp only [List.mem_cons, List.mem_singleton, List.not_mem_nil, or_false] at hb
    rcases hb with h | h | h <;> subst h <;> exact ⟨_, rfl⟩
  have ht : (([demoBlock 3 10, demoBlock 0 11, demoBlock 2 12]).map Block.rowsLeft).sum
      < 2 ^ 32 := by decide
  have h := loadSortColumn_spec [demoBlock 3 10, demoBlock 0 11, demoBlock 2 12] hl ht
  ⟨hl, ht, ⟨_, rfl, rfl, rfl, rfl, rfl, rfl⟩,
    h.elim (fun s hs => ⟨s, hs.1, hs.2.2.2.2.2.2.2.2.2.2.2⟩)⟩

/-- C34, counterexample: three blocks with `2^31`, `2^31` and 1 surviving rows. The
third entry of `fromAddr` is `uint32(2^32) = 0`, which is not the second entry plus the
second entry of `rows`. -/
theorem loadSortColumn_fromAddr_wraps :
    ∃ s, loadSortColumn [demoBlock (2 ^ 31) 10, demoBlock (2 ^ 31) 11, demoBlock 1 12] = .ok s ∧
      s.rows = [2 ^ 31, 2 ^ 31, 1] ∧ s.fromAddr = [0, 2 ^ 31, 0] ∧
      s.length = 2 ^ 32 + 1 ∧
      s.fromAddr[2]? = some 0 ∧ s.fromAddr[1]? = some (2 ^ 31) ∧ s.rows[1]? = some (2 ^ 31) ∧
      (0 : Nat) ≠ 2 ^ 31 + 2 ^ 31 := by
  refine ⟨_, rfl, ?_, ?_, ?_, ?_, ?_, ?_, by norm_num⟩ <;> decide

end jobs

namespace disttae

open plan

theorem rowsOf_cons (b : BlockInfo) (rest : List BlockInfo) :
    rowsOf (b :: rest) = b.MetaLocation.Rows + rowsOf rest := by
  simp [rowsOf]

theorem rowsOf_nonneg (blocks : List BlockInfo) : 0 ≤ rowsOf blocks := by
  induction blocks with
  | nil => simp [rowsOf]
  | cons b rest ih => rw [rowsOf_cons]; omega

end disttae

namespace objectio

/-- What `AddBlock` does when it returns. -/
theorem AddBlock_outcome (p : Params) (w : objectWriterV1) (blockMeta : BlockObject)
    (bat : Batch) (seqnums : SeqnumsRef) (e1 : Option GoError) (h : BlockObject)
    (w2 : objectWriterV1)
    (hadd : AddBlock p w blockMeta bat seqnums = some (e1, h, w2)) :
    AddBlockOutcome e1 w h w2 := by
  unfold AddBlock at hadd
  simp only at hadd
  split at hadd
  · simp at hadd
  · next err block rows hcols =>
    simp only [Option.some.injEq, Prod.mk.injEq] at hadd
    obtain ⟨rfl, rfl, rfl⟩ := hadd
    exact ⟨fun _ => ⟨rfl, rfl⟩, fun h => by simp at h⟩
  · next block rows hcols =>
    simp only [Option.some.injEq, Prod.mk.injEq] at hadd
    obtain ⟨rfl, rfl, rfl⟩ := hadd
    obtain ⟨hh, -, -⟩ := addColumns_meta _ _ _ _ _ _ _ _ _ hcols
    refine ⟨fun h => absurd rfl h, fun _ => ⟨_, rfl, rfl, ?_, ?_, ?_⟩⟩
    · simp only [hh]
    · intro hlt
      simp only [hh]
      exact Nat.mod_eq_of_lt hlt
    · intro heq hlt
      simp only [List.length_append, List.length_singleton]
      rw [heq]
      exact Nat.mod_eq_of_lt hlt

theorem Write_AddBlock (p : Params) (w w2 : objectWriterV1) (batch : Batch) (h : BlockObject)
    (e : Option GoError) (hw : Write p w batch = some (h, e, w2)) :
    e = none ∧ ∃ e1, AddBlock p (writerForWrite w batch)
      (NewBlock (writerForWrite w batch).seqnums) batch .writer = some (e1, h, w2) := by
  unfold Write at hw
  unfold writerForWrite
  by_cases h0 : w.seqnums.Seqs.length = 0
  · simp only [h0, if_true, Option.bind_eq_bind, Option.some_bind, Option.bind_eq_some,
      Option.pure_def, Option.some.injEq, Prod.mk.injEq] at hw
    obtain ⟨⟨e1, h1, w1⟩, hadd, rfl, rfl, rfl⟩ := hw
    exact ⟨rfl, e1, by simpa [h0] using hadd⟩
  · by_cases h1 : w.seqnums.Seqs.length = batch.Vecs.length
    · have hne : ¬ (w.seqnums.Seqs.length ≠ batch.Vecs.length) := not_not.mpr h1
      rw [if_neg h0, if_neg hne] at hw
      simp only [Option.bind_eq_bind, Option.some_bind, Option.bind_eq_some, Option.pure_def,
        Option.some.injEq, Prod.mk.injEq] at hw
      obtain ⟨⟨e1, h1', w1⟩, hadd, rfl, rfl, rfl⟩ := hw
      exact ⟨rfl, e1, by rw [if_neg h0]; exact hadd⟩
    · have hne : w.seqnums.Seqs.length ≠ batch.Vecs.length := h1
      rw [if_neg h0, if_pos hne] at hw
      simp at hw

theorem WriteWithoutSeqnum_AddBlock (p : Params) (w w2 : objectWriterV1) (batch : Batch)
    (h : BlockObject) (e : Option GoError)
    (hw : WriteWithoutSeqnum p w batch = some (h, e, w2)) :
    e = none ∧ ∃ e1, AddBlock p w
      (NewBlock ((NewSeqnums []).InitWithColCnt batch.Vecs.length)) batch
      (.own ((NewSeqnums []).InitWithColCnt batch.Vecs.length)) = some (e1, h, w2) := by
  unfold WriteWithoutSeqnum at hw
  simp only [Option.bind_eq_bind, Option.some_bind, Option.bind_eq_some, Option.pure_def,
    Option.some.injEq, Prod.mk.injEq] at hw
  obtain ⟨⟨e1, h1, w1⟩, hadd, rfl, rfl, rfl⟩ := hw
  exact ⟨rfl, e1, hadd⟩

/-- C40 (amended): `Write` and `WriteWithoutSeqnum` never report a failure of
`AddBlock`: whenever they return they return a block handle and a nil error, also when
`AddBlock` fails on a column; in that case the writer's block list and `lastId` are
unchanged. On success the block list grows by the block behind the handle, the new
block's sequence number is the previous `lastId` modulo 65536 (the previous `lastId`
itself below 65536), and `lastId` still equals the number of blocks while that is below
`2^32`. -/
theorem Write_never_reports (p : Params) (w : objectWriterV1) (batch : Batch) :
    (∀ h e w2, Write p w batch = some (h, e, w2) →
      e = none ∧ ∃ e1, AddBlock p (writerForWrite w batch)
        (NewBlock (writerForWrite w batch).seqnums) batch .writer = some (e1, h, w2) ∧
        AddBlockOutcome e1 w h w2) ∧
    (∀ h e w2, WriteWithoutSeqnum p w batch = some (h, e, w2) →
      e = none ∧ ∃ e1, AddBlock p w
        (NewBlock ((NewSeqnums []).InitWithColCnt batch.Vecs.length)) batch
        (.own ((NewSeqnums []).InitWithColCnt batch.Vecs.length)) = some (e1, h, w2) ∧
        AddBlockOutcome e1 w h w2) := by
  constructor
  · intro h e w2 hw
    obtain ⟨he, e1, hadd⟩ := Write_AddBlock p w w2 batch h e hw
    have ho : AddBlockOutcome e1 (writerForWrite w batch) h w2 :=
      AddBlock_outcome p _ _ batch _ e1 h w2 hadd
    exact ⟨he, e1, hadd, ho⟩
  · intro h e w2 hw
    obtain ⟨he, e1, hadd⟩ := WriteWithoutSeqnum_AddBlock p w w2 batch h e hw
    exact ⟨he, e1, hadd, AddBlock_outcome p w _ batch _ e1 h w2 hadd⟩

theorem Write_emptyBatch_lastId (p : Params) (w : objectWriterV1)
    (hs : w.seqnums.Seqs = []) :
    ∃ h w2, Write p w emptyBatch = some (h, none, w2) ∧ w2.seqnums.Seqs = [] ∧
      w2.blocks.length = w.blocks.length + 1 ∧ w2.lastId = (w.lastId + 1) % 2 ^ 32 ∧
      h.header.sequence = w.lastId % 2 ^ 16 := by
  simp [Write, hs, emptyBatch, AddBlock, addColumns, Seqnums.InitWithColCnt]
  exact ⟨_, _, ⟨rfl, rfl⟩, rfl, by simp, rfl, rfl⟩

theorem writeAll_emptyBatch_lastId (p : Params) :
    ∀ (n : Nat) (w : objectWriterV1), w.seqnums.Seqs = [] → w.lastId + n < 2 ^ 32 →
      ∃ hs w2, writeAll p w (List.replicate n emptyBatch) = some (hs, w2) ∧
        w2.seqnums.Seqs = [] ∧ w2.blocks.length = w.blocks.length + n ∧
        w2.lastId = w.lastId + n := by
  intro n
  induction n with
  | zero => intro w hw _; exact ⟨[], w, rfl, hw, rfl, rfl⟩
  | succ n ih =>
    intro w hw hlt
    obtain ⟨h, w1, h1, hs1, hl1, hid1, -⟩ := Write_emptyBatch_lastId p w hw
    have hid : w1.lastId = w.lastId + 1 := by
      rw [hid1]
      exact Nat.mod_eq_of_lt (by omega)
    obtain ⟨hs, w2, h2, hs2, hl2, hid2⟩ := ih w1 hs1 (by omega)
    refine ⟨h :: hs, w2, ?_, hs2, by omega, by omega⟩
    simp only [List.replicate_succ, writeAll, h1, h2]

set_option maxRecDepth 100000 in
/-- C40, witness: on a fresh writer `Write` of the example batch appends its block, with
sequence number 0 and `lastId` 1; under parameters with which no vector marshals it
returns a handle and no error, and the block list and `lastId` are as before. -/
theorem Write_never_reports_witness :
    (∃ h w2, Write demoParams freshWriter demoBatch1 = some (h, none, w2) ∧
      (∃ e1, AddBlock demoParams (writerForWrite freshWriter demoBatch1)
        (NewBlock (writerForWrite freshWriter demoBatch1).seqnums) demoBatch1 .writer =
          some (e1, h, w2) ∧ AddBlockOutcome e1 freshWriter h w2) ∧
      w2.blocks.length = 1 ∧ w2.lastId = 1 ∧ h.header.sequence = 0) ∧
    (∃ h w2, Write failParams freshWriter demoBatch1 = some (h, none, w2) ∧
      w2.blocks = freshWriter.blocks ∧ w2.lastId = freshWriter.lastId) := by
  constructor
  · obtain ⟨r, hr⟩ : ∃ r, Write demoParams freshWriter demoBatch1 = some r ∧ r.2.1 = none ∧
        r.2.2.blocks.length = 1 ∧ r.2.2.lastId = 1 ∧ r.1.header.sequence = 0 := by
      refine ⟨((Write demoParams freshWriter demoBatch1).getD (NewBlock (NewSeqnums []), none,
        freshWriter)), ?_⟩
      decide
    obtain ⟨h, e, w2⟩ := r
    obtain ⟨h1, h2, h3, h4, h5⟩ := hr
    simp only at h2 h3 h4 h5
    subst h2
    exact ⟨h, w2, h1,
      ((Write_never_reports demoParams freshWriter demoBatch1).1 h none w2 h1).2, h3, h4, h5⟩
  · obtain ⟨r, hr⟩ : ∃ r, Write failParams freshWriter demoBatch1 = some r ∧ r.2.1 = none ∧
        r.2.2.blocks = freshWriter.blocks ∧ r.2.2.lastId = freshWriter.lastId := by
      refine ⟨((Write failParams freshWriter demoBatch1).getD (NewBlock (NewSeqnums []), none,
        freshWriter)), ?_⟩
      decide
    obtain ⟨h, e, w2⟩ := r
    obtain ⟨h1, h2, h3, h4⟩ := hr
    simp only at h2 h3 h4
    subst h2
    exact ⟨h, w2, h1, h3, h4⟩

/-- C40, counterexample: the block sequence number is a `uint16`. After 65536 `Write`
calls on a fresh writer, each of which appended its block, `lastId` is 65536; the next
`Write` appends its block with the sequence number 0, which is not the previous
`lastId`. -/
theorem Write_sequence_not_lastId :
    ∃ handles w h w2,
      writeAll demoParams freshWriter (List.replicate 65536 emptyBatch) = some (handles, w) ∧
      w.lastId = 65536 ∧ w.blocks.length = 65536 ∧
      Write demoParams w emptyBatch = some (h, none, w2) ∧
      w2.blocks.length = 65537 ∧ h.header.sequence = 0 ∧ h.header.sequence ≠ w.lastId := by
  obtain ⟨handles, w, hw, hs, hlen, hid⟩ :=
    writeAll_emptyBatch_lastId demoParams 65536 freshWriter rfl
      (by change 0 + 65536 < 2 ^ 32; norm_num)
  have hid2 : w.lastId = 65536 := by rw [hid]; rfl
  have hlen2 : w.blocks.length = 65536 := by rw [hlen]; rfl
  obtain ⟨h, w2, h1, -, hl, -, hseq⟩ := Write_emptyBatch_lastId demoParams w hs
  have hz : h.header.sequence = 0 := by rw [hseq, hid2]; norm_num
  refine ⟨handles, w, h, w2, hw, hid2, hlen2, h1, by omega, hz, ?_⟩
  rw [hz, hid2]
  norm_num

end objectio
